import Mathlib

/-! ## Efficient-Algorithms-Project: graph model, traversals, weight propagation

Shallow embedding of `eap.cpp`, `eaf.cpp` and `Main.cpp`.

* A C++ `int` is a Lean `Int`; an addition the program performs is followed by `wrapInt`.
* A `std::map<int, V>` is a function `Int → Option V` (`none` = key absent); `operator[]`
  is `IntMap.touch` (insert the default value when the key is absent) followed by
  `IntMap.lookup`.
* A `std::vector<V>` indexed by an `int` is its size together with its indexing function.
* Loops whose trip count is not bounded syntactically take a fuel argument and return
  `none` when the fuel is used up.
-/

/-- The value a 32-bit two's complement `int` holds after an arithmetic result `x`. -/
def wrapInt (x : Int) : Int := (x + 2147483648) % 4294967296 - 2147483648

/-- The constant `0x7FFFFFFF`. -/
def INF : Int := 2147483647

/-! ## Walks in an adjacency structure -/

/-- Adjacency content: for every node the ordered list of `(neighbor, weight)` entries. -/
abbrev Adj := Int → List (Int × Int)

/-- The property `IsWalk adj u steps`: starting at `u`, every step is an adjacency entry of the node
reached so far. -/
def IsWalk (adj : Adj) : Int → List (Int × Int) → Prop
  | _, [] => True
  | u, e :: rest => e ∈ adj u ∧ IsWalk adj e.1 rest

instance IsWalk.decide (adj : Adj) : (u : Int) → (steps : List (Int × Int)) →
    Decidable (IsWalk adj u steps)
  | _, [] => isTrue trivial
  | u, e :: rest =>
    have : Decidable (IsWalk adj e.1 rest) := IsWalk.decide adj e.1 rest
    inferInstanceAs (Decidable (e ∈ adj u ∧ IsWalk adj e.1 rest))

/-- The node a walk ends at. -/
def walkEnd : Int → List (Int × Int) → Int
  | u, [] => u
  | _, e :: rest => walkEnd e.1 rest

/-- Total edge weight of a walk. -/
def walkWeight (steps : List (Int × Int)) : Int := (steps.map Prod.snd).sum

/-- The nodes of a walk, start included. -/
def walkNodes (u : Int) (steps : List (Int × Int)) : List Int := u :: steps.map Prod.fst

/-- A path: a walk from `s` to `v` whose nodes all satisfy `ok`. -/
def IsPathTo (adj : Adj) (ok : Int → Prop) (s v : Int) (steps : List (Int × Int)) : Prop :=
  IsWalk adj s steps ∧ walkEnd s steps = v ∧ ∀ x ∈ walkNodes s steps, ok x

/-- The number `d` is the minimum total weight over all paths from `s` to `v` through `ok` nodes. -/
def IsMinWeight (adj : Adj) (ok : Int → Prop) (s v : Int) (d : Int) : Prop :=
  (∃ steps, IsPathTo adj ok s v steps ∧ walkWeight steps = d) ∧
    ∀ steps, IsPathTo adj ok s v steps → d ≤ walkWeight steps

/-- The number `n` is the minimum number of edges over all paths from `s` to `v` through `ok` nodes. -/
def IsMinHops (adj : Adj) (ok : Int → Prop) (s v : Int) (n : Nat) : Prop :=
  (∃ steps, IsPathTo adj ok s v steps ∧ steps.length = n) ∧
    ∀ steps, IsPathTo adj ok s v steps → n ≤ steps.length

/-- The node `v` can be reached from `s` through `ok` nodes. -/
def Reach (adj : Adj) (ok : Int → Prop) (s v : Int) : Prop :=
  ∃ steps, IsPathTo adj ok s v steps

/-- A simple path from `s`: a walk through `ok` nodes that repeats no node. -/
def IsSimpleFrom (adj : Adj) (ok : Int → Prop) (s : Int) (steps : List (Int × Int)) : Prop :=
  IsWalk adj s steps ∧ (walkNodes s steps).Nodup ∧ ∀ x ∈ walkNodes s steps, ok x

/-- All entries carry a non-negative weight. -/
def NonNegWeights (adj : Adj) : Prop := ∀ u, ∀ e ∈ adj u, 0 ≤ e.2

/-- Every path sum from `s` is below `0x7FFFFFFF`. -/
def PathSumsBelow (adj : Adj) (ok : Int → Prop) (s : Int) : Prop :=
  ∀ steps, IsSimpleFrom adj ok s steps → walkWeight steps < INF

/-- Every path sum from `s`, continued by one more entry of the node the path ends at
(whether or not the entry leads back onto the path), is below `0x7FFFFFFF`. -/
def PathPlusEdgeBelow (adj : Adj) (ok : Int → Prop) (s : Int) : Prop :=
  ∀ steps, IsSimpleFrom adj ok s steps →
    ∀ e ∈ adj (walkEnd s steps), ok e.1 → walkWeight steps + e.2 < INF

/-! ## Ordered containers -/

/-- The routine `std::set<int>::insert`: the set is kept as an ascending list without repetition. -/
def setInsert (k : Int) (l : List Int) : List Int :=
  if k ∈ l then l else l.orderedInsert (fun a b => a ≤ b) k

/-- The routine `std::set<int>::erase`. -/
def setErase (k : Int) (l : List Int) : List Int := l.filter (fun x => x ≠ k)

/-- The order of `std::pair<int, int>` under `std::greater` (lexicographic). -/
def pairLe (a b : Int × Int) : Prop := a.1 < b.1 ∨ (a.1 = b.1 ∧ a.2 ≤ b.2)

instance pairLe.decide : DecidableRel pairLe := fun a b =>
  inferInstanceAs (Decidable (a.1 < b.1 ∨ (a.1 = b.1 ∧ a.2 ≤ b.2)))

/-- The routine `priority_queue::push` on a min-heap: the heap is kept as an ascending list, so that
`top` is the head and `pop` drops the head. -/
def heapPush (x : Int × Int) (q : List (Int × Int)) : List (Int × Int) :=
  q.orderedInsert pairLe x

namespace Eap

/-! ## eap.cpp -/

/-- A `std::map<int, V>`. -/
abbrev IntMap (V : Type) := Int → Option V

/-- The routine `map::count`. -/
def IntMap.count {V : Type} (m : IntMap V) (k : Int) : Nat := if (m k).isSome then 1 else 0

/-- The value `m[k]` evaluates to (the default value when `k` is absent). -/
def IntMap.lookup {V : Type} [Inhabited V] (m : IntMap V) (k : Int) : V := (m k).getD default

/-- The map after evaluating `m[k]`: an absent key is inserted with the default value. -/
def IntMap.touch {V : Type} [Inhabited V] (m : IntMap V) (k : Int) : IntMap V :=
  fun j => if j = k then some (m.lookup k) else m j

/-- The map after `m[k] = v`. -/
def IntMap.set {V : Type} (m : IntMap V) (k : Int) (v : V) : IntMap V :=
  fun j => if j = k then some v else m j

/-- The routine `map::clear`. -/
def IntMap.clear {V : Type} (_m : IntMap V) : IntMap V := fun _ => none

structure Graph where
  adj : IntMap (List Int)
  adj_weighted : IntMap (List (Int × Int))
  parent : IntMap Int
  visited : IntMap Int
  distance : IntMap Int
  used : Int

/-- A default-constructed `Graph`. -/
def Graph.fresh : Graph :=
  { adj := fun _ => none, adj_weighted := fun _ => none, parent := fun _ => none,
    visited := fun _ => none, distance := fun _ => none, used := 0 }

/-- The routine `Graph::clear`. -/
def Graph.clear (g : Graph) : Graph :=
  { g with adj := g.adj.clear, parent := g.parent.clear, visited := g.visited.clear,
           distance := g.distance.clear, used := 0 }

/-- The routine `Graph::add_edge(Node1, Node2)`. -/
def Graph.add_edge (g : Graph) (Node1 Node2 : Int) : Graph :=
  let adj := g.adj.touch Node1
  let adj := adj.set Node1 (adj.lookup Node1 ++ [Node2])
  let adj := adj.touch Node2
  let adj := adj.set Node2 (adj.lookup Node2 ++ [Node1])
  { g with adj := adj }

/-- The routine `Graph::add_edge(Node1, Node2, Weight)`. -/
def Graph.add_edge_weighted (g : Graph) (Node1 Node2 Weight : Int) : Graph :=
  let adj := g.adj_weighted.touch Node1
  let adj := adj.set Node1 (adj.lookup Node1 ++ [(Node2, Weight)])
  let adj := adj.touch Node2
  let adj := adj.set Node2 (adj.lookup Node2 ++ [(Node1, Weight)])
  { g with adj_weighted := adj }

/-- The graph after a sequence of `add_edge(u, v, w)` calls on a fresh `Graph`. -/
def buildWeighted (edges : List (Int × Int × Int)) : Graph :=
  edges.foldl (fun g e => g.add_edge_weighted e.1 e.2.1 e.2.2) Graph.fresh

/-- The graph after a sequence of `add_edge(u, v)` calls on a fresh `Graph`. -/
def buildUnweighted (edges : List (Int × Int)) : Graph :=
  edges.foldl (fun g e => g.add_edge e.1 e.2) Graph.fresh

/-- Adjacency content of the weighted lists. -/
def Graph.wadj (g : Graph) : Adj := fun u => g.adj_weighted.lookup u

/-- Adjacency content of the unweighted lists, every entry counted with weight 1. -/
def Graph.uadj (g : Graph) : Adj := fun u => (g.adj.lookup u).map (fun v => (v, 1))

/-- Body of the `for` loop of `Dijkstra` over `adj_weighted[Source]`. -/
def relaxEdge (Source : Int) (st : Graph × List Int) (NodeAndWeight : Int × Int) :
    Graph × List Int :=
  let graph := st.1
  let NodesToProcess := st.2
  let Node := NodeAndWeight.1
  let Weight := NodeAndWeight.2
  let graph := { graph with visited := graph.visited.touch Node }
  if graph.visited.lookup Node ≠ 0 then (graph, NodesToProcess)
  else
    let NodesToProcess := setInsert Node NodesToProcess
    let graph := { graph with distance := graph.distance.touch Source }
    let NetWeight := wrapInt (graph.distance.lookup Source + Weight)
    let graph :=
      if graph.distance.count Node = 0 then
        { graph with distance := graph.distance.set Node INF }
      else graph
    let graph := { graph with distance := graph.distance.touch Node }
    if NetWeight < graph.distance.lookup Node then
      ({ graph with distance := graph.distance.set Node NetWeight,
                    parent := graph.parent.set Node Source }, NodesToProcess)
    else (graph, NodesToProcess)

/-- Body of the selection loop of `Dijkstra` over `NodesToProcess`; the state is
`(graph, Max, Source)`. -/
def pickStep (st : Graph × Int × Int) (Nodes : Int) : Graph × Int × Int :=
  let graph := { st.1 with distance := st.1.distance.touch Nodes }
  if graph.distance.lookup Nodes < st.2.1 then (graph, graph.distance.lookup Nodes, Nodes)
  else (graph, st.2.1, st.2.2)

/-- The `while(true)` loop of `Dijkstra`. -/
def DijkstraLoop : Nat → Graph → List Int → Int → Option Graph
  | 0, _, _, _ => none
  | fuel + 1, graph, NodesToProcess, Source =>
    let graph := { graph with visited := graph.visited.set Source 1 }
    let graph := { graph with adj_weighted := graph.adj_weighted.touch Source }
    let st := (graph.adj_weighted.lookup Source).foldl (relaxEdge Source) (graph, NodesToProcess)
    let NodesToProcess := setErase Source st.2
    if NodesToProcess = [] then some st.1
    else
      let sel := NodesToProcess.foldl pickStep (st.1, INF, Source)
      DijkstraLoop fuel sel.1 NodesToProcess sel.2.2

/-- The routine `Dijkstra(graph, Source, Parent)`; the C++ default for `Parent` is `-1`. -/
def Dijkstra (fuel : Nat) (graph : Graph) (Source : Int) (Parent : Int) : Option Graph :=
  let graph := { graph with visited := graph.visited.set Source 1 }
  let graph := { graph with distance := graph.distance.set Source 0 }
  let graph := { graph with parent := graph.parent.set Source Parent }
  DijkstraLoop fuel graph [] Source

/-- The `for` loop of `GetPath`: `path` is collected in push order. -/
def GetPathLoop : Nat → Graph → Int → Int → List Int → Option (List Int × Graph)
  | 0, _, _, _, _ => none
  | fuel + 1, graph, Node, SourceNode, path =>
    if Node ≠ SourceNode then
      let path := path ++ [Node]
      let graph := { graph with parent := graph.parent.touch Node }
      GetPathLoop fuel graph (graph.parent.lookup Node) SourceNode path
    else some (path, graph)

/-- The routine `GetPath(graph, DestinationNode, SourceNode)`; the C++ default for `SourceNode`
is `-1`. Returns the path and the graph (which `operator[]` may have extended). -/
def GetPath (fuel : Nat) (graph : Graph) (DestinationNode SourceNode : Int) :
    Option (List Int × Graph) :=
  (GetPathLoop fuel graph DestinationNode SourceNode []).map (fun r => (r.1.reverse, r.2))

/-- Body of the `for` loop of `BreadthFirstSearch` over `adj[Parent]`. -/
def visitNeighbor (Parent : Int) (st : Graph × List Int) (Node : Int) : Graph × List Int :=
  let graph := { st.1 with visited := st.1.visited.touch Node }
  if graph.visited.lookup Node = 0 then
    let graph := { graph with visited := graph.visited.set Node 1 }
    let graph := { graph with distance := graph.distance.touch Parent }
    let graph := { graph with
      distance := graph.distance.set Node (wrapInt (graph.distance.lookup Parent + 1)) }
    let graph := { graph with parent := graph.parent.set Node Parent }
    (graph, st.2 ++ [Node])
  else (graph, st.2)

/-- The `while(!que.empty())` loop of `BreadthFirstSearch`. -/
def BreadthFirstLoop : Nat → Graph → List Int → Option Graph
  | 0, _, _ => none
  | _ + 1, graph, [] => some graph
  | fuel + 1, graph, Parent :: que =>
    let graph := { graph with adj := graph.adj.touch Parent }
    let st := (graph.adj.lookup Parent).foldl (visitNeighbor Parent) (graph, que)
    BreadthFirstLoop fuel st.1 st.2

/-- The routine `BreadthFirstSearch(graph, Source, Parent)`; the C++ default for `Parent` is `-1`.
`Except.error` is the `exit(0)` taken when the graph has already been used. -/
def BreadthFirstSearch (fuel : Nat) (graph : Graph) (Source : Int) (Parent : Int) :
    Option (Except String Graph) :=
  if graph.used ≠ 0 then some (Except.error "The Graph has already been used")
  else
    let graph := { graph with visited := graph.visited.set Source 1 }
    let graph := { graph with distance := graph.distance.set Source 0 }
    let graph := { graph with parent := graph.parent.set Source Parent }
    (BreadthFirstLoop fuel graph [Source]).map (fun g => Except.ok { g with used := 1 })

end Eap

/-! ## Main.cpp and eaf.cpp: the shared graph model

`eaf.cpp` and `Main.cpp` declare the same `Graph`, `add_edge`, `update_node_weight`,
`BreadthFirstSearch`, `GetPath` and lattice construction; `eaf.cpp` names the state with
value 2 `Water` where `Main.cpp` names it `Junction`. They differ in the Dijkstra routine:
`Eaf.Dijkstra` scans a `std::set`, `Main.DijkstraQ` uses a `std::priority_queue`.
-/

/-- A `std::vector<V>` indexed by an `int`: its size and its indexing function. Indexing
outside `[0, size)` is outside the defined behaviour of the program. -/
structure Vec (α : Type) where
  size : Nat
  get : Int → α

/-- The vector after `v[i] = x`. -/
def Vec.set {α : Type} (v : Vec α) (i : Int) (x : α) : Vec α :=
  { v with get := fun j => if j = i then x else v.get j }

/-- A default-constructed vector resized to `n` copies of `x`. -/
def Vec.filled {α : Type} (n : Int) (x : α) : Vec α := { size := n.toNat, get := fun _ => x }

/-- The enum `NodeState`, in the order of its values 0 to 6. -/
inductive NodeState where
  | Empty | Visited | Junction | Obstacle | Start | End | Path
  deriving DecidableEq, Repr

instance : Inhabited NodeState := ⟨NodeState.Empty⟩

/-- The values `0, 1, ..., n - 1` an `int` loop counter runs through. -/
def intRange (n : Int) : List Int := (List.range n.toNat).map Int.ofNat

namespace Main

open NodeState

structure Graph where
  adj_weighted : Vec (List (Int × Int))
  parent : Vec Int
  state : Vec NodeState
  distance : Vec Int
  found : Int

/-- Adjacency content. -/
def Graph.wadj (g : Graph) : Adj := fun u => g.adj_weighted.get u

/-- The routine `Graph::add_edge(Node1, Node2, Weight)`. -/
def Graph.add_edge (g : Graph) (Node1 Node2 Weight : Int) : Graph :=
  let adj := g.adj_weighted.set Node1 (g.adj_weighted.get Node1 ++ [(Node2, Weight)])
  let adj := adj.set Node2 (adj.get Node2 ++ [(Node1, Weight)])
  { g with adj_weighted := adj }

/-- Body of the range-`for` of `update_node_weight` at position `i` of
`adj_weighted[Node]`; `recurse` is the function itself one call deeper. `Nodes` is a
reference to the element, so it is read again after the recursive call. -/
def updateEntry (recurse : Graph → Int → Int → Int → Option Graph)
    (Node Weight SourceNode : Int) (graph : Graph) (i : Nat) : Option Graph :=
  let Nodes := (graph.adj_weighted.get Node).getD i (0, 0)
  if Nodes.2 = Weight then some graph
  else
    let afterCall : Option Graph :=
      if SourceNode = -1 then
        let entries := (graph.adj_weighted.get Node).set i (Nodes.1, Weight)
        let graph := { graph with adj_weighted := graph.adj_weighted.set Node entries }
        recurse graph Nodes.1 Weight Node
      else some graph
    afterCall.bind (fun graph =>
      let Nodes := (graph.adj_weighted.get Node).getD i (0, 0)
      if Nodes.1 = SourceNode then
        let entries := (graph.adj_weighted.get Node).set i (Nodes.1, Weight)
        some { graph with adj_weighted := graph.adj_weighted.set Node entries }
      else some graph)

/-- The routine `Graph::update_node_weight(Node, Weight, SourceNode)`; the C++ default for `SourceNode`
is `-1`. The fuel bounds the depth of the recursion. -/
def Graph.update_node_weight : Nat → Graph → Int → Int → Int → Option Graph
  | 0, _, _, _, _ => none
  | fuel + 1, graph, Node, Weight, SourceNode =>
    (List.range (graph.adj_weighted.get Node).length).foldlM
      (updateEntry (Graph.update_node_weight fuel) Node Weight SourceNode) graph

/-- Body of the `for` loop of `BreadthFirstSearch` over `adj_weighted[Parent]`. -/
def visitNeighbor (Parent : Int) (st : Graph × List Int) (NodeAndWeight : Int × Int) :
    Graph × List Int :=
  let graph := st.1
  let Node := NodeAndWeight.1
  let Weight := NodeAndWeight.2
  if graph.state.get Node ≠ Obstacle ∧ graph.state.get Node ≠ Visited
      ∧ graph.state.get Node ≠ Start then
    let graph := { graph with state := graph.state.set Node Visited }
    let graph := { graph with
      distance := graph.distance.set Node (wrapInt (graph.distance.get Parent + Weight)) }
    let graph := { graph with parent := graph.parent.set Node Parent }
    (graph, st.2 ++ [Node])
  else st

/-- The `while (!que.empty())` loop of `BreadthFirstSearch`. -/
def BreadthFirstLoop : Nat → Graph → List Int → Int → Option Graph
  | 0, _, _, _ => none
  | _ + 1, graph, [], _ => some graph
  | fuel + 1, graph, Parent :: que, EndNode =>
    if Parent = EndNode then some { graph with found := 1 }
    else
      let st := (graph.adj_weighted.get Parent).foldl (visitNeighbor Parent) (graph, que)
      BreadthFirstLoop fuel st.1 st.2 EndNode

/-- The routine `BreadthFirstSearch(graph, Source, EndNode, Parent)`; the C++ default for `Parent`
is `-1`. -/
def BreadthFirstSearch (fuel : Nat) (graph : Graph) (Source EndNode Parent : Int) :
    Option Graph :=
  let graph :=
    if graph.state.get Source ≠ Start then
      { graph with state := graph.state.set Source Visited }
    else graph
  let graph := { graph with distance := graph.distance.set Source 0 }
  let graph := { graph with parent := graph.parent.set Source Parent }
  BreadthFirstLoop fuel graph [Source] EndNode

/-- Body of the `for` loop of `DijkstraQ` over `adj_weighted[Parent]`; the queue holds
`(distance, index)` pairs. -/
def relaxEdge (Parent : Int) (st : Graph × List (Int × Int)) (NodeAndWeight : Int × Int) :
    Graph × List (Int × Int) :=
  let graph := st.1
  let Node := NodeAndWeight.1
  let Weight := NodeAndWeight.2
  if graph.state.get Node ≠ Obstacle ∧ graph.state.get Node ≠ Start then
    let graph := { graph with state := graph.state.set Node Visited }
    let NetWeight := wrapInt (graph.distance.get Parent + Weight)
    if NetWeight < graph.distance.get Node then
      let graph := { graph with
        distance := graph.distance.set Node (wrapInt (graph.distance.get Parent + Weight)) }
      let graph := { graph with parent := graph.parent.set Node Parent }
      (graph, heapPush (NetWeight, Node) st.2)
    else (graph, st.2)
  else st

/-- The `while (!que.empty())` loop of `DijkstraQ`. -/
def DijkstraQLoop : Nat → Graph → List (Int × Int) → Int → Option Graph
  | 0, _, _, _ => none
  | _ + 1, graph, [], _ => some graph
  | fuel + 1, graph, top :: que, EndNode =>
    let Parent := top.2
    if Parent = EndNode then some { graph with found := 1 }
    else
      let st := (graph.adj_weighted.get Parent).foldl (relaxEdge Parent) (graph, que)
      DijkstraQLoop fuel st.1 st.2 EndNode

/-- The routine `DijkstraQ(graph, Source, EndNode, Parent)`; the C++ default for `Parent` is `-1`. -/
def DijkstraQ (fuel : Nat) (graph : Graph) (Source EndNode Parent : Int) : Option Graph :=
  let que := heapPush (0, Source) []
  let graph := { graph with distance := graph.distance.set Source 0 }
  let graph := { graph with parent := graph.parent.set Source Parent }
  DijkstraQLoop fuel graph que EndNode

/-- The `for` loop of `GetPath`: `path` is collected in push order; the increment
`Node = graph.parent[Node], graph.state[Node] = Path` marks the node stepped to. -/
def GetPathLoop : Nat → Graph → Int → Int → List Int → Option (List Int × Graph)
  | 0, _, _, _, _ => none
  | fuel + 1, graph, Node, SourceNode, path =>
    if Node ≠ SourceNode then
      let path := path ++ [Node]
      let Node := graph.parent.get Node
      let graph := { graph with state := graph.state.set Node Path }
      GetPathLoop fuel graph Node SourceNode path
    else some (path, graph)

/-- The routine `GetPath(graph, DestinationNode, SourceNode)`: the returned vector and the graph
after the call. -/
def GetPath (fuel : Nat) (graph : Graph) (DestinationNode SourceNode : Int) :
    Option (List Int × Graph) :=
  (GetPathLoop fuel graph DestinationNode SourceNode []).map (fun r =>
    let graph := { r.2 with state := r.2.state.set SourceNode Start }
    let graph := { graph with state := graph.state.set DestinationNode End }
    (r.1.reverse, graph))

/-- Body of the lattice loops of the `World` constructor for the cell `(x, y)`, without
the increment of `count`; every operation is the `int` operation of the program. -/
def addCell (worldWidth worldHeight : Int) (graph : Graph) (count y x : Int) : Graph :=
  let up := wrapInt (wrapInt (wrapInt (y - 1) * worldWidth) + x)
  let down := wrapInt (wrapInt (wrapInt (y + 1) * worldWidth) + x)
  let left := wrapInt (wrapInt (y * worldWidth) + wrapInt (x - 1))
  let right := wrapInt (wrapInt (y * worldWidth) + wrapInt (x + 1))
  let push := fun (graph : Graph) (e : Int × Int) =>
    let entries := graph.adj_weighted.get count ++ [e]
    { graph with adj_weighted := graph.adj_weighted.set count entries }
  let graph := if y > 0 then push graph (up, 1) else graph
  let graph := if y < wrapInt (worldHeight - 1) then push graph (down, 1) else graph
  let graph := if x > 0 then push graph (left, 1) else graph
  let graph := if x < wrapInt (worldWidth - 1) then push graph (right, 1) else graph
  graph

/-- The graph the `World` constructor builds for a window of `worldWidth` by
`worldHeight` cells; the loops carry the graph and `count`, and the size
`worldHeight * worldWidth` and the increment of `count` are `int` operations (the loop
counters `y` and `x` stay below `worldHeight` and `worldWidth`, so their increments do
not wrap). -/
def buildLattice (worldWidth worldHeight : Int) : Graph :=
  let graph : Graph :=
    { adj_weighted := Vec.filled (wrapInt (worldHeight * worldWidth)) [],
      state := Vec.filled (wrapInt (worldHeight * worldWidth)) NodeState.Empty,
      parent := Vec.filled (wrapInt (worldHeight * worldWidth)) 0,
      distance := Vec.filled (wrapInt (worldHeight * worldWidth)) INF,
      found := 0 }
  ((intRange worldHeight).foldl
    (fun st y => (intRange worldWidth).foldl
      (fun st x => (addCell worldWidth worldHeight st.1 st.2 y x, wrapInt (st.2 + 1))) st)
    (graph, (0 : Int))).1

end Main

namespace Eaf

open NodeState

/-- The file `eaf.cpp` names the state with value 2 `Water`. -/
abbrev Water : NodeState := NodeState.Junction

/-- Body of the `for` loop of `Dijkstra` over `adj_weighted[Source]`. -/
def relaxEdge (Source : Int) (st : Main.Graph × List Int) (NodeAndWeight : Int × Int) :
    Main.Graph × List Int :=
  let graph := st.1
  let Node := NodeAndWeight.1
  let Weight := NodeAndWeight.2
  if graph.state.get Node = Visited ∨ graph.state.get Node = Obstacle then st
  else
    let NodesToProcess := setInsert Node st.2
    let NetWeight := wrapInt (graph.distance.get Source + Weight)
    if NetWeight < graph.distance.get Node then
      let graph := { graph with distance := graph.distance.set Node NetWeight }
      let graph := { graph with parent := graph.parent.set Node Source }
      (graph, NodesToProcess)
    else (graph, NodesToProcess)

/-- Body of the selection loop of `Dijkstra`; the state is `(Max, Source)`. -/
def pickStep (graph : Main.Graph) (st : Int × Int) (Nodes : Int) : Int × Int :=
  if graph.distance.get Nodes < st.1 then (graph.distance.get Nodes, Nodes) else st

/-- The `while (true)` loop of `Dijkstra`. -/
def DijkstraLoop : Nat → Main.Graph → List Int → Int → Int → Option Main.Graph
  | 0, _, _, _, _ => none
  | fuel + 1, graph, NodesToProcess, Source, EndNode =>
    let graph :=
      if graph.state.get Source ≠ Start then
        { graph with state := graph.state.set Source Visited }
      else graph
    let st := (graph.adj_weighted.get Source).foldl (relaxEdge Source) (graph, NodesToProcess)
    let graph := st.1
    let graph := if graph.found = 0 ∧ EndNode ∈ st.2 then { graph with found := 1 } else graph
    let NodesToProcess := setErase Source st.2
    if NodesToProcess = [] then some graph
    else
      let sel := NodesToProcess.foldl (pickStep graph) (INF, Source)
      DijkstraLoop fuel graph NodesToProcess sel.2 EndNode

/-- The routine `Dijkstra(graph, Source, EndNode, Parent)`; the C++ default for `Parent` is `-1`. -/
def Dijkstra (fuel : Nat) (graph : Main.Graph) (Source EndNode Parent : Int) :
    Option Main.Graph :=
  let graph := { graph with state := graph.state.set Source Start }
  let graph := { graph with distance := graph.distance.set Source 0 }
  let graph := { graph with parent := graph.parent.set Source Parent }
  DijkstraLoop fuel graph [] Source EndNode

end Eaf

/-! ## The relaxation scheme the three Dijkstra routines share

The state the routines compute on, reduced to what the proofs need: tentative distances
(`INF` for a node not reached yet), parents, and the settled nodes (those whose entries
have all been relaxed).
-/

/-- Function update. -/
def upd {β : Type} (f : Int → β) (k : Int) (x : β) : Int → β := fun j => if j = k then x else f j

structure DState where
  dist : Int → Int
  par : Int → Int
  fin : Int → Bool

/-- Relaxing the entry `e` of `u`: `distance[v] = min(distance[v], distance[u] + w)`,
the parent following an improvement; impassable nodes are left alone. -/
def aRelax (ok : Int → Bool) (u : Int) (st : DState) (e : Int × Int) : DState :=
  if ok e.1 = true ∧ st.dist u + e.2 < st.dist e.1 then
    { st with dist := upd st.dist e.1 (st.dist u + e.2), par := upd st.par e.1 u }
  else st

/-- Marking `u` settled. -/
def aMark (u : Int) (st : DState) : DState := { st with fin := upd st.fin u true }

/-- Settling `u`: mark it and relax its entries in order. -/
def aSettle (adj : Adj) (ok : Int → Bool) (u : Int) (st : DState) : DState :=
  (adj u).foldl (aRelax ok u) (aMark u st)

/-- The state before the first node is settled. -/
def aInit (s root : Int) (par : Int → Int) : DState :=
  { dist := upd (fun _ => INF) s 0, par := upd par s root, fin := fun _ => false }

/-- Along the walk every node is the parent of the next. -/
def ParOK (par : Int → Int) : Int → List (Int × Int) → Prop
  | _, [] => True
  | u, e :: rest => par e.1 = u ∧ ParOK par e.1 rest

/-- The list `steps` is the tree path of `v`: a simple walk from `s` through passable nodes along
parent links, of weight `dist v`, all of whose nodes before `v` are settled. -/
structure ChainTo (adj : Adj) (ok : Int → Bool) (s : Int) (st : DState) (v : Int)
    (steps : List (Int × Int)) : Prop where
  walk : IsWalk adj s steps
  last : walkEnd s steps = v
  weight : walkWeight steps = st.dist v
  nodup : (walkNodes s steps).Nodup
  pass : ∀ x ∈ walkNodes s steps, ok x = true
  inner : ∀ x ∈ (walkNodes s steps).dropLast, st.fin x = true
  parent : ParOK st.par s steps

/-- The entries `l` of `u` are relaxed. -/
def RelaxedAt (ok : Int → Bool) (st : DState) (u : Int) (l : List (Int × Int)) : Prop :=
  ∀ e ∈ l, ok e.1 = true → st.dist e.1 ≤ st.dist u + e.2

/-- What holds of the state whether or not a node is being settled. -/
structure DCore (adj : Adj) (ok : Int → Bool) (s root : Int) (st : DState) : Prop where
  dist_s : st.dist s = 0
  par_s : st.par s = root
  ok_s : ok s = true
  range : ∀ v, 0 ≤ st.dist v ∧ st.dist v ≤ INF
  fin_lt : ∀ v, st.fin v = true → st.dist v < INF
  chain : ∀ v, st.dist v < INF → ∃ steps, ChainTo adj ok s st v steps
  order : ∀ u v, st.fin u = true → st.fin v = false → st.dist u ≤ st.dist v

/-- The invariant between two settlings. -/
structure DInv (adj : Adj) (ok : Int → Bool) (s root : Int) (st : DState) : Prop where
  core : DCore adj ok s root st
  relaxed : ∀ u, st.fin u = true → RelaxedAt ok st u (adj u)

/-- The invariant while `u` is being settled, its entries `l` done. -/
structure SInv (adj : Adj) (ok : Int → Bool) (s root : Int) (u : Int) (l : List (Int × Int))
    (st : DState) : Prop where
  core : DCore adj ok s root st
  fin_u : st.fin u = true
  top : ∀ x, st.fin x = true → st.dist x ≤ st.dist u
  relaxed : ∀ x, st.fin x = true → x ≠ u → RelaxedAt ok st x (adj x)
  done : RelaxedAt ok st u l

/-- Every node with a finite distance is settled: nothing is left to process. -/
def DClosed (st : DState) : Prop := ∀ v, st.dist v < INF → st.fin v = true

/-- The nodes of the adjacency structure lie in the list `U`. -/
def ClosedUnder (adj : Adj) (U : List Int) : Prop := ∀ u ∈ U, ∀ e ∈ adj u, e.1 ∈ U

/-- The node `u` is the one to settle next: it is unsettled with a finite distance, no
unsettled node has a smaller distance, and among the unsettled nodes of that distance it has
the least index. -/
def IsNext (st : DState) (u : Int) : Prop :=
  st.fin u = false ∧ st.dist u < INF ∧
    ∀ v, st.fin v = false → st.dist u < st.dist v ∨ (st.dist u = st.dist v ∧ u ≤ v)

/-- The state `st2` is reached from `st` by settling, zero or more times, the node that is
next by distance and index. -/
inductive LeastRun (adj : Adj) (ok : Int → Bool) : DState → DState → Prop where
  | done (st : DState) : LeastRun adj ok st st
  | step (st st2 : DState) (u : Int) : IsNext st u →
      LeastRun adj ok (aSettle adj ok u st) st2 → LeastRun adj ok st st2

namespace Eap

/-- The distance of a node as the relaxation scheme reads it: `INF` while the map has no
entry for the node. -/
def Graph.dist (g : Graph) : Int → Int := fun v =>
  match g.distance v with
  | none => INF
  | some d => d

/-- How a graph and frontier of `Dijkstra` correspond to a state of the relaxation scheme
while `u` is the selected node. -/
structure DRel (adj : Adj) (g : Graph) (ntp : List Int) (u : Int) (st : DState) : Prop where
  adj_eq : ∀ v, g.adj_weighted.lookup v = adj v
  dist_eq : ∀ v, g.dist v = st.dist v
  par_eq : ∀ v, g.parent.lookup v = st.par v
  fin_eq : ∀ v, v ≠ u → (g.visited.lookup v ≠ 0 ↔ st.fin v = true)
  ntp_mem : ∀ v, v ≠ u → (v ∈ ntp ↔ (st.fin v = false ∧ st.dist v < INF))

end Eap

namespace Main

open NodeState

/-- The index `v` is a valid index of the graph. -/
def Graph.IsNode (g : Graph) (v : Int) : Prop := 0 ≤ v ∧ v < g.adj_weighted.size

instance Graph.IsNode.decide (g : Graph) (v : Int) : Decidable (g.IsNode v) :=
  inferInstanceAs (Decidable (0 ≤ v ∧ v < g.adj_weighted.size))

/-- The graph is a well-formed value: the four vectors have one size and every adjacency
entry of a valid index names a valid index. -/
def Graph.Valid (g : Graph) : Prop :=
  g.parent.size = g.adj_weighted.size ∧ g.state.size = g.adj_weighted.size ∧
    g.distance.size = g.adj_weighted.size ∧
    ∀ v ∈ intRange g.adj_weighted.size, ∀ e ∈ g.adj_weighted.get v, e.1 ∈ intRange g.adj_weighted.size

instance Graph.Valid.decide (g : Graph) : Decidable g.Valid :=
  inferInstanceAs (Decidable (g.parent.size = g.adj_weighted.size ∧
    g.state.size = g.adj_weighted.size ∧ g.distance.size = g.adj_weighted.size ∧
    ∀ v ∈ intRange g.adj_weighted.size, ∀ e ∈ g.adj_weighted.get v,
      e.1 ∈ intRange g.adj_weighted.size))

/-- The nodes a traversal from `s` may pass: `s` itself and every node not marked
`Obstacle`. -/
def Graph.passable (g : Graph) (s : Int) : Int → Bool :=
  fun v => decide (v = s ∨ g.state.get v ≠ Obstacle)

/-- Every distance entry is `0x7FFFFFFF`. -/
def Graph.FreshDistance (g : Graph) : Prop := ∀ v, g.distance.get v = INF

/-- No node is in state `Visited` or `Path`. -/
def Graph.NoTrace (g : Graph) : Prop :=
  ∀ v, g.state.get v ≠ Visited ∧ g.state.get v ≠ Path

/-- No node other than `s` is in state `Start`. -/
def Graph.OnlyStart (g : Graph) (s : Int) : Prop := ∀ v, v ≠ s → g.state.get v ≠ Start

/-- Following `parent` from `v`, the node reached after `n` steps. -/
def Graph.ancestor (g : Graph) : Nat → Int → Int
  | 0, v => v
  | n + 1, v => Graph.ancestor g n (g.parent.get v)

/-- Following `parent` from `v` reaches `s` after exactly `n` steps and not before. -/
def Graph.StepsBack (g : Graph) (v s : Int) (n : Nat) : Prop :=
  g.ancestor n v = s ∧ ∀ m, m < n → g.ancestor m v ≠ s

end Main

namespace Eaf

open NodeState

/-- How a graph and frontier of `Dijkstra` correspond to a state of the relaxation scheme
while `u` is the selected node. -/
structure DRel (adj : Adj) (ok : Int → Bool) (s : Int) (g : Main.Graph) (ntp : List Int)
    (u : Int) (st : DState) : Prop where
  adj_eq : ∀ v, g.adj_weighted.get v = adj v
  dist_eq : ∀ v, g.distance.get v = st.dist v
  par_eq : ∀ v, g.parent.get v = st.par v
  state_s : g.state.get s = Start
  start : ∀ v, v ≠ s → g.state.get v ≠ Start
  obst : ∀ v, v ≠ s → (g.state.get v = Obstacle ↔ ok v = false)
  vis : ∀ v, v ≠ u → (st.fin v = true ↔ (v = s ∨ g.state.get v = Visited))
  ntp_mem : ∀ v, v ≠ s → v ≠ u → (v ∈ ntp ↔ (st.fin v = false ∧ st.dist v < INF))
  ntp_s : ∀ v ∈ ntp, st.dist v < INF

end Eaf

/-! ## Concrete graphs used as test inputs -/

namespace Main

open NodeState

/-- A graph of `n` nodes without edges, every node `Empty`, distances `0x7FFFFFFF`. -/
def emptyGraph (n : Int) : Graph :=
  { adj_weighted := Vec.filled n [], state := Vec.filled n NodeState.Empty, parent := Vec.filled n 0,
    distance := Vec.filled n INF, found := 0 }

/-- The graph after a sequence of `add_edge` calls. -/
def Graph.addEdges (g : Graph) (edges : List (Int × Int × Int)) : Graph :=
  edges.foldl (fun g e => g.add_edge e.1 e.2.1 e.2.2) g

/-- The graph after `state[i] = st`. -/
def Graph.mark (g : Graph) (i : Int) (st : NodeState) : Graph :=
  { g with state := g.state.set i st }

end Main

namespace Eaf

open NodeState

/-- Two nodes joined by an edge of weight `0x7FFFFFFE`. -/
def heavyPair : Main.Graph := (Main.emptyGraph 2).addEdges [(0, 1, 2147483646)]

/-- Two nodes joined by an edge of weight 1, node 1 marked `Start`. -/
def twoStarts : Main.Graph := ((Main.emptyGraph 2).addEdges [(0, 1, 1)]).mark 1 Start

/-- The graph `Dijkstra(twoStarts, 0, 1)` holds from its second round on. -/
def twoStartsLoop : Main.Graph :=
  { adj_weighted := twoStarts.adj_weighted,
    parent := (twoStarts.parent.set 0 (-1)).set 1 0,
    state := twoStarts.state.set 0 Start,
    distance := (twoStarts.distance.set 0 0).set 1 (wrapInt (0 + 1)),
    found := 1 }

end Eaf

namespace Main

/-- Three nodes in a row, unit weights. -/
def row3 : Graph := (emptyGraph 3).addEdges [(0, 1, 1), (1, 2, 1)]

end Main

namespace Main

open NodeState

/-- Three nodes in a row, node 0 marked `Start` and node 2 marked `End`. -/
def row3Marked : Graph := (row3.mark 0 Start).mark 2 End

/-- Three nodes in a row, the second edge of weight `0x7FFFFFFF`, node 0 marked `Start`
and node 2 marked `End`. -/
def heavyRow : Graph :=
  (((emptyGraph 3).addEdges [(0, 1, 1), (1, 2, 2147483647)]).mark 0 Start).mark 2 End

/-- Two nodes without an edge, node 0 marked `Start` and node 1 marked `End`, `found`
already 1. -/
def staleFound : Graph :=
  { ((emptyGraph 2).mark 0 Start).mark 1 End with found := 1 }

end Main

namespace Main

open NodeState

/-- Three nodes in a row, node 0 marked `Start` and the middle node marked `End`. -/
def row3Mid : Graph := (row3.mark 0 Start).mark 1 End

end Main

namespace Main

open NodeState

/-- Five nodes: the route 0 - 1 - 2 and the route 0 - 3 - 4 - 2, nodes 0 and 1 marked
`Start`, node 2 marked `End`. -/
def twoRoutes : Graph :=
  ((((emptyGraph 5).addEdges [(0, 1, 1), (1, 2, 1), (0, 3, 1), (3, 4, 1), (4, 2, 1)]).mark 0
    Start).mark 1 Start).mark 2 End

end Main

instance pairLe.total : IsTotal (Int × Int) pairLe :=
  ⟨fun a b => by unfold pairLe; omega⟩

instance pairLe.trans : IsTrans (Int × Int) pairLe :=
  ⟨fun a b c h1 h2 => by unfold pairLe at *; omega⟩

namespace Main

open NodeState

/-- How a graph and queue of `DijkstraQ` correspond to a state of the relaxation
scheme. -/
structure QRel (adj : Adj) (ok : Int → Bool) (s : Int) (g : Graph) (que : List (Int × Int))
    (st : DState) : Prop where
  adj_eq : ∀ v, g.adj_weighted.get v = adj v
  dist_eq : ∀ v, g.distance.get v = st.dist v
  par_eq : ∀ v, g.parent.get v = st.par v
  state_s : g.state.get s = Start
  start : ∀ v, v ≠ s → g.state.get v ≠ Start
  obst : ∀ v, v ≠ s → (g.state.get v = Obstacle ↔ ok v = false)
  q_le : ∀ p ∈ que, st.dist p.2 ≤ p.1
  q_lt : ∀ p ∈ que, p.1 < INF
  q_has : ∀ v, st.fin v = false → st.dist v < INF → (st.dist v, v) ∈ que
  q_top : ∀ x, st.fin x = true → ∀ p ∈ que, st.dist x ≤ p.1
  sorted : que.Sorted pairLe

/-- The work left for `DijkstraQ`: the queue entries and the entries of the unsettled
nodes. -/
def workLeft (adj : Adj) (U : List Int) (que : List (Int × Int)) (st : DState) : Nat :=
  que.length + ((U.filter (fun v => !st.fin v)).map (fun v => (adj v).length)).sum

end Main

/-! ## The breadth-first scheme the two `BreadthFirstSearch` routines share

The state reduced to what the proofs need: the discovered nodes, their level (the
number of parent steps back to the source), parents, and the queue.
-/

structure BState where
  disc : Int → Bool
  lvl : Int → Nat
  par : Int → Int
  que : List Int

/-- Visiting the entry `e` of `u`: a passable node not discovered yet is discovered, one
level below `u`, with parent `u`, and joins the queue. -/
def bVisit (ok : Int → Bool) (u : Int) (st : BState) (e : Int × Int) : BState :=
  if ok e.1 = true ∧ st.disc e.1 = false then
    { disc := upd st.disc e.1 true, lvl := upd st.lvl e.1 (st.lvl u + 1),
      par := upd st.par e.1 u, que := st.que ++ [e.1] }
  else st

/-- Expanding the head `u` of the queue: pop it and visit its entries in order. -/
def bExpand (adj : Adj) (ok : Int → Bool) (u : Int) (st : BState) : BState :=
  (adj u).foldl (bVisit ok u) { st with que := st.que.tail }

/-- The state before the first node is expanded. -/
def bInit (s root : Int) (par : Int → Int) : BState :=
  { disc := upd (fun _ => false) s true, lvl := fun _ => 0, par := upd par s root, que := [s] }

/-- The list `steps` is the tree path of `v`: a simple walk from `s` through passable, discovered
nodes along parent links, of `lvl v` edges. -/
structure BChain (adj : Adj) (ok : Int → Bool) (s : Int) (st : BState) (v : Int)
    (steps : List (Int × Int)) : Prop where
  walk : IsWalk adj s steps
  last : walkEnd s steps = v
  length : steps.length = st.lvl v
  nodup : (walkNodes s steps).Nodup
  pass : ∀ x ∈ walkNodes s steps, ok x = true
  seen : ∀ x ∈ walkNodes s steps, st.disc x = true
  parent : ParOK st.par s steps

/-- The entries `l` of `x` have been visited. -/
def VisitedAt (ok : Int → Bool) (st : BState) (x : Int) (l : List (Int × Int)) : Prop :=
  ∀ e ∈ l, ok e.1 = true → st.disc e.1 = true ∧ st.lvl e.1 ≤ st.lvl x + 1

/-- What holds of the state whether or not a node is being expanded. -/
structure BCore (adj : Adj) (ok : Int → Bool) (s root : Int) (st : BState) : Prop where
  disc_s : st.disc s = true
  lvl_s : st.lvl s = 0
  par_s : st.par s = root
  ok_s : ok s = true
  chain : ∀ v, st.disc v = true → ∃ steps, BChain adj ok s st v steps
  que_disc : ∀ v ∈ st.que, st.disc v = true
  que_nodup : st.que.Nodup
  que_sorted : st.que.Pairwise (fun a b => st.lvl a ≤ st.lvl b)

/-- The invariant between two expansions. -/
structure BInv (adj : Adj) (ok : Int → Bool) (s root : Int) (st : BState) : Prop where
  core : BCore adj ok s root st
  span : ∀ a ∈ st.que, ∀ v, st.disc v = true → st.lvl v ≤ st.lvl a + 1
  expanded : ∀ x, st.disc x = true → x ∉ st.que → VisitedAt ok st x (adj x)

/-- The invariant while `u` is being expanded, its entries `l` done. -/
structure XInv (adj : Adj) (ok : Int → Bool) (s root : Int) (u : Int) (l : List (Int × Int))
    (st : BState) : Prop where
  core : BCore adj ok s root st
  disc_u : st.disc u = true
  out_u : u ∉ st.que
  lo : ∀ a ∈ st.que, st.lvl u ≤ st.lvl a
  hi : ∀ v, st.disc v = true → st.lvl v ≤ st.lvl u + 1
  expanded : ∀ x, st.disc x = true → x ∉ st.que → x ≠ u → VisitedAt ok st x (adj x)
  done : VisitedAt ok st u l

namespace Main

open NodeState

/-- How a graph of `BreadthFirstSearch` corresponds to a state of the breadth-first
scheme (the queue is the same list on both sides). -/
structure BRel (adj : Adj) (ok : Int → Bool) (s : Int) (g : Graph) (st : BState) : Prop where
  adj_eq : ∀ v, g.adj_weighted.get v = adj v
  par_eq : ∀ v, g.parent.get v = st.par v
  state_s : g.state.get s = Start
  start : ∀ v, v ≠ s → g.state.get v ≠ Start
  obst : ∀ v, v ≠ s → (g.state.get v = Obstacle ↔ ok v = false)
  disc : ∀ v, st.disc v = true ↔ (v = s ∨ g.state.get v = Visited)

/-- Every discovered node holds its level as distance. -/
def DistLvl (g : Graph) (st : BState) : Prop :=
  ∀ v, st.disc v = true → g.distance.get v = (st.lvl v : Int)

/-- The work left for `BreadthFirstSearch`: the queue and the nodes not discovered. -/
def bfsLeft (U : List Int) (st : BState) : Nat :=
  st.que.length + (U.filter (fun v => !st.disc v)).length

end Main

namespace Eap

/-- How a graph of `BreadthFirstSearch` corresponds to a state of the breadth-first
scheme (the queue is the same list on both sides). -/
structure BRel (adj : Adj) (g : Graph) (st : BState) : Prop where
  adj_eq : ∀ v, (g.adj.lookup v).map (fun x => (x, (1 : Int))) = adj v
  par_eq : ∀ v, g.parent.lookup v = st.par v
  disc : ∀ v, st.disc v = true ↔ g.visited.lookup v ≠ 0
  dist : ∀ v, st.disc v = true → g.distance v = some (st.lvl v : Int)

end Eap

namespace Main

/-- The weights of the entries for `v` in the list of `u`, in list order. -/
def Graph.weightsTo (g : Graph) (u v : Int) : List Int :=
  ((g.adj_weighted.get u).filter (fun p => p.1 = v)).map Prod.snd

/-- The symmetry invariant: for all nodes the multiset of weights recorded at `u → v`
equals the multiset recorded at `v → u`. -/
def Graph.Symmetric (g : Graph) : Prop :=
  ∀ u v, (g.weightsTo u v).Perm (g.weightsTo v u)

/-- Every entry has its mirror entry: a weaker reading of "symmetric". -/
def Graph.Mirrored (g : Graph) : Prop :=
  ∀ u v w, (v, w) ∈ g.adj_weighted.get u → (u, w) ∈ g.adj_weighted.get v

/-- The graphs reachable from an adjacency structure with empty lists by `add_edge` and
top-level `update_node_weight` calls on valid indices; the fuel `fuel + 2` is any depth that
lets the call and its inner calls run. -/
inductive Graph.Built : Graph → Prop where
  | init (g : Graph) (h : ∀ v, g.adj_weighted.get v = []) : Graph.Built g
  | add_edge (g : Graph) (u v w : Int) (hg : Graph.Built g) (hu : g.IsNode u)
      (hv : g.IsNode v) : Graph.Built (g.add_edge u v w)
  | update (g g2 : Graph) (fuel : Nat) (n w : Int) (hg : Graph.Built g) (hn : g.IsNode n)
      (h : g.update_node_weight (fuel + 2) n w (-1) = some g2) : Graph.Built g2

/-- What the inner call `update_node_weight(v, Weight, n)` does to an entry of `v`. -/
def mirrorFix (n W : Int) (q : Int × Int) : Int × Int := if q.1 = n then (q.1, W) else q

/-- One round of the loop of the top-level call `update_node_weight(n, W)`. -/
def topStep (n W : Int) (g : Graph) (i : Nat) : Graph :=
  let p := (g.adj_weighted.get n).getD i (0, 0)
  if p.2 = W then g
  else
    let adj1 := g.adj_weighted.set n ((g.adj_weighted.get n).set i (p.1, W))
    { g with adj_weighted := adj1.set p.1 ((adj1.get p.1).map (mirrorFix n W)) }

/-- The adjacency content after the top-level call `update_node_weight(n, W)`. -/
def updatedAdj (adj : Int → List (Int × Int)) (n W : Int) : Int → List (Int × Int) :=
  fun v =>
    if v = n then (adj n).map (fun p => (p.1, W))
    else if ∃ p ∈ adj n, p.1 = v ∧ p.2 ≠ W then (adj v).map (mirrorFix n W)
    else adj v

end Main

namespace Main

/-- The adjacency `A` after `m` rounds of the top-level call `update_node_weight(n, W)`,
against the adjacency `A0` at entry. -/
structure UpdInv (A0 : Int → List (Int × Int)) (n W : Int) (m : Nat)
    (A : Int → List (Int × Int)) : Prop where
  len : (A n).length = (A0 n).length
  pt : ∀ j q q0, (A n)[j]? = some q → (A0 n)[j]? = some q0 →
    q.1 = q0.1 ∧ (j < m → q.2 = W) ∧ (m ≤ j → q0.1 ≠ n → q = q0)
  hit : ∀ v, v ≠ n → (∃ j q0, j < m ∧ (A0 n)[j]? = some q0 ∧ q0.1 = v ∧ q0.2 ≠ W) →
    A v = (A0 v).map (mirrorFix n W)
  miss : ∀ v, v ≠ n → (¬ ∃ j q0, j < m ∧ (A0 n)[j]? = some q0 ∧ q0.1 = v ∧ q0.2 ≠ W) →
    A v = A0 v

end Main

namespace Main

/-- Three nodes, 0 and 1 joined twice (weights 1 and 5), 1 and 2 joined once. -/
def doubled : Graph := (emptyGraph 3).addEdges [(0, 1, 1), (1, 2, 1), (0, 1, 5)]

end Main

namespace Main

open NodeState

/-- The entries the lattice loops push for the cell `(x, y)`, in push order. -/
def cellEntries (worldWidth worldHeight y x : Int) : List (Int × Int) :=
  (if y > 0 then [((y - 1) * worldWidth + x, 1)] else [])
    ++ (if y < worldHeight - 1 then [((y + 1) * worldWidth + x, 1)] else [])
    ++ (if x > 0 then [(y * worldWidth + (x - 1), 1)] else [])
    ++ (if x < worldWidth - 1 then [(y * worldWidth + (x + 1), 1)] else [])

/-- What the body of the lattice loops does for the cell `(x, y)` when no `int`
operation overflows: the entries of the cell are appended to the list of
`y * worldWidth + x`. -/
def addCellOf (worldWidth worldHeight : Int) (graph : Graph) (y x : Int) : Graph :=
  let entries := graph.adj_weighted.get (y * worldWidth + x)
    ++ cellEntries worldWidth worldHeight y x
  { graph with adj_weighted := graph.adj_weighted.set (y * worldWidth + x) entries }

/-- The lattice with the cell `s` marked `Start` and the cell `e` marked `End`. -/
def markedLattice (worldWidth worldHeight s e : Int) : Graph :=
  ((buildLattice worldWidth worldHeight).mark s Start).mark e End

/-- The Manhattan distance from the cell `u` to the cell `(xe, ye)`. -/
def hopsTo (worldWidth xe ye : Int) (u : Int) : Nat :=
  (u % worldWidth - xe).natAbs + (u / worldWidth - ye).natAbs

end Main

namespace Main

open NodeState

/-- Two nodes joined by an edge of weight `0x7FFFFFFF`, node 0 marked `Start` and node 1
marked `End`. -/
def maxEdge : Graph :=
  (((emptyGraph 2).addEdges [(0, 1, 2147483647)]).mark 0 Start).mark 1 End

end Main

namespace Main

open NodeState

/-- A graph of `n` nodes with the given edges, node `s` marked `Start` and node `e`
marked `End`. -/
def marked (n : Int) (edges : List (Int × Int × Int)) (s e : Int) : Graph :=
  (((emptyGraph n).addEdges edges).mark s Start).mark e End

end Main

namespace Main

/-- The nodes `v, parent[v], parent[parent[v]], ...`: the first `n` nodes on the parent
chain of `v`. -/
def Graph.chainBack (g : Graph) : Nat → Int → List Int
  | 0, _ => []
  | n + 1, v => v :: Graph.chainBack g n (g.parent.get v)

end Main

namespace Main

open NodeState

/-- What `BreadthFirstSearch` keeps true of the distance entries: the source is `Start` and
holds 0, and every `Visited` node has a parent that is the source or `Visited`, is an entry
of its parent, and holds the distance of its parent plus the weight of that entry. -/
def Graph.DistLinked (g : Graph) (s : Int) : Prop :=
  g.distance.get s = 0 ∧ g.state.get s = Start ∧
    ∀ v, g.state.get v = Visited →
      (g.parent.get v = s ∨ g.state.get (g.parent.get v) = Visited) ∧
      ∃ w, (v, w) ∈ g.adj_weighted.get (g.parent.get v) ∧
        g.distance.get v = wrapInt (g.distance.get (g.parent.get v) + w)

/-- Four nodes: node 0 joined to nodes 1 and 2, node 2 joined to node 3; node 0 marked
`Start`, node 1 marked `End`. -/
def forked : Graph := marked 4 [(0, 1, 1), (0, 2, 1), (2, 3, 1)] 0 1

/-- Three nodes: nodes 0 and 2 joined by an edge of weight `0x7FFFFFFF`, node 1 apart;
node 0 marked `Start`, node 1 marked `End`. -/
def maxSide : Graph := marked 3 [(0, 2, 2147483647)] 0 1

end Main

namespace Main

open NodeState

/-- Body of the `for` loop of `DepthFirstSearch` at position `i` of `adj_weighted[Node]`;
`recurse` is the function itself one call deeper. Once `found` is set the loop breaks: no
later round does anything. -/
def dfsEntry (recurse : Graph → Int → Int → Int → Option Graph) (Node EndNode : Int)
    (graph : Graph) (i : Nat) : Option Graph :=
  if graph.found ≠ 0 then some graph
  else
    let Next := ((graph.adj_weighted.get Node).getD i (0, 0)).1
    let nodeState := graph.state.get Next
    if nodeState = NodeState.Empty ∨ nodeState = Junction ∨ nodeState = End then
      recurse graph Next EndNode Node
    else some graph

/-- The routine `DepthFirstSearch(graph, Node, EndNode, Parent)`; the C++ default for
`Parent` is `-1`. The fuel bounds the depth of the recursion. -/
def DepthFirstSearch : Nat → Graph → Int → Int → Int → Option Graph
  | 0, _, _, _, _ => none
  | fuel + 1, graph, Node, EndNode, Parent =>
    let graph := { graph with state := graph.state.set Node Visited }
    let graph := { graph with parent := graph.parent.set Node Parent }
    if Node = EndNode then some { graph with found := 1 }
    else
      (List.range (graph.adj_weighted.get Node).length).foldlM
        (dfsEntry (DepthFirstSearch fuel) Node EndNode) graph

/-- The states `DepthFirstSearch` enters: `Empty`, `Junction` and `End`. -/
def Graph.white (g : Graph) (x : Int) : Prop :=
  g.state.get x = NodeState.Empty ∨ g.state.get x = Junction ∨ g.state.get x = End

instance Graph.white.decide (g : Graph) (x : Int) : Decidable (g.white x) :=
  inferInstanceAs (Decidable (g.state.get x = NodeState.Empty ∨ g.state.get x = Junction
    ∨ g.state.get x = End))

/-- The number of nodes of `U` that `DepthFirstSearch` may still enter. -/
def whiteCount (U : List Int) (g : Graph) : Nat :=
  (U.filter (fun x => decide (g.white x))).length

/-- The nodes a call on `v` has entered when it turned the graph `g` into `g2`. -/
def Graph.EnteredFrom (g g2 : Graph) (v x : Int) : Prop :=
  x = v ∨ (g.white x ∧ g2.state.get x = Visited)

/-- What holds of the graph `g2` while the call of `DepthFirstSearch` on `v` with parent `p`
runs, `g` being the graph at the call: outside the entered nodes nothing has changed, every
entered node is `Visited` and has a tree path from `v`, `found` tells whether `E` is
entered, and while it is not, no entered node other than `v` has an entry left to enter. -/
structure DfsInv (adj : Adj) (E v p : Int) (g g2 : Graph) : Prop where
  adj_eq : g2.adj_weighted = g.adj_weighted
  dist_eq : g2.distance = g.distance
  state_new : ∀ x, g.EnteredFrom g2 v x → g2.state.get x = Visited
  state_old : ∀ x, ¬ g.EnteredFrom g2 v x → g2.state.get x = g.state.get x
  par_old : ∀ x, ¬ g.EnteredFrom g2 v x → g2.parent.get x = g.parent.get x
  par_v : g2.parent.get v = p
  chain : ∀ x, g.EnteredFrom g2 v x → ∃ steps, IsWalk adj v steps ∧ walkEnd v steps = x
    ∧ ParOK (fun y => g2.parent.get y) v steps ∧ (walkNodes v steps).Nodup
    ∧ ∀ y ∈ steps.map Prod.fst, g.white y ∧ g2.state.get y = Visited
  found : (g2.found = 1 ∧ g.EnteredFrom g2 v E) ∨ (g2.found = 0 ∧ ¬ g.EnteredFrom g2 v E)
  closed : g2.found = 0 → ∀ x, g.EnteredFrom g2 v x → x ≠ v →
    ∀ e ∈ adj x, ¬ g2.white e.1

/-- What holds when the call of `DepthFirstSearch` on `v` has returned. -/
structure DfsPost (adj : Adj) (E v p : Int) (g g2 : Graph) : Prop where
  inv : DfsInv adj E v p g g2
  closed_v : g2.found = 0 → ∀ e ∈ adj v, ¬ g2.white e.1

end Main

namespace Main

open NodeState

/-- The node `o` of the graph is in state `Obstacle`. -/
def Graph.IsObstacle (g : Graph) (o : Int) : Prop := g.IsNode o ∧ g.state.get o = Obstacle

instance Graph.IsObstacle.decide (g : Graph) (o : Int) : Decidable (g.IsObstacle o) :=
  inferInstanceAs (Decidable (g.IsNode o ∧ g.state.get o = Obstacle))

/-- What a traversal that turned `g` into `g2` left of the obstacles of `g`: each is still
`Obstacle` with distance `0x7FFFFFFF`, and no node got one of them as its parent. -/
def Graph.ObstaclesKept (g g2 : Graph) : Prop :=
  (∀ o, g.IsObstacle o → g2.state.get o = Obstacle ∧ g2.distance.get o = INF) ∧
    ∀ x, g2.parent.get x = g.parent.get x ∨ ¬ g.IsObstacle (g2.parent.get x)

/-- No sequence `GetPath(g2, EndNode, Source)` returns holds an obstacle of `g`. -/
def Graph.PathClear (g g2 : Graph) (Source EndNode : Int) : Prop :=
  ∀ fuel path g3, GetPath fuel g2 EndNode Source = some (path, g3) →
    ∀ o ∈ path, ¬ g.IsObstacle o

/-- The call `GetPath(g2, EndNode, Source)` returns. -/
def Graph.PathGiven (g2 : Graph) (Source EndNode : Int) : Prop :=
  ∃ fuel path g3, GetPath fuel g2 EndNode Source = some (path, g3)

/-- The node `x` has a parent chain back to `s` all of whose nodes before `s` are `Visited`
and are no obstacles of `g0`. -/
def Graph.Trail (g0 g : Graph) (s x : Int) : Prop :=
  ∃ n, g.StepsBack x s n ∧
    ∀ m, m < n → g.state.get (g.ancestor m x) = Visited ∧ ¬ g0.IsObstacle (g.ancestor m x)

/-- The states `BreadthFirstSearch` discovers a node in. -/
def Graph.unseen (g : Graph) (x : Int) : Prop :=
  g.state.get x ≠ Obstacle ∧ g.state.get x ≠ Visited ∧ g.state.get x ≠ Start

instance Graph.unseen.decide (g : Graph) (x : Int) : Decidable (g.unseen x) :=
  inferInstanceAs (Decidable (g.state.get x ≠ Obstacle ∧ g.state.get x ≠ Visited
    ∧ g.state.get x ≠ Start))

/-- The number of nodes of `U` that `BreadthFirstSearch` may still discover. -/
def unseenCount (U : List Int) (g : Graph) : Nat :=
  (U.filter (fun x => decide (g.unseen x))).length

/-- What holds of the graph and the queue at the head of the loop of `BreadthFirstSearch`
started on `g0` from `s`, whatever the states of the other nodes were. -/
structure BfsGen (g0 : Graph) (U : List Int) (s : Int) (g : Graph) (que : List Int) : Prop where
  adj_eq : g.adj_weighted = g0.adj_weighted
  src : g.state.get s = Start
  found : g.found = 0
  kept : g0.ObstaclesKept g
  trail : ∀ x ∈ que, g0.Trail g s x
  inU : ∀ x ∈ que, x ∈ U

/-- The distance entries of the nodes of `U` summed, each counted from `-2^31`. -/
def distSum (U : List Int) (g : Graph) : Int :=
  (U.map (fun x => g.distance.get x + 2147483648)).sum

/-- What holds of the graph and the queue at the head of the loop of `DijkstraQ` started on
`g0` from `s`, whatever the weights are: every node with a distance below `0x7FFFFFFF`
other than `s` has a parent with such a distance. -/
structure DqGen (g0 : Graph) (U : List Int) (s : Int) (g : Graph) (que : List (Int × Int)) :
    Prop where
  adj_eq : g.adj_weighted = g0.adj_weighted
  src : g.state.get s = Start
  found : g.found = 0
  kept : g0.ObstaclesKept g
  range : ∀ x, -2147483648 ≤ g.distance.get x ∧ g.distance.get x ≤ INF
  fin : ∀ x, g.distance.get x < INF → x = s ∨ g.distance.get (g.parent.get x) < INF
  que_fin : ∀ p ∈ que, g.distance.get p.2 < INF
  inU : ∀ p ∈ que, p.2 ∈ U

/-- Three nodes in a row, node 0 marked `Start`, node 1 an obstacle, node 2 marked `End`,
with `found` and the parent entries as an earlier search from node 0 to node 2 left
them. -/
def staleTrail : Graph :=
  { ((((emptyGraph 3).addEdges [(0, 1, 1), (1, 2, 1)]).mark 0 Start).mark 1 Obstacle).mark 2 End with parent := (((emptyGraph 3).parent.set 1 0).set 2 1), found := 1 }

end Main

namespace Main

open NodeState

/-- Four nodes in a square, 0 - 1 - 3 and 0 - 2 - 3, node 0 marked `Start`, node 3 marked
`End` and node 1 an obstacle. -/
def walled : Graph :=
  (marked 4 [(0, 1, 1), (1, 3, 1), (0, 2, 1), (2, 3, 1)] 0 3).mark 1 Obstacle

end Main

/-! ## Main.cpp: the `World` and its commands

Of the `World` the fields that the commands read and write are kept: the two lattice
dimensions, `startIndex`, `endIndex`, `graph`, `mode` and `once`. One call of
`World::update` reads the cell index under the mouse, whether the mouse is inside the window,
the buttons and shift keys held, and the event.
-/

namespace Main

open NodeState

/-- The keys the program reacts to. -/
inductive Key where
  | S | E | R | Enter | LAlt | RAlt | Escape | Other
  deriving DecidableEq, Repr

/-- What the program reads of an `sf::Event`: its type and, for a key event, the key. -/
inductive Event where
  | KeyPressed (code : Key)
  | KeyReleased (code : Key)
  | Other
  deriving DecidableEq, Repr

/-- What one call of `World::update` reads: the index `i` computed from the mouse
position, whether the mouse position lies inside the window, whether the right button, the
left button and a shift key are held, and the event. -/
structure Input where
  i : Int
  inside : Bool
  right : Bool
  left : Bool
  shift : Bool
  event : Event

/-- The fields of `struct World` that the commands read and write. -/
structure World where
  worldHeight : Int
  worldWidth : Int
  startIndex : Int
  endIndex : Int
  graph : Graph
  mode : Int
  once : Bool

/-- The `World` its constructor builds for a window of `worldWidth` by `worldHeight`
cells. -/
def World.fresh (worldWidth worldHeight : Int) : World :=
  { worldHeight := worldHeight, worldWidth := worldWidth, startIndex := -1, endIndex := -1,
    graph := buildLattice worldWidth worldHeight, mode := 0, once := true }

/-- The statements `if (graph.state[i] == Start) startIndex = -1;
else if (graph.state[i] == End) endIndex = -1;`. -/
def World.dropMarker (w : World) (i : Int) : World :=
  if w.graph.state.get i = Start then { w with startIndex := -1 }
  else if w.graph.state.get i = End then { w with endIndex := -1 }
  else w

/-- The statement `graph.state[i] = st`. -/
def World.setState (w : World) (i : Int) (st : NodeState) : World :=
  { w with graph := { w.graph with state := w.graph.state.set i st } }

/-- The statement `if (graph.state[i] == Junction) graph.update_node_weight(i, 1);`. -/
def World.resetWeight (fuel : Nat) (w : World) (i : Int) : Option World :=
  if w.graph.state.get i = Junction then
    (Graph.update_node_weight fuel w.graph i 1 (-1)).map (fun graph => { w with graph := graph })
  else some w

/-- The block of `updateNodes` for a held right button. -/
def World.rightBlock (fuel : Nat) (w : World) (i : Int) : Option World :=
  (Graph.update_node_weight fuel w.graph i 2 (-1)).map (fun graph =>
    (World.dropMarker { w with graph := graph } i).setState i Junction)

/-- The block of `updateNodes` for a held left button. -/
def World.leftBlock (fuel : Nat) (w : World) (i : Int) : Option World :=
  (w.resetWeight fuel i).map (fun w => (w.dropMarker i).setState i Obstacle)

/-- The block of `updateNodes` for a released `S`. -/
def World.keySBlock (fuel : Nat) (w : World) (i : Int) : Option World :=
  (w.resetWeight fuel i).map (fun w =>
    let w := if w.startIndex ≥ 0 then w.setState w.startIndex NodeState.Empty else w
    let w := w.setState i Start
    { w with startIndex := i })

/-- The block of `updateNodes` for a released `E`. -/
def World.keyEBlock (fuel : Nat) (w : World) (i : Int) : Option World :=
  (w.resetWeight fuel i).map (fun w =>
    let w := if w.endIndex ≥ 0 then w.setState w.endIndex NodeState.Empty else w
    let w := w.setState i End
    { w with endIndex := i })

/-- The block of `updateNodes` for a held shift key. -/
def World.shiftBlock (fuel : Nat) (w : World) (i : Int) : Option World :=
  (w.resetWeight fuel i).map (fun w => (w.dropMarker i).setState i NodeState.Empty)

/-- The two key blocks of `updateNodes` under `event.type == sf::Event::KeyReleased`. -/
def World.keyBlocks (fuel : Nat) (w : World) (i : Int) : Event → Option World
  | Event.KeyReleased Key.S => w.keySBlock fuel i
  | Event.KeyReleased Key.E => w.keyEBlock fuel i
  | _ => some w

/-- The routine `World::updateNodes`. -/
def World.updateNodes (fuel : Nat) (w : World) (inp : Input) : Option World :=
  if inp.inside then
    (if inp.right then w.rightBlock fuel inp.i else some w).bind (fun w =>
      (if inp.left then w.leftBlock fuel inp.i else some w).bind (fun w =>
        (w.keyBlocks fuel inp.i inp.event).bind (fun w =>
          if inp.shift then w.shiftBlock fuel inp.i else some w)))
  else some w

/-- The mode switch of `World::update`: `mode++; mode %= 3;` on a pressed Alt key. -/
def World.switchMode (w : World) : Event → World
  | Event.KeyPressed Key.LAlt => { w with mode := (w.mode + 1) % 3 }
  | Event.KeyPressed Key.RAlt => { w with mode := (w.mode + 1) % 3 }
  | _ => w

/-- The `switch (mode)` of `World::update` that runs the traversal. -/
def World.runSearch (fuel : Nat) (w : World) : Option Graph :=
  if w.mode = 0 then BreadthFirstSearch fuel w.graph w.startIndex w.endIndex (-1)
  else if w.mode = 1 then DijkstraQ fuel w.graph w.startIndex w.endIndex (-1)
  else if w.mode = 2 then DepthFirstSearch fuel w.graph w.startIndex w.endIndex (-1)
  else some w.graph

/-- The block of `World::update` for a released Enter. -/
def World.enterBlock (fuel : Nat) (w : World) : Option World :=
  if w.startIndex ≠ -1 ∧ w.endIndex ≠ -1 then
    if w.once then
      (w.runSearch fuel).bind (fun graph =>
        let graph := { graph with state := graph.state.set w.startIndex Start }
        let graph := { graph with state := graph.state.set w.endIndex End }
        let after : Option Graph :=
          if graph.found ≠ 0 then
            (GetPath fuel graph w.endIndex w.startIndex).map (fun r => r.2)
          else some graph
        after.map (fun graph => { w with graph := graph, once := false }))
    else some { w with once := false }
  else some w

/-- The routine `World::update`. -/
def World.update (fuel : Nat) (w : World) (inp : Input) : Option World :=
  (w.updateNodes fuel inp).bind (fun w =>
    let w := w.switchMode inp.event
    match inp.event with
    | Event.KeyReleased Key.Enter => w.enterBlock fuel
    | _ => some w)

/-- One event of the loop of `main` in a window of unchanged size: a released `R` builds
the `World` anew, then `update` runs. -/
def mainStep (fuel : Nat) (w : World) (inp : Input) : Option World :=
  let w :=
    match inp.event with
    | Event.KeyReleased Key.R => World.fresh w.worldWidth w.worldHeight
    | _ => w
  w.update fuel inp

/-- The mouse is outside the window or on a cell. -/
def World.OnCell (w : World) (inp : Input) : Prop :=
  inp.inside = true → 0 ≤ inp.i ∧ inp.i < w.worldHeight * w.worldWidth

instance World.OnCell.decide (w : World) (inp : Input) : Decidable (w.OnCell inp) :=
  inferInstanceAs (Decidable (inp.inside = true → 0 ≤ inp.i ∧ inp.i < w.worldHeight * w.worldWidth))

/-- The states of the `World` that the loop of `main` reaches from a freshly built `World`
by events with the mouse outside the window or on a cell. -/
inductive Reachable : World → Prop where
  | fresh (worldWidth worldHeight : Int) : Reachable (World.fresh worldWidth worldHeight)
  | step (w w2 : World) (fuel : Nat) (inp : Input) : Reachable w → w.OnCell inp →
      mainStep fuel w inp = some w2 → Reachable w2

/-- Neither `Start` nor `End` is the state of a node in `g2` unless it was in `g`. -/
def Graph.MarksKept (g g2 : Graph) : Prop :=
  ∀ v, (g2.state.get v = Start → g.state.get v = Start)
    ∧ (g2.state.get v = End → g.state.get v = End)

/-- The two markers are where the indices say: a node in state `Start` is `startIndex`, a
node in state `End` is `endIndex`, and each index is `-1` or not negative. -/
structure World.MarkersOK (w : World) : Prop where
  start_range : w.startIndex = -1 ∨ 0 ≤ w.startIndex
  end_range : w.endIndex = -1 ∨ 0 ≤ w.endIndex
  start_at : ∀ v, w.graph.state.get v = Start → v = w.startIndex ∧ 0 ≤ v
  end_at : ∀ v, w.graph.state.get v = End → v = w.endIndex ∧ 0 ≤ v

/-- The mouse on cell `i` with nothing held and the event `ev`. -/
def onCell (i : Int) (ev : Event) : Input :=
  { i := i, inside := true, right := false, left := false, shift := false, event := ev }

/-- The mouse on cell `i` with the right button held, no key event. -/
def rightClick (i : Int) : Input :=
  { i := i, inside := true, right := true, left := false, shift := false, event := Event.Other }

/-- The mouse on cell `i` with the left button held, no key event. -/
def leftClick (i : Int) : Input :=
  { i := i, inside := true, right := false, left := true, shift := false, event := Event.Other }

/-- The mouse on cell `i` with a shift key held, no key event. -/
def shiftOn (i : Int) : Input :=
  { i := i, inside := true, right := false, left := false, shift := true, event := Event.Other }

/-- The events of a session run in order from `w`. -/
def runInputs (fuel : Nat) (w : World) (inps : List Input) : Option World :=
  inps.foldlM (mainStep fuel) w

end Main

namespace Eap

/-! ## eap.cpp: `DepthFirstSearch` -/

/-- Body of the `for` loop of `DepthFirstSearch` at position `i` of `adj[Node]`; `recurse`
is the function itself one call deeper. `Except.error` is an `exit(0)` already taken: the
program has ended and no later round runs. -/
def dfsEntry (recurse : Graph → Int → Int → Option (Except String Graph)) (Node : Int)
    (st : Except String Graph) (i : Nat) : Option (Except String Graph) :=
  match st with
  | Except.error msg => some (Except.error msg)
  | Except.ok graph =>
    let graph := { graph with adj := graph.adj.touch Node }
    let Next := (graph.adj.lookup Node).getD i 0
    let graph := { graph with visited := graph.visited.touch Next }
    if graph.visited.lookup Next = 0 then recurse graph Next Node
    else some (Except.ok graph)

/-- The routine `DepthFirstSearch(graph, Node, Parent)`; the C++ default for `Parent` is
`-1`. The fuel bounds the depth of the recursion; `Except.error` is the `exit(0)` taken when
the graph has already been used. -/
def DepthFirstSearch : Nat → Graph → Int → Int → Option (Except String Graph)
  | 0, _, _, _ => none
  | fuel + 1, graph, Node, Parent =>
    if graph.used ≠ 0 then some (Except.error "The Graph has already been used")
    else
      let graph := { graph with visited := graph.visited.set Node 1 }
      let graph := { graph with parent := graph.parent.set Node Parent }
      let graph := { graph with adj := graph.adj.touch Node }
      ((List.range (graph.adj.lookup Node).length).foldlM
          (dfsEntry (DepthFirstSearch fuel) Node) (Except.ok graph)).map
        (fun r => r.map (fun graph => { graph with used := 1 }))

end Eap

namespace MyImpl

/-! ## Main.cpp, second program ("My Implementation"): the `World` of `Node`s -/

/-- The `struct Node`; the pointers of `nodeNeighbors` are kept as indices into `nodes`. -/
structure Node where
  posX : Int
  posY : Int
  parentIndex : Int
  index : Int
  isStartNode : Bool
  isEndNode : Bool
  isVisited : Bool
  isAnObstacle : Bool
  isFinalTrack : Bool
  nodeNeighbors : List Int

/-- A value-initialised `Node`. -/
def Node.fresh : Node :=
  { posX := 0, posY := 0, parentIndex := 0, index := 0, isStartNode := false,
    isEndNode := false, isVisited := false, isAnObstacle := false, isFinalTrack := false,
    nodeNeighbors := [] }

/-- The fields of `class World` that `updateNodes` reads and writes. -/
structure World where
  worldHeight : Int
  worldWidth : Int
  startIndex : Int
  endIndex : Int
  ready : Bool
  nodes : Vec Node

/-- Body of the loops of the constructor for the cell `(x, y)`. -/
def initCell (worldWidth worldHeight : Int) (nodes : Vec Node) (x y : Int) : Vec Node :=
  let i := y * worldWidth + x
  let up := (y - 1) * worldWidth + x
  let down := (y + 1) * worldWidth + x
  let left := y * worldWidth + (x - 1)
  let right := y * worldWidth + (x + 1)
  let node := nodes.get i
  let node := { node with posX := x, posY := y, index := i }
  let node := if y > 0 then { node with nodeNeighbors := node.nodeNeighbors ++ [up] } else node
  let node :=
    if y < worldHeight - 1 then { node with nodeNeighbors := node.nodeNeighbors ++ [down] }
    else node
  let node := if x > 0 then { node with nodeNeighbors := node.nodeNeighbors ++ [left] } else node
  let node :=
    if x < worldWidth - 1 then { node with nodeNeighbors := node.nodeNeighbors ++ [right] }
    else node
  nodes.set i node

/-- The `World` its constructor builds for a window of `worldWidth` by `worldHeight`
cells. -/
def World.fresh (worldWidth worldHeight : Int) : World :=
  { worldHeight := worldHeight, worldWidth := worldWidth, startIndex := -1, endIndex := -1,
    ready := false,
    nodes := (intRange worldWidth).foldl
      (fun nodes x => (intRange worldHeight).foldl
        (fun nodes y => initCell worldWidth worldHeight nodes x y) nodes)
      (Vec.filled (worldHeight * worldWidth) Node.fresh) }

/-- The block of `updateNodes` for a released `S`. -/
def World.keySBlock (w : World) (i : Int) : World :=
  let nodes :=
    if w.startIndex > 0 then
      w.nodes.set w.startIndex { w.nodes.get w.startIndex with isStartNode := false }
    else w.nodes
  let nodes := nodes.set i { nodes.get i with isStartNode := true }
  { w with nodes := nodes, startIndex := i }

/-- The block of `updateNodes` for a released `E`. -/
def World.keyEBlock (w : World) (i : Int) : World :=
  let nodes :=
    if w.endIndex > 0 then
      w.nodes.set w.endIndex { w.nodes.get w.endIndex with isEndNode := false }
    else w.nodes
  let nodes := nodes.set i { nodes.get i with isEndNode := true }
  { w with nodes := nodes, endIndex := i }

/-- The routine `World::updateNodes`. -/
def World.updateNodes (w : World) (inp : Main.Input) : World :=
  if inp.inside then
    let w :=
      if inp.left then
        { w with nodes := w.nodes.set inp.i { w.nodes.get inp.i with isAnObstacle := true } }
      else w
    let w :=
      if inp.right then
        { w with nodes := w.nodes.set inp.i { w.nodes.get inp.i with isAnObstacle := false } }
      else w
    let w :=
      match inp.event with
      | Main.Event.KeyReleased Main.Key.S => w.keySBlock inp.i
      | Main.Event.KeyReleased Main.Key.E => w.keyEBlock inp.i
      | _ => w
    if w.startIndex ≥ 0 ∧ w.endIndex ≥ 0 then { w with ready := true } else w
  else w

/-- The cells of the `World` whose node has `isStartNode` set. -/
def World.startCells (w : World) : List Int :=
  (intRange (w.worldHeight * w.worldWidth)).filter (fun i => (w.nodes.get i).isStartNode)

/-- The cells of the `World` whose node has `isEndNode` set. -/
def World.endCells (w : World) : List Int :=
  (intRange (w.worldHeight * w.worldWidth)).filter (fun i => (w.nodes.get i).isEndNode)

end MyImpl

namespace Main

open NodeState

/-- The graph of `main` in `eap.cpp` on the nodes 0 to 3, node 1 marked `Start` and node 3
marked `End`. -/
def detour : Graph := marked 4 [(1, 3, 3), (1, 2, 1), (2, 3, 1)] 1 3

/-- The cells of the `World` in state `st`. -/
def World.cellsIn (w : World) (st : NodeState) : List Int :=
  (intRange (w.worldHeight * w.worldWidth)).filter (fun i => w.graph.state.get i = st)

end Main

/-! ## eaf.cpp: the commands of its `World`, and the rounds of its `Dijkstra`

The `World` of `eaf.cpp` has the fields of the `World` of `Main.cpp` and the same
constructor; its `updateNodes` has its own blocks for the right button (the state is written
before the marker test), for the two buttons with a shift key, and no block for the shift
key alone. The left-button block and the two key blocks are those of `Main.cpp`.
-/

namespace Eaf

open NodeState

/-- The block of `updateNodes` for a held right button: `graph.state[i] = Water;
graph.update_node_weight(i, 2);` and then the marker test. -/
def rightBlock (fuel : Nat) (w : Main.World) (i : Int) : Option Main.World :=
  let w := w.setState i Water
  (Main.Graph.update_node_weight fuel w.graph i 2 (-1)).map (fun graph =>
    Main.World.dropMarker { w with graph := graph } i)

/-- The block of `updateNodes` for the right button with a shift key on a `Water` cell:
`graph.state[i] = Empty; graph.update_node_weight(i, 1);` and then the marker test. -/
def rightShiftBlock (fuel : Nat) (w : Main.World) (i : Int) : Option Main.World :=
  let w := w.setState i NodeState.Empty
  (Main.Graph.update_node_weight fuel w.graph i 1 (-1)).map (fun graph =>
    Main.World.dropMarker { w with graph := graph } i)

/-- The block of `updateNodes` for a held left button. -/
def leftBlock (fuel : Nat) (w : Main.World) (i : Int) : Option Main.World :=
  (w.resetWeight fuel i).map (fun w => (w.dropMarker i).setState i Obstacle)

/-- The block of `updateNodes` for the left button with a shift key on an `Obstacle`
cell. -/
def leftShiftBlock (fuel : Nat) (w : Main.World) (i : Int) : Option Main.World :=
  (w.resetWeight fuel i).map (fun w => (w.dropMarker i).setState i NodeState.Empty)

/-- The routine `World::updateNodes` of `eaf.cpp`. -/
def updateNodes (fuel : Nat) (w : Main.World) (inp : Main.Input) : Option Main.World :=
  if inp.inside then
    (if inp.right then rightBlock fuel w inp.i else some w).bind (fun w =>
      (if inp.right ∧ inp.shift ∧ w.graph.state.get inp.i = Water then
        rightShiftBlock fuel w inp.i else some w).bind (fun w =>
        (if inp.left then leftBlock fuel w inp.i else some w).bind (fun w =>
          (if inp.left ∧ inp.shift ∧ w.graph.state.get inp.i = Obstacle then
            leftShiftBlock fuel w inp.i else some w).bind (fun w =>
            w.keyBlocks fuel inp.i inp.event))))
  else some w

/-- The number of nodes of `U` that `Dijkstra` can still mark `Visited`. -/
def openCount (U : List Int) (g : Main.Graph) : Nat :=
  (U.filter (fun x => decide (g.state.get x ≠ Visited ∧ g.state.get x ≠ Start))).length

/-- What holds of the graph `g` and the frontier `ntp` between two rounds of `Dijkstra`
from `s` on the graph `g0`, whatever states the nodes other than `s` had: `s` is the only
`Start` node, every distance is an `int`, that of `s` is not positive, every other finite
distance is at most the weight of a simple walk from `s` whose earlier nodes are `s` or
`Visited`, and every frontier node is a node of `U` with a finite distance that is not
`Visited`. -/
structure TInv (g0 : Main.Graph) (U : List Int) (s : Int) (g : Main.Graph) (ntp : List Int) :
    Prop where
  adj_eq : g.adj_weighted = g0.adj_weighted
  start_s : g.state.get s = Start
  only : ∀ v, v ≠ s → g.state.get v ≠ Start
  range : ∀ v, -2147483648 ≤ g.distance.get v ∧ g.distance.get v ≤ INF
  dist_s : g.distance.get s ≤ 0
  path : ∀ v, v ≠ s → g.distance.get v < INF →
    ∃ steps, IsWalk g0.wadj s steps ∧ walkEnd s steps = v ∧ (walkNodes s steps).Nodup
      ∧ g.distance.get v ≤ walkWeight steps
      ∧ ∀ y ∈ walkNodes s steps, y = v ∨ y = s ∨ g.state.get y = Visited
  ntp_in : ∀ x ∈ ntp, x ∈ U ∧ g.distance.get x < INF ∧ g.state.get x ≠ Visited

/-- What holds while the `for` loop of the round with current node `u` runs: the invariant
for the frontier without `u`, and `u` has a finite distance and is the source or
`Visited`. -/
structure RInv (g0 : Main.Graph) (U : List Int) (s u : Int) (g : Main.Graph)
    (ntp : List Int) : Prop where
  inv : TInv g0 U s g (setErase u ntp)
  u_lt : g.distance.get u < INF
  u_done : u = s ∨ g.state.get u = Visited

/-- The measure that decreases from round to round of `Dijkstra`: twice the number of nodes
that can still be marked, plus one while the source is the current node or waits in the
frontier. -/
def roundsLeft (U : List Int) (s : Int) (g : Main.Graph) (ntp : List Int) (u : Int) : Nat :=
  2 * openCount U g + (if u = s ∨ s ∈ ntp then 1 else 0)

end Eaf

/-! ## Walks -/

theorem upd_same {β : Type} (f : Int → β) (k : Int) (x : β) : upd f k x k = x := by
  simp [upd]

theorem upd_other {β : Type} (f : Int → β) (k j : Int) (x : β) (h : j ≠ k) :
    upd f k x j = f j := by
  simp [upd, h]

theorem isWalk_append (adj : Adj) (l1 l2 : List (Int × Int)) (u : Int) :
    IsWalk adj u (l1 ++ l2) ↔ IsWalk adj u l1 ∧ IsWalk adj (walkEnd u l1) l2 := by
  induction l1 generalizing u with
  | nil => simp [IsWalk, walkEnd]
  | cons e rest ih => simp [IsWalk, walkEnd, ih, and_assoc]

theorem walkEnd_append (l1 l2 : List (Int × Int)) (u : Int) :
    walkEnd u (l1 ++ l2) = walkEnd (walkEnd u l1) l2 := by
  induction l1 generalizing u with
  | nil => simp [walkEnd]
  | cons e rest ih => simp [walkEnd, ih]

theorem walkWeight_nil : walkWeight [] = 0 := by simp [walkWeight]

theorem walkWeight_cons (e : Int × Int) (l : List (Int × Int)) :
    walkWeight (e :: l) = e.2 + walkWeight l := by
  simp [walkWeight]

theorem walkWeight_append (l1 l2 : List (Int × Int)) :
    walkWeight (l1 ++ l2) = walkWeight l1 + walkWeight l2 := by
  simp [walkWeight]

theorem walkNodes_snoc (u : Int) (l : List (Int × Int)) (e : Int × Int) :
    walkNodes u (l ++ [e]) = walkNodes u l ++ [e.1] := by
  simp [walkNodes]

theorem walkEnd_mem (u : Int) (l : List (Int × Int)) : walkEnd u l ∈ walkNodes u l := by
  induction l generalizing u with
  | nil => simp [walkEnd, walkNodes]
  | cons e rest ih =>
    have := ih e.1
    simp only [walkEnd, walkNodes, List.map_cons, List.mem_cons] at this ⊢
    exact Or.inr this

theorem walkNodes_dropLast_snoc (u : Int) (l : List (Int × Int)) (e : Int × Int) :
    (walkNodes u (l ++ [e])).dropLast = walkNodes u l := by
  rw [walkNodes_snoc, List.dropLast_concat]

theorem mem_walkNodes_cases (u : Int) (l : List (Int × Int)) (x : Int)
    (h : x ∈ walkNodes u l) : x ∈ (walkNodes u l).dropLast ∨ x = walkEnd u l := by
  induction l using List.reverseRecOn generalizing x with
  | nil =>
    simp only [walkNodes, List.map_nil, List.mem_singleton] at h
    exact Or.inr (by simp [walkEnd, h])
  | append_singleton l e _ =>
    rw [walkNodes_dropLast_snoc]
    rw [walkNodes_snoc, List.mem_append] at h
    rcases h with h | h
    · exact Or.inl h
    · right
      simp only [List.mem_singleton] at h
      simp [walkEnd_append, walkEnd, h]

theorem walkWeight_nonneg (adj : Adj) (hw : NonNegWeights adj) (l : List (Int × Int))
    (u : Int) (h : IsWalk adj u l) : 0 ≤ walkWeight l := by
  induction l generalizing u with
  | nil => simp [walkWeight]
  | cons e rest ih =>
    rw [walkWeight_cons]
    have h1 := hw u e h.1
    have h2 := ih e.1 h.2
    omega

theorem parOK_snoc (par : Int → Int) (l : List (Int × Int)) (e : Int × Int) (u : Int) :
    ParOK par u (l ++ [e]) ↔ ParOK par u l ∧ par e.1 = walkEnd u l := by
  induction l generalizing u with
  | nil => simp [ParOK, walkEnd]
  | cons a rest ih => simp [ParOK, walkEnd, ih, and_assoc]

theorem parOK_congr (par par2 : Int → Int) (l : List (Int × Int)) (u : Int)
    (h : ∀ x ∈ l.map Prod.fst, par2 x = par x) (hp : ParOK par u l) : ParOK par2 u l := by
  induction l generalizing u with
  | nil => trivial
  | cons a rest ih =>
    refine ⟨?_, ih a.1 (fun x hx => h x (by simp only [List.map_cons, List.mem_cons]; exact Or.inr hx)) hp.2⟩
    rw [h a.1 (by simp)]
    exact hp.1

theorem walkEnd_mem_map_of_ne_nil (u : Int) (l : List (Int × Int)) (h : l ≠ []) :
    walkEnd u l ∈ l.map Prod.fst := by
  induction l generalizing u with
  | nil => exact absurd rfl h
  | cons e rest ih =>
    by_cases hr : rest = []
    · subst hr; simp [walkEnd]
    · have := ih e.1 hr
      simp only [walkEnd, List.map_cons, List.mem_cons]
      exact Or.inr this

theorem walkEnd_in_closed (adj : Adj) (U : List Int) (hU : ClosedUnder adj U)
    (l : List (Int × Int)) (u : Int) (hu : u ∈ U) (h : IsWalk adj u l) : walkEnd u l ∈ U := by
  induction l generalizing u with
  | nil => exact hu
  | cons e rest ih => exact ih e.1 (hU u hu e h.1) h.2

/-! ## The relaxation scheme -/

theorem ChainTo.end_ok {adj : Adj} {ok : Int → Bool} {s : Int} {st : DState} {v : Int}
    {steps : List (Int × Int)} (h : ChainTo adj ok s st v steps) : ok v = true := by
  have := h.pass (walkEnd s steps) (walkEnd_mem s steps)
  rwa [h.last] at this

theorem ChainTo.nodes_fin {adj : Adj} {ok : Int → Bool} {s : Int} {st : DState} {v : Int}
    {steps : List (Int × Int)} (h : ChainTo adj ok s st v steps) (hv : st.fin v = true)
    (x : Int) (hx : x ∈ walkNodes s steps) : st.fin x = true := by
  rcases mem_walkNodes_cases s steps x hx with h1 | h1
  · exact h.inner x h1
  · rw [h1, h.last]; exact hv

/-- A chain survives a change of the state that leaves its nodes alone. -/
theorem ChainTo.chain_transfer {adj : Adj} {ok : Int → Bool} {s : Int} {st st2 : DState} {v : Int}
    {steps : List (Int × Int)} (h : ChainTo adj ok s st v steps)
    (hd : st2.dist v = st.dist v)
    (hf : ∀ x, st.fin x = true → st2.fin x = true)
    (hp : ∀ x ∈ steps.map Prod.fst, st2.par x = st.par x) : ChainTo adj ok s st2 v steps :=
  { walk := h.walk, last := h.last, weight := by rw [hd]; exact h.weight, nodup := h.nodup,
    pass := h.pass, inner := fun x hx => hf x (h.inner x hx),
    parent := parOK_congr st.par st2.par steps s hp h.parent }

theorem aMark_dist (u : Int) (st : DState) : (aMark u st).dist = st.dist := rfl

theorem aMark_par (u : Int) (st : DState) : (aMark u st).par = st.par := rfl

theorem aMark_fin (u : Int) (st : DState) (x : Int) :
    (aMark u st).fin x = true ↔ (x = u ∨ st.fin x = true) := by
  by_cases h : x = u <;> simp [aMark, upd, h]

/-- Settling starts: the node picked is unsettled, reached, and nearest among the
unsettled. -/
theorem SInv.settle_start {adj : Adj} {ok : Int → Bool} {s root : Int} {st : DState} {u : Int}
    (h : DInv adj ok s root st) (hu : st.fin u = false) (hd : st.dist u < INF)
    (hmin : ∀ v, st.fin v = false → st.dist u ≤ st.dist v) :
    SInv adj ok s root u [] (aMark u st) := by
  have hc := h.core
  refine
    { core :=
        { dist_s := hc.dist_s, par_s := hc.par_s, ok_s := hc.ok_s, range := hc.range,
          fin_lt := ?_, chain := ?_, order := ?_ },
      fin_u := (aMark_fin u st u).2 (Or.inl rfl), top := ?_, relaxed := ?_, done := ?_ }
  · intro v hv
    rcases (aMark_fin u st v).1 hv with h1 | h1
    · rw [h1]; exact hd
    · exact hc.fin_lt v h1
  · intro v hv
    obtain ⟨steps, hs⟩ := hc.chain v hv
    exact ⟨steps, hs.chain_transfer rfl (fun x hx => (aMark_fin u st x).2 (Or.inr hx))
      (fun _ _ => rfl)⟩
  · intro a b ha hb
    have hb2 : st.fin b = false := by
      cases hfb : st.fin b with
      | false => rfl
      | true => rw [(aMark_fin u st b).2 (Or.inr hfb)] at hb; exact absurd hb (by simp)
    rcases (aMark_fin u st a).1 ha with h1 | h1
    · rw [h1]; exact hmin b hb2
    · exact hc.order a b h1 hb2
  · intro x hx
    rcases (aMark_fin u st x).1 hx with h1 | h1
    · rw [h1]
    · exact hc.order x u h1 hu
  · intro x hx hxu
    rcases (aMark_fin u st x).1 hx with h1 | h1
    · exact absurd h1 hxu
    · exact h.relaxed x h1
  · intro e he
    simp at he

/-- An entry whose relaxation condition fails leaves the state as it is. -/
theorem aRelax_skip (ok : Int → Bool) (u : Int) (st : DState) (e : Int × Int)
    (h : ¬ (ok e.1 = true ∧ st.dist u + e.2 < st.dist e.1)) : aRelax ok u st e = st := by
  simp only [aRelax, if_neg h]

/-- A settled node is never improved by a relaxation out of the node being settled. -/
theorem SInv.no_gain {adj : Adj} {ok : Int → Bool} {s root : Int} {st : DState} {u : Int}
    {l : List (Int × Int)} (h : SInv adj ok s root u l st) (hw : NonNegWeights adj)
    (e : Int × Int) (he : e ∈ adj u) (hf : st.fin e.1 = true) :
    ¬ (ok e.1 = true ∧ st.dist u + e.2 < st.dist e.1) := by
  intro hc
  have h1 := h.top e.1 hf
  have h2 := hw u e he
  omega

/-- One entry of the node being settled is relaxed. -/
theorem SInv.settle_step {adj : Adj} {ok : Int → Bool} {s root : Int} {st : DState} {u : Int}
    {l : List (Int × Int)} (h : SInv adj ok s root u l st) (hw : NonNegWeights adj)
    (e : Int × Int) (he : e ∈ adj u) :
    SInv adj ok s root u (l ++ [e]) (aRelax ok u st e) := by
  have hc := h.core
  have hwe := hw u e he
  by_cases hcond : ok e.1 = true ∧ st.dist u + e.2 < st.dist e.1
  · -- the entry improves its target, which is therefore unsettled
    have hnf : st.fin e.1 = false := by
      cases hfe : st.fin e.1 with
      | false => rfl
      | true => exact absurd hcond (h.no_gain hw e he hfe)
    have hne : e.1 ≠ u := by
      intro heq; rw [heq, h.fin_u] at hnf; exact absurd hnf (by simp)
    have hdu : st.dist u < INF := hc.fin_lt u h.fin_u
    have hru := hc.range u
    have hre := hc.range e.1
    have hst : aRelax ok u st e =
        { st with dist := upd st.dist e.1 (st.dist u + e.2), par := upd st.par e.1 u } := by
      simp only [aRelax, if_pos hcond]
    have hdist : ∀ x, x ≠ e.1 → (aRelax ok u st e).dist x = st.dist x := by
      intro x hx; rw [hst]; exact upd_other _ _ _ _ hx
    have hdiste : (aRelax ok u st e).dist e.1 = st.dist u + e.2 := by
      rw [hst]; exact upd_same _ _ _
    have hpar : ∀ x, x ≠ e.1 → (aRelax ok u st e).par x = st.par x := by
      intro x hx; rw [hst]; exact upd_other _ _ _ _ hx
    have hpare : (aRelax ok u st e).par e.1 = u := by
      rw [hst]; exact upd_same _ _ _
    have hfin : (aRelax ok u st e).fin = st.fin := by rw [hst]
    have hle : ∀ x, (aRelax ok u st e).dist x ≤ st.dist x := by
      intro x
      by_cases hx : x = e.1
      · rw [hx, hdiste]; exact le_of_lt hcond.2
      · rw [hdist x hx]
    have hfx : ∀ x, st.fin x = true → (aRelax ok u st e).dist x = st.dist x := by
      intro x hx
      apply hdist
      intro heq; rw [heq, hnf] at hx; exact absurd hx (by simp)
    have hse : s ≠ e.1 := by
      intro heq
      have := hc.dist_s
      rw [heq] at this
      omega
    refine
      { core :=
          { dist_s := by rw [hdist s hse]; exact hc.dist_s,
            par_s := by rw [hpar s hse]; exact hc.par_s,
            ok_s := hc.ok_s, range := ?_, fin_lt := ?_, chain := ?_, order := ?_ },
        fin_u := by rw [hfin]; exact h.fin_u, top := ?_, relaxed := ?_, done := ?_ }
    · intro v
      by_cases hv : v = e.1
      · rw [hv, hdiste]; constructor <;> omega
      · rw [hdist v hv]; exact hc.range v
    · intro v hv
      rw [hfin] at hv
      rw [hfx v hv]; exact hc.fin_lt v hv
    · intro v hv
      by_cases hve : v = e.1
      · -- the new tree path: the one of `u`, then the entry
        obtain ⟨steps, hs⟩ := hc.chain u hdu
        have hnot : e.1 ∉ walkNodes s steps := by
          intro hmem
          have := hs.nodes_fin h.fin_u e.1 hmem
          rw [hnf] at this; exact absurd this (by simp)
        refine ⟨steps ++ [e], ?_⟩
        refine
          { walk := ?_, last := ?_, weight := ?_, nodup := ?_, pass := ?_, inner := ?_,
            parent := ?_ }
        · rw [isWalk_append, hs.last]
          exact ⟨hs.walk, he, trivial⟩
        · rw [walkEnd_append, hve]; rfl
        · rw [walkWeight_append, hs.weight, hve, hdiste, walkWeight_cons, walkWeight_nil]
          omega
        · rw [walkNodes_snoc]
          exact List.Nodup.append hs.nodup (List.nodup_singleton _)
            (by
              intro x hx1 hx2
              simp only [List.mem_singleton] at hx2
              rw [hx2] at hx1; exact hnot hx1)
        · intro x hx
          rw [walkNodes_snoc, List.mem_append] at hx
          rcases hx with hx | hx
          · exact hs.pass x hx
          · simp only [List.mem_singleton] at hx
            rw [hx]; exact hcond.1
        · intro x hx
          rw [walkNodes_dropLast_snoc] at hx
          rw [hfin]
          exact hs.nodes_fin h.fin_u x hx
        · rw [parOK_snoc]
          refine ⟨parOK_congr st.par _ steps s ?_ hs.parent, by rw [hpare, hs.last]⟩
          intro x hx
          apply hpar
          intro heq
          apply hnot
          rw [← heq]
          simp only [walkNodes, List.mem_cons]
          exact Or.inr hx
      · rw [hdist v hve] at hv
        obtain ⟨steps, hs⟩ := hc.chain v hv
        refine ⟨steps, hs.chain_transfer (hdist v hve) (fun x hx => by rw [hfin]; exact hx) ?_⟩
        intro x hx
        apply hpar
        intro heq
        -- `e.1` is unsettled and is not `v`, so it is not on the tree path of `v`
        have hmem : x ∈ walkNodes s steps := by
          simp only [walkNodes, List.mem_cons]; exact Or.inr hx
        rcases mem_walkNodes_cases s steps x hmem with h1 | h1
        · have := hs.inner x h1
          rw [heq, hnf] at this; exact absurd this (by simp)
        · rw [hs.last] at h1
          exact hve (by rw [← h1, heq])
    · intro a b ha hb
      rw [hfin] at ha hb
      rw [hfx a ha]
      by_cases hbe : b = e.1
      · rw [hbe, hdiste]
        have := h.top a ha
        omega
      · rw [hdist b hbe]; exact hc.order a b ha hb
    · intro x hx
      rw [hfin] at hx
      rw [hfx x hx, hfx u h.fin_u]; exact h.top x hx
    · intro x hx hxu a ha hoka
      rw [hfin] at hx
      rw [hfx x hx]
      exact le_trans (hle a.1) (h.relaxed x hx hxu a ha hoka)
    · intro a ha hoka
      rw [hfx u h.fin_u]
      rw [List.mem_append] at ha
      rcases ha with ha | ha
      · exact le_trans (hle a.1) (h.done a ha hoka)
      · simp only [List.mem_singleton] at ha
        rw [ha, hdiste]
  · -- nothing changes
    rw [aRelax_skip ok u st e hcond]
    refine { core := hc, fin_u := h.fin_u, top := h.top, relaxed := h.relaxed, done := ?_ }
    intro a ha hoka
    rw [List.mem_append] at ha
    rcases ha with ha | ha
    · exact h.done a ha hoka
    · simp only [List.mem_singleton] at ha
      rw [ha] at hoka ⊢
      have : ¬ (st.dist u + e.2 < st.dist e.1) := fun hlt => hcond ⟨hoka, hlt⟩
      omega

/-- The entries of the node being settled are relaxed one after the other. -/
theorem SInv.settle_fold {adj : Adj} {ok : Int → Bool} {s root : Int} {u : Int}
    (hw : NonNegWeights adj) (l2 : List (Int × Int)) :
    ∀ (l1 : List (Int × Int)) (st : DState), (∀ e ∈ l2, e ∈ adj u) →
      SInv adj ok s root u l1 st →
      SInv adj ok s root u (l1 ++ l2) (l2.foldl (aRelax ok u) st) := by
  induction l2 with
  | nil => intro l1 st _ h; simpa using h
  | cons e rest ih =>
    intro l1 st hmem h
    have h1 := h.settle_step hw e (hmem e (by simp))
    have h2 := ih (l1 ++ [e]) (aRelax ok u st e)
      (fun a ha => hmem a (by simp only [List.mem_cons]; exact Or.inr ha)) h1
    simpa using h2

/-- Settling is complete: the invariant between settlings holds again. -/
theorem SInv.settle_finish {adj : Adj} {ok : Int → Bool} {s root : Int} {st : DState} {u : Int}
    (h : SInv adj ok s root u (adj u) st) : DInv adj ok s root st := by
  refine { core := h.core, relaxed := ?_ }
  intro x hx
  by_cases hxu : x = u
  · rw [hxu]; exact h.done
  · exact h.relaxed x hx hxu

/-- Settling an unsettled, reached node that is nearest among the unsettled ones keeps
the invariant. -/
theorem DInv.settle {adj : Adj} {ok : Int → Bool} {s root : Int} {st : DState} {u : Int}
    (h : DInv adj ok s root st) (hw : NonNegWeights adj) (hu : st.fin u = false)
    (hd : st.dist u < INF) (hmin : ∀ v, st.fin v = false → st.dist u ≤ st.dist v) :
    DInv adj ok s root (aSettle adj ok u st) := by
  have h1 := SInv.settle_start h hu hd hmin
  have h2 := SInv.settle_fold hw (adj u) [] (aMark u st) (fun e he => he) h1
  exact SInv.settle_finish (by simpa using h2)

/-- The invariant holds before the first settling. -/
theorem DInv.dist_init (adj : Adj) (ok : Int → Bool) (s root : Int) (par : Int → Int)
    (hs : ok s = true) : DInv adj ok s root (aInit s root par) := by
  have hd : ∀ v, v ≠ s → (aInit s root par).dist v = INF := by
    intro v hv; simp [aInit, upd, hv]
  have hds : (aInit s root par).dist s = 0 := by simp [aInit, upd]
  refine
    { core :=
        { dist_s := hds, par_s := by simp [aInit, upd], ok_s := hs, range := ?_,
          fin_lt := ?_, chain := ?_, order := ?_ },
      relaxed := ?_ }
  · intro v
    by_cases hv : v = s
    · rw [hv, hds]; simp [INF]
    · rw [hd v hv]; simp [INF]
  · intro v hv; simp [aInit] at hv
  · intro v hv
    by_cases hvs : v = s
    · refine ⟨[], ?_⟩
      refine
        { walk := trivial, last := by rw [hvs]; rfl, weight := by rw [hvs, hds]; rfl,
          nodup := by simp [walkNodes], pass := ?_, inner := ?_, parent := trivial }
      · intro x hx
        simp only [walkNodes, List.map_nil, List.mem_singleton] at hx
        rw [hx]; exact hs
      · intro x hx
        simp [walkNodes] at hx
    · rw [hd v hvs] at hv; exact absurd hv (lt_irrefl _)
  · intro a b ha; simp [aInit] at ha
  · intro a ha; simp [aInit] at ha

/-! ## Optimality of the relaxation scheme -/

theorem PathSumsBelow.sums_mono {adj : Adj} {P Q : Int → Prop} {s : Int}
    (h : PathSumsBelow adj P s) (hPQ : ∀ x, Q x → P x) : PathSumsBelow adj Q s :=
  fun steps hs => h steps ⟨hs.1, hs.2.1, fun x hx => hPQ x (hs.2.2 x hx)⟩

theorem PathPlusEdgeBelow.plus_mono {adj : Adj} {P Q : Int → Prop} {s : Int}
    (h : PathPlusEdgeBelow adj P s) (hPQ : ∀ x, Q x → P x) : PathPlusEdgeBelow adj Q s :=
  fun steps hs e he hq =>
    h steps ⟨hs.1, hs.2.1, fun x hx => hPQ x (hs.2.2 x hx)⟩ e he (hPQ _ hq)

theorem ChainTo.simple {adj : Adj} {ok : Int → Bool} {s : Int} {st : DState} {v : Int}
    {steps : List (Int × Int)} (h : ChainTo adj ok s st v steps) :
    IsSimpleFrom adj (fun x => ok x = true) s steps :=
  ⟨h.walk, h.nodup, h.pass⟩

theorem ChainTo.chain_path {adj : Adj} {ok : Int → Bool} {s : Int} {st : DState} {v : Int}
    {steps : List (Int × Int)} (h : ChainTo adj ok s st v steps) :
    IsPathTo adj (fun x => ok x = true) s v steps :=
  ⟨h.walk, h.last, h.pass⟩

/-- With every path and one further entry below `0x7FFFFFFF`, the sum a relaxation out of
a reached node computes is below `0x7FFFFFFF`. -/
theorem DCore.sum_lt {adj : Adj} {ok : Int → Bool} {s root : Int} {st : DState}
    (h : DCore adj ok s root st) (hb : PathPlusEdgeBelow adj (fun x => ok x = true) s)
    (u : Int) (hu : st.dist u < INF) (e : Int × Int) (he : e ∈ adj u) (hok : ok e.1 = true) :
    st.dist u + e.2 < INF := by
  obtain ⟨steps, hs⟩ := h.chain u hu
  have := hb steps hs.simple e (by rw [hs.last]; exact he) hok
  rw [hs.weight] at this
  exact this

/-- With every path below `0x7FFFFFFF`, the sum a relaxation out of a settled node into an
unsettled one computes is below `0x7FFFFFFF`. -/
theorem DCore.sum_lt_unsettled {adj : Adj} {ok : Int → Bool} {s root : Int} {st : DState}
    (h : DCore adj ok s root st) (hb : PathSumsBelow adj (fun x => ok x = true) s)
    (u : Int) (hu : st.fin u = true) (e : Int × Int) (he : e ∈ adj u) (hok : ok e.1 = true)
    (hnf : st.fin e.1 = false) : st.dist u + e.2 < INF := by
  obtain ⟨steps, hs⟩ := h.chain u (h.fin_lt u hu)
  have hnot : e.1 ∉ walkNodes s steps := by
    intro hmem
    have := hs.nodes_fin hu e.1 hmem
    rw [hnf] at this; exact absurd this (by simp)
  have hsimple : IsSimpleFrom adj (fun x => ok x = true) s (steps ++ [e]) := by
    refine ⟨?_, ?_, ?_⟩
    · rw [isWalk_append, hs.last]; exact ⟨hs.walk, he, trivial⟩
    · rw [walkNodes_snoc]
      exact List.Nodup.append hs.nodup (List.nodup_singleton _)
        (by
          intro x hx1 hx2
          simp only [List.mem_singleton] at hx2
          rw [hx2] at hx1; exact hnot hx1)
    · intro x hx
      rw [walkNodes_snoc, List.mem_append] at hx
      rcases hx with hx | hx
      · exact hs.pass x hx
      · simp only [List.mem_singleton] at hx
        rw [hx]; exact hok
  have := hb (steps ++ [e]) hsimple
  rw [walkWeight_append, hs.weight, walkWeight_cons, walkWeight_nil] at this
  omega

/-- With every path below `0x7FFFFFFF`, every passable neighbor of a settled node has a
finite distance. -/
theorem DInv.neighbor_finite {adj : Adj} {ok : Int → Bool} {s root : Int} {st : DState}
    (h : DInv adj ok s root st) (hb : PathSumsBelow adj (fun x => ok x = true) s)
    (u : Int) (hu : st.fin u = true) (e : Int × Int) (he : e ∈ adj u) (hok : ok e.1 = true) :
    st.dist e.1 < INF := by
  cases hfe : st.fin e.1 with
  | true => exact h.core.fin_lt e.1 hfe
  | false =>
    have h1 := h.core.sum_lt_unsettled hb u hu e he hok hfe
    have h2 := h.relaxed u hu e he hok
    omega

/-- Once nothing is left to process, the distance of a node reached by a walk out of a
settled node is at most the distance of that node plus the weight of the walk. -/
theorem DInv.dist_closed_bound {adj : Adj} {ok : Int → Bool} {s root : Int} {st : DState}
    (h : DInv adj ok s root st) (hcl : DClosed st)
    (hb : PathSumsBelow adj (fun x => ok x = true) s) (steps : List (Int × Int)) :
    ∀ u, st.fin u = true → IsWalk adj u steps → (∀ x ∈ steps.map Prod.fst, ok x = true) →
      st.fin (walkEnd u steps) = true ∧
        st.dist (walkEnd u steps) ≤ st.dist u + walkWeight steps := by
  induction steps with
  | nil => intro u hu _ _; exact ⟨hu, by simp [walkEnd, walkWeight]⟩
  | cons e rest ih =>
    intro u hu hwalk hok
    have hoke : ok e.1 = true := hok e.1 (by simp)
    have h1 := h.neighbor_finite hb u hu e hwalk.1 hoke
    have h2 := h.relaxed u hu e hwalk.1 hoke
    have h3 := ih e.1 (hcl e.1 h1) hwalk.2
      (fun x hx => hok x (by simp only [List.map_cons, List.mem_cons]; exact Or.inr hx))
    refine ⟨h3.1, ?_⟩
    simp only [walkEnd]
    rw [walkWeight_cons]
    omega

/-- Once nothing is left to process, every node that can be reached holds the minimum
path weight, realised by its tree path. -/
theorem DInv.dist_closed_optimal {adj : Adj} {ok : Int → Bool} {s root : Int} {st : DState}
    (h : DInv adj ok s root st) (hcl : DClosed st)
    (hb : PathSumsBelow adj (fun x => ok x = true) s) (v : Int)
    (hr : Reach adj (fun x => ok x = true) s v) :
    (∃ steps, ChainTo adj ok s st v steps) ∧
      IsMinWeight adj (fun x => ok x = true) s v (st.dist v) := by
  have hs0 : st.dist s < INF := by rw [h.core.dist_s]; simp [INF]
  have hfs : st.fin s = true := hcl s hs0
  have hbound : ∀ steps, IsPathTo adj (fun x => ok x = true) s v steps →
      st.fin v = true ∧ st.dist v ≤ walkWeight steps := by
    intro steps hp
    have := h.dist_closed_bound hcl hb steps s hfs hp.1
      (fun x hx => hp.2.2 x (by simp only [walkNodes, List.mem_cons]; exact Or.inr hx))
    rw [hp.2.1, h.core.dist_s] at this
    exact ⟨this.1, by omega⟩
  obtain ⟨steps, hp⟩ := hr
  obtain ⟨c, hc⟩ := h.core.chain v (h.core.fin_lt v (hbound steps hp).1)
  exact ⟨⟨c, hc⟩, ⟨c, hc.chain_path, hc.weight⟩, fun q hq => (hbound q hq).2⟩

/-- A walk out of a settled node to an unsettled node `t` that is nearest among the
unsettled ones weighs at least the difference of the two distances. -/
theorem DInv.dist_exit_bound {adj : Adj} {ok : Int → Bool} {s root : Int} {st : DState}
    (h : DInv adj ok s root st) (hw : NonNegWeights adj) (t : Int)
    (ht : st.fin t = false) (hmin : ∀ v, st.fin v = false → st.dist t ≤ st.dist v)
    (steps : List (Int × Int)) :
    ∀ u, st.fin u = true → IsWalk adj u steps → (∀ x ∈ steps.map Prod.fst, ok x = true) →
      walkEnd u steps = t → st.dist t ≤ st.dist u + walkWeight steps := by
  induction steps with
  | nil =>
    intro u hu _ _ hend
    simp only [walkEnd] at hend
    rw [hend, ht] at hu; exact absurd hu (by simp)
  | cons e rest ih =>
    intro u hu hwalk hok hend
    have hoke : ok e.1 = true := hok e.1 (by simp)
    have h2 := h.relaxed u hu e hwalk.1 hoke
    rw [walkWeight_cons]
    cases hfe : st.fin e.1 with
    | true =>
      have := ih e.1 hfe hwalk.2
        (fun x hx => hok x (by simp only [List.map_cons, List.mem_cons]; exact Or.inr hx)) hend
      omega
    | false =>
      have h3 := hmin e.1 hfe
      have h4 := walkWeight_nonneg adj hw rest e.1 hwalk.2
      omega

/-- When the source is settled and the unsettled node `t` is reached and nearest among the
unsettled ones, it holds the minimum path weight, realised by its tree path. -/
theorem DInv.dist_exit_optimal {adj : Adj} {ok : Int → Bool} {s root : Int} {st : DState}
    (h : DInv adj ok s root st) (hw : NonNegWeights adj) (hfs : st.fin s = true) (t : Int)
    (ht : st.fin t = false) (hd : st.dist t < INF)
    (hmin : ∀ v, st.fin v = false → st.dist t ≤ st.dist v) :
    (∃ steps, ChainTo adj ok s st t steps) ∧
      IsMinWeight adj (fun x => ok x = true) s t (st.dist t) := by
  obtain ⟨c, hc⟩ := h.core.chain t hd
  refine ⟨⟨c, hc⟩, ⟨c, hc.chain_path, hc.weight⟩, ?_⟩
  intro q hq
  have := h.dist_exit_bound hw t ht hmin q s hfs hq.1
    (fun x hx => hq.2.2 x (by simp only [walkNodes, List.mem_cons]; exact Or.inr hx)) hq.2.1
  rw [h.core.dist_s] at this
  omega

/-- A node with a finite distance can be reached, so a node that cannot keeps `INF`. -/
theorem DCore.reach_of_lt {adj : Adj} {ok : Int → Bool} {s root : Int} {st : DState}
    (h : DCore adj ok s root st) (v : Int) (hv : st.dist v < INF) :
    Reach adj (fun x => ok x = true) s v := by
  obtain ⟨c, hc⟩ := h.chain v hv
  exact ⟨c, hc.chain_path⟩

theorem DCore.inf_of_not_reach {adj : Adj} {ok : Int → Bool} {s root : Int} {st : DState}
    (h : DCore adj ok s root st) (v : Int) (hv : ¬ Reach adj (fun x => ok x = true) s v) :
    st.dist v = INF := by
  by_contra hne
  have := (h.range v).2
  exact hv (h.reach_of_lt v (lt_of_le_of_ne this hne))

/-- The minimum path weight is unique. -/
theorem IsMinWeight.weight_unique {adj : Adj} {ok : Int → Prop} {s v : Int} {a b : Int}
    (ha : IsMinWeight adj ok s v a) (hb : IsMinWeight adj ok s v b) : a = b := by
  obtain ⟨⟨p, hp, hpw⟩, hal⟩ := ha
  obtain ⟨⟨q, hq, hqw⟩, hbl⟩ := hb
  have h1 := hal q hq
  have h2 := hbl p hp
  omega

theorem wrapInt_id (x : Int) (h0 : 0 ≤ x) (h1 : x < INF) : wrapInt x = x := by
  unfold wrapInt
  unfold INF at h1
  omega

namespace Eap

/-! ## eap.cpp: maps -/

theorem lookup_touch {V : Type} [Inhabited V] (m : IntMap V) (k j : Int) :
    (m.touch k).lookup j = m.lookup j := by
  by_cases h : j = k <;> simp [IntMap.touch, IntMap.lookup, h]

theorem lookup_set {V : Type} [Inhabited V] (m : IntMap V) (k j : Int) (x : V) :
    (m.set k x).lookup j = if j = k then x else m.lookup j := by
  by_cases h : j = k <;> simp [IntMap.set, IntMap.lookup, h]

theorem touch_of_some {V : Type} [Inhabited V] (m : IntMap V) (k : Int) (x : V)
    (h : m k = some x) : m.touch k = m := by
  funext j
  by_cases hj : j = k
  · simp [IntMap.touch, IntMap.lookup, hj, h]
  · simp [IntMap.touch, hj]

theorem dist_of_some (g : Graph) (v d : Int) (h : g.distance v = some d) : g.dist v = d := by
  simp [Graph.dist, h]

theorem dist_of_none (g : Graph) (v : Int) (h : g.distance v = none) : g.dist v = INF := by
  simp [Graph.dist, h]

theorem some_of_dist_lt (g : Graph) (v : Int) (h : g.dist v < INF) :
    g.distance v = some (g.dist v) := by
  cases hv : g.distance v with
  | none => rw [dist_of_none g v hv] at h; exact absurd h (lt_irrefl _)
  | some d => rw [dist_of_some g v d hv]

theorem lookup_of_dist_lt (g : Graph) (v : Int) (h : g.dist v < INF) :
    g.distance.lookup v = g.dist v := by
  have := some_of_dist_lt g v h
  simp [IntMap.lookup, this]

/-- What `relaxEdge` does to a node already visited. -/
theorem relaxEdge_visited (u : Int) (g : Graph) (ntp : List Int) (e : Int × Int)
    (h : g.visited.lookup e.1 ≠ 0) :
    relaxEdge u (g, ntp) e = ({ g with visited := g.visited.touch e.1 }, ntp) := by
  simp [relaxEdge, lookup_touch, h]

/-- What `relaxEdge` does to a node not visited yet, as read by the relaxation scheme. -/
theorem relaxEdge_fresh (u : Int) (g : Graph) (ntp : List Int) (e : Int × Int)
    (h : g.visited.lookup e.1 = 0) (hu : g.dist u < INF) :
    (relaxEdge u (g, ntp) e).2 = setInsert e.1 ntp ∧
    (relaxEdge u (g, ntp) e).1.adj_weighted = g.adj_weighted ∧
    (∀ v, (relaxEdge u (g, ntp) e).1.visited.lookup v = g.visited.lookup v) ∧
    (∀ v, (relaxEdge u (g, ntp) e).1.dist v =
      if v = e.1 ∧ wrapInt (g.dist u + e.2) < g.dist e.1 then wrapInt (g.dist u + e.2)
      else g.dist v) ∧
    (∀ v, (relaxEdge u (g, ntp) e).1.parent.lookup v =
      if v = e.1 ∧ wrapInt (g.dist u + e.2) < g.dist e.1 then u else g.parent.lookup v) := by
  have hs := some_of_dist_lt g u hu
  have hl := lookup_of_dist_lt g u hu
  have ht : g.distance.touch u = g.distance := touch_of_some _ _ _ hs
  cases hd : g.distance e.1 with
  | none =>
    have hde : g.dist e.1 = INF := dist_of_none g e.1 hd
    simp only [relaxEdge, lookup_touch, h, ne_eq, not_true_eq_false, if_false, ht, hl,
      IntMap.count, hd, Option.isSome_none, Bool.false_eq_true, if_true, hde]
    have hts : (IntMap.set g.distance e.1 INF).touch e.1 = IntMap.set g.distance e.1 INF :=
      touch_of_some _ _ INF (by simp [IntMap.set])
    rw [hts]
    simp only [lookup_set, if_true]
    by_cases hc : wrapInt (g.dist u + e.2) < INF
    · simp only [hc, if_true, and_true]
      refine ⟨trivial, trivial, fun _ => lookup_touch _ _ _, ?_, ?_⟩
      · intro v
        by_cases hv : v = e.1
        · simp [Graph.dist, IntMap.set, hv]
        · simp [Graph.dist, IntMap.set, hv]
      · intro v
        simp [lookup_set]
    · simp only [hc, if_false, and_false]
      refine ⟨trivial, trivial, fun _ => lookup_touch _ _ _, ?_, fun _ => trivial⟩
      intro v
      by_cases hv : v = e.1
      · simp [Graph.dist, IntMap.set, hv, hd]
      · simp [Graph.dist, IntMap.set, hv]
  | some d =>
    have hde : g.dist e.1 = d := dist_of_some g e.1 d hd
    have hte : g.distance.touch e.1 = g.distance := touch_of_some _ _ _ hd
    have hle : g.distance.lookup e.1 = d := by simp [IntMap.lookup, hd]
    simp only [relaxEdge, lookup_touch, h, ne_eq, not_true_eq_false, if_false, ht, hl,
      IntMap.count, hd, Option.isSome_some, if_true, hde, hte, hle, one_ne_zero]
    by_cases hc : wrapInt (g.dist u + e.2) < d
    · simp only [hc, if_true, and_true]
      refine ⟨trivial, trivial, fun _ => lookup_touch _ _ _, ?_, ?_⟩
      · intro v
        by_cases hv : v = e.1
        · simp [Graph.dist, IntMap.set, hv]
        · simp [Graph.dist, IntMap.set, hv]
      · intro v
        simp [lookup_set]
    · simp only [hc, if_false, and_false]
      exact ⟨trivial, trivial, fun _ => lookup_touch _ _ _, fun _ => rfl, fun _ => trivial⟩

end Eap

theorem mem_setInsert (k v : Int) (l : List Int) : v ∈ setInsert k l ↔ v = k ∨ v ∈ l := by
  unfold setInsert
  by_cases h : k ∈ l
  · simp only [h, if_true]
    constructor
    · exact Or.inr
    · rintro (h1 | h1)
      · rw [h1]; exact h
      · exact h1
  · simp only [h, if_false, List.mem_orderedInsert]

theorem mem_setErase (k v : Int) (l : List Int) : v ∈ setErase k l ↔ v ∈ l ∧ v ≠ k := by
  simp [setErase]

theorem filter_length_le (l : List Int) (p q : Int → Bool)
    (hpq : ∀ v, q v = true → p v = true) : (l.filter q).length ≤ (l.filter p).length := by
  induction l with
  | nil => simp
  | cons a rest ih =>
    cases hqa : q a with
    | false =>
      cases hpa : p a with
      | false => simp only [List.filter_cons, hqa, hpa]; simpa using ih
      | true =>
        simp only [List.filter_cons, hqa, hpa, if_true, List.length_cons]
        have : (List.filter q rest).length ≤ (List.filter p rest).length := ih
        simp only [Bool.false_eq_true, if_false]
        omega
    | true =>
      have hpa := hpq a hqa
      simp only [List.filter_cons, hqa, hpa, if_true, List.length_cons]
      omega

theorem filter_length_lt (l : List Int) (p q : Int → Bool)
    (hpq : ∀ v, q v = true → p v = true) (u : Int) (hu : u ∈ l) (hp : p u = true)
    (hq : q u = false) : (l.filter q).length < (l.filter p).length := by
  induction l with
  | nil => simp at hu
  | cons a rest ih =>
    by_cases ha : a = u
    · have h1 := filter_length_le rest p q hpq
      rw [ha]
      simp only [List.filter_cons, hq, hp, if_true, List.length_cons, Bool.false_eq_true,
        if_false]
      omega
    · have hur : u ∈ rest := by
        rcases List.mem_cons.1 hu with h | h
        · exact absurd h.symm ha
        · exact h
      have h1 := ih hur
      cases hqa : q a with
      | false =>
        cases hpa : p a with
        | false => simp only [List.filter_cons, hqa, hpa]; simpa using h1
        | true =>
          simp only [List.filter_cons, hqa, hpa, if_true, List.length_cons,
            Bool.false_eq_true, if_false]
          omega
      | true =>
        have hpa := hpq a hqa
        simp only [List.filter_cons, hqa, hpa, if_true, List.length_cons]
        omega

/-- Settling a node of `U` leaves fewer unsettled nodes in `U`. -/
theorem unsettled_lt (U : List Int) (f : Int → Bool) (u : Int) (hu : u ∈ U)
    (hf : f u = false) :
    (U.filter (fun v => !(upd f u true) v)).length < (U.filter (fun v => !f v)).length := by
  apply filter_length_lt U _ _ _ u hu
  · simp [hf]
  · simp [upd]
  · intro v
    by_cases hv : v = u
    · simp [upd, hv]
    · simp [upd, hv]

theorem aRelax_fin (ok : Int → Bool) (u : Int) (st : DState) (e : Int × Int) :
    (aRelax ok u st e).fin = st.fin := by
  unfold aRelax
  split <;> rfl

theorem aSettle_fin (adj : Adj) (ok : Int → Bool) (u : Int) (st : DState) :
    (aSettle adj ok u st).fin = upd st.fin u true := by
  unfold aSettle
  have : ∀ (l : List (Int × Int)) (t : DState), (l.foldl (aRelax ok u) t).fin = t.fin := by
    intro l
    induction l with
    | nil => intro t; rfl
    | cons e rest ih => intro t; simp only [List.foldl_cons]; rw [ih, aRelax_fin]
  rw [this]; rfl

namespace Eap

/-- Every node counts as passable in `eap.cpp`. -/
theorem okAll_eq (x : Int) : ((fun _ => true) : Int → Bool) x = true := rfl

/-- One entry: `relaxEdge` does what the relaxation scheme does. -/
theorem eap_relaxEdge_sim {adj : Adj} {s root u : Int} {l : List (Int × Int)} {st : DState}
    {g : Graph} {ntp : List Int}
    (hS : SInv adj (fun _ => true) s root u l st) (hR : DRel adj g ntp u st)
    (hvu : g.visited.lookup u ≠ 0) (hw : NonNegWeights adj)
    (hb : PathSumsBelow adj (fun x => ((fun _ => true) : Int → Bool) x = true) s)
    (e : Int × Int) (he : e ∈ adj u) :
    DRel adj (relaxEdge u (g, ntp) e).1 (relaxEdge u (g, ntp) e).2 u
        (aRelax (fun _ => true) u st e) ∧
      (relaxEdge u (g, ntp) e).1.visited.lookup u ≠ 0 := by
  by_cases hv : g.visited.lookup e.1 ≠ 0
  · rw [relaxEdge_visited u g ntp e hv]
    have hfe : st.fin e.1 = true := by
      by_cases heu : e.1 = u
      · rw [heu]; exact hS.fin_u
      · exact (hR.fin_eq e.1 heu).1 hv
    rw [aRelax_skip _ u st e (hS.no_gain hw e he hfe)]
    refine ⟨⟨hR.adj_eq, hR.dist_eq, hR.par_eq, ?_, hR.ntp_mem⟩, ?_⟩
    · intro v hvu2
      simp only [lookup_touch]
      exact hR.fin_eq v hvu2
    · simp only [lookup_touch]; exact hvu
  · have hv0 : g.visited.lookup e.1 = 0 := not_not.1 hv
    have heu : e.1 ≠ u := by
      intro h; rw [h] at hv0; exact hvu hv0
    have hnf : st.fin e.1 = false := by
      cases hfe : st.fin e.1 with
      | false => rfl
      | true => exact absurd ((hR.fin_eq e.1 heu).2 hfe) hv
    have hdu : st.dist u < INF := hS.core.fin_lt u hS.fin_u
    have hgu : g.dist u = st.dist u := hR.dist_eq u
    have hsum := hS.core.sum_lt_unsettled hb u hS.fin_u e he rfl hnf
    have h0 : 0 ≤ st.dist u + e.2 := by
      have := (hS.core.range u).1
      have := hw u e he
      omega
    obtain ⟨h1, h2, h3, h4, h5⟩ := relaxEdge_fresh u g ntp e hv0 (by rw [hgu]; exact hdu)
    rw [hgu, wrapInt_id _ h0 hsum, hR.dist_eq e.1] at h4 h5
    refine ⟨⟨?_, ?_, ?_, ?_, ?_⟩, ?_⟩
    · intro v; rw [h2]; exact hR.adj_eq v
    · intro v
      rw [h4 v]
      unfold aRelax
      by_cases hc : st.dist u + e.2 < st.dist e.1
      · by_cases hve : v = e.1
        · simp [hc, hve, upd]
        · simp [hc, hve, upd, hR.dist_eq v]
      · simp [hc, hR.dist_eq v]
    · intro v
      rw [h5 v]
      unfold aRelax
      by_cases hc : st.dist u + e.2 < st.dist e.1
      · by_cases hve : v = e.1
        · simp [hc, hve, upd]
        · simp [hc, hve, upd, hR.par_eq v]
      · simp [hc, hR.par_eq v]
    · intro v hvu2
      rw [h3 v, aRelax_fin]
      exact hR.fin_eq v hvu2
    · intro v hvu2
      rw [h1, mem_setInsert, aRelax_fin]
      have hrel := (hS.settle_step hw e he).done e (by simp) rfl
      have hdu2 : (aRelax (fun _ => true) u st e).dist u = st.dist u := by
        unfold aRelax
        by_cases hc : st.dist u + e.2 < st.dist e.1
        · simp [hc, upd, Ne.symm heu]
        · simp [hc]
      rw [hdu2] at hrel
      by_cases hve : v = e.1
      · rw [hve]
        constructor
        · intro _; exact ⟨hnf, by omega⟩
        · intro _; exact Or.inl rfl
      · have hdv : (aRelax (fun _ => true) u st e).dist v = st.dist v := by
          unfold aRelax
          by_cases hc : st.dist u + e.2 < st.dist e.1
          · simp [hc, upd, hve]
          · simp [hc]
        rw [hdv, ← hR.ntp_mem v hvu2]
        constructor
        · rintro (h | h)
          · exact absurd h hve
          · exact h
        · exact Or.inr
    · rw [h3 u]; exact hvu

/-- The entries of the selected node: the `for` loop does what settling does. -/
theorem relax_fold_sim {adj : Adj} {s root u : Int} (hw : NonNegWeights adj)
    (hb : PathSumsBelow adj (fun x => ((fun _ => true) : Int → Bool) x = true) s)
    (l2 : List (Int × Int)) :
    ∀ (l1 : List (Int × Int)) (st : DState) (g : Graph) (ntp : List Int),
      (∀ e ∈ l2, e ∈ adj u) → SInv adj (fun _ => true) s root u l1 st →
      DRel adj g ntp u st → g.visited.lookup u ≠ 0 →
      DRel adj (l2.foldl (relaxEdge u) (g, ntp)).1 (l2.foldl (relaxEdge u) (g, ntp)).2 u
        (l2.foldl (aRelax (fun _ => true) u) st) ∧
      (l2.foldl (relaxEdge u) (g, ntp)).1.visited.lookup u ≠ 0 := by
  induction l2 with
  | nil => intro l1 st g ntp _ _ hR hvu; exact ⟨hR, hvu⟩
  | cons e rest ih =>
    intro l1 st g ntp hmem hS hR hvu
    have he := hmem e (by simp)
    have h1 := eap_relaxEdge_sim hS hR hvu hw hb e he
    have h2 := hS.settle_step hw e he
    simp only [List.foldl_cons]
    exact ih (l1 ++ [e]) _ (relaxEdge u (g, ntp) e).1 (relaxEdge u (g, ntp) e).2
      (fun a ha => hmem a (by simp only [List.mem_cons]; exact Or.inr ha)) h2 h1.1 h1.2

/-- The selection loop returns the graph it was given and a frontier node of least
distance. -/
theorem eap_pick_fold (g : Graph) (l : List Int) :
    ∀ (M c : Int), (∀ v ∈ l, g.dist v < INF) →
      ∃ M2 c2, l.foldl pickStep (g, M, c) = (g, M2, c2) ∧ M2 ≤ M ∧
        (∀ v ∈ l, M2 ≤ g.dist v) ∧ ((M2 = M ∧ c2 = c) ∨ (c2 ∈ l ∧ M2 = g.dist c2)) := by
  induction l with
  | nil => intro M c _; exact ⟨M, c, rfl, le_refl _, by simp, Or.inl ⟨rfl, rfl⟩⟩
  | cons a rest ih =>
    intro M c hl
    have ha := hl a (by simp)
    have ht : g.distance.touch a = g.distance := touch_of_some _ _ _ (some_of_dist_lt g a ha)
    have hla := lookup_of_dist_lt g a ha
    have hrest : ∀ v ∈ rest, g.dist v < INF :=
      fun v hv => hl v (by simp only [List.mem_cons]; exact Or.inr hv)
    simp only [List.foldl_cons, pickStep, ht, hla]
    by_cases hc : g.dist a < M
    · simp only [hc, if_true]
      obtain ⟨M2, c2, h1, h2, h3, h4⟩ := ih (g.dist a) a hrest
      refine ⟨M2, c2, h1, by omega, ?_, ?_⟩
      · intro v hv
        rcases List.mem_cons.1 hv with h | h
        · rw [h]; exact h2
        · exact h3 v h
      · right
        rcases h4 with ⟨h5, h6⟩ | ⟨h5, h6⟩
        · rw [h6, h5]; exact ⟨by simp, rfl⟩
        · exact ⟨by simp only [List.mem_cons]; exact Or.inr h5, h6⟩
    · simp only [hc, if_false]
      obtain ⟨M2, c2, h1, h2, h3, h4⟩ := ih M c hrest
      refine ⟨M2, c2, h1, h2, ?_, ?_⟩
      · intro v hv
        rcases List.mem_cons.1 hv with h | h
        · rw [h]; omega
        · exact h3 v h
      · rcases h4 with h5 | ⟨h5, h6⟩
        · exact Or.inl h5
        · exact Or.inr ⟨by simp only [List.mem_cons]; exact Or.inr h5, h6⟩

end Eap

namespace Eap

/-- The `while(true)` loop of `Dijkstra` returns, with distances and parents as the
relaxation scheme leaves them when nothing is left to process. -/
theorem eap_loop_correct {adj : Adj} {s root : Int} (U : List Int) (hU : ClosedUnder adj U)
    (hsU : s ∈ U) (hw : NonNegWeights adj)
    (hb : PathSumsBelow adj (fun x => ((fun _ => true) : Int → Bool) x = true) s) :
    ∀ (n : Nat) (g : Graph) (ntp : List Int) (src : Int) (st : DState),
      (U.filter (fun v => !st.fin v)).length ≤ n →
      DInv adj (fun _ => true) s root st → DRel adj g ntp src st →
      st.fin src = false → st.dist src < INF →
      (∀ v, st.fin v = false → st.dist src ≤ st.dist v) →
      ∃ g2 st2, DijkstraLoop (n + 1) g ntp src = some g2 ∧
        DInv adj (fun _ => true) s root st2 ∧ DClosed st2 ∧
        (∀ v, g2.dist v = st2.dist v) ∧ (∀ v, g2.parent.lookup v = st2.par v) := by
  intro n
  induction n with
  | zero =>
    intro g ntp src st hn hI _ hf hd _
    exfalso
    obtain ⟨c, hc⟩ := hI.core.chain src hd
    have hmem : src ∈ U := by
      have := walkEnd_in_closed adj U hU c s hsU hc.walk
      rwa [hc.last] at this
    have : src ∈ U.filter (fun v => !st.fin v) := by
      simp [List.mem_filter, hmem, hf]
    have := List.length_pos_of_mem this
    omega
  | succ k ih =>
    intro g ntp src st hn hI hR hf hd hmin
    obtain ⟨c, hc⟩ := hI.core.chain src hd
    have hmem : src ∈ U := by
      have := walkEnd_in_closed adj U hU c s hsU hc.walk
      rwa [hc.last] at this
    -- the graph and the state after marking the selected node
    have hS0 := SInv.settle_start hI hf hd hmin
    have hR0 : DRel adj
        { g with visited := g.visited.set src 1, adj_weighted := g.adj_weighted.touch src }
        ntp src (aMark src st) := by
      refine ⟨?_, hR.dist_eq, hR.par_eq, ?_, ?_⟩
      · intro v; simp only [lookup_touch]; exact hR.adj_eq v
      · intro v hv
        simp only [lookup_set, hv, if_false]
        rw [aMark_fin]
        constructor
        · intro h; exact Or.inr ((hR.fin_eq v hv).1 h)
        · rintro (h | h)
          · exact absurd h hv
          · exact (hR.fin_eq v hv).2 h
      · intro v hv
        rw [hR.ntp_mem v hv]
        have : (aMark src st).fin v = st.fin v := by simp [aMark, upd, hv]
        rw [this]; rfl
    have hadj : ({ g with visited := g.visited.set src 1, adj_weighted := g.adj_weighted.touch src } : Graph).adj_weighted.lookup src = adj src := by
      simp only [lookup_touch]; exact hR.adj_eq src
    have hvis : ({ g with visited := g.visited.set src 1, adj_weighted := g.adj_weighted.touch src } : Graph).visited.lookup src ≠ 0 := by
      simp [lookup_set]
    have hfold := relax_fold_sim hw hb (adj src) [] (aMark src st) _ ntp
      (fun e he => he) hS0 hR0 hvis
    have hI2 : DInv adj (fun _ => true) s root (aSettle adj (fun _ => true) src st) :=
      hI.settle hw hf hd hmin
    have hfin2 : (aSettle adj (fun _ => true) src st).fin = upd st.fin src true :=
      aSettle_fin _ _ _ _
    have hfs : (aSettle adj (fun _ => true) src st).fin src = true := by
      rw [hfin2]; simp [upd]
    -- unfold one round of the loop
    have hunf : DijkstraLoop (k + 1 + 1) g ntp src =
        (let st1 := (adj src).foldl (relaxEdge src)
            ({ g with visited := g.visited.set src 1, adj_weighted := g.adj_weighted.touch src }, ntp)
         let ntp2 := setErase src st1.2
         if ntp2 = [] then some st1.1
         else
           let sel := ntp2.foldl pickStep (st1.1, INF, src)
           DijkstraLoop (k + 1) sel.1 ntp2 sel.2.2) := by
      rw [DijkstraLoop]
      simp only [hadj]
    rw [hunf]
    generalize hst1 : (adj src).foldl (relaxEdge src)
        ({ g with visited := g.visited.set src 1, adj_weighted := g.adj_weighted.touch src }, ntp) = st1 at hfold ⊢
    have hRel := hfold.1
    have hvis2 := hfold.2
    change DRel adj st1.1 st1.2 src (aSettle adj (fun _ => true) src st) at hRel
    have hntp : ∀ v, v ∈ setErase src st1.2 ↔
        ((aSettle adj (fun _ => true) src st).fin v = false ∧
          (aSettle adj (fun _ => true) src st).dist v < INF) := by
      intro v
      rw [mem_setErase]
      by_cases hv : v = src
      · rw [hv, hfs]; simp
      · rw [hRel.ntp_mem v hv]; simp [hv]
    simp only
    by_cases hemp : setErase src st1.2 = []
    · rw [if_pos hemp]
      refine ⟨st1.1, _, rfl, hI2, ?_, hRel.dist_eq, hRel.par_eq⟩
      intro v hv
      cases hfv : (aSettle adj (fun _ => true) src st).fin v with
      | true => rfl
      | false =>
        have := (hntp v).2 ⟨hfv, hv⟩
        rw [hemp] at this
        simp at this
    · rw [if_neg hemp]
      have hall : ∀ v ∈ setErase src st1.2, st1.1.dist v < INF := by
        intro v hv
        rw [hRel.dist_eq v]; exact ((hntp v).1 hv).2
      obtain ⟨M2, c2, h1, h2, h3, h4⟩ := eap_pick_fold st1.1 (setErase src st1.2) INF src hall
      rw [h1]
      simp only
      have hc2 : c2 ∈ setErase src st1.2 ∧ M2 = st1.1.dist c2 := by
        rcases h4 with ⟨h5, _⟩ | h5
        · exfalso
          obtain ⟨a, ha⟩ := List.exists_mem_of_ne_nil _ hemp
          have := h3 a ha
          have := hall a ha
          omega
        · exact h5
      have hc2s := (hntp c2).1 hc2.1
      have hR2 : DRel adj st1.1 (setErase src st1.2) c2
          (aSettle adj (fun _ => true) src st) := by
        refine ⟨hRel.adj_eq, hRel.dist_eq, hRel.par_eq, ?_, fun v _ => hntp v⟩
        intro v _
        by_cases hv : v = src
        · rw [hv, hfs]; simp [hvis2]
        · exact hRel.fin_eq v hv
      have hmin2 : ∀ v, (aSettle adj (fun _ => true) src st).fin v = false →
          (aSettle adj (fun _ => true) src st).dist c2 ≤
            (aSettle adj (fun _ => true) src st).dist v := by
        intro v hv
        rw [← hRel.dist_eq c2, ← hc2.2]
        by_cases hlt : (aSettle adj (fun _ => true) src st).dist v < INF
        · have := h3 v ((hntp v).2 ⟨hv, hlt⟩)
          rw [hRel.dist_eq v] at this
          exact this
        · have := (hI2.core.range v).2
          omega
      have hmeas : (U.filter (fun v => !(aSettle adj (fun _ => true) src st).fin v)).length
          ≤ k := by
        rw [hfin2]
        have := unsettled_lt U st.fin src hmem hf
        omega
      exact ih st1.1 (setErase src st1.2) c2 _ hmeas hI2 hR2 hc2s.1 hc2s.2 hmin2

/-- The routine `Dijkstra` on a graph without traversal data returns, every node that can be reached
holding the minimum path weight, realised by its tree path. -/
theorem eap_dijkstra_correct (g : Graph) (s root : Int) (U : List Int)
    (hU : ClosedUnder g.wadj U) (hsU : s ∈ U) (hw : NonNegWeights g.wadj)
    (hb : PathSumsBelow g.wadj (fun _ => True) s)
    (hd0 : ∀ v, g.distance v = none) (hv0 : ∀ v, g.visited v = none) :
    ∃ g2 st2, Dijkstra (U.length + 1) g s root = some g2 ∧
      DInv g.wadj (fun _ => true) s root st2 ∧ DClosed st2 ∧
      (∀ v, g2.dist v = st2.dist v) ∧ (∀ v, g2.parent.lookup v = st2.par v) := by
  have hb2 : PathSumsBelow g.wadj (fun x => ((fun _ => true) : Int → Bool) x = true) s :=
    hb.sums_mono (fun _ _ => trivial)
  have hI := DInv.dist_init g.wadj (fun _ => true) s root (fun v => g.parent.lookup v) rfl
  have hR : DRel g.wadj
      { g with visited := g.visited.set s 1, distance := g.distance.set s 0, parent := g.parent.set s root } [] s
      (aInit s root (fun v => g.parent.lookup v)) := by
    refine ⟨fun _ => rfl, ?_, ?_, ?_, ?_⟩
    · intro v
      by_cases hv : v = s
      · simp [Graph.dist, IntMap.set, aInit, upd, hv]
      · simp [Graph.dist, IntMap.set, aInit, upd, hv, hd0 v]
    · intro v
      by_cases hv : v = s
      · simp [lookup_set, aInit, upd, hv]
      · simp [lookup_set, aInit, upd, hv]
    · intro v hv
      simp [lookup_set, hv, aInit, IntMap.lookup, IntMap.set, hv0 v]
    · intro v hv
      simp [aInit, upd, hv]
  have hmeas : (U.filter (fun v => !(aInit s root (fun v => g.parent.lookup v)).fin v)).length
      ≤ U.length := List.length_filter_le _ _
  have hds : (aInit s root (fun v => g.parent.lookup v)).dist s = 0 := by simp [aInit, upd]
  exact eap_loop_correct U hU hsU hw hb2 U.length _ [] s _ hmeas hI hR rfl
    (by rw [hds]; simp [INF])
    (fun v _ => by rw [hds]; exact (hI.core.range v).1)

/-- The routine `GetPathLoop` walks a tree path back to its start and stops at the sentinel. -/
theorem getPathLoop_chain (src : Int) (s : Int) (steps : List (Int × Int)) :
    ∀ (g : Graph) (acc : List Int), ParOK (fun v => g.parent.lookup v) s steps →
      g.parent.lookup s = src → (∀ x ∈ walkNodes s steps, x ≠ src) →
      ∃ g2, GetPathLoop (steps.length + 2) g (walkEnd s steps) src acc =
          some (acc ++ (walkNodes s steps).reverse, g2) ∧
        ∀ v, g2.parent.lookup v = g.parent.lookup v := by
  induction steps using List.reverseRecOn with
  | nil =>
    intro g acc _ hroot hne
    have hs : s ≠ src := hne s (by simp [walkNodes])
    refine ⟨{ g with parent := g.parent.touch s }, ?_, fun v => lookup_touch _ _ _⟩
    simp [GetPathLoop, walkEnd, walkNodes, hs, lookup_touch, hroot]
  | append_singleton l e ih =>
    intro g acc hp hroot hne
    rw [parOK_snoc] at hp
    have he : e.1 ≠ src := hne e.1 (by rw [walkNodes_snoc]; simp)
    have hp2 : ParOK (fun v => ({ g with parent := g.parent.touch e.1 } : Graph).parent.lookup v)
        s l := by
      simp only [lookup_touch]; exact hp.1
    obtain ⟨g2, h1, h2⟩ := ih { g with parent := g.parent.touch e.1 } (acc ++ [e.1]) hp2
      (by simp only [lookup_touch]; exact hroot)
      (fun x hx => hne x (by rw [walkNodes_snoc]; exact List.mem_append_left _ hx))
    refine ⟨g2, ?_, fun v => by rw [h2 v]; exact lookup_touch _ _ _⟩
    have hend : walkEnd s (l ++ [e]) = e.1 := by simp [walkEnd_append, walkEnd]
    rw [hend, List.length_append, List.length_singleton, GetPathLoop]
    simp only [ne_eq, he, not_false_eq_true, if_true, lookup_touch]
    have hpe : g.parent.lookup e.1 = walkEnd s l := hp.2
    rw [hpe, h1, walkNodes_snoc]
    simp

/-- The routine `GetPath` returns the tree path of a node, source first. -/
theorem getPath_chain (src : Int) (s : Int) (steps : List (Int × Int)) (g : Graph)
    (hp : ParOK (fun v => g.parent.lookup v) s steps) (hroot : g.parent.lookup s = src)
    (hne : ∀ x ∈ walkNodes s steps, x ≠ src) :
    ∃ g2, GetPath (steps.length + 2) g (walkEnd s steps) src =
      some (walkNodes s steps, g2) := by
  obtain ⟨g2, h1, _⟩ := getPathLoop_chain src s steps g [] hp hroot hne
  exact ⟨g2, by simp [GetPath, h1]⟩

end Eap

/-! ## Bounds on path sums -/

theorem walkNodes_in_closed (adj : Adj) (U : List Int) (hU : ClosedUnder adj U)
    (l : List (Int × Int)) (u : Int) (hu : u ∈ U) (h : IsWalk adj u l) :
    ∀ x ∈ walkNodes u l, x ∈ U := by
  induction l generalizing u with
  | nil => intro x hx; simp only [walkNodes, List.map_nil, List.mem_singleton] at hx; rw [hx]; exact hu
  | cons e rest ih =>
    intro x hx
    simp only [walkNodes, List.map_cons, List.mem_cons] at hx
    rcases hx with hx | hx
    · rw [hx]; exact hu
    · exact ih e.1 (hU u hu e h.1) h.2 x (by simp only [walkNodes, List.mem_cons]; exact hx)

theorem walkWeight_le (adj : Adj) (U : List Int) (W : Int) (hU : ClosedUnder adj U)
    (hW : ∀ u ∈ U, ∀ e ∈ adj u, e.2 ≤ W) (l : List (Int × Int)) (u : Int) (hu : u ∈ U)
    (h : IsWalk adj u l) : walkWeight l ≤ l.length * W := by
  induction l generalizing u with
  | nil => simp [walkWeight]
  | cons e rest ih =>
    have h1 := hW u hu e h.1
    have h2 := ih e.1 (hU u hu e h.1) h.2
    rw [walkWeight_cons]
    simp only [List.length_cons, Nat.cast_add, Nat.cast_one]
    nlinarith

theorem nodup_length_le (l U : List Int) (hn : l.Nodup) (hs : ∀ x ∈ l, x ∈ U) :
    l.length ≤ U.length :=
  (List.subperm_of_subset hn hs).length_le

/-- A structure on the nodes `U` whose weights are at most `W`, with `|U| * W` below
`0x7FFFFFFF`: every path, also when continued by one more entry, stays below. -/
theorem pathPlusEdgeBelow_of_bound (adj : Adj) (U : List Int) (W : Int) (s : Int)
    (hU : ClosedUnder adj U) (hs : s ∈ U) (hW : ∀ u ∈ U, ∀ e ∈ adj u, e.2 ≤ W)
    (h0 : 0 ≤ W) (hlt : U.length * W < INF) : PathPlusEdgeBelow adj (fun _ => True) s := by
  intro steps hsim e he _
  have h1 := walkWeight_le adj U W hU hW steps s hs hsim.1
  have h2 := nodup_length_le _ U hsim.2.1 (walkNodes_in_closed adj U hU steps s hs hsim.1)
  have h3 : e.2 ≤ W := hW _ (walkEnd_in_closed adj U hU steps s hs hsim.1) e he
  simp only [walkNodes, List.length_cons, List.length_map] at h2
  have h4 : ((steps.length : Int) + 1) * W ≤ U.length * W := by
    apply mul_le_mul_of_nonneg_right _ h0
    exact_mod_cast h2
  linarith

theorem pathSumsBelow_of_bound (adj : Adj) (U : List Int) (W : Int) (s : Int)
    (hU : ClosedUnder adj U) (hs : s ∈ U) (hW : ∀ u ∈ U, ∀ e ∈ adj u, e.2 ≤ W)
    (h0 : 0 ≤ W) (hlt : ((U.length : Int) - 1) * W < INF) :
    PathSumsBelow adj (fun _ => True) s := by
  intro steps hsim
  have h1 := walkWeight_le adj U W hU hW steps s hs hsim.1
  have h2 := nodup_length_le _ U hsim.2.1 (walkNodes_in_closed adj U hU steps s hs hsim.1)
  simp only [walkNodes, List.length_cons, List.length_map] at h2
  have h4 : (steps.length : Int) * W ≤ ((U.length : Int) - 1) * W := by
    apply mul_le_mul_of_nonneg_right _ h0
    omega
  linarith

theorem IsPathTo.path_congr {adj : Adj} {P Q : Int → Prop} {s v : Int} {steps : List (Int × Int)}
    (h : IsPathTo adj P s v steps) (hPQ : ∀ x, P x → Q x) : IsPathTo adj Q s v steps :=
  ⟨h.1, h.2.1, fun x hx => hPQ x (h.2.2 x hx)⟩

theorem IsMinWeight.weight_congr {adj : Adj} {P Q : Int → Prop} {s v d : Int}
    (h : IsMinWeight adj P s v d) (hPQ : ∀ x, P x ↔ Q x) : IsMinWeight adj Q s v d := by
  obtain ⟨⟨p, hp, hpw⟩, hl⟩ := h
  exact ⟨⟨p, hp.path_congr (fun x => (hPQ x).1), hpw⟩,
    fun q hq => hl q (hq.path_congr (fun x => (hPQ x).2))⟩

theorem Reach.reach_congr {adj : Adj} {P Q : Int → Prop} {s v : Int}
    (h : Reach adj P s v) (hPQ : ∀ x, P x → Q x) : Reach adj Q s v := by
  obtain ⟨p, hp⟩ := h
  exact ⟨p, hp.path_congr hPQ⟩

namespace Eap

/-! ## eap.cpp: graphs built by `add_edge` -/

/-- The end points of the edges. -/
theorem eap_wadj_add_edge (g : Graph) (a b w u : Int) :
    (g.add_edge_weighted a b w).wadj u =
      g.wadj u ++ (if u = a then [(b, w)] else []) ++ (if u = b then [(a, w)] else []) := by
  by_cases ha : u = a
  · by_cases hab : a = b
    · subst ha; subst hab
      simp [Graph.add_edge_weighted, Graph.wadj, lookup_set, lookup_touch]
    · have hb : u ≠ b := by rw [ha]; exact hab
      subst ha
      simp [Graph.add_edge_weighted, Graph.wadj, lookup_set, lookup_touch, hab]
  · by_cases hb : u = b
    · subst hb
      simp [Graph.add_edge_weighted, Graph.wadj, lookup_set, lookup_touch, ha]
    · simp [Graph.add_edge_weighted, Graph.wadj, lookup_set, lookup_touch, ha, hb]

theorem wadj_fold (edges : List (Int × Int × Int)) :
    ∀ (g : Graph) (u : Int) (e : Int × Int),
      e ∈ (edges.foldl (fun g e => g.add_edge_weighted e.1 e.2.1 e.2.2) g).wadj u →
      e ∈ g.wadj u ∨ ∃ x ∈ edges, e.2 = x.2.2 ∧ (e.1 = x.1 ∨ e.1 = x.2.1) := by
  induction edges with
  | nil => intro g u e h; exact Or.inl h
  | cons x rest ih =>
    intro g u e h
    simp only [List.foldl_cons] at h
    rcases ih _ u e h with h1 | ⟨y, hy, h2⟩
    · rw [eap_wadj_add_edge] at h1
      simp only [List.mem_append] at h1
      rcases h1 with (h1 | h1) | h1
      · exact Or.inl h1
      · right
        refine ⟨x, by simp, ?_⟩
        split at h1
        · simp only [List.mem_singleton] at h1; rw [h1]; exact ⟨rfl, Or.inr rfl⟩
        · simp at h1
      · right
        refine ⟨x, by simp, ?_⟩
        split at h1
        · simp only [List.mem_singleton] at h1; rw [h1]; exact ⟨rfl, Or.inl rfl⟩
        · simp at h1
    · exact Or.inr ⟨y, by simp only [List.mem_cons]; exact Or.inr hy, h2⟩

theorem fold_fields (edges : List (Int × Int × Int)) :
    ∀ (g : Graph),
      (edges.foldl (fun g e => g.add_edge_weighted e.1 e.2.1 e.2.2) g).distance = g.distance ∧
      (edges.foldl (fun g e => g.add_edge_weighted e.1 e.2.1 e.2.2) g).visited = g.visited ∧
      (edges.foldl (fun g e => g.add_edge_weighted e.1 e.2.1 e.2.2) g).parent = g.parent := by
  induction edges with
  | nil => intro g; exact ⟨rfl, rfl, rfl⟩
  | cons x rest ih =>
    intro g
    simp only [List.foldl_cons]
    obtain ⟨h1, h2, h3⟩ := ih (g.add_edge_weighted x.1 x.2.1 x.2.2)
    exact ⟨h1, h2, h3⟩

/-- The nodes named by a list of weighted edges. -/
theorem wadj_build (edges : List (Int × Int × Int)) (u : Int) (e : Int × Int)
    (h : e ∈ (buildWeighted edges).wadj u) :
    ∃ x ∈ edges, e.2 = x.2.2 ∧ (e.1 = x.1 ∨ e.1 = x.2.1) := by
  rcases wadj_fold edges Graph.fresh u e h with h1 | h1
  · have : (Graph.fresh.wadj u) = [] := rfl
    rw [this] at h1
    simp at h1
  · exact h1

end Eap

theorem vec_get_set {α : Type} (v : Vec α) (i j : Int) (x : α) :
    (v.set i x).get j = if j = i then x else v.get j := rfl

theorem mem_intRange (n : Int) (v : Int) : v ∈ intRange n ↔ 0 ≤ v ∧ v < n := by
  unfold intRange
  simp only [List.mem_map, List.mem_range, Int.ofNat_eq_coe]
  constructor
  · rintro ⟨k, hk, rfl⟩
    omega
  · rintro ⟨h0, h1⟩
    exact ⟨v.toNat, by omega, by omega⟩

theorem length_intRange (n : Int) : (intRange n).length = n.toNat := by
  simp [intRange]

/-- A path sum is a sum of one shorter path and one entry. -/
theorem PathPlusEdgeBelow.sums {adj : Adj} {ok : Int → Prop} {s : Int}
    (h : PathPlusEdgeBelow adj ok s) : PathSumsBelow adj ok s := by
  intro steps hs
  induction steps using List.reverseRecOn with
  | nil => simp [walkWeight, INF]
  | append_singleton l e _ =>
    obtain ⟨hwalk, hnodup, hok⟩ := hs
    rw [isWalk_append] at hwalk
    rw [walkNodes_snoc] at hnodup hok
    have hl : IsSimpleFrom adj ok s l :=
      ⟨hwalk.1, (List.nodup_append.1 hnodup).1, fun x hx => hok x (List.mem_append_left _ hx)⟩
    have := h l hl e hwalk.2.1 (hok e.1 (by simp))
    rw [walkWeight_append, walkWeight_cons, walkWeight_nil]
    omega

namespace Main

theorem Graph.Valid.closed {g : Graph} (h : g.Valid) :
    ClosedUnder g.wadj (intRange g.adj_weighted.size) := h.2.2.2

theorem Graph.IsNode.mem {g : Graph} {v : Int} (h : g.IsNode v) :
    v ∈ intRange g.adj_weighted.size := (mem_intRange _ _).2 h

end Main

namespace Eaf

open NodeState

/-- What `relaxEdge` does to a node that is visited or an obstacle. -/
theorem eaf_relaxEdge_skip (u : Int) (g : Main.Graph) (ntp : List Int) (e : Int × Int)
    (h : g.state.get e.1 = Visited ∨ g.state.get e.1 = Obstacle) :
    relaxEdge u (g, ntp) e = (g, ntp) := by
  simp [relaxEdge, h]

/-- What `relaxEdge` does to any other node. -/
theorem eaf_relaxEdge_go (u : Int) (g : Main.Graph) (ntp : List Int) (e : Int × Int)
    (h : ¬ (g.state.get e.1 = Visited ∨ g.state.get e.1 = Obstacle)) :
    relaxEdge u (g, ntp) e =
      (if wrapInt (g.distance.get u + e.2) < g.distance.get e.1 then
        { g with distance := g.distance.set e.1 (wrapInt (g.distance.get u + e.2)),
                 parent := g.parent.set e.1 u }
       else g, setInsert e.1 ntp) := by
  simp only [relaxEdge, h, if_false]
  split <;> rfl

/-- One entry: `relaxEdge` does what the relaxation scheme does. -/
theorem eaf_relaxEdge_sim {adj : Adj} {ok : Int → Bool} {s root u : Int} {st : DState}
    {g : Main.Graph} {ntp : List Int}
    (hcore : DCore adj ok s root st) (hfu : st.fin u = true)
    (hR : DRel adj ok s g ntp u st) (hw : NonNegWeights adj)
    (hb : PathPlusEdgeBelow adj (fun x => ok x = true) s)
    (e : Int × Int) (he : e ∈ adj u)
    (hng : st.fin e.1 = true → ¬ (ok e.1 = true ∧ st.dist u + e.2 < st.dist e.1)) :
    DRel adj ok s (relaxEdge u (g, ntp) e).1 (relaxEdge u (g, ntp) e).2 u
        (aRelax ok u st e) ∧
      (relaxEdge u (g, ntp) e).1.state = g.state ∧
      (relaxEdge u (g, ntp) e).1.found = g.found := by
  by_cases hskip : g.state.get e.1 = Visited ∨ g.state.get e.1 = Obstacle
  · rw [eaf_relaxEdge_skip u g ntp e hskip]
    have hes : e.1 ≠ s := by
      intro h
      rw [h, hR.state_s] at hskip
      rcases hskip with h1 | h1 <;> exact absurd h1 (by decide)
    have hno : ¬ (ok e.1 = true ∧ st.dist u + e.2 < st.dist e.1) := by
      rcases hskip with h1 | h1
      · apply hng
        by_cases heu : e.1 = u
        · rw [heu]; exact hfu
        · exact (hR.vis e.1 heu).2 (Or.inr h1)
      · intro hc
        have := (hR.obst e.1 hes).1 h1
        rw [this] at hc
        exact absurd hc.1 (by simp)
    rw [aRelax_skip ok u st e hno]
    exact ⟨hR, rfl, rfl⟩
  · rw [eaf_relaxEdge_go u g ntp e hskip]
    have hnv : g.state.get e.1 ≠ Visited := fun h => hskip (Or.inl h)
    have hnob : g.state.get e.1 ≠ Obstacle := fun h => hskip (Or.inr h)
    have hok : ok e.1 = true := by
      by_cases hes : e.1 = s
      · rw [hes]; exact hcore.ok_s
      · cases hoke : ok e.1 with
        | true => rfl
        | false => exact absurd ((hR.obst e.1 hes).2 hoke) hnob
    have hdu : st.dist u < INF := hcore.fin_lt u hfu
    have hsum := hcore.sum_lt hb u hdu e he hok
    have h0 : 0 ≤ st.dist u + e.2 := by
      have := (hcore.range u).1
      have := hw u e he
      omega
    rw [hR.dist_eq u, hR.dist_eq e.1, wrapInt_id _ h0 hsum]
    by_cases hc : st.dist u + e.2 < st.dist e.1
    · have hnf : st.fin e.1 = false := by
        cases hfe : st.fin e.1 with
        | false => rfl
        | true => exact absurd ⟨hok, hc⟩ (hng hfe)
      have ha : aRelax ok u st e =
          { st with dist := upd st.dist e.1 (st.dist u + e.2), par := upd st.par e.1 u } := by
        simp only [aRelax, hok, hc, and_self, if_true]
      rw [ha]
      simp only [hc, if_true]
      refine ⟨⟨hR.adj_eq, ?_, ?_, hR.state_s, hR.start, hR.obst, hR.vis, ?_, ?_⟩, trivial, trivial⟩
      · intro v
        simp only [vec_get_set, upd]
        split
        · rfl
        · exact hR.dist_eq v
      · intro v
        simp only [vec_get_set, upd]
        split
        · rfl
        · exact hR.par_eq v
      · intro v hvs hvu
        rw [mem_setInsert]
        by_cases hve : v = e.1
        · rw [hve]
          simp only [upd, if_true, true_or, true_iff]
          exact ⟨hnf, hsum⟩
        · simp only [upd, hve, if_false, false_or]
          exact hR.ntp_mem v hvs hvu
      · intro v hv
        rw [mem_setInsert] at hv
        by_cases hve : v = e.1
        · rw [hve]; simp only [upd, if_true]; exact hsum
        · simp only [upd, hve, if_false]
          rcases hv with h | h
          · exact absurd h hve
          · exact hR.ntp_s v h
    · have hno : ¬ (ok e.1 = true ∧ st.dist u + e.2 < st.dist e.1) := fun h => hc h.2
      rw [aRelax_skip ok u st e hno]
      simp only [hc, if_false]
      have hde : st.dist e.1 < INF := by omega
      refine ⟨⟨hR.adj_eq, hR.dist_eq, hR.par_eq, hR.state_s, hR.start, hR.obst, hR.vis,
        ?_, ?_⟩, trivial, trivial⟩
      · intro v hvs hvu
        rw [mem_setInsert]
        by_cases hve : v = e.1
        · rw [hve]
          simp only [true_or, true_iff]
          refine ⟨?_, hde⟩
          cases hfe : st.fin e.1 with
          | false => rfl
          | true =>
            rcases (hR.vis e.1 (by rw [← hve]; exact hvu)).1 hfe with h | h
            · exact absurd h (by rw [← hve]; exact hvs)
            · exact absurd h hnv
        · simp only [hve, false_or]
          exact hR.ntp_mem v hvs hvu
      · intro v hv
        rw [mem_setInsert] at hv
        rcases hv with h | h
        · rw [h]; exact hde
        · exact hR.ntp_s v h

/-- Settling: the `for` loop does what the relaxation scheme does. -/
theorem eaf_settle_fold_sim {adj : Adj} {ok : Int → Bool} {s root u : Int}
    (hw : NonNegWeights adj) (hb : PathPlusEdgeBelow adj (fun x => ok x = true) s)
    (l2 : List (Int × Int)) :
    ∀ (l1 : List (Int × Int)) (st : DState) (g : Main.Graph) (ntp : List Int),
      (∀ e ∈ l2, e ∈ adj u) → SInv adj ok s root u l1 st → DRel adj ok s g ntp u st →
      DRel adj ok s (l2.foldl (relaxEdge u) (g, ntp)).1 (l2.foldl (relaxEdge u) (g, ntp)).2 u
        (l2.foldl (aRelax ok u) st) ∧
      (l2.foldl (relaxEdge u) (g, ntp)).1.state = g.state ∧
      (l2.foldl (relaxEdge u) (g, ntp)).1.found = g.found := by
  induction l2 with
  | nil => intro l1 st g ntp _ _ hR; exact ⟨hR, rfl, rfl⟩
  | cons e rest ih =>
    intro l1 st g ntp hmem hS hR
    have he := hmem e (by simp)
    have h1 := eaf_relaxEdge_sim hS.core hS.fin_u hR hw hb e he (fun hf => hS.no_gain hw e he hf)
    have h2 := hS.settle_step hw e he
    simp only [List.foldl_cons]
    have h3 := ih (l1 ++ [e]) _ (relaxEdge u (g, ntp) e).1 (relaxEdge u (g, ntp) e).2
      (fun a ha => hmem a (by simp only [List.mem_cons]; exact Or.inr ha)) h2 h1.1
    exact ⟨h3.1, by rw [h3.2.1, h1.2.1], by rw [h3.2.2, h1.2.2]⟩

/-- Expanding a settled node again changes nothing but the frontier. -/
theorem eaf_again_fold_sim {adj : Adj} {ok : Int → Bool} {s root u : Int} {st : DState}
    (hI : DInv adj ok s root st) (hfu : st.fin u = true)
    (hw : NonNegWeights adj) (hb : PathPlusEdgeBelow adj (fun x => ok x = true) s)
    (l2 : List (Int × Int)) :
    ∀ (g : Main.Graph) (ntp : List Int),
      (∀ e ∈ l2, e ∈ adj u) → DRel adj ok s g ntp u st →
      DRel adj ok s (l2.foldl (relaxEdge u) (g, ntp)).1 (l2.foldl (relaxEdge u) (g, ntp)).2 u
        st ∧
      (l2.foldl (relaxEdge u) (g, ntp)).1.state = g.state ∧
      (l2.foldl (relaxEdge u) (g, ntp)).1.found = g.found := by
  induction l2 with
  | nil => intro g ntp _ hR; exact ⟨hR, rfl, rfl⟩
  | cons e rest ih =>
    intro g ntp hmem hR
    have he := hmem e (by simp)
    have hno : ¬ (ok e.1 = true ∧ st.dist u + e.2 < st.dist e.1) := by
      intro hc
      have := hI.relaxed u hfu e he hc.1
      omega
    have h1 := eaf_relaxEdge_sim hI.core hfu hR hw hb e he (fun _ => hno)
    rw [aRelax_skip ok u st e hno] at h1
    simp only [List.foldl_cons]
    have h3 := ih (relaxEdge u (g, ntp) e).1 (relaxEdge u (g, ntp) e).2
      (fun a ha => hmem a (by simp only [List.mem_cons]; exact Or.inr ha)) h1.1
    exact ⟨h3.1, by rw [h3.2.1, h1.2.1], by rw [h3.2.2, h1.2.2]⟩

/-- The selection loop returns a frontier node of least distance. -/
theorem eaf_pick_fold (g : Main.Graph) (l : List Int) :
    ∀ (M c : Int),
      (l.foldl (pickStep g) (M, c)).1 ≤ M ∧
      (∀ v ∈ l, (l.foldl (pickStep g) (M, c)).1 ≤ g.distance.get v) ∧
      (l.foldl (pickStep g) (M, c) = (M, c) ∨
        ((l.foldl (pickStep g) (M, c)).2 ∈ l ∧
          (l.foldl (pickStep g) (M, c)).1 = g.distance.get (l.foldl (pickStep g) (M, c)).2)) := by
  induction l with
  | nil => intro M c; exact ⟨le_refl _, by simp, Or.inl rfl⟩
  | cons a rest ih =>
    intro M c
    simp only [List.foldl_cons]
    by_cases hc : g.distance.get a < M
    · have hp : pickStep g (M, c) a = (g.distance.get a, a) := by simp [pickStep, hc]
      rw [hp]
      obtain ⟨h2, h3, h4⟩ := ih (g.distance.get a) a
      refine ⟨by omega, ?_, ?_⟩
      · intro v hv
        rcases List.mem_cons.1 hv with h | h
        · rw [h]; exact h2
        · exact h3 v h
      · right
        rcases h4 with h5 | ⟨h5, h6⟩
        · rw [h5]; exact ⟨by simp, rfl⟩
        · exact ⟨by simp only [List.mem_cons]; exact Or.inr h5, h6⟩
    · have hp : pickStep g (M, c) a = (M, c) := by simp [pickStep, hc]
      rw [hp]
      obtain ⟨h2, h3, h4⟩ := ih M c
      refine ⟨h2, ?_, ?_⟩
      · intro v hv
        rcases List.mem_cons.1 hv with h | h
        · rw [h]; omega
        · exact h3 v h
      · rcases h4 with h5 | ⟨h5, h6⟩
        · exact Or.inl h5
        · exact Or.inr ⟨by simp only [List.mem_cons]; exact Or.inr h5, h6⟩

theorem sorted_setInsert (k : Int) (l : List Int) (h : l.Sorted (fun a b => a ≤ b)) :
    (setInsert k l).Sorted (fun a b => a ≤ b) := by
  unfold setInsert
  split
  · exact h
  · exact h.orderedInsert k l

theorem sorted_setErase (k : Int) (l : List Int) (h : l.Sorted (fun a b => a ≤ b)) :
    (setErase k l).Sorted (fun a b => a ≤ b) := by
  unfold setErase
  exact h.filter _

/-- The `for` loop over the entries keeps the frontier in ascending order. -/
theorem eaf_relax_fold_sorted (u : Int) (l : List (Int × Int)) :
    ∀ (g : Main.Graph) (ntp : List Int), ntp.Sorted (fun a b => a ≤ b) →
      (l.foldl (relaxEdge u) (g, ntp)).2.Sorted (fun a b => a ≤ b) := by
  induction l with
  | nil => intro g ntp h; exact h
  | cons e rest ih =>
    intro g ntp h
    simp only [List.foldl_cons]
    by_cases hskip : g.state.get e.1 = Visited ∨ g.state.get e.1 = Obstacle
    · rw [eaf_relaxEdge_skip u g ntp e hskip]
      exact ih g ntp h
    · rw [eaf_relaxEdge_go u g ntp e hskip]
      exact ih _ _ (sorted_setInsert e.1 ntp h)

/-- On a frontier in ascending order the selection loop returns the node of least
distance and, among those, of least index. -/
theorem eaf_pick_first (g : Main.Graph) (l : List Int) :
    ∀ (M c : Int), l.Sorted (fun a b => a ≤ b) →
      (l.foldl (pickStep g) (M, c) = (M, c) ∧ ∀ v ∈ l, M ≤ g.distance.get v) ∨
        ((l.foldl (pickStep g) (M, c)).2 ∈ l ∧
          (l.foldl (pickStep g) (M, c)).1 = g.distance.get (l.foldl (pickStep g) (M, c)).2 ∧
          (l.foldl (pickStep g) (M, c)).1 < M ∧
          ∀ v ∈ l, (l.foldl (pickStep g) (M, c)).1 < g.distance.get v ∨
            ((l.foldl (pickStep g) (M, c)).1 = g.distance.get v ∧
              (l.foldl (pickStep g) (M, c)).2 ≤ v)) := by
  induction l with
  | nil => intro M c _; exact Or.inl ⟨rfl, by simp⟩
  | cons a rest ih =>
    intro M c hs
    have hrest : rest.Sorted (fun a b => a ≤ b) := (List.sorted_cons.1 hs).2
    have hle : ∀ v ∈ rest, a ≤ v := (List.sorted_cons.1 hs).1
    simp only [List.foldl_cons]
    by_cases hc : g.distance.get a < M
    · have hp : pickStep g (M, c) a = (g.distance.get a, a) := by simp [pickStep, hc]
      rw [hp]
      right
      rcases ih (g.distance.get a) a hrest with ⟨h1, h2⟩ | ⟨h1, h2, h3, h4⟩
      · rw [h1]
        refine ⟨by simp, rfl, hc, ?_⟩
        intro v hv
        rcases List.mem_cons.1 hv with h | h
        · rw [h]; exact Or.inr ⟨rfl, le_refl _⟩
        · have := h2 v h
          have := hle v h
          simp only
          omega
      · refine ⟨by simp only [List.mem_cons]; exact Or.inr h1, h2, by omega, ?_⟩
        intro v hv
        rcases List.mem_cons.1 hv with h | h
        · rw [h]; exact Or.inl h3
        · exact h4 v h
    · have hp : pickStep g (M, c) a = (M, c) := by simp [pickStep, hc]
      rw [hp]
      rcases ih M c hrest with ⟨h1, h2⟩ | ⟨h1, h2, h3, h4⟩
      · left
        refine ⟨h1, ?_⟩
        intro v hv
        rcases List.mem_cons.1 hv with h | h
        · rw [h]; omega
        · exact h2 v h
      · right
        refine ⟨by simp only [List.mem_cons]; exact Or.inr h1, h2, h3, ?_⟩
        intro v hv
        rcases List.mem_cons.1 hv with h | h
        · rw [h]; left; omega
        · exact h4 v h

end Eaf

namespace Main

/-! ## Graphs built by `add_edge` -/

theorem main_wadj_add_edge (g : Graph) (a b w u : Int) :
    (g.add_edge a b w).wadj u =
      g.wadj u ++ (if u = a then [(b, w)] else []) ++ (if u = b then [(a, w)] else []) := by
  by_cases ha : u = a
  · by_cases hab : a = b
    · subst ha; subst hab
      simp [Graph.add_edge, Graph.wadj, vec_get_set]
    · have hb : u ≠ b := by rw [ha]; exact hab
      subst ha
      simp [Graph.add_edge, Graph.wadj, vec_get_set, hab]
  · by_cases hb : u = b
    · subst hb
      simp [Graph.add_edge, Graph.wadj, vec_get_set, ha]
    · simp [Graph.add_edge, Graph.wadj, vec_get_set, ha, hb]

theorem wadj_addEdges (edges : List (Int × Int × Int)) :
    ∀ (g : Graph) (u : Int) (e : Int × Int), e ∈ (g.addEdges edges).wadj u →
      e ∈ g.wadj u ∨ ∃ x ∈ edges, e.2 = x.2.2 ∧ (e.1 = x.1 ∨ e.1 = x.2.1) := by
  induction edges with
  | nil => intro g u e h; exact Or.inl h
  | cons x rest ih =>
    intro g u e h
    rcases ih (g.add_edge x.1 x.2.1 x.2.2) u e h with h1 | ⟨y, hy, h2⟩
    · rw [main_wadj_add_edge] at h1
      simp only [List.mem_append] at h1
      rcases h1 with (h1 | h1) | h1
      · exact Or.inl h1
      · right
        refine ⟨x, by simp, ?_⟩
        split at h1
        · simp only [List.mem_singleton] at h1; rw [h1]; exact ⟨rfl, Or.inr rfl⟩
        · simp at h1
      · right
        refine ⟨x, by simp, ?_⟩
        split at h1
        · simp only [List.mem_singleton] at h1; rw [h1]; exact ⟨rfl, Or.inl rfl⟩
        · simp at h1
    · exact Or.inr ⟨y, by simp only [List.mem_cons]; exact Or.inr hy, h2⟩

/-- The weights of a graph built from the empty graph are those of the edges added. -/
theorem nonNeg_addEdges (n : Int) (edges : List (Int × Int × Int))
    (h : ∀ x ∈ edges, 0 ≤ x.2.2) : NonNegWeights ((emptyGraph n).addEdges edges).wadj := by
  intro u e he
  rcases wadj_addEdges edges (emptyGraph n) u e he with h1 | ⟨x, hx, h2, _⟩
  · have : (emptyGraph n).wadj u = [] := rfl
    rw [this] at h1
    simp at h1
  · rw [h2]; exact h x hx

end Main

namespace Eaf

open NodeState

/-- Setting `found` leaves the vectors alone. -/
theorem found_upd (g : Main.Graph) (c : Prop) [Decidable c] :
    (if c then { g with found := 1 } else g).adj_weighted = g.adj_weighted ∧
    (if c then { g with found := 1 } else g).distance = g.distance ∧
    (if c then { g with found := 1 } else g).parent = g.parent ∧
    (if c then { g with found := 1 } else g).state = g.state := by
  split <;> exact ⟨rfl, rfl, rfl, rfl⟩

/-- The `while (true)` loop of `Dijkstra` returns, with distances and parents as the
relaxation scheme leaves them when nothing is left to process. -/
theorem eaf_loop_correct {adj : Adj} {ok : Int → Bool} {s root : Int} (U : List Int)
    (hU : ClosedUnder adj U) (hsU : s ∈ U) (hw : NonNegWeights adj)
    (hb : PathPlusEdgeBelow adj (fun x => ok x = true) s) (E : Int) :
    ∀ (n : Nat) (g : Main.Graph) (ntp : List Int) (src : Int) (st : DState),
      2 * (U.filter (fun v => !st.fin v)).length + (if st.fin src = true then 1 else 0) ≤ n →
      DInv adj ok s root st → DRel adj ok s g ntp src st →
      ntp.Sorted (fun a b => a ≤ b) →
      ((st.fin src = false ∧ st.dist src < INF ∧
          (∀ v, st.fin v = false →
            st.dist src < st.dist v ∨ (st.dist src = st.dist v ∧ src ≤ v)) ∧
          (src ≠ s → st.fin s = true)) ∨ (src = s ∧ st.fin s = true)) →
      ∃ g2 st2, DijkstraLoop (n + 1) g ntp src E = some g2 ∧
        DInv adj ok s root st2 ∧ DClosed st2 ∧
        (∀ v, g2.distance.get v = st2.dist v) ∧ (∀ v, g2.parent.get v = st2.par v) ∧
        LeastRun adj ok st st2 := by
  intro n
  induction n with
  | zero =>
    intro g ntp src st hn hI _ _ hhead
    exfalso
    rcases hhead with ⟨hf, hd, _, _⟩ | ⟨_, hf⟩
    · obtain ⟨c, hc⟩ := hI.core.chain src hd
      have hmem : src ∈ U := by
        have := walkEnd_in_closed adj U hU c s hsU hc.walk
        rwa [hc.last] at this
      have : src ∈ U.filter (fun v => !st.fin v) := by
        simp [List.mem_filter, hmem, hf]
      have := List.length_pos_of_mem this
      omega
    · rename_i hs
      rw [hs, hf] at hn
      simp at hn
  | succ k ih =>
    intro g ntp src st hn hI hR hsort hhead
    -- what is left of a round once the entries of the selected node are done
    have key : ∀ (g2 : Main.Graph) (ntp2 : List Int) (st2 : DState),
        DInv adj ok s root st2 →
        (∀ v, g2.adj_weighted.get v = adj v) → (∀ v, g2.distance.get v = st2.dist v) →
        (∀ v, g2.parent.get v = st2.par v) → g2.state.get s = Start →
        (∀ v, v ≠ s → g2.state.get v ≠ Start) →
        (∀ v, v ≠ s → (g2.state.get v = Obstacle ↔ ok v = false)) →
        (∀ v, st2.fin v = true ↔ (v = s ∨ g2.state.get v = Visited)) →
        (∀ v, v ≠ s → (v ∈ ntp2 ↔ (st2.fin v = false ∧ st2.dist v < INF))) →
        (∀ v ∈ ntp2, st2.dist v < INF) →
        2 * (U.filter (fun v => !st2.fin v)).length + (if s ∈ ntp2 then 1 else 0) ≤ k →
        ntp2.Sorted (fun a b => a ≤ b) →
        (∀ st3, LeastRun adj ok st2 st3 → LeastRun adj ok st st3) →
        ∃ g3 st3,
          (if ntp2 = [] then some g2
            else DijkstraLoop (k + 1) g2 ntp2 (ntp2.foldl (pickStep g2) (INF, src)).2 E)
            = some g3 ∧
          DInv adj ok s root st3 ∧ DClosed st3 ∧
          (∀ v, g3.distance.get v = st3.dist v) ∧ (∀ v, g3.parent.get v = st3.par v) ∧
          LeastRun adj ok st st3 := by
      intro g2 ntp2 st2 hI2 hadj hdist hpar hss hstart hobst hvis hntp hntps hmeas hsort2 hlink
      have hfs : st2.fin s = true := (hvis s).2 (Or.inl rfl)
      by_cases hemp : ntp2 = []
      · rw [if_pos hemp]
        refine ⟨g2, st2, rfl, hI2, ?_, hdist, hpar, hlink st2 (LeastRun.done st2)⟩
        intro v hv
        by_cases hvs : v = s
        · rw [hvs]; exact hfs
        · cases hfv : st2.fin v with
          | true => rfl
          | false =>
            have := (hntp v hvs).2 ⟨hfv, hv⟩
            rw [hemp] at this
            simp at this
      · rw [if_neg hemp]
        have hpick := eaf_pick_first g2 ntp2 INF src hsort2
        generalize hsel : ntp2.foldl (pickStep g2) (INF, src) = sel at hpick
        have hc2 : sel.2 ∈ ntp2 ∧ sel.1 = g2.distance.get sel.2 ∧
            ∀ v ∈ ntp2, sel.1 < g2.distance.get v ∨ (sel.1 = g2.distance.get v ∧ sel.2 ≤ v) := by
          rcases hpick with ⟨_, h6⟩ | ⟨h5, h6, _, h7⟩
          · exfalso
            obtain ⟨a, ha⟩ := List.exists_mem_of_ne_nil _ hemp
            have h8 := h6 a ha
            have h9 := hntps a ha
            rw [hdist a] at h8
            omega
          · exact ⟨h5, h6, h7⟩
        have hR2 : DRel adj ok s g2 ntp2 sel.2 st2 :=
          ⟨hadj, hdist, hpar, hss, hstart, hobst, fun v _ => hvis v, fun v hv _ => hntp v hv,
            hntps⟩
        by_cases hcs : sel.2 = s
        · -- the source is selected again
          have hmem : s ∈ ntp2 := by rw [← hcs]; exact hc2.1
          rw [if_pos hmem] at hmeas
          have hm2 : 2 * (U.filter (fun v => !st2.fin v)).length
              + (if st2.fin sel.2 = true then 1 else 0) ≤ k := by
            rw [hcs, hfs]
            simpa using hmeas
          obtain ⟨g3, st3, a1, a2, a3, a4, a5, a6⟩ :=
            ih g2 ntp2 sel.2 st2 hm2 hI2 hR2 hsort2 (Or.inr ⟨hcs, hfs⟩)
          exact ⟨g3, st3, a1, a2, a3, a4, a5, hlink st3 a6⟩
        · have hsel2 := (hntp sel.2 hcs).1 hc2.1
          have hm2 : 2 * (U.filter (fun v => !st2.fin v)).length
              + (if st2.fin sel.2 = true then 1 else 0) ≤ k := by
            rw [hsel2.1]
            simp only [Bool.false_eq_true, if_false, add_zero]
            split at hmeas <;> omega
          have hnext : ∀ v, st2.fin v = false →
              st2.dist sel.2 < st2.dist v ∨ (st2.dist sel.2 = st2.dist v ∧ sel.2 ≤ v) := by
            intro v hv
            have hvs : v ≠ s := by
              intro h; rw [h, hfs] at hv; exact absurd hv (by simp)
            by_cases hlt : st2.dist v < INF
            · have := hc2.2.2 v ((hntp v hvs).2 ⟨hv, hlt⟩)
              rw [hc2.2.1, hdist v, hdist sel.2] at this
              exact this
            · have h8 := (hI2.core.range v).2
              have h9 := hsel2.2
              left
              omega
          obtain ⟨g3, st3, a1, a2, a3, a4, a5, a6⟩ :=
            ih g2 ntp2 sel.2 st2 hm2 hI2 hR2 hsort2
              (Or.inl ⟨hsel2.1, hsel2.2, hnext, fun _ => hfs⟩)
          exact ⟨g3, st3, a1, a2, a3, a4, a5, hlink st3 a6⟩
    have hunf : DijkstraLoop (k + 1 + 1) g ntp src E =
        (let g1 : Main.Graph :=
          if g.state.get src ≠ Start then { g with state := g.state.set src Visited } else g
         let st1 := (g1.adj_weighted.get src).foldl (relaxEdge src) (g1, ntp)
         let g2 : Main.Graph :=
          if st1.1.found = 0 ∧ E ∈ st1.2 then { st1.1 with found := 1 } else st1.1
         if setErase src st1.2 = [] then some g2
         else DijkstraLoop (k + 1) g2 (setErase src st1.2)
           ((setErase src st1.2).foldl (pickStep g2) (INF, src)).2 E) := by
      rw [DijkstraLoop]
    rw [hunf]
    simp only
    generalize hg1 : (if g.state.get src ≠ Start then
      ({ g with state := g.state.set src Visited } : Main.Graph) else g) = g1
    have hg1adj : g1.adj_weighted = g.adj_weighted := by rw [← hg1]; split <;> rfl
    have hg1dist : g1.distance = g.distance := by rw [← hg1]; split <;> rfl
    have hg1par : g1.parent = g.parent := by rw [← hg1]; split <;> rfl
    have hg1st : ∀ v, g1.state.get v =
        if v = src ∧ src ≠ s then Visited else g.state.get v := by
      intro v
      rw [← hg1]
      by_cases hsrc : src = s
      · have : ¬ (g.state.get src ≠ Start) := by rw [hsrc, hR.state_s]; simp
        rw [if_neg this]
        simp [hsrc]
      · have : g.state.get src ≠ Start := hR.start src hsrc
        rw [if_pos this]
        by_cases hv : v = src
        · simp [vec_get_set, hv, hsrc]
        · simp [vec_get_set, hv]
    have hadjsrc : g1.adj_weighted.get src = adj src := by rw [hg1adj]; exact hR.adj_eq src
    rw [hadjsrc]
    rcases hhead with ⟨hf, hd, hnext, hsfin⟩ | ⟨hsrc, hfs⟩
    · -- the selected node is settled
      have hmin : ∀ v, st.fin v = false → st.dist src ≤ st.dist v := by
        intro v hv
        rcases hnext v hv with h | h <;> omega
      obtain ⟨c, hc⟩ := hI.core.chain src hd
      have hmem : src ∈ U := by
        have := walkEnd_in_closed adj U hU c s hsU hc.walk
        rwa [hc.last] at this
      have hS0 := SInv.settle_start hI hf hd hmin
      have hR0 : DRel adj ok s g1 ntp src (aMark src st) := by
        refine ⟨?_, ?_, ?_, ?_, ?_, ?_, ?_, ?_, hR.ntp_s⟩
        · intro v; rw [hg1adj]; exact hR.adj_eq v
        · intro v; rw [hg1dist]; exact hR.dist_eq v
        · intro v; rw [hg1par]; exact hR.par_eq v
        · rw [hg1st]
          by_cases h : s = src
          · simp [h.symm, hR.state_s]
          · simp [h, hR.state_s]
        · intro v hv
          rw [hg1st]
          split
          · decide
          · exact hR.start v hv
        · intro v hv
          rw [hg1st]
          split
          · rename_i h
            rw [h.1]
            have := hc.end_ok
            simp [this]
          · exact hR.obst v hv
        · intro v hv
          rw [hg1st]
          have h1 : ¬ (v = src ∧ src ≠ s) := fun h => hv h.1
          rw [if_neg h1]
          have : (aMark src st).fin v = st.fin v := by simp [aMark, upd, hv]
          rw [this]
          exact hR.vis v hv
        · intro v hvs hv
          have : (aMark src st).fin v = st.fin v := by simp [aMark, upd, hv]
          rw [this]
          exact hR.ntp_mem v hvs hv
      have hfold := eaf_settle_fold_sim hw hb (adj src) [] (aMark src st) g1 ntp
        (fun e he => he) hS0 hR0
      have hsf := eaf_relax_fold_sorted src (adj src) g1 ntp hsort
      have hI2 : DInv adj ok s root (aSettle adj ok src st) := hI.settle hw hf hd hmin
      have hfin2 : (aSettle adj ok src st).fin = upd st.fin src true := aSettle_fin _ _ _ _
      generalize hst1 : (adj src).foldl (relaxEdge src) (g1, ntp) = st1 at hfold hsf ⊢
      obtain ⟨hRel, hstate, _⟩ := hfold
      change DRel adj ok s st1.1 st1.2 src (aSettle adj ok src st) at hRel
      obtain ⟨fa, fd, fp, fs⟩ := found_upd st1.1 (st1.1.found = 0 ∧ E ∈ st1.2)
      apply key _ (setErase src st1.2) (aSettle adj ok src st) hI2
      · intro v; rw [fa]; exact hRel.adj_eq v
      · intro v; rw [fd]; exact hRel.dist_eq v
      · intro v; rw [fp]; exact hRel.par_eq v
      · rw [fs]; exact hRel.state_s
      · intro v hv; rw [fs]; exact hRel.start v hv
      · intro v hv; rw [fs]; exact hRel.obst v hv
      · intro v
        rw [fs]
        by_cases hv : v = src
        · rw [hv, hfin2, hstate, hg1st]
          by_cases hsrc : src = s
          · simp [upd, hsrc]
          · simp [upd, hsrc]
        · exact hRel.vis v hv
      · intro v hvs
        rw [mem_setErase]
        by_cases hv : v = src
        · rw [hv, hfin2]; simp [upd]
        · rw [hRel.ntp_mem v hvs hv]; simp [hv]
      · intro v hv
        rw [mem_setErase] at hv
        exact hRel.ntp_s v hv.1
      · rw [hfin2]
        have h1 := unsettled_lt U st.fin src hmem hf
        rw [hf] at hn
        simp only [Bool.false_eq_true, if_false, add_zero] at hn
        split <;> omega
      · exact sorted_setErase _ _ hsf
      · exact fun st3 h => LeastRun.step _ _ src ⟨hf, hd, hnext⟩ h
    · -- the source is expanded again
      have hfu : st.fin src = true := by rw [hsrc]; exact hfs
      have hR0 : DRel adj ok s g1 ntp src st := by
        refine ⟨?_, ?_, ?_, ?_, ?_, ?_, ?_, hR.ntp_mem, hR.ntp_s⟩
        · intro v; rw [hg1adj]; exact hR.adj_eq v
        · intro v; rw [hg1dist]; exact hR.dist_eq v
        · intro v; rw [hg1par]; exact hR.par_eq v
        · rw [hg1st]; simp [hsrc, hR.state_s]
        · intro v hv; rw [hg1st]; simp [hsrc]; exact hR.start v hv
        · intro v hv; rw [hg1st]; simp [hsrc]; exact hR.obst v hv
        · intro v hv; rw [hg1st]; simp [hsrc]; exact hR.vis v hv
      have hfold := eaf_again_fold_sim hI hfu hw hb (adj src) g1 ntp (fun e he => he) hR0
      have hsf := eaf_relax_fold_sorted src (adj src) g1 ntp hsort
      generalize hst1 : (adj src).foldl (relaxEdge src) (g1, ntp) = st1 at hfold hsf ⊢
      obtain ⟨hRel, _, _⟩ := hfold
      obtain ⟨fa, fd, fp, fs⟩ := found_upd st1.1 (st1.1.found = 0 ∧ E ∈ st1.2)
      apply key _ (setErase src st1.2) st hI
      · intro v; rw [fa]; exact hRel.adj_eq v
      · intro v; rw [fd]; exact hRel.dist_eq v
      · intro v; rw [fp]; exact hRel.par_eq v
      · rw [fs]; exact hRel.state_s
      · intro v hv; rw [fs]; exact hRel.start v hv
      · intro v hv; rw [fs]; exact hRel.obst v hv
      · intro v
        rw [fs]
        by_cases hv : v = src
        · rw [hv, hfu]; simp [hsrc]
        · exact hRel.vis v hv
      · intro v hvs
        rw [mem_setErase]
        have hv : v ≠ src := by rw [hsrc]; exact hvs
        rw [hRel.ntp_mem v hvs hv]; simp [hv]
      · intro v hv
        rw [mem_setErase] at hv
        exact hRel.ntp_s v hv.1
      · have hnot : s ∉ setErase src st1.2 := by
          rw [mem_setErase]; intro h; exact h.2 hsrc.symm
        rw [if_neg hnot]
        rw [hfu] at hn
        simp only [if_true] at hn
        omega
      · exact sorted_setErase _ _ hsf
      · exact fun _ h => h

end Eaf

theorem filter_sum_le (l : List Int) (f : Int → Nat) (p q : Int → Bool)
    (hpq : ∀ v, q v = true → p v = true) :
    ((l.filter q).map f).sum ≤ ((l.filter p).map f).sum := by
  induction l with
  | nil => simp
  | cons a rest ih =>
    cases hqa : q a with
    | false =>
      cases hpa : p a with
      | false => simp only [List.filter_cons, hqa, hpa]; simpa using ih
      | true =>
        simp only [List.filter_cons, hqa, hpa, if_true, Bool.false_eq_true, if_false,
          List.map_cons, List.sum_cons]
        omega
    | true =>
      have hpa := hpq a hqa
      simp only [List.filter_cons, hqa, hpa, if_true, List.map_cons, List.sum_cons]
      omega

theorem filter_sum_lt (l : List Int) (f : Int → Nat) (p q : Int → Bool)
    (hpq : ∀ v, q v = true → p v = true) (u : Int) (hu : u ∈ l) (hp : p u = true)
    (hq : q u = false) :
    ((l.filter q).map f).sum + f u ≤ ((l.filter p).map f).sum := by
  induction l with
  | nil => simp at hu
  | cons a rest ih =>
    by_cases ha : a = u
    · have h1 := filter_sum_le rest f p q hpq
      rw [ha]
      simp only [List.filter_cons, hq, hp, if_true, Bool.false_eq_true, if_false,
        List.map_cons, List.sum_cons]
      omega
    · have hur : u ∈ rest := by
        rcases List.mem_cons.1 hu with h | h
        · exact absurd h.symm ha
        · exact h
      have h1 := ih hur
      cases hqa : q a with
      | false =>
        cases hpa : p a with
        | false => simp only [List.filter_cons, hqa, hpa]; simpa using h1
        | true =>
          simp only [List.filter_cons, hqa, hpa, if_true, Bool.false_eq_true, if_false,
            List.map_cons, List.sum_cons]
          omega
      | true =>
        have hpa := hpq a hqa
        simp only [List.filter_cons, hqa, hpa, if_true, List.map_cons, List.sum_cons]
        omega

theorem mem_heapPush (x p : Int × Int) (q : List (Int × Int)) :
    p ∈ heapPush x q ↔ p = x ∨ p ∈ q := by
  unfold heapPush
  exact List.mem_orderedInsert _

theorem length_heapPush (x : Int × Int) (q : List (Int × Int)) :
    (heapPush x q).length = q.length + 1 := by
  unfold heapPush
  exact List.orderedInsert_length _ _ _

theorem sorted_heapPush (x : Int × Int) (q : List (Int × Int)) (h : q.Sorted pairLe) :
    (heapPush x q).Sorted pairLe := by
  unfold heapPush
  exact h.orderedInsert x q

namespace Main

open NodeState

/-- What `relaxEdge` does to an obstacle or to a node marked `Start`. -/
theorem main_relaxEdge_skip (u : Int) (g : Graph) (que : List (Int × Int)) (e : Int × Int)
    (h : ¬ (g.state.get e.1 ≠ Obstacle ∧ g.state.get e.1 ≠ Start)) :
    relaxEdge u (g, que) e = (g, que) := by
  simp only [relaxEdge, h, if_false]

/-- What `relaxEdge` does to any other node. -/
theorem main_relaxEdge_go (u : Int) (g : Graph) (que : List (Int × Int)) (e : Int × Int)
    (h : g.state.get e.1 ≠ Obstacle ∧ g.state.get e.1 ≠ Start) :
    relaxEdge u (g, que) e =
      if wrapInt (g.distance.get u + e.2) < g.distance.get e.1 then
        ({ g with state := g.state.set e.1 Visited,
                  distance := g.distance.set e.1 (wrapInt (g.distance.get u + e.2)),
                  parent := g.parent.set e.1 u },
          heapPush (wrapInt (g.distance.get u + e.2), e.1) que)
      else ({ g with state := g.state.set e.1 Visited }, que) := by
  simp only [relaxEdge, h, and_self, if_true]
  split <;> rfl

/-- One entry: `relaxEdge` does what the relaxation scheme does. -/
theorem main_relaxEdge_sim {adj : Adj} {ok : Int → Bool} {s root u : Int} {st : DState}
    {g : Graph} {que : List (Int × Int)}
    (hcore : DCore adj ok s root st) (hfu : st.fin u = true)
    (hR : QRel adj ok s g que st) (hw : NonNegWeights adj)
    (hb : PathPlusEdgeBelow adj (fun x => ok x = true) s)
    (e : Int × Int) (he : e ∈ adj u)
    (hng : st.fin e.1 = true → ¬ (ok e.1 = true ∧ st.dist u + e.2 < st.dist e.1))
    (htop : (ok e.1 = true ∧ st.dist u + e.2 < st.dist e.1) →
      ∀ x, st.fin x = true → st.dist x ≤ st.dist u) :
    QRel adj ok s (relaxEdge u (g, que) e).1 (relaxEdge u (g, que) e).2 (aRelax ok u st e) ∧
      (relaxEdge u (g, que) e).1.found = g.found ∧
      (relaxEdge u (g, que) e).2.length ≤ que.length + 1 ∧
      (¬ (ok e.1 = true ∧ st.dist u + e.2 < st.dist e.1) →
        (relaxEdge u (g, que) e).2 = que) := by
  have hru := hcore.range u
  have hwe := hw u e he
  by_cases hgo : g.state.get e.1 ≠ Obstacle ∧ g.state.get e.1 ≠ Start
  · rw [main_relaxEdge_go u g que e hgo]
    have hes : e.1 ≠ s := by
      intro h; rw [h] at hgo; exact hgo.2 hR.state_s
    have hok : ok e.1 = true := by
      cases hoke : ok e.1 with
      | true => rfl
      | false => exact absurd ((hR.obst e.1 hes).2 hoke) hgo.1
    have hdu : st.dist u < INF := hcore.fin_lt u hfu
    have hsum := hcore.sum_lt hb u hdu e he hok
    have h0 : 0 ≤ st.dist u + e.2 := by omega
    rw [hR.dist_eq u, hR.dist_eq e.1, wrapInt_id _ h0 hsum]
    have hstate : ∀ (gg : Graph), (∀ v, gg.state.get v =
        if v = e.1 then Visited else g.state.get v) →
        gg.state.get s = Start ∧ (∀ v, v ≠ s → gg.state.get v ≠ Start) ∧
        (∀ v, v ≠ s → (gg.state.get v = Obstacle ↔ ok v = false)) := by
      intro gg hgg
      refine ⟨?_, ?_, ?_⟩
      · rw [hgg, if_neg (Ne.symm hes)]; exact hR.state_s
      · intro v hv
        rw [hgg]
        split
        · decide
        · exact hR.start v hv
      · intro v hv
        rw [hgg]
        split
        · rename_i h
          rw [h, hok]
          simp
        · exact hR.obst v hv
    by_cases hc : st.dist u + e.2 < st.dist e.1
    · have hnf : st.fin e.1 = false := by
        cases hfe : st.fin e.1 with
        | false => rfl
        | true => exact absurd ⟨hok, hc⟩ (hng hfe)
      have htop2 := htop ⟨hok, hc⟩
      have ha : aRelax ok u st e =
          { st with dist := upd st.dist e.1 (st.dist u + e.2), par := upd st.par e.1 u } := by
        simp only [aRelax, hok, hc, and_self, if_true]
      rw [ha]
      simp only [hc, if_true]
      obtain ⟨s1, s2, s3⟩ := hstate
        { g with state := g.state.set e.1 Visited,
                 distance := g.distance.set e.1 (st.dist u + e.2),
                 parent := g.parent.set e.1 u } (fun v => rfl)
      refine ⟨⟨hR.adj_eq, ?_, ?_, s1, s2, s3, ?_, ?_, ?_, ?_, sorted_heapPush _ _ hR.sorted⟩,
        trivial, by rw [length_heapPush], fun h => absurd ⟨hok, trivial⟩ h⟩
      · intro v
        simp only [vec_get_set, upd]
        split
        · rfl
        · exact hR.dist_eq v
      · intro v
        simp only [vec_get_set, upd]
        split
        · rfl
        · exact hR.par_eq v
      · intro p hp
        rw [mem_heapPush] at hp
        simp only [upd]
        rcases hp with hp | hp
        · rw [hp]; simp
        · have := hR.q_le p hp
          split
          · rename_i h; rw [h] at this; omega
          · exact this
      · intro p hp
        rw [mem_heapPush] at hp
        rcases hp with hp | hp
        · rw [hp]; exact hsum
        · exact hR.q_lt p hp
      · intro v hfv hdv
        rw [mem_heapPush]
        simp only [upd] at hdv ⊢
        by_cases hve : v = e.1
        · left; simp [hve]
        · right
          simp only [hve, if_false] at hdv ⊢
          exact hR.q_has v hfv hdv
      · intro x hx p hp
        rw [mem_heapPush] at hp
        have hxe : x ≠ e.1 := by
          intro h; rw [h, hnf] at hx; exact absurd hx (by simp)
        simp only [upd, hxe, if_false]
        rcases hp with hp | hp
        · rw [hp]
          have := htop2 x hx
          simp only
          omega
        · exact hR.q_top x hx p hp
    · have hno : ¬ (ok e.1 = true ∧ st.dist u + e.2 < st.dist e.1) := fun h => hc h.2
      rw [aRelax_skip ok u st e hno]
      simp only [hc, if_false]
      obtain ⟨s1, s2, s3⟩ := hstate { g with state := g.state.set e.1 Visited } (fun v => rfl)
      exact ⟨⟨hR.adj_eq, hR.dist_eq, hR.par_eq, s1, s2, s3, hR.q_le, hR.q_lt, hR.q_has,
        hR.q_top, hR.sorted⟩, trivial, by omega, fun _ => trivial⟩
  · rw [main_relaxEdge_skip u g que e hgo]
    have hno : ¬ (ok e.1 = true ∧ st.dist u + e.2 < st.dist e.1) := by
      intro hc
      by_cases hes : e.1 = s
      · have := hcore.dist_s
        rw [hes] at hc
        omega
      · have h1 : g.state.get e.1 = Obstacle := by
          by_contra h
          exact hgo ⟨h, hR.start e.1 hes⟩
        have := (hR.obst e.1 hes).1 h1
        rw [this] at hc
        exact absurd hc.1 (by simp)
    rw [aRelax_skip ok u st e hno]
    exact ⟨hR, rfl, Nat.le_succ _, fun _ => rfl⟩

/-- Settling: the `for` loop does what the relaxation scheme does and pushes at most one
pair per entry. -/
theorem main_settle_fold_sim {adj : Adj} {ok : Int → Bool} {s root u : Int}
    (hw : NonNegWeights adj) (hb : PathPlusEdgeBelow adj (fun x => ok x = true) s)
    (l2 : List (Int × Int)) :
    ∀ (l1 : List (Int × Int)) (st : DState) (g : Graph) (que : List (Int × Int)),
      (∀ e ∈ l2, e ∈ adj u) → SInv adj ok s root u l1 st → QRel adj ok s g que st →
      QRel adj ok s (l2.foldl (relaxEdge u) (g, que)).1 (l2.foldl (relaxEdge u) (g, que)).2
        (l2.foldl (aRelax ok u) st) ∧
      (l2.foldl (relaxEdge u) (g, que)).1.found = g.found ∧
      (l2.foldl (relaxEdge u) (g, que)).2.length ≤ que.length + l2.length := by
  induction l2 with
  | nil => intro l1 st g que _ _ hR; exact ⟨hR, rfl, by simp⟩
  | cons e rest ih =>
    intro l1 st g que hmem hS hR
    have he := hmem e (by simp)
    have h1 := main_relaxEdge_sim hS.core hS.fin_u hR hw hb e he
      (fun hf => hS.no_gain hw e he hf) (fun _ => hS.top)
    have h2 := hS.settle_step hw e he
    simp only [List.foldl_cons]
    have h3 := ih (l1 ++ [e]) _ (relaxEdge u (g, que) e).1 (relaxEdge u (g, que) e).2
      (fun a ha => hmem a (by simp only [List.mem_cons]; exact Or.inr ha)) h2 h1.1
    refine ⟨h3.1, by rw [h3.2.1, h1.2.1], ?_⟩
    have h4 : (List.foldl (relaxEdge u) (relaxEdge u (g, que) e) rest).2.length ≤
        (relaxEdge u (g, que) e).2.length + rest.length := h3.2.2
    have h5 := h1.2.2.1
    simp only [List.length_cons]
    omega

/-- Popping a settled node again changes nothing but states. -/
theorem main_again_fold_sim {adj : Adj} {ok : Int → Bool} {s root u : Int} {st : DState}
    (hI : DInv adj ok s root st) (hfu : st.fin u = true)
    (hw : NonNegWeights adj) (hb : PathPlusEdgeBelow adj (fun x => ok x = true) s)
    (l2 : List (Int × Int)) :
    ∀ (g : Graph) (que : List (Int × Int)),
      (∀ e ∈ l2, e ∈ adj u) → QRel adj ok s g que st →
      QRel adj ok s (l2.foldl (relaxEdge u) (g, que)).1 (l2.foldl (relaxEdge u) (g, que)).2
        st ∧
      (l2.foldl (relaxEdge u) (g, que)).1.found = g.found ∧
      (l2.foldl (relaxEdge u) (g, que)).2 = que := by
  induction l2 with
  | nil => intro g que _ hR; exact ⟨hR, rfl, rfl⟩
  | cons e rest ih =>
    intro g que hmem hR
    have he := hmem e (by simp)
    have hno : ¬ (ok e.1 = true ∧ st.dist u + e.2 < st.dist e.1) := by
      intro hc
      have := hI.relaxed u hfu e he hc.1
      omega
    have h1 := main_relaxEdge_sim hI.core hfu hR hw hb e he (fun _ => hno)
      (fun h => absurd h hno)
    rw [aRelax_skip ok u st e hno] at h1
    simp only [List.foldl_cons]
    have hq := h1.2.2.2 hno
    have h3 := ih (relaxEdge u (g, que) e).1 (relaxEdge u (g, que) e).2
      (fun a ha => hmem a (by simp only [List.mem_cons]; exact Or.inr ha)) h1.1
    exact ⟨h3.1, by rw [h3.2.1, h1.2.1], by rw [h3.2.2, hq]⟩

end Main

namespace Main

open NodeState

theorem qloop_nil (m : Nat) (g : Graph) (E : Int) :
    DijkstraQLoop (m + 1) g [] E = some g := by
  simp [DijkstraQLoop]

theorem qloop_exit (m : Nat) (g : Graph) (top : Int × Int) (rest : List (Int × Int))
    (E : Int) (h : top.2 = E) :
    DijkstraQLoop (m + 1) g (top :: rest) E = some { g with found := 1 } := by
  simp [DijkstraQLoop, h]

theorem qloop_pop (m : Nat) (g : Graph) (top : Int × Int) (rest : List (Int × Int))
    (E : Int) (h : top.2 ≠ E) :
    DijkstraQLoop (m + 1) g (top :: rest) E =
      DijkstraQLoop m ((g.adj_weighted.get top.2).foldl (relaxEdge top.2) (g, rest)).1
        ((g.adj_weighted.get top.2).foldl (relaxEdge top.2) (g, rest)).2 E := by
  simp [DijkstraQLoop, h]

/-- The `while (!que.empty())` loop of `DijkstraQ` returns; when it ends with `found = 1`
the destination is reached, unsettled and nearest among the unsettled nodes; when it ends
otherwise, nothing is left to process. -/
theorem qloop_correct {adj : Adj} {ok : Int → Bool} {s root : Int} (U : List Int)
    (hU : ClosedUnder adj U) (hsU : s ∈ U) (hw : NonNegWeights adj)
    (hb : PathPlusEdgeBelow adj (fun x => ok x = true) s) (E : Int) :
    ∀ (n : Nat) (g : Graph) (que : List (Int × Int)) (st : DState),
      workLeft adj U que st ≤ n → DInv adj ok s root st → QRel adj ok s g que st →
      st.fin s = true → st.fin E = false → g.found = 0 →
      ∃ g2 st2, DijkstraQLoop (n + 1) g que E = some g2 ∧ DInv adj ok s root st2 ∧
        (∀ v, g2.distance.get v = st2.dist v) ∧ (∀ v, g2.parent.get v = st2.par v) ∧
        st2.fin s = true ∧ st2.fin E = false ∧
        (g2.found = 1 → st2.dist E < INF ∧ ∀ v, st2.fin v = false → st2.dist E ≤ st2.dist v) ∧
        (g2.found ≠ 1 → DClosed st2) ∧
        LeastRun adj ok st st2 ∧ (g2.found = 1 → IsNext st2 E) := by
  intro n
  induction n with
  | zero =>
    intro g que st hn hI hR hfs hfE hfound
    cases que with
    | nil =>
      refine ⟨g, st, qloop_nil 0 g E, hI, hR.dist_eq, hR.par_eq, hfs, hfE, ?_, ?_,
        LeastRun.done st, ?_⟩
      · intro h; rw [hfound] at h; exact absurd h (by decide)
      · intro _ v hv
        cases hfv : st.fin v with
        | true => rfl
        | false => have := hR.q_has v hfv hv; simp at this
      · intro h; rw [hfound] at h; exact absurd h (by decide)
    | cons top rest =>
      simp [workLeft] at hn
  | succ k ih =>
    intro g que st hn hI hR hfs hfE hfound
    cases que with
    | nil =>
      refine ⟨g, st, qloop_nil _ g E, hI, hR.dist_eq, hR.par_eq, hfs, hfE, ?_, ?_,
        LeastRun.done st, ?_⟩
      · intro h; rw [hfound] at h; exact absurd h (by decide)
      · intro _ v hv
        cases hfv : st.fin v with
        | true => rfl
        | false => have := hR.q_has v hfv hv; simp at this
      · intro h; rw [hfound] at h; exact absurd h (by decide)
    | cons top rest =>
      have hhead : ∀ p ∈ top :: rest, top.1 ≤ p.1 := by
        intro p hp
        rcases List.mem_cons.1 hp with h | h
        · rw [h]
        · have := List.rel_of_sorted_cons hR.sorted p h
          unfold pairLe at this
          omega
      have hpair : ∀ p ∈ top :: rest, pairLe top p := by
        intro p hp
        rcases List.mem_cons.1 hp with h | h
        · rw [h]; unfold pairLe; omega
        · exact List.rel_of_sorted_cons hR.sorted p h
      have hnext : st.fin top.2 = false → IsNext st top.2 := by
        intro hfu
        have hk1 := hR.q_le top (by simp)
        have hk2 := hR.q_lt top (by simp)
        have hd : st.dist top.2 < INF := by omega
        have hkeq : top.1 = st.dist top.2 := by
          have := hhead _ (hR.q_has top.2 hfu hd)
          simp only at this
          omega
        refine ⟨hfu, hd, ?_⟩
        intro v hv
        by_cases hlt : st.dist v < INF
        · have := hpair _ (hR.q_has v hv hlt)
          unfold pairLe at this
          simp only at this
          omega
        · have := (hI.core.range v).2
          left
          omega
      by_cases hE : top.2 = E
      · rw [qloop_exit _ g top rest E hE]
        refine ⟨_, st, rfl, hI, hR.dist_eq, hR.par_eq, hfs, hfE, ?_, ?_, LeastRun.done st,
          fun _ => by rw [← hE]; exact hnext (by rw [hE]; exact hfE)⟩
        · intro _
          have h1 := hR.q_le top (by simp)
          have h2 := hR.q_lt top (by simp)
          rw [hE] at h1
          refine ⟨by omega, ?_⟩
          intro v hv
          by_cases hlt : st.dist v < INF
          · have := hhead _ (hR.q_has v hv hlt)
            simp only at this
            omega
          · have := (hI.core.range v).2
            omega
        · intro h; exact absurd rfl h
      · rw [qloop_pop _ g top rest E hE, hR.adj_eq top.2]
        have hsorted : rest.Sorted pairLe := (List.sorted_cons.1 hR.sorted).2
        cases hfu : st.fin top.2 with
        | true =>
          -- a pair left over from an earlier, larger distance
          have hR0 : QRel adj ok s g rest st := by
            refine ⟨hR.adj_eq, hR.dist_eq, hR.par_eq, hR.state_s, hR.start, hR.obst,
              fun p hp => hR.q_le p (List.mem_cons_of_mem _ hp),
              fun p hp => hR.q_lt p (List.mem_cons_of_mem _ hp), ?_,
              fun x hx p hp => hR.q_top x hx p (List.mem_cons_of_mem _ hp), hsorted⟩
            intro v hfv hdv
            rcases List.mem_cons.1 (hR.q_has v hfv hdv) with h | h
            · have : v = top.2 := by rw [← h]
              rw [this, hfu] at hfv
              exact absurd hfv (by simp)
            · exact h
          obtain ⟨h1, h2, h3⟩ := main_again_fold_sim hI hfu hw hb (adj top.2) g rest
            (fun e he => he) hR0
          apply ih _ _ st _ hI h1 hfs hfE (by rw [h2]; exact hfound)
          rw [h3]
          simp only [workLeft, List.length_cons] at hn ⊢
          omega
        | false =>
          have hk1 := hR.q_le top (by simp)
          have hk2 := hR.q_lt top (by simp)
          have hd : st.dist top.2 < INF := by omega
          have hkeq : top.1 = st.dist top.2 := by
            have := hhead _ (hR.q_has top.2 hfu hd)
            simp only at this
            omega
          have hmin : ∀ v, st.fin v = false → st.dist top.2 ≤ st.dist v := by
            intro v hv
            by_cases hlt : st.dist v < INF
            · have := hhead _ (hR.q_has v hv hlt)
              simp only at this
              omega
            · have := (hI.core.range v).2
              omega
          obtain ⟨c, hc⟩ := hI.core.chain top.2 hd
          have hmem : top.2 ∈ U := by
            have := walkEnd_in_closed adj U hU c s hsU hc.walk
            rwa [hc.last] at this
          have hS0 := SInv.settle_start hI hfu hd hmin
          have hR0 : QRel adj ok s g rest (aMark top.2 st) := by
            refine ⟨hR.adj_eq, hR.dist_eq, hR.par_eq, hR.state_s, hR.start, hR.obst,
              fun p hp => hR.q_le p (List.mem_cons_of_mem _ hp),
              fun p hp => hR.q_lt p (List.mem_cons_of_mem _ hp), ?_, ?_, hsorted⟩
            · intro v hfv hdv
              have hvu : v ≠ top.2 := by
                intro h
                rw [h, (aMark_fin top.2 st top.2).2 (Or.inl rfl)] at hfv
                exact absurd hfv (by simp)
              have hfv2 : st.fin v = false := by
                cases hh : st.fin v with
                | false => rfl
                | true =>
                  rw [(aMark_fin top.2 st v).2 (Or.inr hh)] at hfv
                  exact absurd hfv (by simp)
              rcases List.mem_cons.1 (hR.q_has v hfv2 hdv) with h | h
              · exact absurd (by rw [← h]) hvu
              · exact h
            · intro x hx p hp
              rcases (aMark_fin top.2 st x).1 hx with h | h
              · rw [h]
                have := hhead p (List.mem_cons_of_mem _ hp)
                show st.dist top.2 ≤ p.1
                omega
              · exact hR.q_top x h p (List.mem_cons_of_mem _ hp)
          obtain ⟨h1, h2, h3⟩ := main_settle_fold_sim hw hb (adj top.2) [] (aMark top.2 st) g rest
            (fun e he => he) hS0 hR0
          have hI2 : DInv adj ok s root (aSettle adj ok top.2 st) := hI.settle hw hfu hd hmin
          have hfin2 : (aSettle adj ok top.2 st).fin = upd st.fin top.2 true :=
            aSettle_fin _ _ _ _
          have hEu : E ≠ top.2 := fun h => hE h.symm
          have hlink : ∀ n2, workLeft adj U
                ((adj top.2).foldl (relaxEdge top.2) (g, rest)).2
                (aSettle adj ok top.2 st) ≤ n2 → n2 = k →
              ∃ g2 st2, DijkstraQLoop (k + 1)
                  ((adj top.2).foldl (relaxEdge top.2) (g, rest)).1
                  ((adj top.2).foldl (relaxEdge top.2) (g, rest)).2 E = some g2 ∧
                DInv adj ok s root st2 ∧
                (∀ v, g2.distance.get v = st2.dist v) ∧ (∀ v, g2.parent.get v = st2.par v) ∧
                st2.fin s = true ∧ st2.fin E = false ∧
                (g2.found = 1 →
                  st2.dist E < INF ∧ ∀ v, st2.fin v = false → st2.dist E ≤ st2.dist v) ∧
                (g2.found ≠ 1 → DClosed st2) ∧
                LeastRun adj ok st st2 ∧ (g2.found = 1 → IsNext st2 E) := by
            intro n2 hle hn2
            rw [hn2] at hle
            obtain ⟨g2, st2, a1, a2, a3, a4, a5, a6, a7, a8, a9, a10⟩ :=
              ih _ _ (aSettle adj ok top.2 st) hle hI2 h1
                (by rw [hfin2]; simp [upd, hfs])
                (by rw [hfin2]; simp [upd, hEu, hfE])
                (by rw [h2]; exact hfound)
            exact ⟨g2, st2, a1, a2, a3, a4, a5, a6, a7, a8,
              LeastRun.step _ _ top.2 (hnext hfu) a9, a10⟩
          apply hlink k _ rfl
          have hsum := filter_sum_lt U (fun v => (adj v).length) (fun v => !st.fin v)
            (fun v => !(upd st.fin top.2 true) v)
            (by
              intro v
              by_cases hv : v = top.2
              · simp [upd, hv]
              · simp [upd, hv])
            top.2 hmem (by simp [hfu]) (by simp [upd])
          simp only [workLeft, List.length_cons] at hn ⊢
          rw [hfin2]
          simp only at hsum
          omega

end Main

/-! ## The breadth-first scheme -/

theorem BChain.tree_transfer {adj : Adj} {ok : Int → Bool} {s : Int} {st st2 : BState} {v : Int}
    {steps : List (Int × Int)} (h : BChain adj ok s st v steps)
    (hl : st2.lvl v = st.lvl v) (hd : ∀ x, st.disc x = true → st2.disc x = true)
    (hp : ∀ x ∈ steps.map Prod.fst, st2.par x = st.par x) : BChain adj ok s st2 v steps :=
  { walk := h.walk, last := h.last, length := by rw [hl]; exact h.length, nodup := h.nodup,
    pass := h.pass, seen := fun x hx => hd x (h.seen x hx),
    parent := parOK_congr st.par st2.par steps s hp h.parent }

theorem BChain.tree_path {adj : Adj} {ok : Int → Bool} {s : Int} {st : BState} {v : Int}
    {steps : List (Int × Int)} (h : BChain adj ok s st v steps) :
    IsPathTo adj (fun x => ok x = true) s v steps :=
  ⟨h.walk, h.last, h.pass⟩

/-- Expanding starts: the head of the queue is popped. -/
theorem XInv.expand_start {adj : Adj} {ok : Int → Bool} {s root : Int} {st : BState} {u : Int}
    {rest : List Int} (h : BInv adj ok s root st) (hq : st.que = u :: rest) :
    XInv adj ok s root u [] { st with que := rest } := by
  have hc := h.core
  have hnd := hc.que_nodup
  have hso := hc.que_sorted
  rw [hq] at hnd hso
  refine
    { core :=
        { disc_s := hc.disc_s, lvl_s := hc.lvl_s, par_s := hc.par_s, ok_s := hc.ok_s,
          chain := ?_, que_disc := ?_, que_nodup := (List.nodup_cons.1 hnd).2,
          que_sorted := (List.pairwise_cons.1 hso).2 },
      disc_u := hc.que_disc u (by rw [hq]; simp), out_u := (List.nodup_cons.1 hnd).1,
      lo := (List.pairwise_cons.1 hso).1, hi := h.span u (by rw [hq]; simp),
      expanded := ?_, done := ?_ }
  · intro v hv
    obtain ⟨c, hcv⟩ := hc.chain v hv
    exact ⟨c, hcv.tree_transfer rfl (fun _ hx => hx) (fun _ _ => rfl)⟩
  · intro v hv
    exact hc.que_disc v (by rw [hq]; exact List.mem_cons_of_mem _ hv)
  · intro x hx hxq hxu
    apply h.expanded x hx
    rw [hq]
    intro hmem
    rcases List.mem_cons.1 hmem with h1 | h1
    · exact hxu h1
    · exact hxq h1
  · intro e he; simp at he

theorem bVisit_skip (ok : Int → Bool) (u : Int) (st : BState) (e : Int × Int)
    (h : ¬ (ok e.1 = true ∧ st.disc e.1 = false)) : bVisit ok u st e = st := by
  simp only [bVisit, if_neg h]

/-- One entry of the node being expanded is visited. -/
theorem XInv.expand_step {adj : Adj} {ok : Int → Bool} {s root : Int} {st : BState} {u : Int}
    {l : List (Int × Int)} (h : XInv adj ok s root u l st) (e : Int × Int)
    (he : e ∈ adj u) : XInv adj ok s root u (l ++ [e]) (bVisit ok u st e) := by
  have hc := h.core
  by_cases hcond : ok e.1 = true ∧ st.disc e.1 = false
  · have hst : bVisit ok u st e =
        { disc := upd st.disc e.1 true, lvl := upd st.lvl e.1 (st.lvl u + 1),
          par := upd st.par e.1 u, que := st.que ++ [e.1] } := by
      simp only [bVisit, if_pos hcond]
    have hnd : ∀ x, st.disc x = true → x ≠ e.1 := by
      intro x hx heq; rw [heq, hcond.2] at hx; exact absurd hx (by simp)
    have heu : u ≠ e.1 := hnd u h.disc_u
    have hes : s ≠ e.1 := hnd s hc.disc_s
    have hnq : e.1 ∉ st.que := fun hm => hnd e.1 (hc.que_disc e.1 hm) rfl
    have hdisc : ∀ x, (bVisit ok u st e).disc x = true ↔ (x = e.1 ∨ st.disc x = true) := by
      intro x; rw [hst]
      by_cases hx : x = e.1 <;> simp [upd, hx]
    have hlvl : ∀ x, x ≠ e.1 → (bVisit ok u st e).lvl x = st.lvl x := by
      intro x hx; rw [hst]; exact upd_other _ _ _ _ hx
    have hlvle : (bVisit ok u st e).lvl e.1 = st.lvl u + 1 := by
      rw [hst]; exact upd_same _ _ _
    have hpar : ∀ x, x ≠ e.1 → (bVisit ok u st e).par x = st.par x := by
      intro x hx; rw [hst]; exact upd_other _ _ _ _ hx
    have hpare : (bVisit ok u st e).par e.1 = u := by
      rw [hst]; exact upd_same _ _ _
    have hque : (bVisit ok u st e).que = st.que ++ [e.1] := by rw [hst]
    have hvis : ∀ x, st.disc x = true → ∀ l2, VisitedAt ok st x l2 →
        VisitedAt ok (bVisit ok u st e) x l2 := by
      intro x hx l2 hv a ha hoka
      obtain ⟨h1, h2⟩ := hv a ha hoka
      refine ⟨(hdisc a.1).2 (Or.inr h1), ?_⟩
      rw [hlvl a.1 (hnd a.1 h1), hlvl x (hnd x hx)]
      exact h2
    refine
      { core :=
          { disc_s := (hdisc s).2 (Or.inr hc.disc_s),
            lvl_s := by rw [hlvl s hes]; exact hc.lvl_s,
            par_s := by rw [hpar s hes]; exact hc.par_s,
            ok_s := hc.ok_s, chain := ?_, que_disc := ?_, que_nodup := ?_, que_sorted := ?_ },
        disc_u := (hdisc u).2 (Or.inr h.disc_u), out_u := ?_, lo := ?_, hi := ?_,
        expanded := ?_, done := ?_ }
    · intro v hv
      by_cases hve : v = e.1
      · obtain ⟨c, hcu⟩ := hc.chain u h.disc_u
        have hnot : e.1 ∉ walkNodes s c := fun hm => hnd e.1 (hcu.seen e.1 hm) rfl
        refine ⟨c ++ [e], ?_⟩
        refine
          { walk := ?_, last := ?_, length := ?_, nodup := ?_, pass := ?_, seen := ?_,
            parent := ?_ }
        · rw [isWalk_append, hcu.last]; exact ⟨hcu.walk, he, trivial⟩
        · rw [walkEnd_append, hve]; rfl
        · rw [hve, hlvle, List.length_append, hcu.length]; rfl
        · rw [walkNodes_snoc]
          exact List.Nodup.append hcu.nodup (List.nodup_singleton _)
            (by
              intro x hx1 hx2
              simp only [List.mem_singleton] at hx2
              rw [hx2] at hx1; exact hnot hx1)
        · intro x hx
          rw [walkNodes_snoc, List.mem_append] at hx
          rcases hx with hx | hx
          · exact hcu.pass x hx
          · simp only [List.mem_singleton] at hx
            rw [hx]; exact hcond.1
        · intro x hx
          rw [walkNodes_snoc, List.mem_append] at hx
          rcases hx with hx | hx
          · exact (hdisc x).2 (Or.inr (hcu.seen x hx))
          · simp only [List.mem_singleton] at hx
            exact (hdisc x).2 (Or.inl hx)
        · rw [parOK_snoc]
          refine ⟨parOK_congr st.par _ c s ?_ hcu.parent, by rw [hpare, hcu.last]⟩
          intro x hx
          apply hpar
          exact hnd x (hcu.seen x (by simp only [walkNodes, List.mem_cons]; exact Or.inr hx))
      · have hv2 : st.disc v = true := by
          rcases (hdisc v).1 hv with h1 | h1
          · exact absurd h1 hve
          · exact h1
        obtain ⟨c, hcv⟩ := hc.chain v hv2
        refine ⟨c, hcv.tree_transfer (hlvl v hve) (fun x hx => (hdisc x).2 (Or.inr hx)) ?_⟩
        intro x hx
        apply hpar
        exact hnd x (hcv.seen x (by simp only [walkNodes, List.mem_cons]; exact Or.inr hx))
    · intro v hv
      rw [hque, List.mem_append] at hv
      rcases hv with hv | hv
      · exact (hdisc v).2 (Or.inr (hc.que_disc v hv))
      · simp only [List.mem_singleton] at hv
        exact (hdisc v).2 (Or.inl hv)
    · rw [hque]
      exact List.Nodup.append hc.que_nodup (List.nodup_singleton _)
        (by
          intro x hx1 hx2
          simp only [List.mem_singleton] at hx2
          rw [hx2] at hx1; exact hnq hx1)
    · rw [hque, List.pairwise_append]
      refine ⟨?_, List.pairwise_singleton _ _, ?_⟩
      · refine hc.que_sorted.imp_of_mem ?_
        intro a b ha hb hab
        rw [hlvl a (hnd a (hc.que_disc a ha)), hlvl b (hnd b (hc.que_disc b hb))]
        exact hab
      · intro a ha b hb
        simp only [List.mem_singleton] at hb
        rw [hb, hlvle, hlvl a (hnd a (hc.que_disc a ha))]
        exact h.hi a (hc.que_disc a ha)
    · rw [hque, List.mem_append]
      rintro (h1 | h1)
      · exact h.out_u h1
      · simp only [List.mem_singleton] at h1
        exact heu h1
    · intro a ha
      rw [hque, List.mem_append] at ha
      rw [hlvl u heu]
      rcases ha with ha | ha
      · rw [hlvl a (hnd a (hc.que_disc a ha))]; exact h.lo a ha
      · simp only [List.mem_singleton] at ha
        rw [ha, hlvle]; omega
    · intro v hv
      rw [hlvl u heu]
      rcases (hdisc v).1 hv with h1 | h1
      · rw [h1, hlvle]
      · rw [hlvl v (hnd v h1)]; exact h.hi v h1
    · intro x hx hxq hxu
      have hxe : x ≠ e.1 := by
        intro heq; apply hxq; rw [hque, heq]; simp
      have hx2 : st.disc x = true := by
        rcases (hdisc x).1 hx with h1 | h1
        · exact absurd h1 hxe
        · exact h1
      have hxq2 : x ∉ st.que := by
        intro hm; apply hxq; rw [hque]; exact List.mem_append_left _ hm
      exact hvis x hx2 _ (h.expanded x hx2 hxq2 hxu)
    · intro a ha hoka
      rw [List.mem_append] at ha
      rcases ha with ha | ha
      · exact hvis u h.disc_u l h.done a ha hoka
      · simp only [List.mem_singleton] at ha
        rw [ha, hlvle, hlvl u heu]
        exact ⟨(hdisc e.1).2 (Or.inl rfl), le_refl _⟩
  · rw [bVisit_skip ok u st e hcond]
    refine { core := hc, disc_u := h.disc_u, out_u := h.out_u, lo := h.lo, hi := h.hi,
             expanded := h.expanded, done := ?_ }
    intro a ha hoka
    rw [List.mem_append] at ha
    rcases ha with ha | ha
    · exact h.done a ha hoka
    · simp only [List.mem_singleton] at ha
      rw [ha] at hoka ⊢
      have hd : st.disc e.1 = true := by
        cases hde : st.disc e.1 with
        | true => rfl
        | false => exact absurd ⟨hoka, hde⟩ hcond
      exact ⟨hd, h.hi e.1 hd⟩

theorem XInv.expand_fold {adj : Adj} {ok : Int → Bool} {s root : Int} {u : Int}
    (l2 : List (Int × Int)) :
    ∀ (l1 : List (Int × Int)) (st : BState), (∀ e ∈ l2, e ∈ adj u) →
      XInv adj ok s root u l1 st →
      XInv adj ok s root u (l1 ++ l2) (l2.foldl (bVisit ok u) st) := by
  induction l2 with
  | nil => intro l1 st _ h; simpa using h
  | cons e rest ih =>
    intro l1 st hmem h
    have h1 := h.expand_step e (hmem e (by simp))
    have h2 := ih (l1 ++ [e]) (bVisit ok u st e)
      (fun a ha => hmem a (by simp only [List.mem_cons]; exact Or.inr ha)) h1
    simpa using h2

theorem XInv.expand_finish {adj : Adj} {ok : Int → Bool} {s root : Int} {st : BState} {u : Int}
    (h : XInv adj ok s root u (adj u) st) : BInv adj ok s root st := by
  refine { core := h.core, span := ?_, expanded := ?_ }
  · intro a ha v hv
    have h1 := h.lo a ha
    have h2 := h.hi v hv
    omega
  · intro x hx hxq
    by_cases hxu : x = u
    · rw [hxu]; exact h.done
    · exact h.expanded x hx hxq hxu

/-- Expanding the head of the queue keeps the invariant. -/
theorem BInv.expand {adj : Adj} {ok : Int → Bool} {s root : Int} {st : BState} {u : Int}
    {rest : List Int} (h : BInv adj ok s root st) (hq : st.que = u :: rest) :
    BInv adj ok s root (bExpand adj ok u st) := by
  have h1 := XInv.expand_start h hq
  have h2 := XInv.expand_fold (adj u) [] _ (fun e he => he) h1
  have h3 : bExpand adj ok u st = (adj u).foldl (bVisit ok u) { st with que := rest } := by
    unfold bExpand; rw [hq]; rfl
  rw [h3]
  exact XInv.expand_finish (by simpa using h2)

/-- The invariant holds before the first expansion. -/
theorem BInv.lvl_init (adj : Adj) (ok : Int → Bool) (s root : Int) (par : Int → Int)
    (hs : ok s = true) : BInv adj ok s root (bInit s root par) := by
  have hd : ∀ v, (bInit s root par).disc v = true → v = s := by
    intro v hv
    by_contra hne
    simp [bInit, upd, hne] at hv
  refine
    { core :=
        { disc_s := by simp [bInit, upd], lvl_s := rfl, par_s := by simp [bInit, upd],
          ok_s := hs, chain := ?_, que_disc := ?_, que_nodup := by simp [bInit],
          que_sorted := by simp [bInit] },
      span := ?_, expanded := ?_ }
  · intro v hv
    have hvs := hd v hv
    refine ⟨[], ?_⟩
    refine
      { walk := trivial, last := by rw [hvs]; rfl, length := rfl,
        nodup := by simp [walkNodes], pass := ?_, seen := ?_, parent := trivial }
    · intro x hx
      simp only [walkNodes, List.map_nil, List.mem_singleton] at hx
      rw [hx]; exact hs
    · intro x hx
      simp only [walkNodes, List.map_nil, List.mem_singleton] at hx
      rw [hx]; simp [bInit, upd]
  · intro v hv
    simp only [bInit, List.mem_singleton] at hv
    rw [hv]; simp [bInit, upd]
  · intro a _ v _
    simp [bInit]
  · intro x hx hxq
    exfalso
    apply hxq
    rw [hd x hx]
    simp [bInit]

/-- When the node `t` is at the head of the queue, every walk from a discovered node to `t`
has at least `lvl t - lvl u` edges. -/
theorem BInv.lvl_exit_bound {adj : Adj} {ok : Int → Bool} {s root : Int} {st : BState}
    (h : BInv adj ok s root st) (t : Int) (rest : List Int) (hq : st.que = t :: rest)
    (steps : List (Int × Int)) :
    ∀ u, st.disc u = true → IsWalk adj u steps → (∀ x ∈ steps.map Prod.fst, ok x = true) →
      walkEnd u steps = t → st.lvl t ≤ st.lvl u + steps.length := by
  have hso := h.core.que_sorted
  rw [hq] at hso
  have hhead : ∀ a ∈ st.que, st.lvl t ≤ st.lvl a := by
    intro a ha
    rw [hq] at ha
    rcases List.mem_cons.1 ha with h1 | h1
    · rw [h1]
    · exact (List.pairwise_cons.1 hso).1 a h1
  induction steps with
  | nil =>
    intro u _ _ _ hend
    simp only [walkEnd] at hend
    rw [hend]; omega
  | cons e rest2 ih =>
    intro u hu hwalk hok hend
    by_cases huq : u ∈ st.que
    · have := hhead u huq
      omega
    · obtain ⟨h1, h2⟩ := h.expanded u hu huq e hwalk.1 (hok e.1 (by simp))
      have := ih e.1 h1 hwalk.2
        (fun x hx => hok x (by simp only [List.map_cons, List.mem_cons]; exact Or.inr hx)) hend
      simp only [List.length_cons]
      omega

/-- When the node `t` is at the head of the queue, its level is the minimum number of edges
over all paths from the source, realised by its tree path. -/
theorem BInv.lvl_exit_optimal {adj : Adj} {ok : Int → Bool} {s root : Int} {st : BState}
    (h : BInv adj ok s root st) (t : Int) (rest : List Int) (hq : st.que = t :: rest) :
    (∃ steps, BChain adj ok s st t steps) ∧
      IsMinHops adj (fun x => ok x = true) s t (st.lvl t) := by
  obtain ⟨c, hc⟩ := h.core.chain t (h.core.que_disc t (by rw [hq]; simp))
  refine ⟨⟨c, hc⟩, ⟨c, hc.tree_path, hc.length⟩, ?_⟩
  intro q hq2
  have := h.lvl_exit_bound t rest hq q s h.core.disc_s hq2.1
    (fun x hx => hq2.2.2 x (by simp only [walkNodes, List.mem_cons]; exact Or.inr hx)) hq2.2.1
  rw [h.core.lvl_s] at this
  omega

/-- Once the queue is empty, every walk from a discovered node ends at a discovered node
whose level is at most the level of the start plus the length of the walk. -/
theorem BInv.lvl_closed_bound {adj : Adj} {ok : Int → Bool} {s root : Int} {st : BState}
    (h : BInv adj ok s root st) (hq : st.que = []) (steps : List (Int × Int)) :
    ∀ u, st.disc u = true → IsWalk adj u steps → (∀ x ∈ steps.map Prod.fst, ok x = true) →
      st.disc (walkEnd u steps) = true ∧ st.lvl (walkEnd u steps) ≤ st.lvl u + steps.length := by
  induction steps with
  | nil => intro u hu _ _; exact ⟨hu, by simp [walkEnd]⟩
  | cons e rest ih =>
    intro u hu hwalk hok
    obtain ⟨h1, h2⟩ := h.expanded u hu (by rw [hq]; simp) e hwalk.1 (hok e.1 (by simp))
    have := ih e.1 h1 hwalk.2
      (fun x hx => hok x (by simp only [List.map_cons, List.mem_cons]; exact Or.inr hx))
    refine ⟨this.1, ?_⟩
    simp only [walkEnd, List.length_cons]
    omega

/-- Once the queue is empty, every node that can be reached is discovered and its level is
the minimum number of edges over all paths from the source, realised by its tree path. -/
theorem BInv.lvl_closed_optimal {adj : Adj} {ok : Int → Bool} {s root : Int} {st : BState}
    (h : BInv adj ok s root st) (hq : st.que = []) (v : Int)
    (hr : Reach adj (fun x => ok x = true) s v) :
    st.disc v = true ∧ (∃ steps, BChain adj ok s st v steps) ∧
      IsMinHops adj (fun x => ok x = true) s v (st.lvl v) := by
  have hbound : ∀ steps, IsPathTo adj (fun x => ok x = true) s v steps →
      st.disc v = true ∧ st.lvl v ≤ steps.length := by
    intro steps hp
    have := h.lvl_closed_bound hq steps s h.core.disc_s hp.1
      (fun x hx => hp.2.2 x (by simp only [walkNodes, List.mem_cons]; exact Or.inr hx))
    rw [hp.2.1, h.core.lvl_s] at this
    exact ⟨this.1, by omega⟩
  obtain ⟨p, hp⟩ := hr
  have hd := (hbound p hp).1
  obtain ⟨c, hc⟩ := h.core.chain v hd
  exact ⟨hd, ⟨c, hc⟩, ⟨c, hc.tree_path, hc.length⟩, fun q hq2 => (hbound q hq2).2⟩

theorem bVisit_left (ok : Int → Bool) (u : Int) (st : BState) (e : Int × Int) (U : List Int)
    (he : e.1 ∈ U) : Main.bfsLeft U (bVisit ok u st e) ≤ Main.bfsLeft U st := by
  by_cases hcond : ok e.1 = true ∧ st.disc e.1 = false
  · have hst : bVisit ok u st e =
        { disc := upd st.disc e.1 true, lvl := upd st.lvl e.1 (st.lvl u + 1),
          par := upd st.par e.1 u, que := st.que ++ [e.1] } := by
      simp only [bVisit, if_pos hcond]
    rw [hst]
    have := unsettled_lt U st.disc e.1 he hcond.2
    simp only [Main.bfsLeft, List.length_append, List.length_singleton]
    omega
  · rw [bVisit_skip ok u st e hcond]

theorem bVisit_fold_left (ok : Int → Bool) (u : Int) (U : List Int) (l : List (Int × Int)) :
    ∀ st, (∀ e ∈ l, e.1 ∈ U) →
      Main.bfsLeft U (l.foldl (bVisit ok u) st) ≤ Main.bfsLeft U st := by
  induction l with
  | nil => intro st _; exact le_refl _
  | cons e rest ih =>
    intro st h
    simp only [List.foldl_cons]
    exact le_trans (ih _ (fun a ha => h a (by simp only [List.mem_cons]; exact Or.inr ha)))
      (bVisit_left ok u st e U (h e (by simp)))

/-- The destination stays in the queue once discovered, as long as it is not expanded. -/
theorem bVisit_keeps (ok : Int → Bool) (u : Int) (st : BState) (e : Int × Int) (E : Int)
    (h : st.disc E = true → E ∈ st.que) :
    (bVisit ok u st e).disc E = true → E ∈ (bVisit ok u st e).que := by
  by_cases hcond : ok e.1 = true ∧ st.disc e.1 = false
  · have hst : bVisit ok u st e =
        { disc := upd st.disc e.1 true, lvl := upd st.lvl e.1 (st.lvl u + 1),
          par := upd st.par e.1 u, que := st.que ++ [e.1] } := by
      simp only [bVisit, if_pos hcond]
    rw [hst]
    intro hd
    simp only [upd] at hd
    by_cases hE : E = e.1
    · simp [hE]
    · simp only [hE, if_false] at hd
      exact List.mem_append_left _ (h hd)
  · rw [bVisit_skip ok u st e hcond]; exact h

theorem bVisit_fold_keeps (ok : Int → Bool) (u : Int) (E : Int) (l : List (Int × Int)) :
    ∀ st, (st.disc E = true → E ∈ st.que) →
      (l.foldl (bVisit ok u) st).disc E = true → E ∈ (l.foldl (bVisit ok u) st).que := by
  induction l with
  | nil => intro st h; exact h
  | cons e rest ih =>
    intro st h
    simp only [List.foldl_cons]
    exact ih _ (bVisit_keeps ok u st e E h)

namespace Main

open NodeState

/-- One entry: `visitNeighbor` does what the breadth-first scheme does; with a unit weight
and a level that fits an `int` the distance recorded is the level. -/
theorem main_visitNeighbor_sim {adj : Adj} {ok : Int → Bool} {s u : Int} {st : BState} {g : Graph}
    (hR : BRel adj ok s g st) (e : Int × Int) :
    BRel adj ok s (visitNeighbor u (g, st.que) e).1 (bVisit ok u st e) ∧
      (visitNeighbor u (g, st.que) e).2 = (bVisit ok u st e).que ∧
      (visitNeighbor u (g, st.que) e).1.found = g.found ∧
      (e.2 = 1 → st.disc u = true → (st.lvl u : Int) + 1 < INF → DistLvl g st →
        DistLvl (visitNeighbor u (g, st.que) e).1 (bVisit ok u st e)) := by
  have hds : st.disc s = true := (hR.disc s).2 (Or.inl rfl)
  by_cases hcond : ok e.1 = true ∧ st.disc e.1 = false
  · have hes : e.1 ≠ s := by
      intro h; rw [h, hds] at hcond; exact absurd hcond.2 (by simp)
    have hnv : g.state.get e.1 ≠ Visited := by
      intro h
      have := (hR.disc e.1).2 (Or.inr h)
      rw [hcond.2] at this; exact absurd this (by simp)
    have hno : g.state.get e.1 ≠ Obstacle := by
      intro h
      have := (hR.obst e.1 hes).1 h
      rw [hcond.1] at this; exact absurd this (by simp)
    have hc : g.state.get e.1 ≠ Obstacle ∧ g.state.get e.1 ≠ Visited ∧
        g.state.get e.1 ≠ Start := ⟨hno, hnv, hR.start e.1 hes⟩
    have hst : bVisit ok u st e =
        { disc := upd st.disc e.1 true, lvl := upd st.lvl e.1 (st.lvl u + 1),
          par := upd st.par e.1 u, que := st.que ++ [e.1] } := by
      simp only [bVisit, if_pos hcond]
    have hv : visitNeighbor u (g, st.que) e =
        ({ g with state := g.state.set e.1 Visited,
                  distance := g.distance.set e.1 (wrapInt (g.distance.get u + e.2)),
                  parent := g.parent.set e.1 u }, st.que ++ [e.1]) := by
      simp only [visitNeighbor, hc, ne_eq, not_false_eq_true, and_self, if_true]
    rw [hv, hst]
    refine ⟨⟨hR.adj_eq, ?_, ?_, ?_, ?_, ?_⟩, rfl, rfl, ?_⟩
    · intro v
      simp only [vec_get_set, upd]
      split
      · rfl
      · exact hR.par_eq v
    · simp only [vec_get_set, if_neg (Ne.symm hes)]; exact hR.state_s
    · intro v hv2
      simp only [vec_get_set]
      split
      · decide
      · exact hR.start v hv2
    · intro v hv2
      simp only [vec_get_set]
      split
      · rename_i h
        rw [h, hcond.1]; simp
      · exact hR.obst v hv2
    · intro v
      simp only [vec_get_set, upd]
      by_cases hve : v = e.1
      · simp [hve]
      · simp only [hve, if_false]; exact hR.disc v
    · intro hw hdu hlt hDL v hv2
      simp only [vec_get_set, upd] at hv2 ⊢
      have hdu2 := hDL u hdu
      by_cases hve : v = e.1
      · simp only [hve, if_true]
        rw [hdu2, hw, wrapInt_id _ (by omega) hlt]
        push_cast; rfl
      · simp only [hve, if_false] at hv2 ⊢
        exact hDL v hv2
  · rw [bVisit_skip ok u st e hcond]
    have hc : ¬ (g.state.get e.1 ≠ Obstacle ∧ g.state.get e.1 ≠ Visited ∧
        g.state.get e.1 ≠ Start) := by
      intro hc
      apply hcond
      have hes : e.1 ≠ s := by
        intro h; rw [h] at hc; exact hc.2.2 hR.state_s
      refine ⟨?_, ?_⟩
      · cases hoke : ok e.1 with
        | true => rfl
        | false => exact absurd ((hR.obst e.1 hes).2 hoke) hc.1
      · cases hde : st.disc e.1 with
        | false => rfl
        | true =>
          rcases (hR.disc e.1).1 hde with h | h
          · exact absurd h hes
          · exact absurd h hc.2.1
    have hv : visitNeighbor u (g, st.que) e = (g, st.que) := by
      simp only [visitNeighbor, hc, if_false]
    rw [hv]
    exact ⟨hR, rfl, rfl, fun _ _ _ h => h⟩

/-- Expanding: the `for` loop does what the breadth-first scheme does. -/
theorem main_visit_fold_sim {adj : Adj} {ok : Int → Bool} {s r u : Int}
    (unit : Prop) (hunit : unit → ∀ e ∈ adj u, e.2 = 1)
    (hbound : unit → ∀ st l, XInv adj ok s r u l st → (st.lvl u : Int) + 1 < INF)
    (l2 : List (Int × Int)) :
    ∀ (l1 : List (Int × Int)) (st : BState) (g : Graph),
      (∀ e ∈ l2, e ∈ adj u) → XInv adj ok s r u l1 st → BRel adj ok s g st →
      BRel adj ok s (l2.foldl (visitNeighbor u) (g, st.que)).1 (l2.foldl (bVisit ok u) st) ∧
      (l2.foldl (visitNeighbor u) (g, st.que)).2 = (l2.foldl (bVisit ok u) st).que ∧
      (l2.foldl (visitNeighbor u) (g, st.que)).1.found = g.found ∧
      (unit → DistLvl g st →
        DistLvl (l2.foldl (visitNeighbor u) (g, st.que)).1 (l2.foldl (bVisit ok u) st)) := by
  induction l2 with
  | nil => intro l1 st g _ _ hR; exact ⟨hR, rfl, rfl, fun _ h => h⟩
  | cons e rest ih =>
    intro l1 st g hmem hX hR
    have he := hmem e (by simp)
    obtain ⟨h1, h2, h3, h4⟩ := main_visitNeighbor_sim (u := u) hR e
    have hX2 := hX.expand_step e he
    simp only [List.foldl_cons]
    have hpair : visitNeighbor u (g, st.que) e =
        ((visitNeighbor u (g, st.que) e).1, (bVisit ok u st e).que) := by
      rw [← h2]
    rw [hpair]
    obtain ⟨i1, i2, i3, i4⟩ := ih (l1 ++ [e]) (bVisit ok u st e) (visitNeighbor u (g, st.que) e).1
      (fun a ha => hmem a (by simp only [List.mem_cons]; exact Or.inr ha)) hX2 h1
    refine ⟨i1, i2, by rw [i3, h3], ?_⟩
    intro hu hDL
    apply i4 hu
    exact h4 (hunit hu e he) hX.disc_u (hbound hu st l1 hX) hDL

end Main

/-- The level of a discovered node is below the number of nodes. -/
theorem BCore.core_lvl_lt {adj : Adj} {ok : Int → Bool} {s root : Int} {st : BState}
    (h : BCore adj ok s root st) (U : List Int) (hU : ClosedUnder adj U) (hs : s ∈ U)
    (u : Int) (hu : st.disc u = true) : st.lvl u + 1 ≤ U.length := by
  obtain ⟨c, hc⟩ := h.chain u hu
  have := nodup_length_le _ U hc.nodup (walkNodes_in_closed adj U hU c s hs hc.walk)
  simp only [walkNodes, List.length_cons, List.length_map] at this
  rw [← hc.length]
  exact this

theorem IsMinHops.hops_congr {adj : Adj} {P Q : Int → Prop} {s v : Int} {n : Nat}
    (h : IsMinHops adj P s v n) (hPQ : ∀ x, P x ↔ Q x) : IsMinHops adj Q s v n := by
  obtain ⟨⟨p, hp, hpw⟩, hl⟩ := h
  exact ⟨⟨p, hp.path_congr (fun x => (hPQ x).1), hpw⟩,
    fun q hq => hl q (hq.path_congr (fun x => (hPQ x).2))⟩

theorem IsMinHops.hops_unique {adj : Adj} {ok : Int → Prop} {s v : Int} {a b : Nat}
    (ha : IsMinHops adj ok s v a) (hb : IsMinHops adj ok s v b) : a = b := by
  obtain ⟨⟨p, hp, hpw⟩, hal⟩ := ha
  obtain ⟨⟨q, hq, hqw⟩, hbl⟩ := hb
  have h1 := hal q hq
  have h2 := hbl p hp
  omega

namespace Main

open NodeState

theorem bloop_nil (m : Nat) (g : Graph) (E : Int) :
    BreadthFirstLoop (m + 1) g [] E = some g := by
  simp [BreadthFirstLoop]

theorem bloop_exit (m : Nat) (g : Graph) (u : Int) (rest : List Int)
    (E : Int) (h : u = E) :
    BreadthFirstLoop (m + 1) g (u :: rest) E = some { g with found := 1 } := by
  simp [BreadthFirstLoop, h]

theorem bloop_pop (m : Nat) (g : Graph) (u : Int) (rest : List Int)
    (E : Int) (h : u ≠ E) :
    BreadthFirstLoop (m + 1) g (u :: rest) E =
      BreadthFirstLoop m ((g.adj_weighted.get u).foldl (visitNeighbor u) (g, rest)).1
        ((g.adj_weighted.get u).foldl (visitNeighbor u) (g, rest)).2 E := by
  simp [BreadthFirstLoop, h]

/-- The `while (!que.empty())` loop of `BreadthFirstSearch` returns: either with
`found = 1` and the destination at the head of the queue, or with `found` as before, the
queue empty and the destination not discovered. -/
theorem main_bfs_loop {adj : Adj} {ok : Int → Bool} {s r : Int} (U : List Int)
    (hU : ClosedUnder adj U) (hsU : s ∈ U) (E : Int) (unit : Prop)
    (hunit : unit → ∀ u, ∀ e ∈ adj u, e.2 = 1) (hlen : unit → (U.length : Int) < INF) :
    ∀ (n : Nat) (g : Graph) (st : BState),
      bfsLeft U st ≤ n → BInv adj ok s r st → BRel adj ok s g st →
      (st.disc E = true → E ∈ st.que) → g.found = 0 →
      ∃ g2 st2, BreadthFirstLoop (n + 1) g st.que E = some g2 ∧ BInv adj ok s r st2 ∧
        BRel adj ok s g2 st2 ∧ (unit → DistLvl g st → DistLvl g2 st2) ∧
        ((g2.found = 1 ∧ ∃ rest, st2.que = E :: rest) ∨
          (g2.found = 0 ∧ st2.que = [] ∧ st2.disc E = false)) := by
  intro n
  induction n with
  | zero =>
    intro g st hn hI hR hEq hfound
    cases hq : st.que with
    | nil =>
      refine ⟨g, st, bloop_nil 0 g E, hI, hR, fun _ h => h, Or.inr ⟨hfound, hq, ?_⟩⟩
      cases hd : st.disc E with
      | false => rfl
      | true => have := hEq hd; rw [hq] at this; simp at this
    | cons u rest =>
      simp [bfsLeft, hq] at hn
  | succ k ih =>
    intro g st hn hI hR hEq hfound
    cases hq : st.que with
    | nil =>
      refine ⟨g, st, bloop_nil _ g E, hI, hR, fun _ h => h, Or.inr ⟨hfound, hq, ?_⟩⟩
      cases hd : st.disc E with
      | false => rfl
      | true => have := hEq hd; rw [hq] at this; simp at this
    | cons u rest =>
      by_cases hE : u = E
      · rw [bloop_exit _ g u rest E hE]
        refine ⟨_, st, rfl, hI, ⟨hR.adj_eq, hR.par_eq, hR.state_s, hR.start, hR.obst, hR.disc⟩,
          fun _ h => h, Or.inl ⟨rfl, rest, by rw [hq, hE]⟩⟩
      · rw [bloop_pop _ g u rest E hE, hR.adj_eq u]
        have hX := XInv.expand_start hI hq
        have hR0 : BRel adj ok s g { st with que := rest } :=
          ⟨hR.adj_eq, hR.par_eq, hR.state_s, hR.start, hR.obst, hR.disc⟩
        have hdu : st.disc u = true := hI.core.que_disc u (by rw [hq]; simp)
        obtain ⟨c, hc⟩ := hI.core.chain u hdu
        have hmem : u ∈ U := by
          have := walkEnd_in_closed adj U hU c s hsU hc.walk
          rwa [hc.last] at this
        obtain ⟨h1, h2, h3, h4⟩ := main_visit_fold_sim (r := r) unit (fun hu => hunit hu u)
          (fun hu st2 l hX2 => by
            have := hX2.core.core_lvl_lt U hU hsU u hX2.disc_u
            have := hlen hu
            omega)
          (adj u) [] { st with que := rest } g (fun e he => he) hX hR0
        have hI2 : BInv adj ok s r (bExpand adj ok u st) := hI.expand hq
        have hexp : bExpand adj ok u st =
            (adj u).foldl (bVisit ok u) { st with que := rest } := by
          unfold bExpand; rw [hq]; rfl
        rw [← hexp] at h1 h2 h4
        have hpair : (List.foldl (visitNeighbor u) (g, rest) (adj u)).2 =
            (bExpand adj ok u st).que := h2
        rw [hpair]
        have hmeas : bfsLeft U (bExpand adj ok u st) ≤ k := by
          rw [hexp]
          have := bVisit_fold_left ok u U (adj u) { st with que := rest }
            (fun e he => hU u hmem e he)
          have h5 : bfsLeft U { st with que := rest } + 1 = bfsLeft U st := by
            simp only [bfsLeft, hq, List.length_cons]
            omega
          omega
        have hEq2 : (bExpand adj ok u st).disc E = true → E ∈ (bExpand adj ok u st).que := by
          rw [hexp]
          apply bVisit_fold_keeps
          intro hd
          have := hEq hd
          rw [hq] at this
          rcases List.mem_cons.1 this with h | h
          · exact absurd h.symm hE
          · exact h
        obtain ⟨g2, st2, r1, r2, r3, r4, r5⟩ := ih _ (bExpand adj ok u st) hmeas hI2 h1 hEq2
          (by rw [h3]; exact hfound)
        exact ⟨g2, st2, r1, r2, r3, fun hu hDL => r4 hu (h4 hu hDL), r5⟩

/-- The routine `BreadthFirstSearch` on a graph without visited nodes whose source is the only node
marked `Start` returns; see `main_bfs_loop` for what holds of the result. -/
theorem main_bfs_correct (g : Graph) (s E root : Int) (hv : g.Valid) (hs : g.IsNode s)
    (ht : g.NoTrace) (hss : g.state.get s = Start) (hst : g.OnlyStart s) (hne : E ≠ s)
    (hf : g.found = 0) (unit : Prop) (hunit : unit → ∀ u, ∀ e ∈ g.wadj u, e.2 = 1)
    (hlen : unit → (g.adj_weighted.size : Int) < INF) :
    ∃ fuel g2 st2, BreadthFirstSearch fuel g s E root = some g2 ∧
      BInv g.wadj (g.passable s) s root st2 ∧ BRel g.wadj (g.passable s) s g2 st2 ∧
      (unit → DistLvl g2 st2) ∧
      ((g2.found = 1 ∧ ∃ rest, st2.que = E :: rest) ∨
        (g2.found = 0 ∧ st2.que = [] ∧ st2.disc E = false)) := by
  have hoks : g.passable s s = true := by simp [Graph.passable]
  have hI := BInv.lvl_init g.wadj (g.passable s) s root (fun v => g.parent.get v) hoks
  have hR : BRel g.wadj (g.passable s) s
      { g with distance := g.distance.set s 0, parent := g.parent.set s root }
      (bInit s root (fun v => g.parent.get v)) := by
    refine ⟨fun _ => rfl, ?_, hss, hst, ?_, ?_⟩
    · intro v
      by_cases h : v = s
      · simp [vec_get_set, bInit, upd, h]
      · simp [vec_get_set, bInit, upd, h]
    · intro v h
      simp [h, Graph.passable]
    · intro v
      by_cases h : v = s
      · simp [bInit, upd, h]
      · simp [bInit, upd, h, (ht v).1]
  have hDL : DistLvl { g with distance := g.distance.set s 0, parent := g.parent.set s root }
      (bInit s root (fun v => g.parent.get v)) := by
    intro v hv
    by_cases h : v = s
    · simp [vec_get_set, bInit, h]
    · simp [bInit, upd, h] at hv
  have hlen2 : unit → ((intRange g.adj_weighted.size).length : Int) < INF := by
    intro hu
    rw [length_intRange]
    have := hlen hu
    simpa using this
  obtain ⟨g2, st2, h1, h2, h3, h4, h5⟩ := main_bfs_loop (r := root)
    (intRange g.adj_weighted.size) hv.closed hs.mem E unit hunit hlen2 _ _ _ (le_refl _) hI hR
    (by
      intro hd
      exfalso
      simp [bInit, upd, hne] at hd)
    hf
  refine ⟨bfsLeft (intRange g.adj_weighted.size) (bInit s root (fun v => g.parent.get v)) + 1,
    g2, st2, ?_, h2, h3, fun hu => h4 hu hDL, h5⟩
  rw [← h1]
  unfold BreadthFirstSearch
  have : ¬ (g.state.get s ≠ Start) := by rw [hss]; simp
  simp only [this, if_false]
  rfl

/-- Along a tree path, following `parent` from its end reaches the start after as many
steps as the path has edges, and not before. -/
theorem stepsBack_of_chain (g : Graph) (s : Int) (steps : List (Int × Int)) :
    ParOK (fun v => g.parent.get v) s steps → (walkNodes s steps).Nodup →
      g.StepsBack (walkEnd s steps) s steps.length := by
  induction steps using List.reverseRecOn with
  | nil =>
    intro _ _
    exact ⟨rfl, fun m hm => absurd hm (by simp)⟩
  | append_singleton l e ih =>
    intro hp hn
    rw [parOK_snoc] at hp
    rw [walkNodes_snoc] at hn
    have hn2 := List.nodup_append.1 hn
    obtain ⟨i1, i2⟩ := ih hp.1 hn2.1
    have hend : walkEnd s (l ++ [e]) = e.1 := by simp [walkEnd_append, walkEnd]
    have hpe : g.parent.get e.1 = walkEnd s l := hp.2
    rw [hend, List.length_append, List.length_singleton]
    refine ⟨?_, ?_⟩
    · show g.ancestor l.length (g.parent.get e.1) = s
      rw [hpe]; exact i1
    · intro m hm
      cases m with
      | zero =>
        show e.1 ≠ s
        intro h
        have h1 : s ∈ walkNodes s l := by simp [walkNodes]
        exact hn2.2.2 h1 (by simp [h])
      | succ j =>
        show g.ancestor j (g.parent.get e.1) ≠ s
        rw [hpe]
        exact i2 j (by omega)

end Main

theorem walkWeight_unit (adj : Adj) (h1 : ∀ u, ∀ e ∈ adj u, e.2 = 1) (l : List (Int × Int))
    (u : Int) (h : IsWalk adj u l) : walkWeight l = l.length := by
  induction l generalizing u with
  | nil => simp [walkWeight]
  | cons e rest ih =>
    rw [walkWeight_cons, h1 u e h.1, ih e.1 h.2]
    simp only [List.length_cons]
    push_cast
    omega

/-- With every path sum below `0x7FFFFFFF` in a structure of unit weights, a node about to
be discovered lies at a level that fits an `int`. -/
theorem XInv.expand_lvl_lt {adj : Adj} {ok : Int → Bool} {s root : Int} {st : BState} {u : Int}
    {l : List (Int × Int)} (h : XInv adj ok s root u l st)
    (h1 : ∀ u, ∀ e ∈ adj u, e.2 = 1) (hb : PathSumsBelow adj (fun x => ok x = true) s)
    (e : Int × Int) (he : e ∈ adj u) (hcond : ok e.1 = true ∧ st.disc e.1 = false) :
    (st.lvl u : Int) + 1 < INF := by
  obtain ⟨c, hc⟩ := h.core.chain u h.disc_u
  have hnot : e.1 ∉ walkNodes s c := by
    intro hm
    have := hc.seen e.1 hm
    rw [hcond.2] at this; exact absurd this (by simp)
  have hwalk : IsWalk adj s (c ++ [e]) := by
    rw [isWalk_append, hc.last]; exact ⟨hc.walk, he, trivial⟩
  have hsimple : IsSimpleFrom adj (fun x => ok x = true) s (c ++ [e]) := by
    refine ⟨hwalk, ?_, ?_⟩
    · rw [walkNodes_snoc]
      exact List.Nodup.append hc.nodup (List.nodup_singleton _)
        (by
          intro x hx1 hx2
          simp only [List.mem_singleton] at hx2
          rw [hx2] at hx1; exact hnot hx1)
    · intro x hx
      rw [walkNodes_snoc, List.mem_append] at hx
      rcases hx with hx | hx
      · exact hc.pass x hx
      · simp only [List.mem_singleton] at hx
        rw [hx]; exact hcond.1
  have := hb (c ++ [e]) hsimple
  rw [walkWeight_unit adj h1 _ s hwalk, List.length_append, hc.length] at this
  simpa using this

namespace Eap

/-- One neighbor: `visitNeighbor` does what the breadth-first scheme does. -/
theorem eap_visitNeighbor_sim {adj : Adj} {u : Int} {st : BState} {g : Graph}
    (hR : BRel adj g st) (hdu : st.disc u = true) (x : Int)
    (hb : st.disc x = false → (st.lvl u : Int) + 1 < INF) :
    BRel adj (visitNeighbor u (g, st.que) x).1 (bVisit (fun _ => true) u st (x, 1)) ∧
      (visitNeighbor u (g, st.que) x).2 = (bVisit (fun _ => true) u st (x, 1)).que ∧
      (visitNeighbor u (g, st.que) x).1.used = g.used := by
  cases hdx : st.disc x with
  | true =>
    have hno : ¬ (((fun _ => true) : Int → Bool) (x, (1 : Int)).1 = true ∧
        st.disc (x, (1 : Int)).1 = false) := by
      simp [hdx]
    rw [bVisit_skip _ u st _ hno]
    have hv : g.visited.lookup x ≠ 0 := (hR.disc x).1 hdx
    have : visitNeighbor u (g, st.que) x =
        ({ g with visited := g.visited.touch x }, st.que) := by
      simp [visitNeighbor, lookup_touch, hv]
    rw [this]
    refine ⟨⟨hR.adj_eq, hR.par_eq, ?_, hR.dist⟩, rfl, rfl⟩
    intro v
    simp only [lookup_touch]
    exact hR.disc v
  | false =>
    have hyes : ((fun _ => true) : Int → Bool) (x, (1 : Int)).1 = true ∧
        st.disc (x, (1 : Int)).1 = false := ⟨rfl, hdx⟩
    have hst : bVisit (fun _ => true) u st (x, 1) =
        { disc := upd st.disc x true, lvl := upd st.lvl x (st.lvl u + 1),
          par := upd st.par x u, que := st.que ++ [x] } := by
      unfold bVisit
      rw [if_pos hyes]
    have hv : g.visited.lookup x = 0 := by
      by_contra h
      have := (hR.disc x).2 h
      rw [hdx] at this; exact absurd this (by simp)
    have hsu := hR.dist u hdu
    have htu : g.distance.touch u = g.distance := touch_of_some _ _ _ hsu
    have hlu : g.distance.lookup u = (st.lvl u : Int) := by simp [IntMap.lookup, hsu]
    have hw : wrapInt ((st.lvl u : Int) + 1) = (st.lvl u : Int) + 1 :=
      wrapInt_id _ (by omega) (hb hdx)
    have hvn : visitNeighbor u (g, st.que) x =
        ({ g with visited := (g.visited.touch x).set x 1,
                  distance := g.distance.set x ((st.lvl u : Int) + 1),
                  parent := g.parent.set x u }, st.que ++ [x]) := by
      simp only [visitNeighbor, lookup_touch, hv, if_true, htu, hlu, hw]
    rw [hvn, hst]
    refine ⟨⟨hR.adj_eq, ?_, ?_, ?_⟩, rfl, rfl⟩
    · intro v
      simp only [lookup_set, upd]
      split
      · rfl
      · exact hR.par_eq v
    · intro v
      simp only [lookup_set, lookup_touch, upd]
      by_cases hvx : v = x
      · simp [hvx]
      · simp only [hvx, if_false]; exact hR.disc v
    · intro v hv2
      simp only [upd] at hv2 ⊢
      by_cases hvx : v = x
      · simp [IntMap.set, hvx]
      · simp only [hvx, if_false] at hv2 ⊢
        simp only [IntMap.set, hvx, if_false]
        exact hR.dist v hv2

/-- Expanding: the `for` loop does what the breadth-first scheme does. -/
theorem eap_visit_fold_sim {adj : Adj} {s r u : Int}
    (h1 : ∀ u, ∀ e ∈ adj u, e.2 = 1)
    (hb : PathSumsBelow adj (fun x => ((fun _ => true) : Int → Bool) x = true) s)
    (l2 : List Int) :
    ∀ (l1 : List (Int × Int)) (st : BState) (g : Graph),
      (∀ x ∈ l2, (x, (1 : Int)) ∈ adj u) → XInv adj (fun _ => true) s r u l1 st →
      BRel adj g st →
      BRel adj (l2.foldl (visitNeighbor u) (g, st.que)).1
        ((l2.map (fun x => (x, (1 : Int)))).foldl (bVisit (fun _ => true) u) st) ∧
      (l2.foldl (visitNeighbor u) (g, st.que)).2 =
        ((l2.map (fun x => (x, (1 : Int)))).foldl (bVisit (fun _ => true) u) st).que ∧
      (l2.foldl (visitNeighbor u) (g, st.que)).1.used = g.used := by
  induction l2 with
  | nil => intro l1 st g _ _ hR; exact ⟨hR, rfl, rfl⟩
  | cons x rest ih =>
    intro l1 st g hmem hX hR
    have he := hmem x (by simp)
    obtain ⟨a1, a2, a3⟩ := eap_visitNeighbor_sim (u := u) hR hX.disc_u x
      (fun hd => hX.expand_lvl_lt h1 hb (x, 1) he ⟨rfl, hd⟩)
    have hX2 := hX.expand_step (x, 1) he
    simp only [List.foldl_cons, List.map_cons]
    have hpair : visitNeighbor u (g, st.que) x =
        ((visitNeighbor u (g, st.que) x).1, (bVisit (fun _ => true) u st (x, 1)).que) := by
      rw [← a2]
    rw [hpair]
    obtain ⟨i1, i2, i3⟩ := ih (l1 ++ [(x, 1)]) (bVisit (fun _ => true) u st (x, 1))
      (visitNeighbor u (g, st.que) x).1
      (fun a ha => hmem a (by simp only [List.mem_cons]; exact Or.inr ha)) hX2 a1
    exact ⟨i1, i2, by rw [i3, a3]⟩

/-- The `while(!que.empty())` loop of `BreadthFirstSearch` returns with the queue of the
breadth-first scheme empty. -/
theorem eap_bfs_loop {adj : Adj} {s r : Int} (U : List Int)
    (hU : ClosedUnder adj U) (hsU : s ∈ U) (h1 : ∀ u, ∀ e ∈ adj u, e.2 = 1)
    (hb : PathSumsBelow adj (fun x => ((fun _ => true) : Int → Bool) x = true) s) :
    ∀ (n : Nat) (g : Graph) (st : BState),
      Main.bfsLeft U st ≤ n → BInv adj (fun _ => true) s r st → BRel adj g st →
      ∃ g2 st2, BreadthFirstLoop (n + 1) g st.que = some g2 ∧
        BInv adj (fun _ => true) s r st2 ∧ BRel adj g2 st2 ∧ st2.que = [] ∧
        g2.used = g.used := by
  intro n
  induction n with
  | zero =>
    intro g st hn hI hR
    cases hq : st.que with
    | nil => exact ⟨g, st, by simp [BreadthFirstLoop], hI, hR, hq, rfl⟩
    | cons u rest => simp [Main.bfsLeft, hq] at hn
  | succ k ih =>
    intro g st hn hI hR
    cases hq : st.que with
    | nil => exact ⟨g, st, by simp [BreadthFirstLoop], hI, hR, hq, rfl⟩
    | cons u rest =>
      have hX := XInv.expand_start hI hq
      have hR0 : BRel adj { g with adj := g.adj.touch u } { st with que := rest } := by
        refine ⟨?_, hR.par_eq, hR.disc, hR.dist⟩
        intro v; simp only [lookup_touch]; exact hR.adj_eq v
      have hdu : st.disc u = true := hI.core.que_disc u (by rw [hq]; simp)
      obtain ⟨c, hc⟩ := hI.core.chain u hdu
      have hmem : u ∈ U := by
        have := walkEnd_in_closed adj U hU c s hsU hc.walk
        rwa [hc.last] at this
      have hadj : (g.adj.lookup u).map (fun x => (x, (1 : Int))) = adj u := hR.adj_eq u
      obtain ⟨f1, f2, f3⟩ := eap_visit_fold_sim (r := r) h1 hb (g.adj.lookup u) []
        { st with que := rest } { g with adj := g.adj.touch u }
        (fun x hx => by rw [← hadj]; exact List.mem_map_of_mem _ hx) hX hR0
      rw [hadj] at f1 f2
      have hI2 : BInv adj (fun _ => true) s r (bExpand adj (fun _ => true) u st) :=
        hI.expand hq
      have hexp : bExpand adj (fun _ => true) u st =
          (adj u).foldl (bVisit (fun _ => true) u) { st with que := rest } := by
        unfold bExpand; rw [hq]; rfl
      rw [← hexp] at f1 f2
      have hmeas : Main.bfsLeft U (bExpand adj (fun _ => true) u st) ≤ k := by
        rw [hexp]
        have := bVisit_fold_left (fun _ => true) u U (adj u) { st with que := rest }
          (fun e he => hU u hmem e he)
        have h5 : Main.bfsLeft U { st with que := rest } + 1 = Main.bfsLeft U st := by
          simp only [Main.bfsLeft, hq, List.length_cons]
          omega
        omega
      obtain ⟨g2, st2, r1, r2, r3, r4, r5⟩ := ih _ (bExpand adj (fun _ => true) u st) hmeas hI2 f1
      refine ⟨g2, st2, ?_, r2, r3, r4, by rw [r5, f3]⟩
      rw [← r1, ← f2]
      simp only [BreadthFirstLoop, lookup_touch]

end Eap

namespace Eap

/-- C1, as amended: for every graph built on a fresh Graph by add_edge(u, v, w) with
non-negative weights, node ids other than the sentinel -1, and all path sums from the source
below 0x7FFFFFFF, Dijkstra(g, s) returns; for every node v reachable from s, distance[v] is
the minimum total edge weight over all paths from s to v, and GetPath(g, v) returns a path
that starts at s, ends at v, follows existing edges and has total weight distance[v]. -/
theorem dijkstra_cost_optimal (edges : List (Int × Int × Int)) (s : Int)
    (hw : ∀ x ∈ edges, 0 ≤ x.2.2) (hid : ∀ x ∈ edges, x.1 ≠ -1 ∧ x.2.1 ≠ -1)
    (hs : s ≠ -1) (hb : PathSumsBelow (buildWeighted edges).wadj (fun _ => True) s) :
    ∃ fuel g2, Dijkstra fuel (buildWeighted edges) s (-1) = some g2 ∧
      ∀ v, Reach (buildWeighted edges).wadj (fun _ => True) s v →
        IsMinWeight (buildWeighted edges).wadj (fun _ => True) s v (g2.distance.lookup v) ∧
        ∃ fuel2 steps g3, GetPath fuel2 g2 v (-1) = some (walkNodes s steps, g3) ∧
          IsPathTo (buildWeighted edges).wadj (fun _ => True) s v steps ∧
          walkWeight steps = g2.distance.lookup v := by
  have hne : ∀ x ∈ s :: (edges.map (fun x => x.1) ++ edges.map (fun x => x.2.1)), x ≠ -1 := by
    intro x hx
    simp only [List.mem_cons, List.mem_append, List.mem_map] at hx
    rcases hx with hx | ⟨y, hy, hx⟩ | ⟨y, hy, hx⟩
    · rw [hx]; exact hs
    · rw [← hx]; exact (hid y hy).1
    · rw [← hx]; exact (hid y hy).2
  have hU : ClosedUnder (buildWeighted edges).wadj
      (s :: (edges.map (fun x => x.1) ++ edges.map (fun x => x.2.1))) := by
    intro u _ e he
    obtain ⟨x, hx, _, h2⟩ := wadj_build edges u e he
    simp only [List.mem_cons, List.mem_append, List.mem_map]
    rcases h2 with h2 | h2
    · exact Or.inr (Or.inl ⟨x, hx, h2.symm⟩)
    · exact Or.inr (Or.inr ⟨x, hx, h2.symm⟩)
  have hnn : NonNegWeights (buildWeighted edges).wadj := by
    intro u e he
    obtain ⟨x, hx, h1, _⟩ := wadj_build edges u e he
    rw [h1]; exact hw x hx
  have hf := fold_fields edges Graph.fresh
  obtain ⟨g2, st2, hrun, hI, hcl, hdist, hpar⟩ :=
    eap_dijkstra_correct (buildWeighted edges) s (-1) _ hU (by simp) hnn hb
      (fun v => by unfold buildWeighted; rw [hf.1]; rfl)
      (fun v => by unfold buildWeighted; rw [hf.2.1]; rfl)
  refine ⟨_, g2, hrun, ?_⟩
  intro v hr
  have hb2 : PathSumsBelow (buildWeighted edges).wadj
      (fun x => ((fun _ => true) : Int → Bool) x = true) s := hb.sums_mono (fun _ _ => trivial)
  obtain ⟨⟨c, hc⟩, hmin⟩ := hI.dist_closed_optimal hcl hb2 v (hr.reach_congr (fun _ _ => rfl))
  have hlt : st2.dist v < INF := by
    have := hb2 c hc.simple
    rw [hc.weight] at this; exact this
  have hlook : g2.distance.lookup v = st2.dist v := by
    rw [← hdist v]
    exact lookup_of_dist_lt g2 v (by rw [hdist v]; exact hlt)
  rw [hlook]
  refine ⟨hmin.weight_congr (fun _ => ⟨fun _ => trivial, fun _ => rfl⟩), ?_⟩
  have hp : ParOK (fun v => g2.parent.lookup v) s c := by
    have : (fun v => g2.parent.lookup v) = st2.par := funext hpar
    rw [this]; exact hc.parent
  obtain ⟨g3, hg⟩ := getPath_chain (-1) s c g2 hp (by rw [hpar s]; exact hI.core.par_s)
    (fun x hx => hne x (walkNodes_in_closed _ _ hU c s (by simp) hc.walk x hx))
  rw [hc.last] at hg
  exact ⟨_, c, g3, hg, hc.chain_path.path_congr (fun _ _ => trivial), hc.weight⟩

/-- The graph of the test in `main`: edges (1,3,3), (1,2,1), (2,3,1). -/
theorem testGraph_bound :
    PathSumsBelow (buildWeighted [(1, 3, 3), (1, 2, 1), (2, 3, 1)]).wadj (fun _ => True) 1 :=
  pathSumsBelow_of_bound _ [1, 2, 3] 3 1 (by unfold ClosedUnder; decide) (by decide)
    (by decide) (by decide) (by decide)

/-- C1, the test of `main`: on edges (1,3,3), (1,2,1), (2,3,1) the hypotheses hold, and
Dijkstra(g, 1) followed by GetPath(g, 3) gives [1, 2, 3] with distance[3] = 2. -/
theorem dijkstra_cost_optimal_witness :
    ((∃ g2, Dijkstra 4 (buildWeighted [(1, 3, 3), (1, 2, 1), (2, 3, 1)]) 1 (-1) = some g2 ∧
        g2.distance.lookup 3 = 2 ∧
        (GetPath 4 g2 3 (-1)).map Prod.fst = some [1, 2, 3]) ∧
      ∃ fuel g2, Dijkstra fuel (buildWeighted [(1, 3, 3), (1, 2, 1), (2, 3, 1)]) 1 (-1)
          = some g2 ∧
        ∀ v, Reach (buildWeighted [(1, 3, 3), (1, 2, 1), (2, 3, 1)]).wadj (fun _ => True) 1 v →
          IsMinWeight (buildWeighted [(1, 3, 3), (1, 2, 1), (2, 3, 1)]).wadj (fun _ => True)
            1 v (g2.distance.lookup v) ∧
          ∃ fuel2 steps g3, GetPath fuel2 g2 v (-1) = some (walkNodes 1 steps, g3) ∧
            IsPathTo (buildWeighted [(1, 3, 3), (1, 2, 1), (2, 3, 1)]).wadj (fun _ => True)
              1 v steps ∧
            walkWeight steps = g2.distance.lookup v) :=
  ⟨⟨_, rfl, by decide, by decide⟩,
    dijkstra_cost_optimal [(1, 3, 3), (1, 2, 1), (2, 3, 1)] 1 (by decide) (by decide)
      (by decide) testGraph_bound⟩

/-- C1 as stated fails when a node carries the id -1, the value that marks "no parent":
on the single edge (0, -1, 1) with source 0 the weights are non-negative, the path sums are
below 0x7FFFFFFF and node -1 is reachable with distance[-1] = 1, but GetPath(g, -1) returns
the empty path, which neither starts at 0 nor ends at -1. -/
theorem dijkstra_sentinel_counterexample :
    (∀ x ∈ [((0 : Int), (-1 : Int), (1 : Int))], 0 ≤ x.2.2) ∧
      PathSumsBelow (buildWeighted [(0, -1, 1)]).wadj (fun _ => True) 0 ∧
      Reach (buildWeighted [(0, -1, 1)]).wadj (fun _ => True) 0 (-1) ∧
      ∃ g2, Dijkstra 3 (buildWeighted [(0, -1, 1)]) 0 (-1) = some g2 ∧
        g2.distance.lookup (-1) = 1 ∧
        ∀ fuel p g3, GetPath fuel g2 (-1) (-1) = some (p, g3) → p = [] := by
  refine ⟨by decide, ?_, ?_, _, rfl, by decide, ?_⟩
  · exact pathSumsBelow_of_bound _ [0, -1] 1 0 (by unfold ClosedUnder; decide) (by decide)
      (by decide) (by decide) (by decide)
  · exact ⟨[(-1, 1)], by decide, by decide, fun _ _ => trivial⟩
  · intro fuel p g3 h
    cases fuel with
    | zero => simp [GetPath, GetPathLoop] at h
    | succ n =>
      simp [GetPath, GetPathLoop] at h
      exact h.1

end Eap

namespace Eaf

open NodeState

/-- The routine `Dijkstra` on a graph with fresh distances and no visited node, the source being the
only node that may be marked `Start`, returns with the relaxation scheme closed. -/
theorem eaf_dijkstra_correct (g : Main.Graph) (s E root : Int) (hv : g.Valid) (hs : g.IsNode s)
    (hw : NonNegWeights g.wadj) (hb : PathPlusEdgeBelow g.wadj (fun _ => True) s)
    (hd : g.FreshDistance) (ht : g.NoTrace) (hst : g.OnlyStart s) :
    ∃ g2 st2, Dijkstra (2 * g.adj_weighted.size + 1) g s E root = some g2 ∧
      DInv g.wadj (g.passable s) s root st2 ∧ DClosed st2 ∧
      (∀ v, g2.distance.get v = st2.dist v) ∧ (∀ v, g2.parent.get v = st2.par v) ∧
      LeastRun g.wadj (g.passable s) (aInit s root (fun v => g.parent.get v)) st2 := by
  have hoks : g.passable s s = true := by simp [Main.Graph.passable]
  have hb2 : PathPlusEdgeBelow g.wadj (fun x => g.passable s x = true) s :=
    hb.plus_mono (fun _ _ => trivial)
  have hI := DInv.dist_init g.wadj (g.passable s) s root (fun v => g.parent.get v) hoks
  have hR : DRel g.wadj (g.passable s) s
      { g with state := g.state.set s Start, distance := g.distance.set s 0, parent := g.parent.set s root }
      [] s (aInit s root (fun v => g.parent.get v)) := by
    refine ⟨fun _ => rfl, ?_, ?_, ?_, ?_, ?_, ?_, ?_, ?_⟩
    · intro v
      by_cases h : v = s
      · simp [vec_get_set, aInit, upd, h]
      · simp [vec_get_set, aInit, upd, h, hd v]
    · intro v
      by_cases h : v = s
      · simp [vec_get_set, aInit, upd, h]
      · simp [vec_get_set, aInit, upd, h]
    · simp [vec_get_set]
    · intro v h
      simp only [vec_get_set, h, if_false]
      exact hst v h
    · intro v h
      simp [vec_get_set, h, Main.Graph.passable]
    · intro v h
      simp [vec_get_set, h, aInit, (ht v).1]
    · intro v h _
      simp [aInit, upd, h]
    · intro v h
      simp at h
  have hds : (aInit s root (fun v => g.parent.get v)).dist s = 0 := by simp [aInit, upd]
  have hlen : (intRange g.adj_weighted.size).length = g.adj_weighted.size := by
    rw [length_intRange]; simp
  have hmeas : 2 * ((intRange g.adj_weighted.size).filter
      (fun v => !(aInit s root (fun v => g.parent.get v)).fin v)).length +
      (if (aInit s root (fun v => g.parent.get v)).fin s = true then 1 else 0)
      ≤ 2 * g.adj_weighted.size := by
    have := List.length_filter_le
      (fun v => !(aInit s root (fun v => g.parent.get v)).fin v) (intRange g.adj_weighted.size)
    rw [hlen] at this
    have h2 : (aInit s root (fun v => g.parent.get v)).fin s = false := rfl
    rw [h2]
    simp only [Bool.false_eq_true, if_false, add_zero]
    omega
  have hnext : ∀ v, (aInit s root (fun v => g.parent.get v)).fin v = false →
      (aInit s root (fun v => g.parent.get v)).dist s
          < (aInit s root (fun v => g.parent.get v)).dist v
        ∨ ((aInit s root (fun v => g.parent.get v)).dist s
            = (aInit s root (fun v => g.parent.get v)).dist v ∧ s ≤ v) := by
    intro v _
    by_cases hvs : v = s
    · right; rw [hvs]; exact ⟨rfl, le_refl _⟩
    · left
      have : (aInit s root (fun v => g.parent.get v)).dist v = INF := by
        simp [aInit, upd, hvs]
      rw [hds, this]
      decide
  exact eaf_loop_correct _ hv.closed hs.mem hw hb2 E _ _ [] s _ hmeas hI hR List.sorted_nil
    (Or.inl ⟨rfl, by rw [hds]; simp [INF], hnext, fun h => absurd rfl h⟩)

/-- C3, as amended: for every graph with non-negative edge weights in which every path sum
from Source, also when continued by one more edge (possibly back onto the path), is below
0x7FFFFFFF, every distance entry is initially 0x7FFFFFFF, no node is in state Visited or
Path and no node other than Source is in state Start, Dijkstra(graph, Source, EndNode)
returns, and distance[v] is the minimum total weight over all paths from Source to v whose
nodes are not Obstacle, for every node v reachable by such a path. -/
theorem dijkstra_min_cost (g : Main.Graph) (Source EndNode : Int) (hv : g.Valid)
    (hs : g.IsNode Source) (hw : NonNegWeights g.wadj)
    (hb : PathPlusEdgeBelow g.wadj (fun _ => True) Source)
    (hd : g.FreshDistance) (ht : g.NoTrace) (hst : g.OnlyStart Source) :
    ∃ fuel g2, Dijkstra fuel g Source EndNode (-1) = some g2 ∧
      ∀ v, Reach g.wadj (fun x => g.state.get x ≠ Obstacle) Source v →
        IsMinWeight g.wadj (fun x => g.state.get x ≠ Obstacle) Source v
          (g2.distance.get v) := by
  obtain ⟨g2, st2, hrun, hI, hcl, hdist, _⟩ :=
    eaf_dijkstra_correct g Source EndNode (-1) hv hs hw hb hd ht hst
  refine ⟨_, g2, hrun, ?_⟩
  intro v hr
  have hsrc : g.state.get Source ≠ Obstacle := by
    obtain ⟨p, hp⟩ := hr
    exact hp.2.2 Source (by simp [walkNodes])
  have hiff : ∀ x, g.passable Source x = true ↔ g.state.get x ≠ Obstacle := by
    intro x
    simp only [Main.Graph.passable, decide_eq_true_eq]
    constructor
    · rintro (h | h)
      · rw [h]; exact hsrc
      · exact h
    · exact Or.inr
  have hb2 : PathSumsBelow g.wadj (fun x => g.passable Source x = true) Source :=
    (hb.plus_mono (fun _ _ => trivial)).sums
  obtain ⟨_, hmin⟩ := hI.dist_closed_optimal hcl hb2 v (hr.reach_congr (fun x hx => (hiff x).2 hx))
  rw [hdist v]
  exact hmin.weight_congr hiff

end Eaf

namespace Eaf

open NodeState

theorem heavyPair_sums : PathSumsBelow heavyPair.wadj (fun _ => True) 0 :=
  pathSumsBelow_of_bound _ [0, 1] 2147483646 0 (by unfold ClosedUnder; decide) (by decide)
    (by decide) (by decide) (by decide)

theorem twoStarts_sums : PathSumsBelow twoStarts.wadj (fun _ => True) 0 :=
  pathSumsBelow_of_bound _ [0, 1] 1 0 (by unfold ClosedUnder; decide) (by decide)
    (by decide) (by decide) (by decide)

/-- From its second round on `Dijkstra(twoStarts, 0, 1)` alternates between two states. -/
theorem twoStarts_cycle (n : Nat) :
    DijkstraLoop (n + 2) twoStartsLoop [1] 1 1 = DijkstraLoop n twoStartsLoop [1] 1 1 := rfl

theorem twoStarts_first (n : Nat) :
    Dijkstra (n + 1) twoStarts 0 1 (-1) = DijkstraLoop n twoStartsLoop [1] 1 1 := rfl

theorem twoStarts_diverges : ∀ fuel, Dijkstra fuel twoStarts 0 1 (-1) = none := by
  have h : ∀ n, DijkstraLoop n twoStartsLoop [1] 1 1 = none ∧
      DijkstraLoop (n + 1) twoStartsLoop [1] 1 1 = none := by
    intro n
    induction n with
    | zero => exact ⟨rfl, rfl⟩
    | succ k ih => exact ⟨ih.2, by rw [twoStarts_cycle]; exact ih.1⟩
  intro fuel
  cases fuel with
  | zero => rfl
  | succ n => rw [twoStarts_first]; exact (h n).1

end Eaf

namespace Main

open NodeState

theorem emptyGraph_fresh (n : Int) (edges : List (Int × Int × Int)) :
    ((emptyGraph n).addEdges edges).FreshDistance ∧ ((emptyGraph n).addEdges edges).NoTrace ∧
      ∀ s, ((emptyGraph n).addEdges edges).OnlyStart s := by
  have h : ∀ (l : List (Int × Int × Int)) (g : Graph),
      (g.addEdges l).distance = g.distance ∧ (g.addEdges l).state = g.state := by
    intro l
    induction l with
    | nil => intro g; exact ⟨rfl, rfl⟩
    | cons x rest ih => intro g; exact ih (g.add_edge x.1 x.2.1 x.2.2)
  obtain ⟨h1, h2⟩ := h edges (emptyGraph n)
  have h3 : ∀ v, (emptyGraph n).state.get v = NodeState.Empty := fun _ => rfl
  refine ⟨fun v => by rw [h1]; rfl, fun v => by rw [h2, h3]; exact ⟨by decide, by decide⟩,
    fun s v _ => by rw [h2, h3]; decide⟩

end Main

namespace Eaf

open NodeState

/-- C3 on three nodes in a row: the hypotheses hold and the theorem applies. -/
theorem dijkstra_min_cost_witness :
    Main.row3.Valid ∧ Main.row3.IsNode 0 ∧
      ∃ fuel g2, Dijkstra fuel Main.row3 0 2 (-1) = some g2 ∧
        ∀ v, Reach Main.row3.wadj (fun x => Main.row3.state.get x ≠ Obstacle) 0 v →
          IsMinWeight Main.row3.wadj (fun x => Main.row3.state.get x ≠ Obstacle) 0 v
            (g2.distance.get v) :=
  ⟨by decide, by decide,
    dijkstra_min_cost Main.row3 0 2 (by decide) (by decide)
      (Main.nonNeg_addEdges 3 _ (by decide))
      (pathPlusEdgeBelow_of_bound _ [0, 1, 2] 1 0 (by unfold ClosedUnder; decide) (by decide)
        (by decide) (by decide) (by decide))
      (Main.emptyGraph_fresh 3 _).1 (Main.emptyGraph_fresh 3 _).2.1
      ((Main.emptyGraph_fresh 3 _).2.2 0)⟩

/-- C3 as stated fails in two ways. On two nodes joined by an edge of weight 0x7FFFFFFE
(non-negative weights, path sums below 0x7FFFFFFF, fresh distances, no node Visited or
Path) relaxing the edge back into the source overflows, and Dijkstra(graph, 0, 1) ends
with distance[0] = -4 although the minimum path weight from 0 to 0 is 0. On two nodes
joined by an edge of weight 1 with node 1 marked Start, Dijkstra(graph, 0, 1) never
returns: neither node is ever marked Visited and each puts the other back into the
frontier. -/
theorem dijkstra_min_cost_counterexample :
    (heavyPair.Valid ∧ NonNegWeights heavyPair.wadj ∧
        PathSumsBelow heavyPair.wadj (fun _ => True) 0 ∧
        heavyPair.FreshDistance ∧ heavyPair.NoTrace ∧
        (∃ g2, Dijkstra 3 heavyPair 0 1 (-1) = some g2 ∧ g2.distance.get 0 = -4) ∧
        IsMinWeight heavyPair.wadj (fun x => heavyPair.state.get x ≠ Obstacle) 0 0 0) ∧
      (twoStarts.Valid ∧ NonNegWeights twoStarts.wadj ∧
        PathSumsBelow twoStarts.wadj (fun _ => True) 0 ∧
        twoStarts.FreshDistance ∧ twoStarts.NoTrace ∧
        ∀ fuel, Dijkstra fuel twoStarts 0 1 (-1) = none) := by
  have hnn : NonNegWeights heavyPair.wadj := Main.nonNeg_addEdges 2 _ (by decide)
  refine ⟨⟨by decide, hnn, heavyPair_sums, (Main.emptyGraph_fresh 2 _).1,
    (Main.emptyGraph_fresh 2 _).2.1, ⟨_, rfl, by decide⟩, ?_⟩,
    ⟨by decide, Main.nonNeg_addEdges 2 _ (by decide), twoStarts_sums,
      (Main.emptyGraph_fresh 2 _).1, ?_, twoStarts_diverges⟩⟩
  · refine ⟨⟨[], ⟨trivial, rfl, ?_⟩, rfl⟩, ?_⟩
    · intro x hx
      simp only [walkNodes, List.map_nil, List.mem_singleton] at hx
      rw [hx]; decide
    · intro q hq
      exact walkWeight_nonneg _ hnn q 0 hq.1
  · intro v
    have h1 := ((Main.emptyGraph_fresh 2 [(0, 1, 1)]).2.1 v)
    show (twoStarts.state.get v ≠ Visited ∧ twoStarts.state.get v ≠ Path)
    unfold twoStarts Main.Graph.mark
    simp only [vec_get_set]
    split
    · exact ⟨by decide, by decide⟩
    · exact h1

end Eaf

namespace Main

open NodeState

/-- The routine `DijkstraQ` on a graph with fresh distances whose source is the only node marked
`Start` returns; see `qloop_correct` for what holds of the result. -/
theorem dijkstraQ_correct (g : Graph) (s E root : Int) (hv : g.Valid) (hs : g.IsNode s)
    (hw : NonNegWeights g.wadj) (hb : PathPlusEdgeBelow g.wadj (fun _ => True) s)
    (hd : g.FreshDistance) (hss : g.state.get s = Start) (hst : g.OnlyStart s)
    (hne : E ≠ s) (hf : g.found = 0) :
    ∃ fuel g2 st2, DijkstraQ fuel g s E root = some g2 ∧
      DInv g.wadj (g.passable s) s root st2 ∧
      (∀ v, g2.distance.get v = st2.dist v) ∧ (∀ v, g2.parent.get v = st2.par v) ∧
      st2.fin s = true ∧ st2.fin E = false ∧
      (g2.found = 1 → st2.dist E < INF ∧ ∀ v, st2.fin v = false → st2.dist E ≤ st2.dist v) ∧
      (g2.found ≠ 1 → DClosed st2) ∧
      LeastRun g.wadj (g.passable s) (aInit s root (fun v => g.parent.get v)) st2 ∧
      (g2.found = 1 → IsNext st2 E) := by
  have hoks : g.passable s s = true := by simp [Graph.passable]
  have hb2 : PathPlusEdgeBelow g.wadj (fun x => g.passable s x = true) s :=
    hb.plus_mono (fun _ _ => trivial)
  have hI := DInv.dist_init g.wadj (g.passable s) s root (fun v => g.parent.get v) hoks
  have hds : (aInit s root (fun v => g.parent.get v)).dist s = 0 := by simp [aInit, upd]
  have hdo : ∀ v, v ≠ s → (aInit s root (fun v => g.parent.get v)).dist v = INF := by
    intro v h; simp [aInit, upd, h]
  have hS0 := SInv.settle_start hI (u := s) rfl (by rw [hds]; simp [INF])
    (fun v _ => by rw [hds]; exact (hI.core.range v).1)
  have hR0 : QRel g.wadj (g.passable s) s
      { g with distance := g.distance.set s 0, parent := g.parent.set s root } []
      (aMark s (aInit s root (fun v => g.parent.get v))) := by
    refine ⟨fun _ => rfl, ?_, ?_, hss, hst, ?_, ?_, ?_, ?_, ?_, List.sorted_nil⟩
    · intro v
      by_cases h : v = s
      · simp [vec_get_set, aMark, aInit, upd, h]
      · simp [vec_get_set, aMark, aInit, upd, h, hd v]
    · intro v
      by_cases h : v = s
      · simp [vec_get_set, aMark, aInit, upd, h]
      · simp [vec_get_set, aMark, aInit, upd, h]
    · intro v h
      simp [h, Graph.passable]
    · intro p hp; simp at hp
    · intro p hp; simp at hp
    · intro v hfv hdv
      exfalso
      by_cases h : v = s
      · rw [h, (aMark_fin s _ s).2 (Or.inl rfl)] at hfv
        exact absurd hfv (by simp)
      · have : (aMark s (aInit s root (fun v => g.parent.get v))).dist v = INF := hdo v h
        rw [this] at hdv
        exact absurd hdv (lt_irrefl _)
    · intro x _ p hp; simp at hp
  obtain ⟨h1, h2, h3⟩ := main_settle_fold_sim hw hb2 (g.wadj s) []
    (aMark s (aInit s root (fun v => g.parent.get v)))
    { g with distance := g.distance.set s 0, parent := g.parent.set s root } []
    (fun e he => he) hS0 hR0
  have hI2 := hI.settle hw (u := s) rfl (by rw [hds]; simp [INF])
    (fun v _ => by rw [hds]; exact (hI.core.range v).1)
  have hfin2 : (aSettle g.wadj (g.passable s) s (aInit s root (fun v => g.parent.get v))).fin
      = upd (fun _ => false) s true := aSettle_fin _ _ _ _
  obtain ⟨n, hn⟩ : ∃ n, workLeft g.wadj (intRange g.adj_weighted.size)
      (List.foldl (relaxEdge s)
        ({ g with distance := g.distance.set s 0, parent := g.parent.set s root }, [])
        (g.wadj s)).2
      (aSettle g.wadj (g.passable s) s (aInit s root (fun v => g.parent.get v))) = n :=
    ⟨_, rfl⟩
  obtain ⟨g2, st2, hrun, a1, a2, a3, a4, a5, a6, a7, a8, a9⟩ :=
    qloop_correct (intRange g.adj_weighted.size) hv.closed hs.mem
      hw hb2 E n _ _ _ (le_of_eq hn) hI2 h1
      (by rw [hfin2]; simp [upd]) (by rw [hfin2]; simp [upd, hne]) (by rw [h2]; exact hf)
  have hnext : IsNext (aInit s root (fun v => g.parent.get v)) s := by
    refine ⟨rfl, by rw [hds]; decide, ?_⟩
    intro v _
    by_cases hvs : v = s
    · right; rw [hvs]; exact ⟨rfl, le_refl _⟩
    · left
      rw [hds, hdo v hvs]
      decide
  refine ⟨n + 1 + 1, g2, st2, ?_, a1, a2, a3, a4, a5, a6, a7,
    LeastRun.step _ _ s hnext a8, a9⟩
  rw [← hrun]
  have hpush : heapPush ((0 : Int), s) [] = [(0, s)] := rfl
  unfold DijkstraQ
  simp only [hpush]
  rw [qloop_pop _ _ (0, s) [] E (fun h => hne h.symm)]
  rfl

/-- C2, as amended: for every graph with non-negative edge weights in which every path sum
from Source, also when continued by one more edge (possibly back onto the path), is below
0x7FFFFFFF, every distance entry is initially 0x7FFFFFFF, found is initially 0, no node is
in state Visited or Path, Source is the only node in state Start and EndNode differs from
Source: DijkstraQ(graph, Source, EndNode) returns, and if it ends with found = 1 then
distance[EndNode] is the minimum total weight over all paths from Source to EndNode whose
nodes are not Obstacle, and there is such a path of that weight along which every node is
the parent of the next. -/
theorem dijkstraQ_cost_optimal (g : Graph) (Source EndNode : Int) (hv : g.Valid)
    (hs : g.IsNode Source) (hw : NonNegWeights g.wadj)
    (hb : PathPlusEdgeBelow g.wadj (fun _ => True) Source)
    (hd : g.FreshDistance) (hf : g.found = 0) (_ht : g.NoTrace)
    (hss : g.state.get Source = Start) (hst : g.OnlyStart Source) (hne : EndNode ≠ Source) :
    ∃ fuel g2, DijkstraQ fuel g Source EndNode (-1) = some g2 ∧
      (g2.found = 1 →
        IsMinWeight g.wadj (fun x => g.state.get x ≠ Obstacle) Source EndNode
          (g2.distance.get EndNode) ∧
        ∃ steps, IsPathTo g.wadj (fun x => g.state.get x ≠ Obstacle) Source EndNode steps ∧
          walkWeight steps = g2.distance.get EndNode ∧
          ParOK (fun v => g2.parent.get v) Source steps) := by
  obtain ⟨fuel, g2, st2, hrun, hI, hdist, hpar, hfs, hfE, hexit, _⟩ :=
    dijkstraQ_correct g Source EndNode (-1) hv hs hw hb hd hss hst hne hf
  refine ⟨fuel, g2, hrun, ?_⟩
  intro hfound
  obtain ⟨hdE, hmin⟩ := hexit hfound
  have hiff : ∀ x, g.passable Source x = true ↔ g.state.get x ≠ Obstacle := by
    intro x
    simp only [Graph.passable, decide_eq_true_eq]
    constructor
    · rintro (h | h)
      · rw [h, hss]; decide
      · exact h
    · exact Or.inr
  obtain ⟨⟨c, hc⟩, hopt⟩ := hI.dist_exit_optimal hw hfs EndNode hfE hdE hmin
  rw [hdist EndNode]
  refine ⟨hopt.weight_congr hiff, c, hc.chain_path.path_congr (fun x => (hiff x).1), hc.weight, ?_⟩
  have : (fun v => g2.parent.get v) = st2.par := funext hpar
  rw [this]; exact hc.parent

end Main

namespace Main

open NodeState

theorem mark_state (g : Graph) (i : Int) (st : NodeState) (v : Int) :
    (g.mark i st).state.get v = if v = i then st else g.state.get v := rfl

theorem row3Marked_state (v : Int) :
    row3Marked.state.get v = if v = 2 then End else if v = 0 then Start else NodeState.Empty := by
  have h := (emptyGraph_fresh 3 [(0, 1, 1), (1, 2, 1)])
  unfold row3Marked
  rw [mark_state, mark_state]
  have h3 : row3.state.get v = NodeState.Empty := by
    have h4 : ∀ (l : List (Int × Int × Int)) (g : Graph), (g.addEdges l).state = g.state := by
      intro l
      induction l with
      | nil => intro g; rfl
      | cons x rest ih => intro g; exact ih (g.add_edge x.1 x.2.1 x.2.2)
    unfold row3
    rw [h4]
    rfl
  rw [h3]

theorem heavyRow_state (v : Int) :
    heavyRow.state.get v = if v = 2 then End else if v = 0 then Start else NodeState.Empty := by
  unfold heavyRow
  rw [mark_state, mark_state]
  have h4 : ∀ (l : List (Int × Int × Int)) (g : Graph), (g.addEdges l).state = g.state := by
    intro l
    induction l with
    | nil => intro g; rfl
    | cons x rest ih => intro g; exact ih (g.add_edge x.1 x.2.1 x.2.2)
  rw [h4]
  rfl

theorem staleFound_state (v : Int) :
    staleFound.state.get v = if v = 1 then End else if v = 0 then Start else NodeState.Empty :=
  rfl

/-- C2 on three nodes in a row from node 0 to node 2: the hypotheses hold and the theorem
applies; the run ends with found = 1 and distance[2] = 2. -/
theorem dijkstraQ_cost_optimal_witness :
    (∃ g2, DijkstraQ 4 row3Marked 0 2 (-1) = some g2 ∧ g2.found = 1 ∧
        g2.distance.get 2 = 2) ∧
      ∃ fuel g2, DijkstraQ fuel row3Marked 0 2 (-1) = some g2 ∧
        (g2.found = 1 →
          IsMinWeight row3Marked.wadj (fun x => row3Marked.state.get x ≠ Obstacle) 0 2
            (g2.distance.get 2) ∧
          ∃ steps, IsPathTo row3Marked.wadj (fun x => row3Marked.state.get x ≠ Obstacle) 0 2
              steps ∧
            walkWeight steps = g2.distance.get 2 ∧
            ParOK (fun v => g2.parent.get v) 0 steps) :=
  ⟨⟨_, rfl, by decide, by decide⟩,
    dijkstraQ_cost_optimal row3Marked 0 2 (by decide) (by decide)
      (nonNeg_addEdges 3 [(0, 1, 1), (1, 2, 1)] (by decide))
      (pathPlusEdgeBelow_of_bound _ [0, 1, 2] 1 0 (by unfold ClosedUnder; decide) (by decide)
        (by decide) (by decide) (by decide))
      (emptyGraph_fresh 3 [(0, 1, 1), (1, 2, 1)]).1 rfl
      (fun v => by rw [row3Marked_state]; split_ifs <;> exact ⟨by decide, by decide⟩)
      (by decide)
      (fun v hv => by rw [row3Marked_state]; split_ifs <;> decide)
      (by decide)⟩

/-- C2 as stated fails in two ways. With the edges (0,1,1) and (1,2,0x7FFFFFFF), node 0 the
only Start (all preconditions of the claim hold), the sum 1 + 0x7FFFFFFF overflows:
DijkstraQ(graph, 0, 2) ends with found = 1 and distance[2] = -2147483648, which is the
weight of no path. And on two nodes without an edge whose found flag is already 1,
DijkstraQ(graph, 0, 1) ends with found = 1 although no path leads from 0 to 1. -/
theorem dijkstraQ_cost_optimal_counterexample :
    (heavyRow.Valid ∧ NonNegWeights heavyRow.wadj ∧ heavyRow.FreshDistance ∧
        heavyRow.NoTrace ∧ heavyRow.state.get 0 = Start ∧ heavyRow.OnlyStart 0 ∧
        ∃ g2, DijkstraQ 4 heavyRow 0 2 (-1) = some g2 ∧ g2.found = 1 ∧
          g2.distance.get 2 = -2147483648 ∧
          ¬ IsMinWeight heavyRow.wadj (fun x => heavyRow.state.get x ≠ Obstacle) 0 2
            (g2.distance.get 2)) ∧
      (staleFound.Valid ∧ NonNegWeights staleFound.wadj ∧ staleFound.FreshDistance ∧
        staleFound.NoTrace ∧ staleFound.state.get 0 = Start ∧ staleFound.OnlyStart 0 ∧
        ∃ g2, DijkstraQ 4 staleFound 0 1 (-1) = some g2 ∧ g2.found = 1 ∧
          ¬ Reach staleFound.wadj (fun x => staleFound.state.get x ≠ Obstacle) 0 1) := by
  have hnn : NonNegWeights heavyRow.wadj :=
    nonNeg_addEdges 3 [(0, 1, 1), (1, 2, 2147483647)] (by decide)
  have hnn2 : NonNegWeights staleFound.wadj := fun u e he => by
    have : staleFound.wadj u = [] := rfl
    rw [this] at he; simp at he
  refine ⟨⟨by decide, hnn, (emptyGraph_fresh 3 _).1, ?_, by decide, ?_, _, rfl, by decide,
    by decide, ?_⟩, ⟨by decide, hnn2, fun _ => rfl, ?_, by decide, ?_, _, rfl, by decide, ?_⟩⟩
  · intro v; rw [heavyRow_state]; split_ifs <;> exact ⟨by decide, by decide⟩
  · intro v hv; rw [heavyRow_state]; split_ifs <;> decide
  · rintro ⟨⟨p, hp, hpw⟩, _⟩
    have h1 := walkWeight_nonneg _ hnn p 0 hp.1
    have h2 : (2147483648 : Int) + walkWeight p = 0 := by
      rw [hpw]; decide
    omega
  · intro v; rw [staleFound_state]; split_ifs <;> exact ⟨by decide, by decide⟩
  · intro v hv; rw [staleFound_state]; split_ifs <;> decide
  · rintro ⟨p, hp⟩
    cases p with
    | nil => exact absurd hp.2.1 (by decide)
    | cons e rest =>
      have h1 : e ∈ staleFound.wadj 0 := hp.1.1
      have : staleFound.wadj 0 = [] := rfl
      rw [this] at h1; simp at h1

end Main

namespace Main

open NodeState

theorem addEdges_state (l : List (Int × Int × Int)) :
    ∀ (g : Graph), (g.addEdges l).state = g.state := by
  induction l with
  | nil => intro g; rfl
  | cons x rest ih => intro g; exact ih (g.add_edge x.1 x.2.1 x.2.2)

theorem twoRoutes_state (v : Int) :
    twoRoutes.state.get v =
      if v = 2 then End else if v = 1 then Start else if v = 0 then Start
      else NodeState.Empty := by
  unfold twoRoutes
  rw [mark_state, mark_state, mark_state, addEdges_state]
  rfl

/-- C5, as amended: for every graph (any edge weights) in which no node is in state Visited
or Path, found is initially 0, Source is the only node marked Start and EndNode differs
from Source and is not Obstacle, BreadthFirstSearch(graph, Source, EndNode) returns, and if
it ends with found = 1 then the number of parent steps from EndNode back to Source equals
the minimum number of edges over all paths from Source to EndNode whose nodes are not
Obstacle. -/
theorem bfs_fewest_hops (g : Graph) (Source EndNode : Int) (hv : g.Valid)
    (hs : g.IsNode Source) (ht : g.NoTrace) (hf : g.found = 0)
    (hss : g.state.get Source = Start) (hst : g.OnlyStart Source)
    (hne : EndNode ≠ Source) (_hE : g.state.get EndNode ≠ Obstacle) :
    ∃ fuel g2, BreadthFirstSearch fuel g Source EndNode (-1) = some g2 ∧
      (g2.found = 1 → ∃ n, g2.StepsBack EndNode Source n ∧
        IsMinHops g.wadj (fun x => g.state.get x ≠ Obstacle) Source EndNode n) := by
  obtain ⟨fuel, g2, st2, hrun, hI, hR, _, hres⟩ :=
    main_bfs_correct g Source EndNode (-1) hv hs ht hss hst hne hf False
      (fun h => absurd h id) (fun h => absurd h id)
  refine ⟨fuel, g2, hrun, ?_⟩
  intro hfound
  rcases hres with ⟨_, rest, hq⟩ | ⟨h0, _, _⟩
  · obtain ⟨⟨c, hc⟩, hopt⟩ := hI.lvl_exit_optimal EndNode rest hq
    have hiff : ∀ x, g.passable Source x = true ↔ g.state.get x ≠ Obstacle := by
      intro x
      simp only [Graph.passable, decide_eq_true_eq]
      constructor
      · rintro (h | h)
        · rw [h, hss]; decide
        · exact h
      · exact Or.inr
    refine ⟨st2.lvl EndNode, ?_, hopt.hops_congr hiff⟩
    have hp : ParOK (fun v => g2.parent.get v) Source c := by
      have : (fun v => g2.parent.get v) = st2.par := funext hR.par_eq
      rw [this]; exact hc.parent
    have := stepsBack_of_chain g2 Source c hp hc.nodup
    rw [hc.last, hc.length] at this
    exact this
  · rw [h0] at hfound; exact absurd hfound (by decide)

/-- C5 on three nodes in a row from node 0 to node 2: the hypotheses hold and the theorem
applies; the run ends with found = 1 and two parent steps lead from node 2 back to
node 0. -/
theorem bfs_fewest_hops_witness :
    (∃ g2, BreadthFirstSearch 4 row3Marked 0 2 (-1) = some g2 ∧ g2.found = 1 ∧
        g2.StepsBack 2 0 2) ∧
      ∃ fuel g2, BreadthFirstSearch fuel row3Marked 0 2 (-1) = some g2 ∧
        (g2.found = 1 → ∃ n, g2.StepsBack 2 0 n ∧
          IsMinHops row3Marked.wadj (fun x => row3Marked.state.get x ≠ Obstacle) 0 2 n) :=
  ⟨⟨_, rfl, by decide, by unfold Graph.StepsBack; decide⟩,
    bfs_fewest_hops row3Marked 0 2 (by decide) (by decide)
      (fun v => by rw [row3Marked_state]; split_ifs <;> exact ⟨by decide, by decide⟩)
      rfl (by decide)
      (fun v hv => by rw [row3Marked_state]; split_ifs <;> decide)
      (by decide) (by decide)⟩

/-- C5 as stated fails in two ways. With the routes 0 - 1 - 2 and 0 - 3 - 4 - 2, Source 0
marked Start, EndNode 2, and node 1 marked Start as well (no node Visited or Path, EndNode
not Obstacle), the search does not enter node 1: it ends with found = 1 and three parent
steps from node 2 back to node 0, although the path 0 - 1 - 2, none of whose nodes is
Obstacle, has two edges. And on two nodes without an edge whose found flag is already 1,
the search ends with found = 1 although no path leads from 0 to 1. -/
theorem bfs_fewest_hops_counterexample :
    (twoRoutes.Valid ∧ twoRoutes.NoTrace ∧ twoRoutes.state.get 0 = Start ∧
        twoRoutes.state.get 2 ≠ Obstacle ∧
        ∃ g2, BreadthFirstSearch 6 twoRoutes 0 2 (-1) = some g2 ∧ g2.found = 1 ∧
          g2.StepsBack 2 0 3 ∧
          IsPathTo twoRoutes.wadj (fun x => twoRoutes.state.get x ≠ Obstacle) 0 2
            [(1, 1), (2, 1)]) ∧
      (staleFound.Valid ∧ staleFound.NoTrace ∧ staleFound.state.get 0 = Start ∧
        staleFound.OnlyStart 0 ∧ staleFound.state.get 1 ≠ Obstacle ∧
        ∃ g2, BreadthFirstSearch 4 staleFound 0 1 (-1) = some g2 ∧ g2.found = 1 ∧
          ¬ Reach staleFound.wadj (fun x => staleFound.state.get x ≠ Obstacle) 0 1) := by
  refine ⟨⟨by decide, ?_, by decide, by decide, _, rfl, by decide,
    by unfold Graph.StepsBack; decide, by unfold IsPathTo; decide⟩,
    ⟨by decide, ?_, by decide, ?_, by decide, _, rfl, by decide, ?_⟩⟩
  · intro v; rw [twoRoutes_state]; split_ifs <;> exact ⟨by decide, by decide⟩
  · intro v; rw [staleFound_state]; split_ifs <;> exact ⟨by decide, by decide⟩
  · intro v hv; rw [staleFound_state]; split_ifs <;> decide
  · rintro ⟨p, hp⟩
    cases p with
    | nil => exact absurd hp.2.1 (by decide)
    | cons e rest =>
      have h1 : e ∈ staleFound.wadj 0 := hp.1.1
      have : staleFound.wadj 0 = [] := rfl
      rw [this] at h1; simp at h1

end Main

namespace Eap

theorem uadj_add_edge (g : Graph) (a b u : Int) :
    (g.add_edge a b).uadj u =
      g.uadj u ++ (if u = a then [(b, 1)] else []) ++ (if u = b then [(a, 1)] else []) := by
  by_cases ha : u = a
  · by_cases hab : a = b
    · subst ha; subst hab
      simp [Graph.add_edge, Graph.uadj, lookup_set, lookup_touch]
    · have hb : u ≠ b := by rw [ha]; exact hab
      subst ha
      simp [Graph.add_edge, Graph.uadj, lookup_set, lookup_touch, hab]
  · by_cases hb : u = b
    · subst hb
      simp [Graph.add_edge, Graph.uadj, lookup_set, lookup_touch, ha]
    · simp [Graph.add_edge, Graph.uadj, lookup_set, lookup_touch, ha, hb]

theorem uadj_fold (edges : List (Int × Int)) :
    ∀ (g : Graph) (u : Int) (e : Int × Int),
      e ∈ (edges.foldl (fun g e => g.add_edge e.1 e.2) g).uadj u →
      e ∈ g.uadj u ∨ (e.2 = 1 ∧ ∃ x ∈ edges, e.1 = x.1 ∨ e.1 = x.2) := by
  induction edges with
  | nil => intro g u e h; exact Or.inl h
  | cons x rest ih =>
    intro g u e h
    simp only [List.foldl_cons] at h
    rcases ih _ u e h with h1 | ⟨h2, y, hy, h3⟩
    · rw [uadj_add_edge] at h1
      simp only [List.mem_append] at h1
      rcases h1 with (h1 | h1) | h1
      · exact Or.inl h1
      · right
        split at h1
        · simp only [List.mem_singleton] at h1; rw [h1]
          exact ⟨rfl, x, by simp, Or.inr rfl⟩
        · simp at h1
      · right
        split at h1
        · simp only [List.mem_singleton] at h1; rw [h1]
          exact ⟨rfl, x, by simp, Or.inl rfl⟩
        · simp at h1
    · exact Or.inr ⟨h2, y, by simp only [List.mem_cons]; exact Or.inr hy, h3⟩

theorem ufold_fields (edges : List (Int × Int)) :
    ∀ (g : Graph),
      (edges.foldl (fun g e => g.add_edge e.1 e.2) g).distance = g.distance ∧
      (edges.foldl (fun g e => g.add_edge e.1 e.2) g).visited = g.visited ∧
      (edges.foldl (fun g e => g.add_edge e.1 e.2) g).parent = g.parent ∧
      (edges.foldl (fun g e => g.add_edge e.1 e.2) g).used = g.used := by
  induction edges with
  | nil => intro g; exact ⟨rfl, rfl, rfl, rfl⟩
  | cons x rest ih =>
    intro g
    simp only [List.foldl_cons]
    obtain ⟨h1, h2, h3, h4⟩ := ih (g.add_edge x.1 x.2)
    exact ⟨h1, h2, h3, h4⟩

theorem uadj_build (edges : List (Int × Int)) (u : Int) (e : Int × Int)
    (h : e ∈ (buildUnweighted edges).uadj u) :
    e.2 = 1 ∧ ∃ x ∈ edges, e.1 = x.1 ∨ e.1 = x.2 := by
  rcases uadj_fold edges Graph.fresh u e h with h1 | h1
  · have : (Graph.fresh.uadj u) = [] := rfl
    rw [this] at h1
    simp at h1
  · exact h1

/-- The routine `BreadthFirstSearch` on an unused graph without traversal data returns with the queue
of the breadth-first scheme empty. -/
theorem eap_bfs_correct (g : Graph) (s root : Int) (U : List Int)
    (hU : ClosedUnder g.uadj U) (hsU : s ∈ U)
    (hb : PathSumsBelow g.uadj (fun _ => True) s)
    (hv0 : ∀ v, g.visited v = none) (hused : g.used = 0) :
    ∃ fuel g2 st2, BreadthFirstSearch fuel g s root = some (Except.ok g2) ∧
      BInv g.uadj (fun _ => true) s root st2 ∧ BRel g.uadj g2 st2 ∧ st2.que = [] := by
  have h1 : ∀ u, ∀ e ∈ g.uadj u, e.2 = 1 := by
    intro u e he
    simp only [Graph.uadj, List.mem_map] at he
    obtain ⟨x, _, hx⟩ := he
    rw [← hx]
  have hb2 : PathSumsBelow g.uadj (fun x => ((fun _ => true) : Int → Bool) x = true) s :=
    hb.sums_mono (fun _ _ => trivial)
  have hI := BInv.lvl_init g.uadj (fun _ => true) s root (fun v => g.parent.lookup v) rfl
  have hR : BRel g.uadj
      { g with visited := g.visited.set s 1, distance := g.distance.set s 0, parent := g.parent.set s root }
      (bInit s root (fun v => g.parent.lookup v)) := by
    refine ⟨fun _ => rfl, ?_, ?_, ?_⟩
    · intro v
      by_cases h : v = s
      · simp [lookup_set, bInit, upd, h]
      · simp [lookup_set, bInit, upd, h]
    · intro v
      by_cases h : v = s
      · simp [lookup_set, bInit, upd, h]
      · simp [lookup_set, bInit, upd, h, IntMap.lookup, IntMap.set, hv0 v]
    · intro v hv
      by_cases h : v = s
      · simp [IntMap.set, bInit, h]
      · simp [bInit, upd, h] at hv
  obtain ⟨g2, st2, r1, r2, r3, r4, _⟩ := eap_bfs_loop (r := root) U hU hsU h1 hb2 _ _ _
    (le_refl _) hI hR
  refine ⟨Main.bfsLeft U (bInit s root (fun v => g.parent.lookup v)) + 1, { g2 with used := 1 },
    st2, ?_, r2, ⟨r3.adj_eq, r3.par_eq, r3.disc, r3.dist⟩, r4⟩
  unfold BreadthFirstSearch
  have hu : ¬ (g.used ≠ 0) := by rw [hused]; simp
  rw [if_neg hu]
  have : (bInit s root (fun v => g.parent.lookup v)).que = [s] := rfl
  rw [this] at r1
  simp only [r1, Option.map_some']

/-- C7, as amended: for every unweighted graph built on a fresh Graph by add_edge(u, v)
with node ids other than the sentinel -1 and fewer than 0x7FFFFFFF edges on every path
from s, BreadthFirstSearch(g, s) returns; for every node v reachable from s, distance[v] is
the minimum number of edges on a path from s to v, and GetPath(g, v) returns a path of
distance[v] + 1 nodes that starts at s, ends at v and has every consecutive pair
adjacent. -/
theorem bfs_hop_distances (edges : List (Int × Int)) (s : Int)
    (hid : ∀ x ∈ edges, x.1 ≠ -1 ∧ x.2 ≠ -1) (hs : s ≠ -1)
    (hb : PathSumsBelow (buildUnweighted edges).uadj (fun _ => True) s) :
    ∃ fuel g2, BreadthFirstSearch fuel (buildUnweighted edges) s (-1) = some (Except.ok g2) ∧
      ∀ v, Reach (buildUnweighted edges).uadj (fun _ => True) s v →
        ∃ n : Nat, g2.distance.lookup v = n ∧
          IsMinHops (buildUnweighted edges).uadj (fun _ => True) s v n ∧
          ∃ fuel2 steps g3, GetPath fuel2 g2 v (-1) = some (walkNodes s steps, g3) ∧
            IsPathTo (buildUnweighted edges).uadj (fun _ => True) s v steps ∧
            (walkNodes s steps).length = n + 1 := by
  have hne : ∀ x ∈ s :: (edges.map (fun x => x.1) ++ edges.map (fun x => x.2)), x ≠ -1 := by
    intro x hx
    simp only [List.mem_cons, List.mem_append, List.mem_map] at hx
    rcases hx with hx | ⟨y, hy, hx⟩ | ⟨y, hy, hx⟩
    · rw [hx]; exact hs
    · rw [← hx]; exact (hid y hy).1
    · rw [← hx]; exact (hid y hy).2
  have hU : ClosedUnder (buildUnweighted edges).uadj
      (s :: (edges.map (fun x => x.1) ++ edges.map (fun x => x.2))) := by
    intro u _ e he
    obtain ⟨_, x, hx, h2⟩ := uadj_build edges u e he
    simp only [List.mem_cons, List.mem_append, List.mem_map]
    rcases h2 with h2 | h2
    · exact Or.inr (Or.inl ⟨x, hx, h2.symm⟩)
    · exact Or.inr (Or.inr ⟨x, hx, h2.symm⟩)
  have hf := ufold_fields edges Graph.fresh
  obtain ⟨fuel, g2, st2, hrun, hI, hR, hq⟩ :=
    eap_bfs_correct (buildUnweighted edges) s (-1) _ hU (by simp) hb
      (fun v => by unfold buildUnweighted; rw [hf.2.1]; rfl)
      (by unfold buildUnweighted; rw [hf.2.2.2]; rfl)
  refine ⟨fuel, g2, hrun, ?_⟩
  intro v hr
  obtain ⟨hd, ⟨c, hc⟩, hmin⟩ := hI.lvl_closed_optimal hq v (hr.reach_congr (fun _ _ => rfl))
  refine ⟨st2.lvl v, ?_, hmin.hops_congr (fun _ => ⟨fun _ => trivial, fun _ => rfl⟩), ?_⟩
  · simp [IntMap.lookup, hR.dist v hd]
  · have hp : ParOK (fun v => g2.parent.lookup v) s c := by
      have : (fun v => g2.parent.lookup v) = st2.par := funext hR.par_eq
      rw [this]; exact hc.parent
    obtain ⟨g3, hg⟩ := getPath_chain (-1) s c g2 hp (by rw [hR.par_eq s]; exact hI.core.par_s)
      (fun x hx => hne x (walkNodes_in_closed _ _ hU c s (by simp) hc.walk x hx))
    rw [hc.last] at hg
    refine ⟨_, c, g3, hg, hc.tree_path.path_congr (fun _ _ => trivial), ?_⟩
    simp [walkNodes, hc.length]

/-- The graph of the test in `main`: edges (1,2), (1,3), (3,4), (3,5). -/
theorem testTree_bound :
    PathSumsBelow (buildUnweighted [(1, 2), (1, 3), (3, 4), (3, 5)]).uadj (fun _ => True) 5 :=
  pathSumsBelow_of_bound _ [1, 2, 3, 4, 5] 1 5 (by unfold ClosedUnder; decide) (by decide)
    (by decide) (by decide) (by decide)

/-- C7, the test of `main`: on edges (1,2), (1,3), (3,4), (3,5) the hypotheses hold, and
BreadthFirstSearch(g, 5) followed by GetPath(g, 2) gives [5, 3, 1, 2]. -/
theorem bfs_hop_distances_witness :
    ((∃ g2, BreadthFirstSearch 6 (buildUnweighted [(1, 2), (1, 3), (3, 4), (3, 5)]) 5 (-1)
          = some (Except.ok g2) ∧
        g2.distance.lookup 2 = 3 ∧ (GetPath 5 g2 2 (-1)).map Prod.fst = some [5, 3, 1, 2]) ∧
      ∃ fuel g2, BreadthFirstSearch fuel (buildUnweighted [(1, 2), (1, 3), (3, 4), (3, 5)]) 5
          (-1) = some (Except.ok g2) ∧
        ∀ v, Reach (buildUnweighted [(1, 2), (1, 3), (3, 4), (3, 5)]).uadj (fun _ => True) 5 v →
          ∃ n : Nat, g2.distance.lookup v = n ∧
            IsMinHops (buildUnweighted [(1, 2), (1, 3), (3, 4), (3, 5)]).uadj (fun _ => True)
              5 v n ∧
            ∃ fuel2 steps g3, GetPath fuel2 g2 v (-1) = some (walkNodes 5 steps, g3) ∧
              IsPathTo (buildUnweighted [(1, 2), (1, 3), (3, 4), (3, 5)]).uadj
                (fun _ => True) 5 v steps ∧
              (walkNodes 5 steps).length = n + 1) :=
  ⟨⟨_, rfl, by decide, by decide⟩,
    bfs_hop_distances [(1, 2), (1, 3), (3, 4), (3, 5)] 5 (by decide) (by decide)
      testTree_bound⟩

/-- C7 as stated fails when a node carries the id -1, the value that marks "no parent":
on the single edge (0, -1) with source 0 node -1 is reachable with distance[-1] = 1, but
GetPath(g, -1) returns the empty path instead of a path of two nodes from 0 to -1. -/
theorem bfs_sentinel_counterexample :
    Reach (buildUnweighted [(0, -1)]).uadj (fun _ => True) 0 (-1) ∧
      ∃ g2, BreadthFirstSearch 3 (buildUnweighted [(0, -1)]) 0 (-1) = some (Except.ok g2) ∧
        g2.distance.lookup (-1) = 1 ∧
        ∀ fuel p g3, GetPath fuel g2 (-1) (-1) = some (p, g3) → p = [] := by
  refine ⟨⟨[(-1, 1)], by decide, by decide, fun _ _ => trivial⟩, _, rfl, by decide, ?_⟩
  intro fuel p g3 h
  cases fuel with
  | zero => simp [GetPath, GetPathLoop] at h
  | succ n =>
    simp [GetPath, GetPathLoop] at h
    exact h.1

end Eap

theorem foldlM_some {α β : Type} (f : β → α → Option β) (h : β → α → β)
    (hf : ∀ b a, f b a = some (h b a)) (l : List α) (b : β) :
    l.foldlM f b = some (l.foldl h b) := by
  induction l generalizing b with
  | nil => rfl
  | cons a l ih => simp only [List.foldlM, hf, List.foldl]; exact ih _

theorem vec_set_self {α : Type} (v : Vec α) (i : Int) : v.set i (v.get i) = v := by
  cases v with
  | mk size get =>
    simp only [Vec.set, Vec.mk.injEq, true_and]
    funext j
    by_cases h : j = i
    · simp [h]
    · simp [h]

theorem vec_set_set {α : Type} (v : Vec α) (i : Int) (x y : α) :
    (v.set i x).set i y = v.set i y := by
  cases v with
  | mk size get =>
    simp only [Vec.set, Vec.mk.injEq, true_and]
    funext j
    by_cases h : j = i
    · simp [h]
    · simp [h]

theorem list_set_getD_self {α : Type} (l : List α) (i : Nat) (d : α) :
    l.set i (l.getD i d) = l := by
  induction l generalizing i with
  | nil => rfl
  | cons a l ih =>
    cases i with
    | zero => rfl
    | succ i => simp only [List.set, List.getD_cons_succ]; rw [ih]

theorem getD_append_cons {α : Type} (X Y : List α) (a d : α) :
    (X ++ a :: Y).getD X.length d = a := by
  induction X with
  | nil => rfl
  | cons x X ih => simpa using ih

theorem set_append_cons {α : Type} (X Y : List α) (a b : α) :
    (X ++ a :: Y).set X.length b = X ++ b :: Y := by
  induction X with
  | nil => rfl
  | cons x X ih => simp

theorem foldl_set_range {α : Type} (f : α → α) (d : α) (l : List α) (m : Nat)
    (hm : m ≤ l.length) :
    (List.range m).foldl (fun acc i => acc.set i (f (acc.getD i d))) l
      = (l.take m).map f ++ l.drop m := by
  induction m with
  | zero => simp
  | succ m ih =>
    have hlt : m < l.length := hm
    rw [List.range_succ, List.foldl_append, ih (Nat.le_of_lt hlt)]
    simp only [List.foldl]
    have hlen : ((l.take m).map f).length = m := by
      simp [Nat.min_eq_left (Nat.le_of_lt hlt)]
    have hdrop : l.drop m = l[m] :: l.drop (m + 1) := List.drop_eq_getElem_cons hlt
    have htake : l.take (m + 1) = l.take m ++ [l[m]] := by
      rw [List.take_succ, List.getElem?_eq_getElem hlt]; rfl
    have key : ∀ (X : List α) (a : α), X.length = m →
        (X ++ a :: l.drop (m + 1)).set m (f ((X ++ a :: l.drop (m + 1)).getD m d))
          = X ++ [f a] ++ l.drop (m + 1) := by
      intro X a hX
      rw [← hX, getD_append_cons, set_append_cons]
      simp
    rw [hdrop, key _ _ hlen, htake]
    simp only [List.map_append, List.map_cons, List.map_nil]

namespace Main

theorem mirrorFix_fst (n W : Int) (q : Int × Int) : (mirrorFix n W q).1 = q.1 := by
  unfold mirrorFix; split <;> rfl

theorem mirrorFix_idem (n W : Int) (q : Int × Int) :
    mirrorFix n W (mirrorFix n W q) = mirrorFix n W q := by
  unfold mirrorFix
  by_cases h : q.1 = n
  · simp [h]
  · simp [h]

theorem mirrorFix_of_ne (n W : Int) (q : Int × Int) (h : q.1 ≠ n) : mirrorFix n W q = q := by
  unfold mirrorFix; rw [if_neg h]

theorem mirrorFix_of_weight (n W : Int) (q : Int × Int) (h : q.2 = W) :
    mirrorFix n W q = q := by
  unfold mirrorFix
  split
  · rw [← h]
  · rfl

theorem mirrorFix_snd (n W : Int) (q : Int × Int) (h : q.1 = n) : (mirrorFix n W q).2 = W := by
  unfold mirrorFix; rw [if_pos h]

/-- One round of the inner call sets position `i` of the list of `v`. -/
theorem updateEntry_inner (recurse : Graph → Int → Int → Int → Option Graph)
    (v W src : Int) (hs : src ≠ -1) (g : Graph) (i : Nat) :
    updateEntry recurse v W src g i = some { g with adj_weighted := g.adj_weighted.set v ((g.adj_weighted.get v).set i (mirrorFix src W ((g.adj_weighted.get v).getD i (0, 0)))) } := by
  unfold updateEntry
  by_cases hw : ((g.adj_weighted.get v).getD i (0, 0)).2 = W
  · simp only [hw, if_true]
    rw [mirrorFix_of_weight _ _ _ hw, list_set_getD_self, vec_set_self]
  · simp only [hw, if_false, if_neg hs, Option.some_bind]
    by_cases h1 : ((g.adj_weighted.get v).getD i (0, 0)).1 = src
    · simp only [h1, if_true, mirrorFix]
    · simp only [h1, if_false, mirrorFix]
      rw [list_set_getD_self, vec_set_self]

theorem inner_fold (v W src : Int) (l : List Nat) (g : Graph) :
    l.foldl (fun (g : Graph) i => { g with adj_weighted := g.adj_weighted.set v ((g.adj_weighted.get v).set i (mirrorFix src W ((g.adj_weighted.get v).getD i (0, 0)))) }) g
      = { g with adj_weighted := g.adj_weighted.set v (l.foldl (fun acc i => acc.set i (mirrorFix src W (acc.getD i (0, 0)))) (g.adj_weighted.get v)) } := by
  induction l generalizing g with
  | nil => simp only [List.foldl]; rw [vec_set_self]
  | cons i l ih =>
    simp only [List.foldl]
    rw [ih]
    simp only [vec_get_set, if_true, vec_set_set]

/-- The inner call `update_node_weight(v, W, src)` returns, having set to `W` the weight of
every entry for `src` in the list of `v`. -/
theorem update_inner (k : Nat) (g : Graph) (v W src : Int) (hs : src ≠ -1) :
    g.update_node_weight (k + 1) v W src
      = some { g with adj_weighted := g.adj_weighted.set v ((g.adj_weighted.get v).map (mirrorFix src W)) } := by
  unfold Graph.update_node_weight
  rw [foldlM_some _ _ (updateEntry_inner _ v W src hs), inner_fold,
    foldl_set_range _ _ _ _ (Nat.le_refl _)]
  simp

theorem set_weight_noop (V : Vec (List (Int × Int))) (n W : Int) (i : Nat)
    (h : i < (V.get n).length → ((V.get n).getD i (0, 0)).2 = W) :
    V.set n ((V.get n).set i (((V.get n).getD i (0, 0)).1, W)) = V := by
  by_cases hi : i < (V.get n).length
  · have h2 : (((V.get n).getD i (0, 0)).1, W) = (V.get n).getD i (0, 0) := by
      rw [← h hi]
    rw [h2, list_set_getD_self, vec_set_self]
  · rw [List.set_eq_of_length_le (by omega), vec_set_self]

theorem getD_set_self {α : Type} (l : List α) (i : Nat) (x d : α) (h : i < l.length) :
    (l.set i x).getD i d = x := by
  rw [List.getD_eq_getElem?_getD, List.getElem?_set_self h]; rfl

theorem getD_map {α β : Type} (f : α → β) (l : List α) (i : Nat) (d : α) (e : β)
    (h : i < l.length) : (l.map f).getD i e = f (l.getD i d) := by
  rw [List.getD_eq_getElem?_getD, List.getD_eq_getElem?_getD, List.getElem?_map,
    List.getElem?_eq_getElem h]
  rfl

/-- One round of the top-level call. -/
theorem updateEntry_top (k : Nat) (n W : Int) (hn : n ≠ -1) (g : Graph) (i : Nat) :
    updateEntry (Graph.update_node_weight (k + 1)) n W (-1) g i = some (topStep n W g i) := by
  unfold updateEntry topStep
  by_cases hw : ((g.adj_weighted.get n).getD i (0, 0)).2 = W
  · simp only [hw, if_true]
  · simp only [hw, if_false, if_true, update_inner _ _ _ _ _ hn, Option.some_bind]
    generalize hp : (g.adj_weighted.get n).getD i (0, 0) = p
    split
    · rename_i h1
      rw [set_weight_noop]
      intro hlt
      by_cases hpn : n = p.1
      · simp only [vec_get_set, ← hpn, if_true] at hlt ⊢
        have hi : i < (g.adj_weighted.get n).length := by simpa using hlt
        rw [getD_map _ _ _ (0, 0) _ (by simpa using hi), getD_set_self _ _ _ _ hi]
        unfold mirrorFix
        split <;> rfl
      · simp only [vec_get_set, if_neg hpn, if_true] at hlt ⊢
        have hi : i < (g.adj_weighted.get n).length := by simpa using hlt
        rw [getD_set_self _ _ _ _ hi]
    · rfl

end Main

namespace Main

theorem topStep_fields (n W : Int) (g : Graph) (i : Nat) :
    (topStep n W g i).parent = g.parent ∧ (topStep n W g i).state = g.state
      ∧ (topStep n W g i).distance = g.distance ∧ (topStep n W g i).found = g.found
      ∧ (topStep n W g i).adj_weighted.size = g.adj_weighted.size := by
  unfold topStep
  simp only
  split
  · exact ⟨rfl, rfl, rfl, rfl, rfl⟩
  · exact ⟨rfl, rfl, rfl, rfl, rfl⟩

theorem topFold_fields (n W : Int) (l : List Nat) (g : Graph) :
    (l.foldl (topStep n W) g).parent = g.parent ∧ (l.foldl (topStep n W) g).state = g.state
      ∧ (l.foldl (topStep n W) g).distance = g.distance
      ∧ (l.foldl (topStep n W) g).found = g.found
      ∧ (l.foldl (topStep n W) g).adj_weighted.size = g.adj_weighted.size := by
  induction l generalizing g with
  | nil => exact ⟨rfl, rfl, rfl, rfl, rfl⟩
  | cons i l ih =>
    simp only [List.foldl]
    obtain ⟨h1, h2, h3, h4, h5⟩ := ih (topStep n W g i)
    obtain ⟨k1, k2, k3, k4, k5⟩ := topStep_fields n W g i
    exact ⟨h1.trans k1, h2.trans k2, h3.trans k3, h4.trans k4, h5.trans k5⟩

theorem UpdInv.update_init (A0 : Int → List (Int × Int)) (n W : Int) : UpdInv A0 n W 0 A0 where
  len := rfl
  pt := by
    intro j q q0 h1 h2
    rw [h1] at h2
    cases h2
    exact ⟨rfl, fun h => absurd h (Nat.not_lt_zero _), fun _ _ => rfl⟩
  hit := by
    rintro v _ ⟨j, q0, hj, _⟩
    exact absurd hj (Nat.not_lt_zero _)
  miss := fun _ _ _ => rfl

theorem UpdInv.update_step (A0 : Int → List (Int × Int)) (n W : Int) (m : Nat) (g : Graph)
    (h : UpdInv A0 n W m g.adj_weighted.get) (hm : m < (A0 n).length) :
    UpdInv A0 n W (m + 1) (topStep n W g m).adj_weighted.get := by
  have hmA : m < (g.adj_weighted.get n).length := by rw [h.len]; exact hm
  obtain ⟨p, hp⟩ : ∃ p, (g.adj_weighted.get n)[m]? = some p :=
    ⟨_, List.getElem?_eq_getElem hmA⟩
  obtain ⟨p0, hp0⟩ : ∃ p0, (A0 n)[m]? = some p0 := ⟨_, List.getElem?_eq_getElem hm⟩
  have hpD : (g.adj_weighted.get n).getD m (0, 0) = p := by
    rw [List.getD_eq_getElem?_getD, hp]; rfl
  obtain ⟨hp1, -, hp3⟩ := h.pt m p p0 hp hp0
  -- the condition for `m + 1` against the condition for `m`
  have hcond : ∀ v, (∃ j q0, j < m + 1 ∧ (A0 n)[j]? = some q0 ∧ q0.1 = v ∧ q0.2 ≠ W) ↔
      ((∃ j q0, j < m ∧ (A0 n)[j]? = some q0 ∧ q0.1 = v ∧ q0.2 ≠ W)
        ∨ (p0.1 = v ∧ p0.2 ≠ W)) := by
    intro v
    constructor
    · rintro ⟨j, q0, hj, hq, h1, h2⟩
      by_cases hjm : j = m
      · subst hjm
        rw [hp0] at hq
        cases hq
        exact Or.inr ⟨h1, h2⟩
      · exact Or.inl ⟨j, q0, by omega, hq, h1, h2⟩
    · rintro (⟨j, q0, hj, hq, h1, h2⟩ | ⟨h1, h2⟩)
      · exact ⟨j, q0, by omega, hq, h1, h2⟩
      · exact ⟨m, p0, by omega, hp0, h1, h2⟩
  unfold topStep
  simp only [hpD]
  by_cases hw : p.2 = W
  · rw [if_pos hw]
    refine ⟨h.len, ?_, ?_, ?_⟩
    · intro j q q0 h1 h2
      obtain ⟨a, b, c⟩ := h.pt j q q0 h1 h2
      refine ⟨a, ?_, fun hj => c (by omega)⟩
      intro hj
      by_cases hjm : j = m
      · subst hjm
        rw [hp] at h1
        cases h1
        exact hw
      · exact b (by omega)
    · intro v hv hc
      rcases (hcond v).1 hc with hc | ⟨h1, h2⟩
      · exact h.hit v hv hc
      · exfalso
        have := hp3 (Nat.le_refl _) (by rw [h1]; exact hv)
        rw [this] at hw
        exact h2 hw
    · intro v hv hc
      exact h.miss v hv (fun hc2 => hc ((hcond v).2 (Or.inl hc2)))
  · rw [if_neg hw]
    by_cases hpn : p.1 = n
    · -- a self-loop entry
      have hget : ∀ x, (((g.adj_weighted.set n ((g.adj_weighted.get n).set m (p.1, W))).set p.1 (List.map (mirrorFix n W) ((g.adj_weighted.set n ((g.adj_weighted.get n).set m (p.1, W))).get p.1))).get x)
          = if x = n then ((g.adj_weighted.get n).set m (n, W)).map (mirrorFix n W)
            else g.adj_weighted.get x := by
        intro x
        simp only [vec_get_set, hpn, if_true]
        split <;> rfl
      refine ⟨?_, ?_, ?_, ?_⟩
      · simp only [hget, if_true, List.length_map, List.length_set]; exact h.len
      · intro j q q0 h1 h2
        simp only [hget, if_true, List.getElem?_map, List.getElem?_set] at h1
        by_cases hjm : m = j
        · subst hjm
          rw [hp0] at h2
          cases h2
          simp only [if_true, if_pos hmA, Option.map_some', mirrorFix] at h1
          cases h1
          exact ⟨hpn.symm.trans hp1, fun _ => rfl, fun hj => absurd hj (by omega)⟩
        · rw [if_neg hjm] at h1
          cases hq : (g.adj_weighted.get n)[j]? with
          | none => rw [hq] at h1; cases h1
          | some q1 =>
            rw [hq] at h1
            simp only [Option.map_some', Option.some.injEq] at h1
            obtain ⟨a, b, c⟩ := h.pt j q1 q0 hq h2
            subst h1
            refine ⟨by rw [mirrorFix_fst]; exact a, ?_, ?_⟩
            · intro hj
              have hb := b (by omega)
              rw [mirrorFix_of_weight _ _ _ hb]
              exact hb
            · intro hj hne
              have hc := c (by omega) hne
              rw [hc, mirrorFix_of_ne _ _ _ hne]
      · intro v hv hc
        rw [hget, if_neg hv]
        rcases (hcond v).1 hc with hc | ⟨h1, _⟩
        · exact h.hit v hv hc
        · exact absurd (h1.symm.trans (hp1.symm.trans hpn)) hv
      · intro v hv hc
        rw [hget, if_neg hv]
        exact h.miss v hv (fun hc2 => hc ((hcond v).2 (Or.inl hc2)))
    · -- an entry for another node
      have hpn2 : n ≠ p.1 := fun e => hpn e.symm
      have hp0n : p0.1 ≠ n := by rw [← hp1]; exact hpn
      have hpp : p = p0 := hp3 (Nat.le_refl _) hp0n
      have hget : ∀ x, (((g.adj_weighted.set n ((g.adj_weighted.get n).set m (p.1, W))).set p.1 (List.map (mirrorFix n W) ((g.adj_weighted.set n ((g.adj_weighted.get n).set m (p.1, W))).get p.1))).get x)
          = if x = p.1 then (g.adj_weighted.get p.1).map (mirrorFix n W)
            else if x = n then (g.adj_weighted.get n).set m (p.1, W)
            else g.adj_weighted.get x := by
        intro x
        simp only [vec_get_set, if_neg hpn, if_true]
      refine ⟨?_, ?_, ?_, ?_⟩
      · simp only [hget, if_neg hpn2, if_true, List.length_set]; exact h.len
      · intro j q q0 h1 h2
        simp only [hget, if_neg hpn2, if_true, List.getElem?_set] at h1
        by_cases hjm : m = j
        · subst hjm
          rw [hp0] at h2
          cases h2
          simp only [if_true, if_pos hmA] at h1
          cases h1
          exact ⟨hp1, fun _ => rfl, fun hj => absurd hj (by omega)⟩
        · rw [if_neg hjm] at h1
          obtain ⟨a, b, c⟩ := h.pt j q q0 h1 h2
          exact ⟨a, fun hj => b (by omega), fun hj => c (by omega)⟩
      · intro v hv hc
        rw [hget]
        by_cases hvp : v = p.1
        · rw [if_pos hvp, ← hvp]
          by_cases hold : ∃ j q0, j < m ∧ (A0 n)[j]? = some q0 ∧ q0.1 = v ∧ q0.2 ≠ W
          · rw [h.hit v hv hold, List.map_map]
            apply List.map_congr_left
            intro a _
            exact mirrorFix_idem n W a
          · rw [h.miss v hv hold]
        · rw [if_neg hvp, if_neg hv]
          rcases (hcond v).1 hc with hc | ⟨h1, _⟩
          · exact h.hit v hv hc
          · exact absurd (h1.symm.trans hp1.symm) hvp
      · intro v hv hc
        rw [hget]
        have hvp : v ≠ p.1 := by
          intro e
          apply hc
          rw [hcond]
          refine Or.inr ⟨by rw [e, hpp], ?_⟩
          rw [← hpp]; exact hw
        rw [if_neg hvp, if_neg hv]
        exact h.miss v hv (fun hc2 => hc ((hcond v).2 (Or.inl hc2)))

end Main

namespace Main

theorem UpdInv.update_fold (n W : Int) (g : Graph) (m : Nat)
    (hm : m ≤ (g.adj_weighted.get n).length) :
    UpdInv g.adj_weighted.get n W m ((List.range m).foldl (topStep n W) g).adj_weighted.get := by
  induction m with
  | zero => exact UpdInv.update_init _ n W
  | succ m ih =>
    rw [List.range_succ, List.foldl_append]
    exact UpdInv.update_step _ n W m _ (ih (by omega)) hm

theorem UpdInv.update_finish (A0 A : Int → List (Int × Int)) (n W : Int)
    (h : UpdInv A0 n W (A0 n).length A) : A = updatedAdj A0 n W := by
  funext v
  unfold updatedAdj
  by_cases hv : v = n
  · subst hv
    rw [if_pos rfl]
    apply List.ext_getElem?
    intro j
    rw [List.getElem?_map]
    by_cases hj : j < (A0 v).length
    · have hjA : j < (A v).length := by rw [h.len]; exact hj
      obtain ⟨a, b, -⟩ := h.pt j _ _ (List.getElem?_eq_getElem hjA) (List.getElem?_eq_getElem hj)
      rw [List.getElem?_eq_getElem hjA, List.getElem?_eq_getElem hj]
      simp only [Option.map_some', Option.some.injEq]
      exact Prod.ext a (b hj)
    · rw [List.getElem?_eq_none (by rw [h.len]; omega), List.getElem?_eq_none (by omega)]
      rfl
  · rw [if_neg hv]
    have hiff : (∃ j q0, j < (A0 n).length ∧ (A0 n)[j]? = some q0 ∧ q0.1 = v ∧ q0.2 ≠ W) ↔
        ∃ p ∈ A0 n, p.1 = v ∧ p.2 ≠ W := by
      constructor
      · rintro ⟨j, q0, _, hq, h1, h2⟩
        exact ⟨q0, List.getElem?_mem hq, h1, h2⟩
      · rintro ⟨p, hp, h1, h2⟩
        obtain ⟨j, hj, hq⟩ := List.getElem_of_mem hp
        exact ⟨j, p, hj, by rw [List.getElem?_eq_getElem hj, hq], h1, h2⟩
    by_cases hc : ∃ p ∈ A0 n, p.1 = v ∧ p.2 ≠ W
    · rw [if_pos hc]
      exact h.hit v hv (hiff.2 hc)
    · rw [if_neg hc]
      exact h.miss v hv (fun hc2 => hc (hiff.1 hc2))

/-- The top-level call `update_node_weight(n, W)` returns, with the adjacency
`updatedAdj`, the rest of the graph as it was. -/
theorem update_top (k : Nat) (g : Graph) (n W : Int) (hn : n ≠ -1) :
    g.update_node_weight (k + 2) n W (-1)
      = some { g with adj_weighted := { size := g.adj_weighted.size, get := updatedAdj g.adj_weighted.get n W } } := by
  unfold Graph.update_node_weight
  rw [foldlM_some _ _ (updateEntry_top k n W hn)]
  have hinv := UpdInv.update_finish _ _ n W (UpdInv.update_fold n W g _ (Nat.le_refl _))
  obtain ⟨h1, h2, h3, h4, h5⟩ :=
    topFold_fields n W (List.range (g.adj_weighted.get n).length) g
  generalize (List.range (g.adj_weighted.get n).length).foldl (topStep n W) g = g2 at *
  cases g2 with
  | mk adj par st dist fnd =>
    cases adj with
    | mk sz gt =>
      simp only at h1 h2 h3 h4 h5 hinv
      subst h1 h2 h3 h4 h5 hinv
      rfl

/-- The top-level call changes nothing when every entry of `n` has the weight already. -/
theorem update_top_noop (k : Nat) (g : Graph) (n W src : Int)
    (h : ∀ p ∈ g.adj_weighted.get n, p.2 = W) :
    g.update_node_weight (k + 1) n W src = some g := by
  unfold Graph.update_node_weight
  have hstep : ∀ l : List Nat, (∀ i ∈ l, i < (g.adj_weighted.get n).length) →
      l.foldlM (updateEntry (Graph.update_node_weight k) n W src) g = some g := by
    intro l
    induction l with
    | nil => intro _; rfl
    | cons i l ih =>
      intro hl
      have hi : i < (g.adj_weighted.get n).length := hl i (List.mem_cons_self _ _)
      have h1 : updateEntry (Graph.update_node_weight k) n W src g i = some g := by
        unfold updateEntry
        have hw : ((g.adj_weighted.get n).getD i (0, 0)).2 = W := by
          rw [List.getD_eq_getElem?_getD, List.getElem?_eq_getElem hi]
          exact h _ (List.getElem_mem hi)
        simp only [hw, if_true]
      simp only [List.foldlM, h1]
      exact ih (fun j hj => hl j (List.mem_cons_of_mem _ hj))
  exact hstep _ (fun i hi => List.mem_range.1 hi)

end Main

namespace Main

theorem filter_fst_map (f : Int × Int → Int × Int) (hf : ∀ q, (f q).1 = q.1) (v : Int)
    (l : List (Int × Int)) :
    (l.map f).filter (fun p => decide (p.1 = v)) = (l.filter (fun p => decide (p.1 = v))).map f := by
  induction l with
  | nil => rfl
  | cons a l ih =>
    simp only [List.map_cons, List.filter_cons, hf]
    split
    · rw [ih]; rfl
    · exact ih

/-- The weights at `n → v` after the call: as many as before, all `W`. -/
theorem weights_updated_self (A : Int → List (Int × Int)) (n W v : Int) :
    (((updatedAdj A n W n).filter (fun p => decide (p.1 = v))).map Prod.snd)
      = (((A n).filter (fun p => decide (p.1 = v))).map Prod.snd).map (fun _ => W) := by
  unfold updatedAdj
  rw [if_pos rfl, filter_fst_map (fun p => (p.1, W)) (fun _ => rfl), List.map_map, List.map_map]
  rfl

/-- The weights at `u → v` for `u` and `v` other than `n` are as before. -/
theorem weights_updated_other (A : Int → List (Int × Int)) (n W u v : Int) (hu : u ≠ n)
    (hv : v ≠ n) :
    (((updatedAdj A n W u).filter (fun p => decide (p.1 = v))).map Prod.snd)
      = (((A u).filter (fun p => decide (p.1 = v))).map Prod.snd) := by
  unfold updatedAdj
  rw [if_neg hu]
  split
  · rw [filter_fst_map _ (mirrorFix_fst n W), List.map_map]
    apply List.map_congr_left
    intro a ha
    have h1 : a.1 = v := by simpa using (List.mem_filter.1 ha).2
    show (mirrorFix n W a).2 = a.2
    rw [mirrorFix_of_ne _ _ _ (by rw [h1]; exact hv)]
  · rfl

/-- The weights at `u → n` after the call, for a `u` the call reached. -/
theorem weights_updated_hit (A : Int → List (Int × Int)) (n W u : Int) (hu : u ≠ n)
    (hc : ∃ p ∈ A n, p.1 = u ∧ p.2 ≠ W) :
    (((updatedAdj A n W u).filter (fun p => decide (p.1 = n))).map Prod.snd)
      = (((A u).filter (fun p => decide (p.1 = n))).map Prod.snd).map (fun _ => W) := by
  unfold updatedAdj
  rw [if_neg hu, if_pos hc, filter_fst_map _ (mirrorFix_fst n W), List.map_map, List.map_map]
  apply List.map_congr_left
  intro a ha
  have h1 : a.1 = n := by simpa using (List.mem_filter.1 ha).2
  exact mirrorFix_snd n W a h1

/-- The weights at `u → n` after the call, for a `u` the call did not reach. -/
theorem weights_updated_miss (A : Int → List (Int × Int)) (n W u : Int) (hu : u ≠ n)
    (hc : ¬ ∃ p ∈ A n, p.1 = u ∧ p.2 ≠ W) :
    (((updatedAdj A n W u).filter (fun p => decide (p.1 = n))).map Prod.snd)
      = (((A u).filter (fun p => decide (p.1 = n))).map Prod.snd) := by
  unfold updatedAdj
  rw [if_neg hu, if_neg hc]

theorem map_const_of_all (l : List Int) (W : Int) (h : ∀ x ∈ l, x = W) :
    l.map (fun _ => W) = l := by
  induction l with
  | nil => rfl
  | cons a l ih =>
    simp only [List.map_cons]
    rw [ih (fun x hx => h x (List.mem_cons_of_mem _ hx)), h a (List.mem_cons_self _ _)]

/-- The symmetry invariant survives the top-level call. -/
theorem symmetric_updated (g : Graph) (n W : Int) (h : g.Symmetric) :
    Graph.Symmetric { g with adj_weighted := { size := g.adj_weighted.size, get := updatedAdj g.adj_weighted.get n W } } := by
  have key : ∀ v, v ≠ n →
      ((((updatedAdj g.adj_weighted.get n W n).filter (fun p => decide (p.1 = v))).map Prod.snd)).Perm
        (((updatedAdj g.adj_weighted.get n W v).filter (fun p => decide (p.1 = n))).map Prod.snd) := by
    intro v hv
    rw [weights_updated_self]
    by_cases hc : ∃ p ∈ g.adj_weighted.get n, p.1 = v ∧ p.2 ≠ W
    · rw [weights_updated_hit _ _ _ _ hv hc]
      exact (h n v).map _
    · rw [weights_updated_miss _ _ _ _ hv hc, map_const_of_all]
      · exact h n v
      · intro x hx
        obtain ⟨p, hp, rfl⟩ := List.mem_map.1 hx
        by_contra hne
        exact hc ⟨p, (List.mem_filter.1 hp).1, by simpa using (List.mem_filter.1 hp).2, hne⟩
  intro u v
  show (List.map Prod.snd (List.filter (fun p => decide (p.1 = v)) (updatedAdj g.adj_weighted.get n W u))).Perm
    (List.map Prod.snd (List.filter (fun p => decide (p.1 = u)) (updatedAdj g.adj_weighted.get n W v)))
  by_cases hu : u = n
  · by_cases hv : v = n
    · rw [hu, hv]
    · rw [hu]; exact key v hv
  · by_cases hv : v = n
    · rw [hv]; exact (key u hu).symm
    · rw [weights_updated_other _ _ _ _ _ hu hv, weights_updated_other _ _ _ _ _ hv hu]
      exact h u v

/-- The symmetry invariant survives `add_edge`. -/
theorem symmetric_add_edge (g : Graph) (a b w : Int) (h : g.Symmetric) :
    (g.add_edge a b w).Symmetric := by
  have hw : ∀ u v, (g.add_edge a b w).weightsTo u v
      = g.weightsTo u v ++ (if u = a ∧ v = b then [w] else [])
          ++ (if u = b ∧ v = a then [w] else []) := by
    intro u v
    have := main_wadj_add_edge g a b w u
    unfold Graph.wadj at this
    unfold Graph.weightsTo
    rw [this]
    have ea : (a = v) = (v = a) := propext eq_comm
    have eb : (b = v) = (v = b) := propext eq_comm
    by_cases hab : a = b
    · subst hab
      by_cases h1 : u = a <;> by_cases h3 : v = a <;>
        simp [h1, h3, ea, List.filter_append, List.filter_cons]
    · have hba : ¬ b = a := fun e => hab e.symm
      by_cases h1 : u = a <;> by_cases h2 : u = b <;> by_cases h3 : v = a <;>
        by_cases h4 : v = b <;>
        first
        | (exfalso; omega)
        | simp [List.filter_append, List.filter_cons, ea, eb, h1, h2, h3, h4, hab, hba]
  intro u v
  rw [hw, hw, List.append_assoc, List.append_assoc]
  refine (h u v).append ?_
  have e1 : (u = a ∧ v = b) ↔ (v = b ∧ u = a) := And.comm
  have e2 : (u = b ∧ v = a) ↔ (v = a ∧ u = b) := And.comm
  simp only [e1, e2]
  exact List.perm_append_comm

theorem symmetric_mirrored (g : Graph) (h : g.Symmetric) : g.Mirrored := by
  intro u v w hm
  have h1 : w ∈ g.weightsTo u v := by
    unfold Graph.weightsTo
    exact List.mem_map.2 ⟨(v, w), List.mem_filter.2 ⟨hm, by simp⟩, rfl⟩
  have h2 : w ∈ g.weightsTo v u := (h u v).subset h1
  unfold Graph.weightsTo at h2
  obtain ⟨p, hp, rfl⟩ := List.mem_map.1 h2
  have h3 : p.1 = u := by simpa using (List.mem_filter.1 hp).2
  have h4 := (List.mem_filter.1 hp).1
  rw [← h3]
  exact h4

theorem symmetric_of_built (g : Graph) (h : g.Built) : g.Symmetric := by
  induction h with
  | init g h =>
    intro u v
    unfold Graph.weightsTo
    rw [h u, h v]
    exact List.Perm.refl _
  | add_edge g u v w _ _ _ ih => exact symmetric_add_edge g u v w ih
  | update g g2 fuel n w _ hn h ih =>
    rw [update_top fuel g n w (by have := hn.1; omega)] at h
    cases h
    exact symmetric_updated g n w ih

end Main

namespace Main

theorem doubled_built : doubled.Built :=
  Graph.Built.add_edge _ 0 1 5
    (Graph.Built.add_edge _ 1 2 1
      (Graph.Built.add_edge _ 0 1 1 (Graph.Built.init _ (fun _ => rfl)) (by decide) (by decide))
      (by decide) (by decide))
    (by decide) (by decide)

/-- C8: in every graph reachable from empty adjacency lists by `add_edge` calls and top-level
`update_node_weight` calls on valid indices, for all `u` and `v` the weights of the entries
for `v` in the list of `u` are, as a multiset, the weights of the entries for `u` in the list
of `v`. -/
theorem update_symmetry_invariant (g : Graph) (h : g.Built) :
    ∀ u v, (g.weightsTo u v).Perm (g.weightsTo v u) :=
  symmetric_of_built g h

/-- C8 at the graph `doubled` after `update_node_weight(0, 7)`: the call sets both
entries of node 0 and their mirror entries at node 1 to 7, the edge between 1 and 2 keeps
weight 1, and the theorem applies to the graph reached. -/
theorem update_symmetry_invariant_witness :
    (∃ g1, doubled.update_node_weight 2 0 7 (-1) = some g1
      ∧ g1.adj_weighted.get 0 = [(1, 7), (1, 7)]
      ∧ g1.adj_weighted.get 1 = [(0, 7), (2, 1), (0, 7)]
      ∧ g1.adj_weighted.get 2 = [(1, 1)]) ∧
    ∃ g2, doubled.update_node_weight 2 0 7 (-1) = some g2
      ∧ ∀ u v, (g2.weightsTo u v).Perm (g2.weightsTo v u) :=
  ⟨⟨_, rfl, by decide, by decide, by decide⟩,
    ⟨_, update_top 0 doubled 0 7 (by decide),
      update_symmetry_invariant _
        (Graph.Built.update doubled _ 0 0 7 doubled_built (by decide)
          (update_top 0 doubled 0 7 (by decide)))⟩⟩

/-- C9: on a graph in which every entry has its mirror entry, the top-level call
`update_node_weight(n, w)` on a valid index returns; afterwards the list of `n` names the
same nodes as before, every entry of it has weight `w`, and for every neighbour `v` of `n`
every entry for `n` in the list of `v` has weight `w`. -/
theorem update_node_weight_post (g : Graph) (n w : Int) (k : Nat) (hs : g.Mirrored)
    (hn : g.IsNode n) :
    ∃ g1, g.update_node_weight (k + 2) n w (-1) = some g1
      ∧ (g1.adj_weighted.get n).map Prod.fst = (g.adj_weighted.get n).map Prod.fst
      ∧ (∀ p ∈ g1.adj_weighted.get n, p.2 = w)
      ∧ (∀ v ∈ (g.adj_weighted.get n).map Prod.fst,
          ∀ q ∈ g1.adj_weighted.get v, q.1 = n → q.2 = w) := by
  have hself : ∀ p ∈ updatedAdj g.adj_weighted.get n w n, p.2 = w := by
    intro p hp
    unfold updatedAdj at hp
    rw [if_pos rfl] at hp
    obtain ⟨p0, _, rfl⟩ := List.mem_map.1 hp
    rfl
  refine ⟨_, update_top k g n w (by have := hn.1; omega), ?_, hself, ?_⟩
  · show (updatedAdj g.adj_weighted.get n w n).map Prod.fst = _
    unfold updatedAdj
    rw [if_pos rfl, List.map_map]
    rfl
  · intro v hv q hq hqn
    change q ∈ updatedAdj g.adj_weighted.get n w v at hq
    by_cases hvn : v = n
    · rw [hvn] at hq
      exact hself q hq
    · unfold updatedAdj at hq
      rw [if_neg hvn] at hq
      by_cases hc : ∃ p ∈ g.adj_weighted.get n, p.1 = v ∧ p.2 ≠ w
      · rw [if_pos hc] at hq
        obtain ⟨q0, _, rfl⟩ := List.mem_map.1 hq
        rw [mirrorFix_fst] at hqn
        exact mirrorFix_snd n w q0 hqn
      · rw [if_neg hc] at hq
        by_contra hne
        have h1 : (n, q.2) ∈ g.adj_weighted.get v := by rw [← hqn]; exact hq
        exact hc ⟨(v, q.2), hs v n q.2 h1, rfl, hne⟩

/-- C9 at the graph `doubled`, node 1 and weight 7: every entry of node 1 and every entry
for node 1 at its neighbours 0 and 2 ends with weight 7, and the theorem applies. -/
theorem update_node_weight_post_witness :
    (∃ g1, doubled.update_node_weight 2 1 7 (-1) = some g1
      ∧ g1.adj_weighted.get 0 = [(1, 7), (1, 7)]
      ∧ g1.adj_weighted.get 1 = [(0, 7), (2, 7), (0, 7)]
      ∧ g1.adj_weighted.get 2 = [(1, 7)]) ∧
    doubled.Mirrored ∧ doubled.IsNode 1 ∧
    ∃ g1, doubled.update_node_weight 2 1 7 (-1) = some g1
      ∧ (g1.adj_weighted.get 1).map Prod.fst = (doubled.adj_weighted.get 1).map Prod.fst
      ∧ (∀ p ∈ g1.adj_weighted.get 1, p.2 = 7)
      ∧ (∀ v ∈ (doubled.adj_weighted.get 1).map Prod.fst,
          ∀ q ∈ g1.adj_weighted.get v, q.1 = 1 → q.2 = 7) :=
  ⟨⟨_, rfl, by decide, by decide, by decide⟩,
    symmetric_mirrored _ (symmetric_of_built _ doubled_built), by decide,
    update_node_weight_post doubled 1 7 0
      (symmetric_mirrored _ (symmetric_of_built _ doubled_built)) (by decide)⟩

/-- C10: the top-level call `update_node_weight(n, w)` on a valid index returns a graph on
which the same call returns that graph again. -/
theorem update_node_weight_idempotent (g : Graph) (n w : Int) (k : Nat) (hn : g.IsNode n) :
    ∃ g1, g.update_node_weight (k + 2) n w (-1) = some g1
      ∧ g1.update_node_weight (k + 2) n w (-1) = some g1 := by
  refine ⟨_, update_top k g n w (by have := hn.1; omega), ?_⟩
  apply update_top_noop
  intro p hp
  change p ∈ updatedAdj g.adj_weighted.get n w n at hp
  unfold updatedAdj at hp
  rw [if_pos rfl] at hp
  obtain ⟨p0, _, rfl⟩ := List.mem_map.1 hp
  rfl

/-- C10 at the graph `doubled`, node 2 and weight 4: the first call sets the two entries
of the edge between 1 and 2 to 4, and the theorem applies. -/
theorem update_node_weight_idempotent_witness :
    (∃ g1, doubled.update_node_weight 2 2 4 (-1) = some g1
      ∧ g1.adj_weighted.get 1 = [(0, 1), (2, 4), (0, 5)]
      ∧ g1.adj_weighted.get 2 = [(1, 4)]) ∧
    doubled.IsNode 2 ∧
    ∃ g1, doubled.update_node_weight 2 2 4 (-1) = some g1
      ∧ g1.update_node_weight 2 2 4 (-1) = some g1 :=
  ⟨⟨_, rfl, by decide, by decide⟩, by decide,
    update_node_weight_idempotent doubled 2 4 0 (by decide)⟩

end Main

namespace Main

open NodeState

theorem wrapInt_fits (x : Int) (h0 : -2147483648 ≤ x) (h1 : x ≤ INF) : wrapInt x = x := by
  unfold wrapInt
  unfold INF at h1
  omega

theorem addCell_adj (W H : Int) (g : Graph) (y x u : Int) :
    (addCellOf W H g y x).adj_weighted.get u
      = if u = y * W + x then g.adj_weighted.get u ++ cellEntries W H y x
        else g.adj_weighted.get u := by
  unfold addCellOf
  simp only
  rw [vec_get_set]
  split
  · rename_i h
    rw [h]
  · rfl

theorem addCell_fields (W H : Int) (g : Graph) (y x : Int) :
    (addCellOf W H g y x).state = g.state ∧ (addCellOf W H g y x).parent = g.parent
      ∧ (addCellOf W H g y x).distance = g.distance ∧ (addCellOf W H g y x).found = g.found
      ∧ (addCellOf W H g y x).adj_weighted.size = g.adj_weighted.size :=
  ⟨rfl, rfl, rfl, rfl, rfl⟩

/-- The cell bounds under which no `int` operation of the loop body overflows. -/
theorem cell_fits (W H y x : Int) (hy : 0 ≤ y ∧ y < H) (hx : 0 ≤ x ∧ x < W)
    (hfit : H * W + W ≤ INF) :
    0 ≤ y * W ∧ y * W + W ≤ H * W ∧ 0 ≤ W ∧ H * W ≤ INF ∧ W ≤ INF ∧ H ≤ INF := by
  have hW : 0 ≤ W := by omega
  have h1 : 0 ≤ y * W := Int.mul_nonneg hy.1 hW
  have h2 : (y + 1) * W ≤ H * W := Int.mul_le_mul_of_nonneg_right (by omega) hW
  have h3 : (y + 1) * W = y * W + W := by ring
  have h4 : H * 1 ≤ H * W := Int.mul_le_mul_of_nonneg_left (by omega) (by omega)
  have h5 : H * 1 = H := by ring
  refine ⟨h1, by omega, hW, by omega, by omega, by omega⟩

/-- For a cell of a lattice that fits an `int`, the body of the loops appends the entries
of the cell. -/
theorem addCell_exact (W H : Int) (g : Graph) (y x : Int) (hy : 0 ≤ y ∧ y < H)
    (hx : 0 ≤ x ∧ x < W) (hfit : H * W + W ≤ INF) :
    addCell W H g (y * W + x) y x = addCellOf W H g y x := by
  obtain ⟨f1, f2, f3, f4, f5, f6⟩ := cell_fits W H y x hy hx hfit
  have hINF : INF = 2147483647 := rfl
  have e1 : (y - 1) * W = y * W - W := by ring
  have e2 : (y + 1) * W = y * W + W := by ring
  have hup : wrapInt (wrapInt (wrapInt (y - 1) * W) + x) = (y - 1) * W + x := by
    rw [wrapInt_fits (y - 1) (by omega) (by omega), wrapInt_fits ((y - 1) * W) (by omega) (by omega),
      wrapInt_fits _ (by omega) (by omega)]
  have hdown : wrapInt (wrapInt (wrapInt (y + 1) * W) + x) = (y + 1) * W + x := by
    rw [wrapInt_fits (y + 1) (by omega) (by omega), wrapInt_fits ((y + 1) * W) (by omega) (by omega),
      wrapInt_fits _ (by omega) (by omega)]
  have hleft : wrapInt (wrapInt (y * W) + wrapInt (x - 1)) = y * W + (x - 1) := by
    rw [wrapInt_fits (y * W) (by omega) (by omega), wrapInt_fits (x - 1) (by omega) (by omega),
      wrapInt_fits _ (by omega) (by omega)]
  have hright : wrapInt (wrapInt (y * W) + wrapInt (x + 1)) = y * W + (x + 1) := by
    rw [wrapInt_fits (y * W) (by omega) (by omega), wrapInt_fits (x + 1) (by omega) (by omega),
      wrapInt_fits _ (by omega) (by omega)]
  have hH1 : wrapInt (H - 1) = H - 1 := wrapInt_fits _ (by omega) (by omega)
  have hW1 : wrapInt (W - 1) = W - 1 := wrapInt_fits _ (by omega) (by omega)
  unfold addCell addCellOf cellEntries
  simp only [hup, hdown, hleft, hright, hH1, hW1]
  cases g with
  | mk adj par st dist fnd =>
    simp only
    by_cases h1 : y > 0 <;> by_cases h2 : y < H - 1 <;> by_cases h3 : x > 0 <;>
      by_cases h4 : x < W - 1 <;>
      (simp only [h1, h2, h3, h4, if_true, if_false, vec_get_set, vec_set_set,
        List.append_assoc, List.nil_append, List.append_nil, List.singleton_append,
        List.cons_append]
       try rw [vec_set_self])

theorem row_adj (W H y : Int) (xs : List Int) (g : Graph) (u : Int) (e : Int × Int) :
    e ∈ (xs.foldl (fun g x => addCellOf W H g y x) g).adj_weighted.get u ↔
      (e ∈ g.adj_weighted.get u ∨ ∃ x ∈ xs, y * W + x = u ∧ e ∈ cellEntries W H y x) := by
  induction xs generalizing g with
  | nil => simp
  | cons x xs ih =>
    simp only [List.foldl]
    rw [ih, addCell_adj]
    by_cases hu : u = y * W + x
    · rw [if_pos hu, List.mem_append]
      constructor
      · rintro ((h | h) | ⟨x2, hx2, h1, h2⟩)
        · exact Or.inl h
        · exact Or.inr ⟨x, List.mem_cons_self _ _, hu.symm, h⟩
        · exact Or.inr ⟨x2, List.mem_cons_of_mem _ hx2, h1, h2⟩
      · rintro (h | ⟨x2, hx2, h1, h2⟩)
        · exact Or.inl (Or.inl h)
        · rcases List.mem_cons.1 hx2 with h3 | h3
          · subst h3; exact Or.inl (Or.inr h2)
          · exact Or.inr ⟨x2, h3, h1, h2⟩
    · rw [if_neg hu]
      constructor
      · rintro (h | ⟨x2, hx2, h1, h2⟩)
        · exact Or.inl h
        · exact Or.inr ⟨x2, List.mem_cons_of_mem _ hx2, h1, h2⟩
      · rintro (h | ⟨x2, hx2, h1, h2⟩)
        · exact Or.inl h
        · rcases List.mem_cons.1 hx2 with h3 | h3
          · subst h3; exact absurd h1.symm hu
          · exact Or.inr ⟨x2, h3, h1, h2⟩

theorem row_fields (W H y : Int) (xs : List Int) (g : Graph) :
    (xs.foldl (fun g x => addCellOf W H g y x) g).state = g.state
      ∧ (xs.foldl (fun g x => addCellOf W H g y x) g).parent = g.parent
      ∧ (xs.foldl (fun g x => addCellOf W H g y x) g).distance = g.distance
      ∧ (xs.foldl (fun g x => addCellOf W H g y x) g).found = g.found
      ∧ (xs.foldl (fun g x => addCellOf W H g y x) g).adj_weighted.size = g.adj_weighted.size := by
  induction xs generalizing g with
  | nil => exact ⟨rfl, rfl, rfl, rfl, rfl⟩
  | cons x xs ih =>
    simp only [List.foldl]
    obtain ⟨h1, h2, h3, h4, h5⟩ := ih (addCellOf W H g y x)
    obtain ⟨k1, k2, k3, k4, k5⟩ := addCell_fields W H g y x
    exact ⟨h1.trans k1, h2.trans k2, h3.trans k3, h4.trans k4, h5.trans k5⟩

theorem rows_adj (W H : Int) (ys xs : List Int) (g : Graph) (u : Int) (e : Int × Int) :
    e ∈ (ys.foldl (fun g y => xs.foldl (fun g x => addCellOf W H g y x) g) g).adj_weighted.get u ↔
      (e ∈ g.adj_weighted.get u
        ∨ ∃ y ∈ ys, ∃ x ∈ xs, y * W + x = u ∧ e ∈ cellEntries W H y x) := by
  induction ys generalizing g with
  | nil => simp
  | cons y ys ih =>
    simp only [List.foldl]
    rw [ih, row_adj]
    constructor
    · rintro ((h | ⟨x, hx, h1, h2⟩) | ⟨y2, hy2, h⟩)
      · exact Or.inl h
      · exact Or.inr ⟨y, List.mem_cons_self _ _, x, hx, h1, h2⟩
      · exact Or.inr ⟨y2, List.mem_cons_of_mem _ hy2, h⟩
    · rintro (h | ⟨y2, hy2, h⟩)
      · exact Or.inl (Or.inl h)
      · rcases List.mem_cons.1 hy2 with h3 | h3
        · subst h3; exact Or.inl (Or.inr h)
        · exact Or.inr ⟨y2, h3, h⟩

theorem rows_fields (W H : Int) (ys xs : List Int) (g : Graph) :
    (ys.foldl (fun g y => xs.foldl (fun g x => addCellOf W H g y x) g) g).state = g.state
      ∧ (ys.foldl (fun g y => xs.foldl (fun g x => addCellOf W H g y x) g) g).parent = g.parent
      ∧ (ys.foldl (fun g y => xs.foldl (fun g x => addCellOf W H g y x) g) g).distance
          = g.distance
      ∧ (ys.foldl (fun g y => xs.foldl (fun g x => addCellOf W H g y x) g) g).found = g.found
      ∧ (ys.foldl (fun g y => xs.foldl (fun g x => addCellOf W H g y x) g) g).adj_weighted.size
          = g.adj_weighted.size := by
  induction ys generalizing g with
  | nil => exact ⟨rfl, rfl, rfl, rfl, rfl⟩
  | cons y ys ih =>
    simp only [List.foldl]
    obtain ⟨h1, h2, h3, h4, h5⟩ := ih (xs.foldl (fun g x => addCellOf W H g y x) g)
    obtain ⟨k1, k2, k3, k4, k5⟩ := row_fields W H y xs g
    exact ⟨h1.trans k1, h2.trans k2, h3.trans k3, h4.trans k4, h5.trans k5⟩

/-- In the loop over `x` the counter is `y * W + x` when the cell `(x, y)` is reached. -/
theorem row_count (W H y : Int) (hy : 0 ≤ y ∧ y < H) (hfit : H * W + W ≤ INF)
    (n : Nat) (hn : (n : Int) ≤ W) (g : Graph) :
    ((List.range n).map Int.ofNat).foldl
        (fun (st : Graph × Int) x => (addCell W H st.1 st.2 y x, wrapInt (st.2 + 1))) (g, y * W)
      = (((List.range n).map Int.ofNat).foldl (fun g x => addCellOf W H g y x) g,
          y * W + (n : Int)) := by
  induction n with
  | zero => simp
  | succ n ih =>
    have hx : 0 ≤ (n : Int) ∧ (n : Int) < W := by
      push_cast at hn
      omega
    obtain ⟨f1, f2, f3, f4, f5, f6⟩ := cell_fits W H y n hy hx hfit
    rw [List.range_succ, List.map_append, List.foldl_append, List.foldl_append, ih (by omega)]
    simp only [List.map_cons, List.map_nil, List.foldl_cons, List.foldl_nil, Int.ofNat_eq_coe]
    rw [addCell_exact W H _ y n hy hx hfit,
      wrapInt_fits (y * W + (n : Int) + 1) (by omega) (by omega)]
    congr 1
    push_cast
    ring

/-- In the loop over `y` the counter is `y * W` when the row `y` is reached. -/
theorem rows_count (W H : Int) (hW : 0 ≤ W) (hfit : H * W + W ≤ INF) (m : Nat)
    (hm : (m : Int) ≤ H) (g : Graph) :
    ((List.range m).map Int.ofNat).foldl
        (fun (st : Graph × Int) y => (intRange W).foldl
          (fun (st : Graph × Int) x => (addCell W H st.1 st.2 y x, wrapInt (st.2 + 1))) st)
        (g, 0)
      = (((List.range m).map Int.ofNat).foldl
          (fun g y => (intRange W).foldl (fun g x => addCellOf W H g y x) g) g,
          (m : Int) * W) := by
  induction m with
  | zero => simp
  | succ m ih =>
    have hy : 0 ≤ (m : Int) ∧ (m : Int) < H := by
      push_cast at hm
      omega
    rw [List.range_succ, List.map_append, List.foldl_append, List.foldl_append, ih (by omega)]
    simp only [List.map_cons, List.map_nil, List.foldl_cons, List.foldl_nil, Int.ofNat_eq_coe]
    unfold intRange
    rw [row_count W H (m : Int) hy hfit W.toNat (by rw [Int.toNat_of_nonneg hW])]
    congr 1
    rw [Int.toNat_of_nonneg hW]
    push_cast
    ring

/-- The loops of the constructor for a lattice that fits an `int`, the counter replaced by
its value. -/
theorem lattice_loops (W H : Int) (hW : 0 ≤ W) (hH : 0 ≤ H) (hfit : H * W + W ≤ INF) :
    buildLattice W H
      = (intRange H).foldl
          (fun g y => (intRange W).foldl (fun g x => addCellOf W H g y x) g)
          { adj_weighted := Vec.filled (H * W) [], state := Vec.filled (H * W) NodeState.Empty, parent := Vec.filled (H * W) 0, distance := Vec.filled (H * W) INF, found := 0 } := by
  have hHW : 0 ≤ H * W := Int.mul_nonneg hH hW
  have hsz : wrapInt (H * W) = H * W := wrapInt_fits _ (by omega) (by omega)
  unfold buildLattice
  simp only [hsz]
  have := rows_count W H hW hfit H.toNat (by rw [Int.toNat_of_nonneg hH]) { adj_weighted := Vec.filled (H * W) [], state := Vec.filled (H * W) NodeState.Empty, parent := Vec.filled (H * W) 0, distance := Vec.filled (H * W) INF, found := 0 }
  unfold intRange at this ⊢
  rw [this]

/-- The entries of the lattice: `e` is an entry of `u` exactly when `u` is a cell
`(x, y)` and `e` is one of the entries pushed for that cell. -/
theorem lattice_adj (W H u : Int) (hW : 0 ≤ W) (hH : 0 ≤ H) (hfit : H * W + W ≤ INF)
    (e : Int × Int) :
    e ∈ (buildLattice W H).adj_weighted.get u ↔
      ∃ y x, (0 ≤ y ∧ y < H) ∧ (0 ≤ x ∧ x < W) ∧ y * W + x = u ∧ e ∈ cellEntries W H y x := by
  rw [lattice_loops W H hW hH hfit, rows_adj]
  simp only [Vec.filled, List.not_mem_nil, false_or, mem_intRange]
  constructor
  · rintro ⟨y, hy, x, hx, h⟩
    exact ⟨y, x, hy, hx, h⟩
  · rintro ⟨y, x, hy, hx, h⟩
    exact ⟨y, hy, x, hx, h⟩

theorem lattice_fields (W H : Int) (hW : 0 ≤ W) (hH : 0 ≤ H) (hfit : H * W + W ≤ INF) :
    (buildLattice W H).state = Vec.filled (H * W) NodeState.Empty
      ∧ (buildLattice W H).parent = Vec.filled (H * W) 0
      ∧ (buildLattice W H).distance = Vec.filled (H * W) INF
      ∧ (buildLattice W H).found = 0
      ∧ (buildLattice W H).adj_weighted.size = (H * W).toNat := by
  rw [lattice_loops W H hW hH hfit]
  exact rows_fields W H _ _ _

theorem mem_cellEntries (W H y x : Int) (e : Int × Int) :
    e ∈ cellEntries W H y x ↔
      ((0 < y ∧ e = ((y - 1) * W + x, 1)) ∨ (y < H - 1 ∧ e = ((y + 1) * W + x, 1))
        ∨ (0 < x ∧ e = (y * W + (x - 1), 1)) ∨ (x < W - 1 ∧ e = (y * W + (x + 1), 1))) := by
  unfold cellEntries
  by_cases h1 : y > 0 <;> by_cases h2 : y < H - 1 <;> by_cases h3 : x > 0 <;>
    by_cases h4 : x < W - 1 <;> simp [h1, h2, h3, h4]

end Main

namespace Main

open NodeState

theorem cell_mod (W y x : Int) (h0 : 0 ≤ x) (h1 : x < W) : (y * W + x) % W = x := by
  rw [Int.add_comm, Int.add_mul_emod_self, Int.emod_eq_of_lt h0 h1]

theorem cell_div (W y x : Int) (h0 : 0 ≤ x) (h1 : x < W) : (y * W + x) / W = y := by
  rw [Int.add_comm, Int.add_mul_ediv_right _ _ (by omega), Int.ediv_eq_zero_of_lt h0 h1]
  simp

theorem cell_range (W H y x : Int) (hy : 0 ≤ y ∧ y < H) (hx : 0 ≤ x ∧ x < W) :
    0 ≤ y * W + x ∧ y * W + x < H * W := by
  have hW : 0 ≤ W := by omega
  have h1 : 0 ≤ y * W := Int.mul_nonneg hy.1 hW
  have h2 : (y + 1) * W ≤ H * W := Int.mul_le_mul_of_nonneg_right (by omega) hW
  have h3 : (y + 1) * W = y * W + W := by ring
  omega

/-- An entry of the lattice leads from a cell to a cell next to it, with weight 1. -/
theorem lattice_entry (W H u : Int) (hW : 0 ≤ W) (hH : 0 ≤ H) (hfit : H * W + W ≤ INF)
    (e : Int × Int)
    (h : e ∈ (buildLattice W H).adj_weighted.get u) :
    ∃ y x y2 x2, (0 ≤ y ∧ y < H) ∧ (0 ≤ x ∧ x < W) ∧ (0 ≤ y2 ∧ y2 < H) ∧ (0 ≤ x2 ∧ x2 < W)
      ∧ u = y * W + x ∧ e = (y2 * W + x2, 1)
      ∧ (x2 - x).natAbs + (y2 - y).natAbs = 1 := by
  obtain ⟨y, x, hy, hx, hu, he⟩ := (lattice_adj W H u hW hH hfit e).1 h
  rw [mem_cellEntries] at he
  rcases he with ⟨h1, h2⟩ | ⟨h1, h2⟩ | ⟨h1, h2⟩ | ⟨h1, h2⟩
  · exact ⟨y, x, y - 1, x, hy, hx, by omega, hx, hu.symm, h2, by omega⟩
  · exact ⟨y, x, y + 1, x, hy, hx, by omega, hx, hu.symm, h2, by omega⟩
  · exact ⟨y, x, y, x - 1, hy, hx, hy, by omega, hu.symm, h2, by omega⟩
  · exact ⟨y, x, y, x + 1, hy, hx, hy, by omega, hu.symm, h2, by omega⟩

theorem hopsTo_cell (W xe ye y x : Int) (hx : 0 ≤ x ∧ x < W) :
    hopsTo W xe ye (y * W + x) = (x - xe).natAbs + (y - ye).natAbs := by
  unfold hopsTo
  rw [cell_mod W y x hx.1 hx.2, cell_div W y x hx.1 hx.2]

/-- One entry changes the Manhattan distance to a cell by at most 1. -/
theorem hopsTo_entry (W H xe ye u : Int) (hW : 0 ≤ W) (hH : 0 ≤ H)
    (hfit : H * W + W ≤ INF) (e : Int × Int)
    (h : e ∈ (buildLattice W H).adj_weighted.get u) :
    hopsTo W xe ye u ≤ hopsTo W xe ye e.1 + 1 := by
  obtain ⟨y, x, y2, x2, hy, hx, hy2, hx2, hu, he, hd⟩ := lattice_entry W H u hW hH hfit e h
  subst hu
  subst he
  rw [hopsTo_cell W xe ye y x hx, hopsTo_cell W xe ye y2 x2 hx2]
  omega

/-- A walk of the lattice has at least as many steps as the Manhattan distance between
its ends. -/
theorem hopsTo_walk (W H xe ye : Int) (hW : 0 ≤ W) (hH : 0 ≤ H) (hfit : H * W + W ≤ INF)
    (steps : List (Int × Int)) :
    ∀ u, IsWalk (buildLattice W H).wadj u steps →
      hopsTo W xe ye u ≤ hopsTo W xe ye (walkEnd u steps) + steps.length := by
  induction steps with
  | nil => intro u _; simp [walkEnd]
  | cons e rest ih =>
    intro u hw
    have h1 := hopsTo_entry W H xe ye u hW hH hfit e hw.1
    have h2 := ih e.1 hw.2
    simp only [walkEnd, List.length_cons]
    omega

/-- A walk of the lattice with as many steps as the Manhattan distance. -/
theorem lattice_route (W H xe ye : Int) (hye : 0 ≤ ye ∧ ye < H) (hxe : 0 ≤ xe ∧ xe < W)
    (hfit : H * W + W ≤ INF) (n : Nat) :
    ∀ y x, (0 ≤ y ∧ y < H) → (0 ≤ x ∧ x < W) → (x - xe).natAbs + (y - ye).natAbs = n →
      ∃ steps, IsWalk (buildLattice W H).wadj (y * W + x) steps
        ∧ walkEnd (y * W + x) steps = ye * W + xe ∧ steps.length = n := by
  induction n with
  | zero =>
    intro y x _ _ hd
    have h1 : x = xe := by omega
    have h2 : y = ye := by omega
    subst h1 h2
    exact ⟨[], trivial, rfl, rfl⟩
  | succ n ih =>
    intro y x hy hx hd
    have step : ∀ y2 x2, (0 ≤ y2 ∧ y2 < H) → (0 ≤ x2 ∧ x2 < W) →
        (y2 * W + x2, (1 : Int)) ∈ cellEntries W H y x →
        (x2 - xe).natAbs + (y2 - ye).natAbs = n →
        ∃ steps, IsWalk (buildLattice W H).wadj (y * W + x) steps
          ∧ walkEnd (y * W + x) steps = ye * W + xe ∧ steps.length = n + 1 := by
      intro y2 x2 hy2 hx2 hmem hd2
      obtain ⟨rest, h1, h2, h3⟩ := ih y2 x2 hy2 hx2 hd2
      refine ⟨(y2 * W + x2, 1) :: rest, ⟨?_, h1⟩, h2, by simp [h3]⟩
      exact (lattice_adj W H _ (by omega) (by omega) hfit _).2 ⟨y, x, hy, hx, rfl, hmem⟩
    by_cases h1 : x < xe
    · exact step y (x + 1) hy (by omega)
        ((mem_cellEntries _ _ _ _ _).2 (Or.inr (Or.inr (Or.inr ⟨by omega, rfl⟩)))) (by omega)
    · by_cases h2 : xe < x
      · exact step y (x - 1) hy (by omega)
          ((mem_cellEntries _ _ _ _ _).2 (Or.inr (Or.inr (Or.inl ⟨by omega, rfl⟩)))) (by omega)
      · by_cases h3 : y < ye
        · exact step (y + 1) x (by omega) hx
            ((mem_cellEntries _ _ _ _ _).2 (Or.inr (Or.inl ⟨by omega, rfl⟩))) (by omega)
        · exact step (y - 1) x (by omega) hx
            ((mem_cellEntries _ _ _ _ _).2 (Or.inl ⟨by omega, rfl⟩)) (by omega)

theorem markedLattice_state (W H s e v : Int) (hW : 0 ≤ W) (hH : 0 ≤ H)
    (hfit : H * W + W ≤ INF) :
    (markedLattice W H s e).state.get v
      = if v = e then End else if v = s then Start else NodeState.Empty := by
  unfold markedLattice
  rw [mark_state, mark_state, (lattice_fields W H hW hH hfit).1]
  rfl

theorem markedLattice_valid (W H s e : Int) (hW : 0 ≤ W) (hH : 0 ≤ H)
    (hfit : H * W + W ≤ INF) :
    (markedLattice W H s e).Valid := by
  obtain ⟨h1, h2, h3, _, h5⟩ := lattice_fields W H hW hH hfit
  have hsz : (markedLattice W H s e).adj_weighted.size = (H * W).toNat := h5
  have hcast : (((H * W).toNat : Nat) : Int) = H * W :=
    Int.toNat_of_nonneg (Int.mul_nonneg hH hW)
  refine ⟨?_, ?_, ?_, ?_⟩
  · show (buildLattice W H).parent.size = (buildLattice W H).adj_weighted.size
    rw [h2, h5]; rfl
  · show (((buildLattice W H).state.set s Start).set e End).size
      = (buildLattice W H).adj_weighted.size
    rw [h1, h5]; rfl
  · show (buildLattice W H).distance.size = (buildLattice W H).adj_weighted.size
    rw [h3, h5]; rfl
  · intro v _ e2 he2
    rw [hsz, mem_intRange, hcast]
    obtain ⟨y, x, y2, x2, _, _, hy2, hx2, _, he, _⟩ := lattice_entry W H v hW hH hfit e2 he2
    rw [he]
    exact cell_range W H y2 x2 hy2 hx2

theorem ancestor_congr (g g2 : Graph) (h : g2.parent = g.parent) (n : Nat) (v : Int) :
    g2.ancestor n v = g.ancestor n v := by
  induction n generalizing v with
  | zero => rfl
  | succ n ih => simp only [Graph.ancestor, h]; exact ih _

/-- The loop of `GetPath` returns after as many rounds as there are parent steps, one node
pushed in each. -/
theorem getPathLoop_steps (s : Int) (n : Nat) :
    ∀ (g : Graph) (v : Int) (path : List Int), g.StepsBack v s n →
      ∃ p g3, GetPathLoop (n + 1) g v s path = some (path ++ p, g3) ∧ p.length = n := by
  induction n with
  | zero =>
    intro g v path h
    have hv : v = s := h.1
    refine ⟨[], g, ?_, rfl⟩
    simp [GetPathLoop, hv]
  | succ n ih =>
    intro g v path h
    have hv : v ≠ s := h.2 0 (by omega)
    have hnext : Graph.StepsBack { g with state := g.state.set (g.parent.get v) Path }
        (g.parent.get v) s n := by
      have hc := ancestor_congr g { g with state := g.state.set (g.parent.get v) Path } rfl
      constructor
      · exact (hc n _).trans h.1
      · intro m hm
        rw [hc m]
        exact h.2 (m + 1) (by omega)
    obtain ⟨p, g3, h1, h2⟩ := ih _ (g.parent.get v) (path ++ [v]) hnext
    refine ⟨v :: p, g3, ?_, by simp [h2]⟩
    rw [GetPathLoop]
    simp only [hv, ne_eq, not_false_eq_true, if_true]
    rw [h1]
    simp

theorem getPath_steps (g : Graph) (e s : Int) (n : Nat) (h : g.StepsBack e s n) :
    ∃ path g3, GetPath (n + 1) g e s = some (path, g3) ∧ path.length = n := by
  obtain ⟨p, g3, h1, h2⟩ := getPathLoop_steps s n g e [] h
  unfold GetPath
  rw [h1]
  exact ⟨_, _, rfl, by simp [h2]⟩

end Main

namespace Main

open NodeState

/-- C6: on the lattice the `World` constructor builds for a width and height whose
indices stay below `0x7FFFFFFF`, with no obstacle and no weight edit, for distinct cells
`s = ys * W + xs` marked `Start` and `e = ye * W + xe` marked `End`,
`BreadthFirstSearch(graph, s, e)` returns with `found = 1` and
`distance[e] = |xs - xe| + |ys - ye|`, exactly that many parent steps lead from `e` back to
`s`, and `GetPath(graph, e, s)` returns a vector of that many nodes. -/
theorem bfs_lattice_manhattan (W H xs ys xe ye : Int) (hsize : H * W + W ≤ INF)
    (hxs : 0 ≤ xs ∧ xs < W) (hys : 0 ≤ ys ∧ ys < H) (hxe : 0 ≤ xe ∧ xe < W)
    (hye : 0 ≤ ye ∧ ye < H) (hne : ys * W + xs ≠ ye * W + xe) :
    ∃ fuel g2,
      BreadthFirstSearch fuel (markedLattice W H (ys * W + xs) (ye * W + xe))
          (ys * W + xs) (ye * W + xe) (-1) = some g2
        ∧ g2.found = 1
        ∧ g2.distance.get (ye * W + xe) = (((xs - xe).natAbs + (ys - ye).natAbs : Nat) : Int)
        ∧ g2.StepsBack (ye * W + xe) (ys * W + xs) ((xs - xe).natAbs + (ys - ye).natAbs)
        ∧ ∃ fuel2 path g3, GetPath fuel2 g2 (ye * W + xe) (ys * W + xs) = some (path, g3)
            ∧ path.length = (xs - xe).natAbs + (ys - ye).natAbs := by
  have hW : 0 ≤ W := by omega
  have hH : 0 ≤ H := by omega
  generalize hs : ys * W + xs = s at *
  generalize he : ye * W + xe = e at *
  have hes : e ≠ s := fun h => hne h.symm
  have hstate := fun v => markedLattice_state W H s e v hW hH hsize
  have hv := markedLattice_valid W H s e hW hH hsize
  have hfields := lattice_fields W H hW hH hsize
  have hsz : (markedLattice W H s e).adj_weighted.size = (H * W).toNat := hfields.2.2.2.2
  have hcast : (((H * W).toNat : Nat) : Int) = H * W :=
    Int.toNat_of_nonneg (Int.mul_nonneg hH hW)
  have hnode : (markedLattice W H s e).IsNode s := by
    unfold Graph.IsNode
    rw [hsz, hcast, ← hs]
    exact cell_range W H ys xs hys hxs
  have ht : (markedLattice W H s e).NoTrace := by
    intro v
    rw [hstate]
    split_ifs <;> exact ⟨by decide, by decide⟩
  have hss : (markedLattice W H s e).state.get s = Start := by
    rw [hstate, if_neg hne, if_pos rfl]
  have hst : (markedLattice W H s e).OnlyStart s := by
    intro v hv2
    rw [hstate]
    split_ifs <;> decide
  have hf : (markedLattice W H s e).found = 0 := hfields.2.2.2.1
  have hunit : True → ∀ u, ∀ e2 ∈ (markedLattice W H s e).wadj u, e2.2 = 1 := by
    intro _ u e2 he2
    obtain ⟨_, _, _, _, _, _, _, _, _, h, _⟩ := lattice_entry W H u hW hH hsize e2 he2
    rw [h]
  have hlen : True → ((markedLattice W H s e).adj_weighted.size : Int) < INF := by
    intro _
    rw [hsz, hcast]
    omega
  obtain ⟨fuel, g2, st2, hrun, hI, hR, hDL, hres⟩ :=
    main_bfs_correct (markedLattice W H s e) s e (-1) hv hnode ht hss hst hes hf True hunit hlen
  have hok : ∀ x, (markedLattice W H s e).passable s x = true := by
    intro x
    simp only [Graph.passable, decide_eq_true_eq]
    right
    rw [hstate]
    split_ifs <;> decide
  obtain ⟨route, hr1, hr2, hr3⟩ := lattice_route W H xe ye hye hxe hsize _ ys xs hys hxs rfl
  rw [hs] at hr1 hr2
  rw [he] at hr2
  have hpath : IsPathTo (markedLattice W H s e).wadj
      (fun x => (markedLattice W H s e).passable s x = true) s e route :=
    ⟨hr1, hr2, fun x _ => hok x⟩
  have hmin : IsMinHops (markedLattice W H s e).wadj
      (fun x => (markedLattice W H s e).passable s x = true) s e
      ((xs - xe).natAbs + (ys - ye).natAbs) := by
    refine ⟨⟨route, hpath, hr3⟩, ?_⟩
    intro q hq
    have h1 := hopsTo_walk W H xe ye hW hH hsize q s hq.1
    rw [hq.2.1, ← hs, ← he, hopsTo_cell W xe ye ys xs hxs, hopsTo_cell W xe ye ye xe hxe] at h1
    omega
  rcases hres with ⟨hfound, rest, hq⟩ | ⟨_, hq, hd⟩
  · obtain ⟨⟨c, hc⟩, hopt⟩ := hI.lvl_exit_optimal e rest hq
    have hlvl : st2.lvl e = (xs - xe).natAbs + (ys - ye).natAbs := hopt.hops_unique hmin
    have hdisc : st2.disc e = true := hI.core.que_disc e (by rw [hq]; simp)
    have hp : ParOK (fun v => g2.parent.get v) s c := by
      have : (fun v => g2.parent.get v) = st2.par := funext hR.par_eq
      rw [this]; exact hc.parent
    have hback := stepsBack_of_chain g2 s c hp hc.nodup
    rw [hc.last, hc.length, hlvl] at hback
    obtain ⟨path, g3, hg, hl⟩ := getPath_steps g2 e s _ hback
    refine ⟨fuel, g2, hrun, hfound, ?_, hback, _, path, g3, hg, hl⟩
    rw [hDL trivial e hdisc, hlvl]
  · have := (hI.lvl_closed_optimal hq e ⟨route, hpath⟩).1
    rw [hd] at this
    exact absurd this (by decide)

/-- C6 on the lattice of width 3 and height 2, from the cell `(0, 0)` to the cell
`(2, 1)`: the search ends with `found = 1` and `distance[5] = 3`, `GetPath` returns the
three nodes 3, 4, 5, and the theorem applies. -/
theorem bfs_lattice_manhattan_witness :
    (∃ g2, BreadthFirstSearch 8 (markedLattice 3 2 0 5) 0 5 (-1) = some g2 ∧ g2.found = 1
      ∧ g2.distance.get 5 = 3 ∧ (GetPath 4 g2 5 0).map Prod.fst = some [3, 4, 5]) ∧
    ∃ fuel g2,
      BreadthFirstSearch fuel (markedLattice 3 2 (0 * 3 + 0) (1 * 3 + 2))
          (0 * 3 + 0) (1 * 3 + 2) (-1) = some g2
        ∧ g2.found = 1
        ∧ g2.distance.get (1 * 3 + 2) = ((((0 : Int) - 2).natAbs + ((0 : Int) - 1).natAbs : Nat) : Int)
        ∧ g2.StepsBack (1 * 3 + 2) (0 * 3 + 0) (((0 : Int) - 2).natAbs + ((0 : Int) - 1).natAbs)
        ∧ ∃ fuel2 path g3, GetPath fuel2 g2 (1 * 3 + 2) (0 * 3 + 0) = some (path, g3)
            ∧ path.length = ((0 : Int) - 2).natAbs + ((0 : Int) - 1).natAbs :=
  ⟨⟨_, rfl, by decide, by decide, by decide⟩,
    bfs_lattice_manhattan 3 2 0 0 2 1 (by decide) (by decide) (by decide) (by decide)
      (by decide) (by decide)⟩

end Main

namespace Main

open NodeState

/-- With the source the only `Start` node, the passable nodes are those not `Obstacle`. -/
theorem passable_iff (g : Graph) (s : Int) (hss : g.state.get s = Start) (x : Int) :
    g.passable s x = true ↔ g.state.get x ≠ Obstacle := by
  simp only [Graph.passable, decide_eq_true_eq]
  constructor
  · rintro (h | h)
    · rw [h, hss]; decide
    · exact h
  · exact Or.inr

/-- C11, as amended: for every graph in which no node is in state Visited or Path, found
is initially 0, Source is the only node marked Start and EndNode is marked End,
BreadthFirstSearch(graph, Source, EndNode) returns, and it ends with found = 1 if and only
if there is a path from Source to EndNode all of whose nodes are not Obstacle; when there
is no such path found stays 0. -/
theorem bfs_found_iff_reach (g : Graph) (Source EndNode : Int) (hv : g.Valid)
    (hs : g.IsNode Source) (ht : g.NoTrace) (hf : g.found = 0)
    (hss : g.state.get Source = Start) (hst : g.OnlyStart Source)
    (hE : g.state.get EndNode = End) :
    ∃ fuel g2, BreadthFirstSearch fuel g Source EndNode (-1) = some g2 ∧
      (g2.found = 1 ↔ Reach g.wadj (fun x => g.state.get x ≠ Obstacle) Source EndNode) ∧
      (¬ Reach g.wadj (fun x => g.state.get x ≠ Obstacle) Source EndNode → g2.found = 0) := by
  have hne : EndNode ≠ Source := by
    intro h; rw [h, hss] at hE; exact absurd hE (by decide)
  obtain ⟨fuel, g2, st2, hrun, hI, _, _, hres⟩ :=
    main_bfs_correct g Source EndNode (-1) hv hs ht hss hst hne hf False
      (fun h => absurd h id) (fun h => absurd h id)
  have hiff := passable_iff g Source hss
  refine ⟨fuel, g2, hrun, ?_⟩
  rcases hres with ⟨h1, rest, hq⟩ | ⟨h0, hq, hd⟩
  · obtain ⟨⟨c, hc⟩, _⟩ := hI.lvl_exit_optimal EndNode rest hq
    have hr : Reach g.wadj (fun x => g.state.get x ≠ Obstacle) Source EndNode :=
      ⟨c, hc.tree_path.path_congr (fun x => (hiff x).1)⟩
    exact ⟨⟨fun _ => hr, fun _ => h1⟩, fun h => absurd hr h⟩
  · have hno : ¬ Reach g.wadj (fun x => g.state.get x ≠ Obstacle) Source EndNode := by
      intro hr
      have := (hI.lvl_closed_optimal hq EndNode (hr.reach_congr (fun x => (hiff x).2))).1
      rw [hd] at this
      exact absurd this (by decide)
    refine ⟨⟨fun h => ?_, fun h => absurd h hno⟩, fun _ => h0⟩
    rw [h0] at h
    exact absurd h (by decide)

end Main

namespace Main

open NodeState

theorem marked_state (n : Int) (edges : List (Int × Int × Int)) (s e v : Int) :
    (marked n edges s e).state.get v
      = if v = e then End else if v = s then Start else NodeState.Empty := by
  unfold marked
  rw [mark_state, mark_state, addEdges_state]
  rfl

/-- The traversal preconditions hold of a marked graph. -/
theorem marked_fresh (n : Int) (edges : List (Int × Int × Int)) (s e : Int) (hne : s ≠ e) :
    (marked n edges s e).NoTrace ∧ (marked n edges s e).FreshDistance
      ∧ (marked n edges s e).found = 0 ∧ (marked n edges s e).state.get s = Start
      ∧ (marked n edges s e).OnlyStart s ∧ (marked n edges s e).state.get e = End := by
  obtain ⟨h1, _, _⟩ := emptyGraph_fresh n edges
  have hfound : ∀ (l : List (Int × Int × Int)) (g : Graph), (g.addEdges l).found = g.found := by
    intro l
    induction l with
    | nil => intro g; rfl
    | cons x rest ih => intro g; exact ih (g.add_edge x.1 x.2.1 x.2.2)
  refine ⟨?_, h1, ?_, ?_, ?_, ?_⟩
  · intro v
    rw [marked_state]
    split_ifs <;> exact ⟨by decide, by decide⟩
  · show ((emptyGraph n).addEdges edges).found = 0
    rw [hfound]; rfl
  · rw [marked_state, if_neg hne, if_pos rfl]
  · intro v hv
    rw [marked_state]
    split_ifs <;> decide
  · rw [marked_state, if_pos rfl]

theorem staleFound_no_reach :
    ¬ Reach staleFound.wadj (fun x => staleFound.state.get x ≠ Obstacle) 0 1 := by
  rintro ⟨p, hp⟩
  cases p with
  | nil => exact absurd hp.2.1 (by decide)
  | cons e rest =>
    have h1 : e ∈ staleFound.wadj 0 := hp.1.1
    have : staleFound.wadj 0 = [] := rfl
    rw [this] at h1; simp at h1

/-- C11 on four nodes in two components, 0 - 1 and 2 - 3, from node 0 to node 3: the
hypotheses hold and the theorem applies; the search ends with found = 0. On three nodes in
a row from node 0 to node 2 it ends with found = 1. -/
theorem bfs_found_iff_reach_witness :
    (∃ g2, BreadthFirstSearch 4 (marked 4 [(0, 1, 1), (2, 3, 1)] 0 3) 0 3 (-1) = some g2
        ∧ g2.found = 0) ∧
      (∃ g2, BreadthFirstSearch 4 (marked 3 [(0, 1, 1), (1, 2, 1)] 0 2) 0 2 (-1) = some g2
        ∧ g2.found = 1) ∧
      ∃ fuel g2, BreadthFirstSearch fuel (marked 4 [(0, 1, 1), (2, 3, 1)] 0 3) 0 3 (-1)
          = some g2 ∧
        (g2.found = 1 ↔ Reach (marked 4 [(0, 1, 1), (2, 3, 1)] 0 3).wadj
          (fun x => (marked 4 [(0, 1, 1), (2, 3, 1)] 0 3).state.get x ≠ Obstacle) 0 3) ∧
        (¬ Reach (marked 4 [(0, 1, 1), (2, 3, 1)] 0 3).wadj
          (fun x => (marked 4 [(0, 1, 1), (2, 3, 1)] 0 3).state.get x ≠ Obstacle) 0 3
          → g2.found = 0) :=
  ⟨⟨_, rfl, by decide⟩, ⟨_, rfl, by decide⟩,
    bfs_found_iff_reach (marked 4 [(0, 1, 1), (2, 3, 1)] 0 3) 0 3 (by decide) (by decide)
      (marked_fresh 4 _ 0 3 (by decide)).1 (marked_fresh 4 _ 0 3 (by decide)).2.2.1
      (marked_fresh 4 _ 0 3 (by decide)).2.2.2.1 (marked_fresh 4 _ 0 3 (by decide)).2.2.2.2.1
      (marked_fresh 4 _ 0 3 (by decide)).2.2.2.2.2⟩

/-- C11 as stated fails on a graph whose found flag is already 1: on two nodes without an
edge, node 0 marked Start and node 1 marked End (no node Visited or Path),
BreadthFirstSearch(graph, 0, 1) ends with found = 1 although no path leads from node 0 to
node 1. -/
theorem bfs_found_iff_reach_counterexample :
    staleFound.NoTrace ∧ staleFound.state.get 0 = Start ∧ staleFound.OnlyStart 0
      ∧ staleFound.state.get 1 = End
      ∧ (∃ g2, BreadthFirstSearch 4 staleFound 0 1 (-1) = some g2 ∧ g2.found = 1)
      ∧ ¬ Reach staleFound.wadj (fun x => staleFound.state.get x ≠ Obstacle) 0 1 := by
  refine ⟨?_, by decide, ?_, by decide, ⟨_, rfl, by decide⟩, staleFound_no_reach⟩
  · intro v; rw [staleFound_state]; split_ifs <;> exact ⟨by decide, by decide⟩
  · intro v hv; rw [staleFound_state]; split_ifs <;> decide

end Main

namespace Main

open NodeState

/-- C13, as amended: for every graph with non-negative weights in which every path sum
from Source, also when continued by one more edge, is below 0x7FFFFFFF, every distance entry
is initially 0x7FFFFFFF, found is initially 0, no node is in state Visited or Path, Source is
the only node marked Start and EndNode is marked End, DijkstraQ(graph, Source, EndNode)
returns, and it ends with found = 1 if and only if there is a path from Source to EndNode
all of whose nodes are not Obstacle. -/
theorem dijkstraQ_found_iff_reach (g : Graph) (Source EndNode : Int) (hv : g.Valid)
    (hs : g.IsNode Source) (hw : NonNegWeights g.wadj)
    (hb : PathPlusEdgeBelow g.wadj (fun _ => True) Source)
    (hd : g.FreshDistance) (hf : g.found = 0) (_ht : g.NoTrace)
    (hss : g.state.get Source = Start) (hst : g.OnlyStart Source)
    (hE : g.state.get EndNode = End) :
    ∃ fuel g2, DijkstraQ fuel g Source EndNode (-1) = some g2 ∧
      (g2.found = 1 ↔ Reach g.wadj (fun x => g.state.get x ≠ Obstacle) Source EndNode) := by
  have hne : EndNode ≠ Source := by
    intro h; rw [h, hss] at hE; exact absurd hE (by decide)
  obtain ⟨fuel, g2, st2, hrun, hI, _, _, _, hfE, hexit, hclosed, _⟩ :=
    dijkstraQ_correct g Source EndNode (-1) hv hs hw hb hd hss hst hne hf
  have hb2 : PathSumsBelow g.wadj (fun x => g.passable Source x = true) Source :=
    (hb.plus_mono (fun _ _ => trivial)).sums
  have hiff := passable_iff g Source hss
  refine ⟨fuel, g2, hrun, ?_, ?_⟩
  · intro hfound
    exact (hI.core.reach_of_lt _ (hexit hfound).1).reach_congr (fun x => (hiff x).1)
  · intro hr
    by_contra hfound
    have hcl := hclosed hfound
    obtain ⟨⟨c, hc⟩, _⟩ :=
      hI.dist_closed_optimal hcl hb2 EndNode (hr.reach_congr (fun x => (hiff x).2))
    have hlt : st2.dist EndNode < INF := by
      have := hb2 c hc.simple
      rw [hc.weight] at this; exact this
    have := hcl EndNode hlt
    rw [hfE] at this
    exact absurd this (by decide)

theorem maxEdge_state (v : Int) :
    maxEdge.state.get v = if v = 1 then End else if v = 0 then Start else NodeState.Empty :=
  marked_state 2 [(0, 1, 2147483647)] 0 1 v

/-- C13 on three nodes in a row from node 0 to node 2: the hypotheses hold and the theorem
applies; the run ends with found = 1. On four nodes in two components, 0 - 1 and 2 - 3, the
run from node 0 to node 3 ends with found = 0. -/
theorem dijkstraQ_found_iff_reach_witness :
    (∃ g2, DijkstraQ 6 (marked 3 [(0, 1, 1), (1, 2, 1)] 0 2) 0 2 (-1) = some g2
        ∧ g2.found = 1) ∧
      (∃ g2, DijkstraQ 6 (marked 4 [(0, 1, 1), (2, 3, 1)] 0 3) 0 3 (-1) = some g2
        ∧ g2.found = 0) ∧
      ∃ fuel g2, DijkstraQ fuel (marked 3 [(0, 1, 1), (1, 2, 1)] 0 2) 0 2 (-1) = some g2 ∧
        (g2.found = 1 ↔ Reach (marked 3 [(0, 1, 1), (1, 2, 1)] 0 2).wadj
          (fun x => (marked 3 [(0, 1, 1), (1, 2, 1)] 0 2).state.get x ≠ Obstacle) 0 2) :=
  ⟨⟨_, rfl, by decide⟩, ⟨_, rfl, by decide⟩,
    dijkstraQ_found_iff_reach (marked 3 [(0, 1, 1), (1, 2, 1)] 0 2) 0 2 (by decide)
      (by decide) (nonNeg_addEdges 3 [(0, 1, 1), (1, 2, 1)] (by decide))
      (pathPlusEdgeBelow_of_bound _ [0, 1, 2] 1 0 (by unfold ClosedUnder; decide) (by decide)
        (by decide) (by decide) (by decide))
      (marked_fresh 3 _ 0 2 (by decide)).2.1 (marked_fresh 3 _ 0 2 (by decide)).2.2.1
      (marked_fresh 3 _ 0 2 (by decide)).1 (marked_fresh 3 _ 0 2 (by decide)).2.2.2.1
      (marked_fresh 3 _ 0 2 (by decide)).2.2.2.2.1 (marked_fresh 3 _ 0 2 (by decide)).2.2.2.2.2⟩

/-- C13 as stated fails in two ways. On two nodes joined by an edge of weight 0x7FFFFFFF,
node 0 marked Start and node 1 marked End (non-negative weights, fresh distances, no node
Visited or Path), the sum 0 + 0x7FFFFFFF is not below the fresh entry 0x7FFFFFFF, node 1 is
never queued, and DijkstraQ(graph, 0, 1) ends with found = 0 although the edge is a path from
node 0 to node 1. And on two nodes without an edge whose found flag is already 1,
DijkstraQ(graph, 0, 1) ends with found = 1 although no path leads from node 0 to node 1. -/
theorem dijkstraQ_found_iff_reach_counterexample :
    (NonNegWeights maxEdge.wadj ∧ maxEdge.FreshDistance ∧ maxEdge.NoTrace
        ∧ maxEdge.state.get 0 = Start ∧ maxEdge.OnlyStart 0 ∧ maxEdge.state.get 1 = End
        ∧ (∃ g2, DijkstraQ 4 maxEdge 0 1 (-1) = some g2 ∧ g2.found = 0)
        ∧ Reach maxEdge.wadj (fun x => maxEdge.state.get x ≠ Obstacle) 0 1) ∧
      (NonNegWeights staleFound.wadj ∧ staleFound.FreshDistance ∧ staleFound.NoTrace
        ∧ staleFound.state.get 0 = Start ∧ staleFound.OnlyStart 0
        ∧ staleFound.state.get 1 = End
        ∧ (∃ g2, DijkstraQ 4 staleFound 0 1 (-1) = some g2 ∧ g2.found = 1)
        ∧ ¬ Reach staleFound.wadj (fun x => staleFound.state.get x ≠ Obstacle) 0 1) := by
  have hm := marked_fresh 2 [(0, 1, 2147483647)] 0 1 (by decide)
  refine ⟨⟨nonNeg_addEdges 2 [(0, 1, 2147483647)] (by decide), hm.2.1, hm.1, hm.2.2.2.1, hm.2.2.2.2.1,
    hm.2.2.2.2.2, ⟨_, rfl, by decide⟩, ⟨[(1, 2147483647)], by unfold IsPathTo; decide⟩⟩,
    ⟨?_, fun _ => rfl, ?_, by decide, ?_, by decide, ⟨_, rfl, by decide⟩,
      staleFound_no_reach⟩⟩
  · intro u e he
    have : staleFound.wadj u = [] := rfl
    rw [this] at he; simp at he
  · intro v; rw [staleFound_state]; split_ifs <;> exact ⟨by decide, by decide⟩
  · intro v hv; rw [staleFound_state]; split_ifs <;> decide

end Main

namespace Main

open NodeState

theorem ancestor_add (g : Graph) (m n : Nat) (v : Int) :
    g.ancestor (m + n) v = g.ancestor n (g.ancestor m v) := by
  induction m generalizing v with
  | zero => simp [Graph.ancestor]
  | succ m ih =>
    rw [Nat.succ_add]
    simp only [Graph.ancestor]
    exact ih _

theorem ancestor_succ (g : Graph) (n : Nat) (v : Int) :
    g.ancestor (n + 1) v = g.parent.get (g.ancestor n v) := by
  rw [ancestor_add g n 1 v]
  rfl

/-- Following `parent` reaches `s` for the first time after some number of steps if it
reaches `s` at all. -/
theorem stepsBack_of_reaches (g : Graph) (d s : Int) (k : Nat) (h : g.ancestor k d = s) :
    ∃ n, n ≤ k ∧ g.StepsBack d s n := by
  classical
  have hex : ∃ n, g.ancestor n d = s := ⟨k, h⟩
  refine ⟨Nat.find hex, Nat.find_min' hex h, Nat.find_spec hex, ?_⟩
  intro m hm
  exact Nat.find_min hex hm

/-- Before `s` is reached no node of the chain occurs twice. -/
theorem StepsBack.no_return (g : Graph) (d s : Int) (n : Nat) (h : g.StepsBack d s n)
    (i j : Nat) (hij : i < j) (hj : j ≤ n) : g.ancestor i d ≠ g.ancestor j d := by
  intro heq
  have h1 : g.ancestor (i + (n - j)) d = s := by
    rw [ancestor_add, heq, ← ancestor_add]
    have : j + (n - j) = n := by omega
    rw [this]; exact h.1
  exact h.2 (i + (n - j)) (by omega) h1

theorem length_chainBack (g : Graph) (n : Nat) (v : Int) : (g.chainBack n v).length = n := by
  induction n generalizing v with
  | zero => rfl
  | succ n ih => simp [Graph.chainBack, ih]

theorem mem_chainBack (g : Graph) (n : Nat) (v x : Int) :
    x ∈ g.chainBack n v ↔ ∃ m, m < n ∧ g.ancestor m v = x := by
  induction n generalizing v with
  | zero => simp [Graph.chainBack]
  | succ n ih =>
    simp only [Graph.chainBack, List.mem_cons, ih]
    constructor
    · rintro (h | ⟨m, hm, h⟩)
      · exact ⟨0, by omega, h.symm⟩
      · exact ⟨m + 1, by omega, h⟩
    · rintro ⟨m, hm, h⟩
      cases m with
      | zero => exact Or.inl h.symm
      | succ m => exact Or.inr ⟨m, by omega, h⟩

theorem chainBack_congr (g g2 : Graph) (h : g2.parent = g.parent) (n : Nat) (v : Int) :
    g2.chainBack n v = g.chainBack n v := by
  induction n generalizing v with
  | zero => rfl
  | succ n ih => simp only [Graph.chainBack, h]; rw [ih]

/-- Along the chain every node is followed by its parent. -/
theorem chainBack_links (g : Graph) (n : Nat) (v : Int) :
    (g.chainBack n v).Chain' (fun a b => g.parent.get a = b) := by
  induction n generalizing v with
  | zero => exact List.chain'_nil
  | succ n ih =>
    cases n with
    | zero => simp [Graph.chainBack]
    | succ n =>
      have := ih (g.parent.get v)
      simp only [Graph.chainBack] at this ⊢
      exact List.Chain'.cons rfl this

theorem chainBack_head (g : Graph) (n : Nat) (v : Int) (hn : 0 < n) :
    (g.chainBack n v).head? = some v := by
  cases n with
  | zero => omega
  | succ n => rfl

theorem chainBack_last (g : Graph) (n : Nat) (v : Int) :
    (g.chainBack (n + 1) v).getLast? = some (g.ancestor n v) := by
  induction n generalizing v with
  | zero => rfl
  | succ n ih =>
    have h1 := ih (g.parent.get v)
    show (v :: g.chainBack (n + 1) (g.parent.get v)).getLast? = _
    cases hc : g.chainBack (n + 1) (g.parent.get v) with
    | nil =>
      have := length_chainBack g (n + 1) (g.parent.get v)
      rw [hc] at this
      simp at this
    | cons w rest =>
      rw [List.getLast?_cons_cons, ← hc]
      exact h1

end Main

namespace Main

open NodeState

/-- The loop of `GetPath` collects the chain and tags the nodes it steps to. -/
theorem getPathLoop_exact (s : Int) (n : Nat) :
    ∀ (g : Graph) (v : Int) (path : List Int), g.StepsBack v s n →
      ∃ g3, GetPathLoop (n + 1) g v s path = some (path ++ g.chainBack n v, g3)
        ∧ g3.adj_weighted = g.adj_weighted ∧ g3.parent = g.parent
        ∧ g3.distance = g.distance ∧ g3.found = g.found
        ∧ (∀ m, 1 ≤ m → m ≤ n → g3.state.get (g.ancestor m v) = NodeState.Path)
        ∧ (∀ x, (∀ m, 1 ≤ m → m ≤ n → g.ancestor m v ≠ x) →
            g3.state.get x = g.state.get x) := by
  induction n with
  | zero =>
    intro g v path h
    have hv : v = s := h.1
    refine ⟨g, ?_, rfl, rfl, rfl, rfl, ?_, fun _ _ => rfl⟩
    · simp [GetPathLoop, hv, Graph.chainBack]
    · intro m h1 h2; omega
  | succ n ih =>
    intro g v path h
    have hv : v ≠ s := h.2 0 (by omega)
    have hc := ancestor_congr g { g with state := g.state.set (g.parent.get v) Path } rfl
    have hcb := chainBack_congr g { g with state := g.state.set (g.parent.get v) Path } rfl
    have hnext : Graph.StepsBack { g with state := g.state.set (g.parent.get v) Path }
        (g.parent.get v) s n := by
      constructor
      · exact (hc n _).trans h.1
      · intro m hm
        rw [hc m]
        exact h.2 (m + 1) (by omega)
    obtain ⟨g3, h1, h2, h3, h4, h5, h6, h7⟩ := ih _ (g.parent.get v) (path ++ [v]) hnext
    refine ⟨g3, ?_, h2, h3, h4, h5, ?_, ?_⟩
    · rw [GetPathLoop]
      simp only [hv, ne_eq, not_false_eq_true, if_true]
      rw [h1, hcb]
      simp [Graph.chainBack]
    · intro m hm1 hm2
      obtain ⟨j, rfl⟩ : ∃ j, m = j + 1 := ⟨m - 1, by omega⟩
      show g3.state.get (g.ancestor j (g.parent.get v)) = NodeState.Path
      by_cases hj : ∃ i, 1 ≤ i ∧ i ≤ n ∧ g.ancestor i (g.parent.get v) = g.ancestor j (g.parent.get v)
      · obtain ⟨i, hi1, hi2, hi3⟩ := hj
        have := h6 i hi1 hi2
        rw [hc i, hi3] at this
        exact this
      · have hj0 : j = 0 := by
          by_contra hne
          exact hj ⟨j, by omega, by omega, rfl⟩
        subst hj0
        have := h7 (g.parent.get v) (fun i hi1 hi2 heq => hj ⟨i, hi1, hi2, (hc i _).symm.trans heq⟩)
        show g3.state.get (g.parent.get v) = NodeState.Path
        rw [this]
        simp [vec_get_set]
    · intro x hx
      have hx1 : g.parent.get v ≠ x := hx 1 (by omega) (by omega)
      have := h7 x (fun i hi1 hi2 heq => hx (i + 1) (by omega) (by omega) ((hc i _).symm.trans heq))
      rw [this]
      simp only [vec_get_set]
      rw [if_neg (fun e => hx1 e.symm)]

/-- For every graph state in which following parent from DestinationNode reaches SourceNode
after finitely many steps, `GetPath` returns the nodes of the parent chain before SourceNode
in source-to-destination order: SourceNode is not in the sequence, the sequence is empty
when DestinationNode is SourceNode, otherwise its last element is DestinationNode and the
parent of its first element is SourceNode, and each element is the parent of the next. -/
theorem getPath_reversed_chain (g : Graph) (DestinationNode SourceNode : Int) (k : Nat)
    (h : g.ancestor k DestinationNode = SourceNode) :
    ∃ n path g3, g.StepsBack DestinationNode SourceNode n
      ∧ GetPath (n + 1) g DestinationNode SourceNode = some (path, g3)
      ∧ path = (g.chainBack n DestinationNode).reverse
      ∧ path.length = n
      ∧ SourceNode ∉ path
      ∧ (DestinationNode = SourceNode → path = [])
      ∧ (DestinationNode ≠ SourceNode →
          path.getLast? = some DestinationNode
            ∧ path.head?.map g.parent.get = some SourceNode)
      ∧ path.Chain' (fun a b => g.parent.get b = a) := by
  obtain ⟨n, _, hn⟩ := stepsBack_of_reaches g DestinationNode SourceNode k h
  obtain ⟨g3, h1, _⟩ := getPathLoop_exact SourceNode n g DestinationNode [] hn
  have hget : GetPath (n + 1) g DestinationNode SourceNode
      = some ((g.chainBack n DestinationNode).reverse, { g3 with state := (g3.state.set SourceNode Start).set DestinationNode End }) := by
    unfold GetPath
    rw [h1]
    rfl
  refine ⟨n, _, _, hn, hget, rfl, ?_, ?_, ?_, ?_, ?_⟩
  · simp [length_chainBack]
  · rw [List.mem_reverse, mem_chainBack]
    rintro ⟨m, hm, heq⟩
    exact hn.2 m hm heq
  · intro heq
    have hn0 : n = 0 := by
      by_contra hne
      exact hn.2 0 (by omega) heq
    subst hn0
    rfl
  · intro hne
    have hpos : 0 < n := by
      by_contra h0
      have hn0 : n = 0 := by omega
      subst hn0
      exact hne hn.1
    obtain ⟨j, rfl⟩ : ∃ j, n = j + 1 := ⟨n - 1, by omega⟩
    constructor
    · rw [List.getLast?_reverse]
      rfl
    · rw [List.head?_reverse, chainBack_last]
      simp only [List.nil_append, Option.map_some', Option.some.injEq]
      rw [← ancestor_succ]
      exact hn.1
  · rw [List.chain'_reverse]
    have := chainBack_links g n DestinationNode
    exact this.imp (fun {a b} h => h)

end Main

namespace Main

open NodeState

/-- C17 evaluated in `Main.cpp`: on three nodes in a row after the search from node 0 to
node 2 (found = 1), following parent from node 2 reaches node 0 after two steps, and
GetPath(graph, 2, 0) returns the sequence 1, 2: its last element is the destination 2 and
each element is the parent of the next (parent[2] = 1, parent[1] = 0), but the source node 0 is not in the sequence and
the first element is 1. In `eap.cpp`, whose `GetPath` carries the same doc comment, on the
graph of `main` after Dijkstra(g, 1) the call GetPath(g, 3) returns 1, 2, 3, which starts
with the source node 1. -/
theorem getPath_omits_source :
    (∃ g2, BreadthFirstSearch 4 (marked 3 [(0, 1, 1), (1, 2, 1)] 0 2) 0 2 (-1) = some g2
      ∧ g2.found = 1
      ∧ g2.ancestor 2 2 = 0
      ∧ ∃ path g3, GetPath 3 g2 2 0 = some (path, g3) ∧ path = [1, 2]
        ∧ path.getLast? = some 2
        ∧ g2.parent.get 2 = 1 ∧ g2.parent.get 1 = 0
        ∧ (0 : Int) ∉ path
        ∧ path.head? ≠ some 0) ∧
    (∃ g2, Eap.Dijkstra 4 (Eap.buildWeighted [(1, 3, 3), (1, 2, 1), (2, 3, 1)]) 1 (-1)
        = some g2
      ∧ ∃ path g3, Eap.GetPath 4 g2 3 (-1) = some (path, g3) ∧ path = [1, 2, 3]
        ∧ path.head? = some 1) :=
  ⟨⟨_, rfl, by decide, by decide, _, _, rfl, by decide, by decide, by decide, by decide,
      by decide, by decide⟩,
    ⟨_, rfl, _, _, rfl, by decide, by decide⟩⟩

/-- C18: for every graph state in which following parent from DestinationNode reaches
SourceNode, DestinationNode different from SourceNode, GetPath(graph, DestinationNode,
SourceNode) returns; afterwards every node strictly between them on the parent chain has
state Path, state[SourceNode] = Start, state[DestinationNode] = End, the state of every
node off the chain is unchanged, and adj_weighted, parent, distance and found are
unchanged. -/
theorem getPath_tags (g : Graph) (DestinationNode SourceNode : Int) (k : Nat)
    (h : g.ancestor k DestinationNode = SourceNode) (hne : DestinationNode ≠ SourceNode) :
    ∃ n path g3, g.StepsBack DestinationNode SourceNode n
      ∧ GetPath (n + 1) g DestinationNode SourceNode = some (path, g3)
      ∧ (∀ m, 0 < m → m < n → g3.state.get (g.ancestor m DestinationNode) = NodeState.Path)
      ∧ g3.state.get SourceNode = Start
      ∧ g3.state.get DestinationNode = End
      ∧ (∀ v, (∀ m, m ≤ n → g.ancestor m DestinationNode ≠ v) →
          g3.state.get v = g.state.get v)
      ∧ g3.adj_weighted = g.adj_weighted ∧ g3.parent = g.parent
      ∧ g3.distance = g.distance ∧ g3.found = g.found := by
  obtain ⟨n, _, hn⟩ := stepsBack_of_reaches g DestinationNode SourceNode k h
  obtain ⟨g3, h1, h2, h3, h4, h5, h6, h7⟩ :=
    getPathLoop_exact SourceNode n g DestinationNode [] hn
  have hget : GetPath (n + 1) g DestinationNode SourceNode
      = some ((g.chainBack n DestinationNode).reverse, { g3 with state := (g3.state.set SourceNode Start).set DestinationNode End }) := by
    unfold GetPath
    rw [h1]
    rfl
  refine ⟨n, _, _, hn, hget, ?_, ?_, ?_, ?_, h2, h3, h4, h5⟩
  · intro m hm1 hm2
    have hs : g.ancestor m DestinationNode ≠ SourceNode := hn.2 m hm2
    have hd : g.ancestor m DestinationNode ≠ DestinationNode := by
      intro heq
      exact StepsBack.no_return g DestinationNode SourceNode n hn 0 m hm1 (by omega) heq.symm
    simp only [vec_get_set, if_neg hs, if_neg hd]
    exact h6 m hm1 (by omega)
  · have hsd : SourceNode ≠ DestinationNode := fun e => hne e.symm
    simp only [vec_get_set, if_neg hsd, if_true]
  · simp only [vec_get_set, if_true]
  · intro v hv
    have hvd : v ≠ DestinationNode := fun e => hv 0 (by omega) e.symm
    have hvs : v ≠ SourceNode := fun e => hv n (le_refl _) (hn.1.trans e.symm)
    simp only [vec_get_set, if_neg hvd, if_neg hvs]
    exact h7 v (fun m _ hm2 => hv m hm2)

/-- C18 on four nodes in a row after the search from node 0 to node 3: GetPath(graph, 3, 0)
leaves node 0 Start, nodes 1 and 2 Path and node 3 End, and the theorem applies. -/
theorem getPath_tags_witness :
    ∃ g2, BreadthFirstSearch 5 (marked 4 [(0, 1, 1), (1, 2, 1), (2, 3, 1)] 0 3) 0 3 (-1)
        = some g2
      ∧ g2.ancestor 3 3 = 0 ∧ (3 : Int) ≠ 0
      ∧ (∃ path g3, GetPath 4 g2 3 0 = some (path, g3) ∧ g3.state.get 0 = Start
          ∧ g3.state.get 1 = NodeState.Path ∧ g3.state.get 2 = NodeState.Path
          ∧ g3.state.get 3 = End)
      ∧ ∃ n path g3, g2.StepsBack 3 0 n
        ∧ GetPath (n + 1) g2 3 0 = some (path, g3)
        ∧ (∀ m, 0 < m → m < n → g3.state.get (g2.ancestor m 3) = NodeState.Path)
        ∧ g3.state.get 0 = Start
        ∧ g3.state.get 3 = End
        ∧ (∀ v, (∀ m, m ≤ n → g2.ancestor m 3 ≠ v) → g3.state.get v = g2.state.get v)
        ∧ g3.adj_weighted = g2.adj_weighted ∧ g3.parent = g2.parent
        ∧ g3.distance = g2.distance ∧ g3.found = g2.found :=
  ⟨_, rfl, by decide, by decide, ⟨_, _, rfl, by decide, by decide, by decide, by decide⟩,
    getPath_tags _ 3 0 3 (by decide) (by decide)⟩

/-- C19, the documented test evaluated. In `Main.cpp`, on three nodes in a row after the
search from node 0 to node 2 (found = 1), GetPath(graph, 2, 0) returns 1, 2: the sequence is
not empty but its last element is 2, not the source node 0. In `eap.cpp`, on the graph of
`main` after Dijkstra(g, 1), GetPath(g, 3) returns 1, 2, 3, whose last element is 3, not the
value -1 of SourceNode. In both the documented test
`path.size() == 0 || path[path.size()-1] != SourceNode` reports that there is no path. -/
theorem getPath_documented_test :
    (∃ g2, BreadthFirstSearch 4 (marked 3 [(0, 1, 1), (1, 2, 1)] 0 2) 0 2 (-1) = some g2
      ∧ g2.found = 1
      ∧ ∃ path g3, GetPath 3 g2 2 0 = some (path, g3) ∧ path = [1, 2]
        ∧ (path.length = 0 ∨ path.getLast? ≠ some 0)) ∧
    (∃ g2, Eap.Dijkstra 4 (Eap.buildWeighted [(1, 3, 3), (1, 2, 1), (2, 3, 1)]) 1 (-1)
        = some g2
      ∧ ∃ path g3, Eap.GetPath 4 g2 3 (-1) = some (path, g3) ∧ path = [1, 2, 3]
        ∧ (path.length = 0 ∨ path.getLast? ≠ some (-1))) :=
  ⟨⟨_, rfl, by decide, _, _, rfl, by decide, Or.inr (by decide)⟩,
    ⟨_, rfl, _, _, rfl, by decide, Or.inr (by decide)⟩⟩

end Main

/-- When the node `t` is at the head of the queue, every walk from a discovered node `u`
of at most `lvl t - lvl u` edges ends at a discovered node. -/
theorem BInv.lvl_exit_cover {adj : Adj} {ok : Int → Bool} {s root : Int} {st : BState}
    (h : BInv adj ok s root st) (t : Int) (rest : List Int) (hq : st.que = t :: rest)
    (steps : List (Int × Int)) :
    ∀ u, st.disc u = true → IsWalk adj u steps → (∀ x ∈ steps.map Prod.fst, ok x = true) →
      st.lvl u + steps.length ≤ st.lvl t → st.disc (walkEnd u steps) = true := by
  have hso := h.core.que_sorted
  rw [hq] at hso
  have hhead : ∀ a ∈ st.que, st.lvl t ≤ st.lvl a := by
    intro a ha
    rw [hq] at ha
    rcases List.mem_cons.1 ha with h1 | h1
    · rw [h1]
    · exact (List.pairwise_cons.1 hso).1 a h1
  induction steps with
  | nil => intro u hu _ _ _; exact hu
  | cons e rest2 ih =>
    intro u hu hwalk hok hlen
    simp only [List.length_cons] at hlen
    by_cases huq : u ∈ st.que
    · have := hhead u huq
      omega
    · obtain ⟨h1, h2⟩ := h.expanded u hu huq e hwalk.1 (hok e.1 (by simp))
      exact ih e.1 h1 hwalk.2
        (fun x hx => hok x (by simp only [List.map_cons, List.mem_cons]; exact Or.inr hx))
        (by omega)

namespace Main

open NodeState

theorem visitNeighbor_linked (s u : Int) (g : Graph) (q : List Int) (e : Int × Int)
    (hL : g.DistLinked s) (hu : u = s ∨ g.state.get u = Visited)
    (he : e ∈ g.adj_weighted.get u) :
    (visitNeighbor u (g, q) e).1.DistLinked s
      ∧ (visitNeighbor u (g, q) e).1.adj_weighted = g.adj_weighted
      ∧ (∀ v, g.state.get v = Visited → (visitNeighbor u (g, q) e).1.state.get v = Visited)
      ∧ (∀ v ∈ (visitNeighbor u (g, q) e).2,
          v ∈ q ∨ (visitNeighbor u (g, q) e).1.state.get v = Visited) := by
  obtain ⟨h0, hs, hall⟩ := hL
  unfold visitNeighbor
  simp only
  split
  · rename_i hc
    obtain ⟨hc1, hc2, hc3⟩ := hc
    have hes : e.1 ≠ s := by
      intro h; rw [h, hs] at hc3; exact hc3 rfl
    have hse : s ≠ e.1 := fun h => hes h.symm
    have hue : u ≠ e.1 := by
      intro h
      rcases hu with h1 | h1
      · exact hes (h.symm.trans h1)
      · rw [h] at h1; exact hc2 h1
    refine ⟨⟨?_, ?_, ?_⟩, rfl, ?_, ?_⟩
    · simp only [vec_get_set, if_neg hse]; exact h0
    · simp only [vec_get_set, if_neg hse]; exact hs
    · intro v hv
      by_cases hve : v = e.1
      · subst hve
        simp only [vec_get_set, if_true, if_neg hue]
        refine ⟨?_, e.2, he, rfl⟩
        rcases hu with h1 | h1
        · exact Or.inl h1
        · exact Or.inr h1
      · simp only [vec_get_set, if_neg hve] at hv ⊢
        obtain ⟨h1, w, h2, h3⟩ := hall v hv
        have hpe : g.parent.get v ≠ e.1 := by
          intro h
          rcases h1 with h4 | h4
          · exact hes (h.symm.trans h4)
          · rw [h] at h4; exact hc2 h4
        simp only [if_neg hpe]
        exact ⟨h1, w, h2, h3⟩
    · intro v hv
      simp only [vec_get_set]
      split
      · rfl
      · exact hv
    · intro v hv
      rcases List.mem_append.1 hv with h1 | h1
      · exact Or.inl h1
      · right
        simp only [List.mem_singleton] at h1
        simp [vec_get_set, h1]
  · exact ⟨⟨h0, hs, hall⟩, rfl, fun _ h => h, fun v hv => Or.inl hv⟩

theorem visit_fold_linked (s u : Int) (l : List (Int × Int)) :
    ∀ (g : Graph) (q : List Int), g.DistLinked s → (u = s ∨ g.state.get u = Visited) →
      (∀ e ∈ l, e ∈ g.adj_weighted.get u) → (∀ v ∈ q, v = s ∨ g.state.get v = Visited) →
      (l.foldl (visitNeighbor u) (g, q)).1.DistLinked s
        ∧ (∀ v ∈ (l.foldl (visitNeighbor u) (g, q)).2,
            v = s ∨ (l.foldl (visitNeighbor u) (g, q)).1.state.get v = Visited) := by
  induction l with
  | nil => intro g q hL _ _ hq; exact ⟨hL, hq⟩
  | cons e rest ih =>
    intro g q hL hu hmem hq
    simp only [List.foldl]
    obtain ⟨h1, h2, h3, h4⟩ := visitNeighbor_linked s u g q e hL hu (hmem e (by simp))
    have hrw : visitNeighbor u (g, q) e
        = ((visitNeighbor u (g, q) e).1, (visitNeighbor u (g, q) e).2) := rfl
    rw [hrw]
    apply ih _ _ h1
    · rcases hu with h | h
      · exact Or.inl h
      · exact Or.inr (h3 u h)
    · intro e2 he2
      rw [h2]
      exact hmem e2 (by simp [he2])
    · intro v hv
      rcases h4 v hv with h | h
      · rcases hq v h with h5 | h5
        · exact Or.inl h5
        · exact Or.inr (h3 v h5)
      · exact Or.inr h

theorem bfs_loop_linked (s E : Int) (fuel : Nat) :
    ∀ (g : Graph) (q : List Int) (g2 : Graph), g.DistLinked s →
      (∀ v ∈ q, v = s ∨ g.state.get v = Visited) →
      BreadthFirstLoop fuel g q E = some g2 → g2.DistLinked s := by
  induction fuel with
  | zero => intro g q g2 _ _ h; simp [BreadthFirstLoop] at h
  | succ fuel ih =>
    intro g q g2 hL hq h
    cases q with
    | nil =>
      simp only [BreadthFirstLoop, Option.some.injEq] at h
      rw [← h]; exact hL
    | cons u rest =>
      simp only [BreadthFirstLoop] at h
      split at h
      · simp only [Option.some.injEq] at h
        rw [← h]; exact hL
      · obtain ⟨h1, h2⟩ := visit_fold_linked s u (g.adj_weighted.get u) g rest hL
          (hq u (by simp)) (fun e he => he) (fun v hv => hq v (by simp [hv]))
        exact ih _ _ g2 h1 h2 h

/-- Whatever `BreadthFirstSearch` returns on a graph without `Visited` nodes whose source
is marked `Start` has linked distance entries. -/
theorem bfs_linked (g : Graph) (s E root : Int) (fuel : Nat) (g2 : Graph)
    (ht : g.NoTrace) (hss : g.state.get s = Start)
    (h : BreadthFirstSearch fuel g s E root = some g2) : g2.DistLinked s := by
  unfold BreadthFirstSearch at h
  simp only [hss, ne_eq, not_true_eq_false, if_false] at h
  refine bfs_loop_linked s E fuel _ [s] g2 ?_ ?_ h
  · refine ⟨by simp [vec_get_set], hss, ?_⟩
    intro v hv
    exact absurd hv (ht v).1
  · intro v hv
    simp only [List.mem_singleton] at hv
    exact Or.inl hv

end Main

theorem walkEnd_of_nodes (u : Int) (l1 l2 : List (Int × Int))
    (h : l1.map Prod.fst = l2.map Prod.fst) : walkEnd u l1 = walkEnd u l2 := by
  induction l1 generalizing u l2 with
  | nil =>
    cases l2 with
    | nil => rfl
    | cons b l2 => simp at h
  | cons a l1 ih =>
    cases l2 with
    | nil => simp at h
    | cons b l2 =>
      simp only [List.map_cons, List.cons.injEq] at h
      simp only [walkEnd]
      rw [h.1]
      exact ih b.1 l2 h.2

namespace Main

open NodeState

/-- Along a tree path the linked distance entries add up: the node at its end holds the
weight of a walk through the same nodes. -/
theorem dist_along (g2 : Graph) (adj : Adj) (P : Int → Prop) (s : Int)
    (hadj : ∀ v, g2.adj_weighted.get v = adj v) (hL : g2.DistLinked s)
    (hw : NonNegWeights adj) (hb : PathSumsBelow adj P s) (c : List (Int × Int)) :
    IsWalk adj s c → ParOK (fun v => g2.parent.get v) s c → (walkNodes s c).Nodup →
      (∀ x ∈ walkNodes s c, P x) → (∀ x ∈ c.map Prod.fst, g2.state.get x = Visited) →
      ∃ c2, c2.map Prod.fst = c.map Prod.fst ∧ IsWalk adj s c2
        ∧ g2.distance.get (walkEnd s c) = walkWeight c2 := by
  induction c using List.reverseRecOn with
  | nil =>
    intro _ _ _ _ _
    exact ⟨[], rfl, trivial, by simp [walkEnd, walkWeight, hL.1]⟩
  | append_singleton l e ih =>
    intro hwalk hpar hnd hP hvis
    rw [isWalk_append] at hwalk
    rw [parOK_snoc] at hpar
    have hnd2 : (walkNodes s l).Nodup := by
      rw [walkNodes_snoc] at hnd
      exact (List.nodup_append.1 hnd).1
    obtain ⟨l2, h1, h2, h3⟩ := ih hwalk.1 hpar.1 hnd2
      (fun x hx => hP x (by rw [walkNodes_snoc]; exact List.mem_append_left _ hx))
      (fun x hx => hvis x (by simp only [List.map_append, List.mem_append]; exact Or.inl hx))
    have hve : g2.state.get e.1 = Visited := hvis e.1 (by simp)
    obtain ⟨_, w, hw1, hw2⟩ := hL.2.2 e.1 hve
    have hpe : g2.parent.get e.1 = walkEnd s l := hpar.2
    have hend : walkEnd s l2 = walkEnd s l := walkEnd_of_nodes s l2 l h1
    rw [hpe, hadj] at hw1
    rw [hpe, h3] at hw2
    have hmap : (l2 ++ [(e.1, w)]).map Prod.fst = (l ++ [e]).map Prod.fst := by
      simp [h1]
    have hwalk2 : IsWalk adj s (l2 ++ [(e.1, w)]) := by
      rw [isWalk_append]
      refine ⟨h2, ?_, trivial⟩
      rw [hend]; exact hw1
    have hnodes : walkNodes s (l2 ++ [(e.1, w)]) = walkNodes s (l ++ [e]) := by
      simp only [walkNodes, hmap]
    have hlt : walkWeight (l2 ++ [(e.1, w)]) < INF :=
      hb _ ⟨hwalk2, by rw [hnodes]; exact hnd, fun x hx => hP x (by rw [← hnodes]; exact hx)⟩
    have h0 : 0 ≤ walkWeight (l2 ++ [(e.1, w)]) := walkWeight_nonneg adj hw _ s hwalk2
    refine ⟨l2 ++ [(e.1, w)], hmap, hwalk2, ?_⟩
    rw [walkEnd_append]
    simp only [walkEnd]
    rw [hw2]
    have hsum : walkWeight (l2 ++ [(e.1, w)]) = walkWeight l2 + w := by
      rw [walkWeight_append, walkWeight_cons, walkWeight_nil]; ring
    rw [hsum] at hlt h0 ⊢
    exact wrapInt_id _ h0 hlt

end Main

theorem parOK_of_nodes (par : Int → Int) (u : Int) (l1 l2 : List (Int × Int))
    (h : l1.map Prod.fst = l2.map Prod.fst) (hp : ParOK par u l1) : ParOK par u l2 := by
  induction l1 generalizing u l2 with
  | nil =>
    cases l2 with
    | nil => trivial
    | cons b l2 => simp at h
  | cons a l1 ih =>
    cases l2 with
    | nil => simp at h
    | cons b l2 =>
      simp only [List.map_cons, List.cons.injEq] at h
      refine ⟨?_, ?_⟩
      · rw [← h.1]; exact hp.1
      · rw [← h.1]; exact ih a.1 l2 h.2 hp.2

namespace Main

open NodeState

/-- C14, as amended: for every graph satisfying the traversal preconditions (found = 0, no
node Visited or Path, Source the only node marked Start, EndNode marked End) with
non-negative weights whose path sums from Source are below 0x7FFFFFFF,
BreadthFirstSearch(graph, Source, EndNode) returns, and on completion every node other than
Source that is reachable from Source by a path of non-Obstacle nodes with at most as many
edges as every such path to EndNode (every reachable node when EndNode is not reachable)
has a distance that is not negative and below 0x7FFFFFFF, equal to the weight of a path
from Source along which every node is the parent of the next, and is an entry of the
adjacency list of its parent. -/
theorem bfs_cover (g : Graph) (Source EndNode : Int) (hv : g.Valid) (hs : g.IsNode Source)
    (hw : NonNegWeights g.wadj) (hb : PathSumsBelow g.wadj (fun _ => True) Source)
    (ht : g.NoTrace) (hf : g.found = 0) (hss : g.state.get Source = Start)
    (hst : g.OnlyStart Source) (hE : g.state.get EndNode = End) :
    ∃ fuel g2, BreadthFirstSearch fuel g Source EndNode (-1) = some g2 ∧
      ∀ v steps, v ≠ Source →
        IsPathTo g.wadj (fun x => g.state.get x ≠ Obstacle) Source v steps →
        (∀ q, IsPathTo g.wadj (fun x => g.state.get x ≠ Obstacle) Source EndNode q →
          steps.length ≤ q.length) →
        0 ≤ g2.distance.get v ∧ g2.distance.get v < INF
          ∧ (∃ c, IsPathTo g.wadj (fun x => g.state.get x ≠ Obstacle) Source v c
              ∧ ParOK (fun x => g2.parent.get x) Source c
              ∧ g2.distance.get v = walkWeight c)
          ∧ ∃ w, (v, w) ∈ g.wadj (g2.parent.get v) := by
  have hne : EndNode ≠ Source := by
    intro h; rw [h, hss] at hE; exact absurd hE (by decide)
  obtain ⟨fuel, g2, st2, hrun, hI, hR, _, hres⟩ :=
    main_bfs_correct g Source EndNode (-1) hv hs ht hss hst hne hf False
      (fun h => absurd h id) (fun h => absurd h id)
  have hiff := passable_iff g Source hss
  have hL := bfs_linked g Source EndNode (-1) fuel g2 ht hss hrun
  have hb2 : PathSumsBelow g.wadj (fun x => g.passable Source x = true) Source :=
    hb.sums_mono (fun _ _ => trivial)
  refine ⟨fuel, g2, hrun, ?_⟩
  intro v steps hvs hp hshort
  have hok : ∀ x ∈ steps.map Prod.fst, g.passable Source x = true := fun x hx =>
    (hiff x).2 (hp.2.2 x (by simp only [walkNodes, List.mem_cons]; exact Or.inr hx))
  have hdisc : st2.disc v = true := by
    rcases hres with ⟨_, rest, hq⟩ | ⟨_, hq, _⟩
    · obtain ⟨⟨c, hc⟩, _⟩ := hI.lvl_exit_optimal EndNode rest hq
      have hlen := hshort c (hc.tree_path.path_congr (fun x => (hiff x).1))
      rw [hc.length] at hlen
      have := hI.lvl_exit_cover EndNode rest hq steps Source hI.core.disc_s hp.1 hok
        (by rw [hI.core.lvl_s]; omega)
      rw [hp.2.1] at this
      exact this
    · have := (hI.lvl_closed_bound hq steps Source hI.core.disc_s hp.1 hok).1
      rw [hp.2.1] at this
      exact this
  have hvis : g2.state.get v = Visited := by
    rcases (hR.disc v).1 hdisc with h | h
    · exact absurd h hvs
    · exact h
  obtain ⟨c, hc⟩ := hI.core.chain v hdisc
  have hpar : ParOK (fun x => g2.parent.get x) Source c := by
    have : (fun x => g2.parent.get x) = st2.par := funext hR.par_eq
    rw [this]; exact hc.parent
  have hcvis : ∀ x ∈ c.map Prod.fst, g2.state.get x = Visited := by
    intro x hx
    have hxs : x ≠ Source := by
      intro h
      have hnd := hc.nodup
      simp only [walkNodes, List.nodup_cons] at hnd
      exact hnd.1 (h ▸ hx)
    rcases (hR.disc x).1 (hc.seen x (by simp only [walkNodes, List.mem_cons]; exact Or.inr hx))
      with h | h
    · exact absurd h hxs
    · exact h
  obtain ⟨c2, h1, h2, h3⟩ := dist_along g2 g.wadj (fun x => g.passable Source x = true)
    Source hR.adj_eq hL hw hb2 c hc.walk hpar hc.nodup hc.pass hcvis
  rw [hc.last] at h3
  have hnodes : walkNodes Source c2 = walkNodes Source c := by simp only [walkNodes, h1]
  have hsimple : IsSimpleFrom g.wadj (fun x => g.passable Source x = true) Source c2 :=
    ⟨h2, by rw [hnodes]; exact hc.nodup, fun x hx => hc.pass x (by rw [← hnodes]; exact hx)⟩
  have hend : walkEnd Source c2 = v := by
    rw [walkEnd_of_nodes Source c2 c h1]; exact hc.last
  obtain ⟨_, w, hw1, _⟩ := hL.2.2 v hvis
  rw [hR.adj_eq] at hw1
  refine ⟨?_, ?_, ⟨c2, ⟨h2, hend, fun x hx => (hiff x).1 (hsimple.2.2 x hx)⟩,
    parOK_of_nodes _ Source c c2 h1.symm hpar, h3⟩, w, hw1⟩
  · rw [h3]; exact walkWeight_nonneg g.wadj hw c2 Source h2
  · rw [h3]; exact hb2 c2 hsimple

end Main

namespace Main

open NodeState

/-- C14 on the graph `forked`, searched from node 0 to node 1: the hypotheses hold and
the theorem applies; node 2, as near to the source as the destination, ends with
distance 1 and parent 0. -/
theorem bfs_cover_witness :
    (∃ g2, BreadthFirstSearch 5 forked 0 1 (-1) = some g2 ∧ g2.found = 1
        ∧ g2.distance.get 2 = 1 ∧ g2.parent.get 2 = 0) ∧
      ∃ fuel g2, BreadthFirstSearch fuel forked 0 1 (-1) = some g2 ∧
        ∀ v steps, v ≠ 0 →
          IsPathTo forked.wadj (fun x => forked.state.get x ≠ Obstacle) 0 v steps →
          (∀ q, IsPathTo forked.wadj (fun x => forked.state.get x ≠ Obstacle) 0 1 q →
            steps.length ≤ q.length) →
          0 ≤ g2.distance.get v ∧ g2.distance.get v < INF
            ∧ (∃ c, IsPathTo forked.wadj (fun x => forked.state.get x ≠ Obstacle) 0 v c
                ∧ ParOK (fun x => g2.parent.get x) 0 c
                ∧ g2.distance.get v = walkWeight c)
            ∧ ∃ w, (v, w) ∈ forked.wadj (g2.parent.get v) :=
  ⟨⟨_, rfl, by decide, by decide, by decide⟩,
    bfs_cover forked 0 1 (by decide) (by decide)
      (nonNeg_addEdges 4 [(0, 1, 1), (0, 2, 1), (2, 3, 1)] (by decide))
      (pathSumsBelow_of_bound _ [0, 1, 2, 3] 1 0 (by unfold ClosedUnder; decide) (by decide)
        (by decide) (by decide) (by decide))
      (marked_fresh 4 _ 0 1 (by decide)).1 (marked_fresh 4 _ 0 1 (by decide)).2.2.1
      (marked_fresh 4 _ 0 1 (by decide)).2.2.2.1 (marked_fresh 4 _ 0 1 (by decide)).2.2.2.2.1
      (marked_fresh 4 _ 0 1 (by decide)).2.2.2.2.2⟩

/-- C14 as stated fails in three ways. On the graph `forked` (node 0 joined to nodes 1 and
2, node 2 joined to node 3) the search from node 0 to node 1 stops when node 1 leaves the
queue: node 3 is reachable by the path 0 - 2 - 3, which does not pass through node 1, and
keeps the distance 0x7FFFFFFF. The source itself is reachable and has parent -1, which is
no entry of its adjacency list. And on the graph `maxSide` node 2 is reached over an edge
of weight 0x7FFFFFFF and ends with the distance 0x7FFFFFFF. -/
theorem bfs_cover_counterexample :
    (forked.NoTrace ∧ forked.FreshDistance ∧ forked.found = 0 ∧ forked.state.get 0 = Start
        ∧ forked.OnlyStart 0 ∧ forked.state.get 1 = End
        ∧ ∃ g2, BreadthFirstSearch 5 forked 0 1 (-1) = some g2
          ∧ IsPathTo forked.wadj (fun x => forked.state.get x ≠ Obstacle) 0 3
              [(2, 1), (3, 1)]
          ∧ (1 : Int) ∉ walkNodes 0 [((2 : Int), (1 : Int)), (3, 1)]
          ∧ g2.distance.get 3 = 2147483647
          ∧ g2.parent.get 0 = -1 ∧ ∀ e ∈ forked.wadj 0, e.1 ≠ -1) ∧
      (maxSide.NoTrace ∧ maxSide.FreshDistance ∧ maxSide.found = 0
        ∧ maxSide.state.get 0 = Start ∧ maxSide.OnlyStart 0 ∧ maxSide.state.get 1 = End
        ∧ ∃ g2, BreadthFirstSearch 4 maxSide 0 1 (-1) = some g2
          ∧ IsPathTo maxSide.wadj (fun x => maxSide.state.get x ≠ Obstacle) 0 2
              [(2, 2147483647)]
          ∧ (1 : Int) ∉ walkNodes 0 [((2 : Int), (2147483647 : Int))]
          ∧ g2.distance.get 2 = 2147483647) := by
  have h1 := marked_fresh 4 [(0, 1, 1), (0, 2, 1), (2, 3, 1)] 0 1 (by decide)
  have h2 := marked_fresh 3 [(0, 2, 2147483647)] 0 1 (by decide)
  exact ⟨⟨h1.1, h1.2.1, h1.2.2.1, h1.2.2.2.1, h1.2.2.2.2.1, h1.2.2.2.2.2,
      _, rfl, by unfold IsPathTo; decide, by decide, by decide, by decide, by decide⟩,
    ⟨h2.1, h2.2.1, h2.2.2.1, h2.2.2.2.1, h2.2.2.2.2.1, h2.2.2.2.2.2,
      _, rfl, by unfold IsPathTo; decide, by decide, by decide⟩⟩

end Main

namespace Main

open NodeState

theorem white_not_visited (g : Graph) (x : Int) (h : g.white x) : g.state.get x ≠ Visited := by
  intro hv
  unfold Graph.white at h
  rw [hv] at h
  rcases h with h | h | h <;> exact absurd h (by decide)

/-- A node still to enter has not been entered and was to enter at the call. -/
theorem DfsInv.white_sub {adj : Adj} {E v p : Int} {g h : Graph} (hI : DfsInv adj E v p g h)
    (x : Int) (hx : h.white x) : g.white x ∧ ¬ g.EnteredFrom h v x := by
  have hn : ¬ g.EnteredFrom h v x := fun hN => white_not_visited h x hx (hI.state_new x hN)
  refine ⟨?_, hn⟩
  unfold Graph.white at hx ⊢
  rw [hI.state_old x hn] at hx
  exact hx

/-- The call on the entry `e` of `v` has returned: the invariant of the call on `v` holds
again. -/
theorem DfsInv.descend {adj : Adj} {E v p : Int} {g h h2 : Graph} (e : Int × Int)
    (hI : DfsInv adj E v p g h) (hf : h.found = 0) (he : e ∈ adj v) (hw : h.white e.1)
    (hP : DfsPost adj E e.1 v h h2) :
    DfsInv adj E v p g h2 ∧ (∀ x, h2.white x → h.white x) ∧ ¬ h2.white e.1 := by
  have hJ := hP.inv
  have F1 : h.state.get v = Visited := hI.state_new v (Or.inl rfl)
  have F2 : e.1 ≠ v := by
    intro heq; rw [heq] at hw; exact white_not_visited h v hw F1
  have F4 : ∀ x, h.EnteredFrom h2 e.1 x → g.white x ∧ h2.state.get x = Visited ∧ x ≠ v := by
    intro x hx
    have hvis := hJ.state_new x hx
    rcases hx with hx | ⟨hx, _⟩
    · rw [hx]; exact ⟨(hI.white_sub e.1 hw).1, by rw [← hx]; exact hvis, F2⟩
    · refine ⟨(hI.white_sub x hx).1, hvis, ?_⟩
      intro heq
      exact (hI.white_sub x hx).2 (Or.inl heq)
  have F5 : ∀ x, h.EnteredFrom h2 e.1 x → g.EnteredFrom h2 v x := fun x hx =>
    Or.inr ⟨(F4 x hx).1, (F4 x hx).2.1⟩
  have F6 : ∀ x, g.EnteredFrom h v x → ¬ h.EnteredFrom h2 e.1 x := by
    intro x hx hy
    have hvis := hI.state_new x hx
    rcases hy with hy | ⟨hy, _⟩
    · rw [hy] at hvis; exact white_not_visited h e.1 hw hvis
    · exact white_not_visited h x hy hvis
  have F7 : ∀ x, g.EnteredFrom h v x → g.EnteredFrom h2 v x := by
    intro x hx
    rcases hx with hx | ⟨hx1, hx2⟩
    · exact Or.inl hx
    · refine Or.inr ⟨hx1, ?_⟩
      rw [hJ.state_old x (F6 x (Or.inr ⟨hx1, hx2⟩))]
      exact hx2
  have F8 : ∀ x, g.EnteredFrom h2 v x → g.EnteredFrom h v x ∨ h.EnteredFrom h2 e.1 x := by
    intro x hx
    rcases hx with hx | ⟨hx1, hx2⟩
    · exact Or.inl (Or.inl hx)
    · by_cases hy : h.EnteredFrom h2 e.1 x
      · exact Or.inr hy
      · left
        refine Or.inr ⟨hx1, ?_⟩
        rw [← hJ.state_old x hy]
        exact hx2
  have hmono : ∀ x, h2.white x → h.white x := by
    intro x hx
    have hn : ¬ h.EnteredFrom h2 e.1 x :=
      fun hy => white_not_visited h2 x hx (hJ.state_new x hy)
    unfold Graph.white at hx ⊢
    rw [hJ.state_old x hn] at hx
    exact hx
  refine ⟨⟨?_, ?_, ?_, ?_, ?_, ?_, ?_, ?_, ?_⟩, hmono, ?_⟩
  · rw [hJ.adj_eq, hI.adj_eq]
  · rw [hJ.dist_eq, hI.dist_eq]
  · intro x hx
    rcases F8 x hx with h1 | h1
    · rw [hJ.state_old x (F6 x h1)]; exact hI.state_new x h1
    · exact hJ.state_new x h1
  · intro x hx
    have h1 : ¬ h.EnteredFrom h2 e.1 x := fun hy => hx (F5 x hy)
    have h2' : ¬ g.EnteredFrom h v x := fun hy => hx (F7 x hy)
    rw [hJ.state_old x h1, hI.state_old x h2']
  · intro x hx
    have h1 : ¬ h.EnteredFrom h2 e.1 x := fun hy => hx (F5 x hy)
    have h2' : ¬ g.EnteredFrom h v x := fun hy => hx (F7 x hy)
    rw [hJ.par_old x h1, hI.par_old x h2']
  · rw [hJ.par_old v (F6 v (Or.inl rfl))]; exact hI.par_v
  · intro x hx
    rcases F8 x hx with h1 | h1
    · obtain ⟨steps, c1, c2, c3, c4, c5⟩ := hI.chain x h1
      refine ⟨steps, c1, c2, ?_, c4, ?_⟩
      · apply parOK_congr (fun y => h.parent.get y) _ steps v _ c3
        intro y hy
        exact hJ.par_old y (F6 y (Or.inr (c5 y hy)))
      · intro y hy
        refine ⟨(c5 y hy).1, ?_⟩
        rw [hJ.state_old y (F6 y (Or.inr (c5 y hy)))]
        exact (c5 y hy).2
    · obtain ⟨steps, c1, c2, c3, c4, c5⟩ := hJ.chain x h1
      have hnodes : ∀ y ∈ walkNodes e.1 steps, h.EnteredFrom h2 e.1 y := by
        intro y hy
        simp only [walkNodes, List.mem_cons] at hy
        rcases hy with hy | hy
        · exact Or.inl hy
        · exact Or.inr (c5 y hy)
      refine ⟨e :: steps, ⟨he, c1⟩, c2, ⟨hJ.par_v, c3⟩, ?_, ?_⟩
      · show (v :: walkNodes e.1 steps).Nodup
        rw [List.nodup_cons]
        exact ⟨fun hv => (F4 v (hnodes v hv)).2.2 rfl, c4⟩
      · intro y hy
        simp only [List.map_cons, List.mem_cons] at hy
        rcases hy with hy | hy
        · rw [hy]; exact ⟨(F4 e.1 (Or.inl rfl)).1, (F4 e.1 (Or.inl rfl)).2.1⟩
        · exact ⟨(F4 y (Or.inr (c5 y hy))).1, (c5 y hy).2⟩
  · rcases hJ.found with ⟨f1, f2⟩ | ⟨f1, f2⟩
    · exact Or.inl ⟨f1, F5 E f2⟩
    · right
      refine ⟨f1, ?_⟩
      intro hN
      rcases F8 E hN with h1 | h1
      · rcases hI.found with ⟨g1, _⟩ | ⟨_, g2⟩
        · rw [hf] at g1; exact absurd g1 (by decide)
        · exact g2 h1
      · exact f2 h1
  · intro hf2 x hx hxv e2 he2
    rcases F8 x hx with h1 | h1
    · intro hw2
      exact hI.closed hf x h1 hxv e2 he2 (hmono e2.1 hw2)
    · by_cases hxe : x = e.1
      · rw [hxe] at he2
        exact hP.closed_v hf2 e2 he2
      · exact hJ.closed hf2 x h1 hxe e2 he2
  · intro hw2
    exact white_not_visited h2 e.1 hw2 (hJ.state_new e.1 (Or.inl rfl))

end Main

namespace Main

open NodeState

theorem white_mark (g : Graph) (v x : Int)
    (h : Graph.white { g with state := g.state.set v Visited } x) : g.white x ∧ x ≠ v := by
  unfold Graph.white at h ⊢
  simp only [vec_get_set] at h
  by_cases hx : x = v
  · rw [if_pos hx] at h
    rcases h with h | h | h <;> exact absurd h (by decide)
  · rw [if_neg hx] at h
    exact ⟨h, hx⟩

/-- The loop of `DepthFirstSearch` over the positions `is` of the list of `v`, every call
one level deeper returning as `IH` says. -/
theorem dfs_loop (adj : Adj) (U : List Int) (hU : ClosedUnder adj U) (E : Int) (fuel : Nat)
    (IH : ∀ (g : Graph) (v p : Int), (∀ x, g.adj_weighted.get x = adj x) → g.found = 0 →
      v ∈ U → whiteCount U { g with state := g.state.set v Visited } < fuel →
      ∃ g2, DepthFirstSearch fuel g v E p = some g2 ∧ DfsPost adj E v p g g2)
    (g : Graph) (v p : Int) (hadj : ∀ x, g.adj_weighted.get x = adj x) (hv : v ∈ U)
    (hcount : whiteCount U { g with state := g.state.set v Visited } < fuel + 1) :
    ∀ (is : List Nat) (h : Graph), DfsInv adj E v p g h → (∀ i ∈ is, i < (adj v).length) →
      ∃ h2, is.foldlM (dfsEntry (DepthFirstSearch fuel) v E) h = some h2
        ∧ DfsInv adj E v p g h2 ∧ (∀ x, h2.white x → h.white x) ∧ (h.found ≠ 0 → h2 = h)
        ∧ (h2.found = 0 → ∀ i ∈ is, ¬ h2.white ((adj v).getD i (0, 0)).1) := by
  intro is
  induction is with
  | nil =>
    intro h hI _
    exact ⟨h, rfl, hI, fun _ hx => hx, fun _ => rfl, fun _ i hi => absurd hi (by simp)⟩
  | cons i rest ih =>
    intro h hI hlen
    have hadjh : ∀ x, h.adj_weighted.get x = adj x := by
      intro x; rw [hI.adj_eq]; exact hadj x
    have hrest : ∀ j ∈ rest, j < (adj v).length := fun j hj => hlen j (by simp [hj])
    have hi : i < (adj v).length := hlen i (by simp)
    have he : (adj v).getD i (0, 0) ∈ adj v := by
      rw [List.getD_eq_getElem?_getD, List.getElem?_eq_getElem hi]
      exact List.getElem_mem hi
    by_cases hf : h.found ≠ 0
    · have hstep : dfsEntry (DepthFirstSearch fuel) v E h i = some h := by
        unfold dfsEntry; rw [if_pos hf]
      obtain ⟨h2, r1, r2, r3, r4, _⟩ := ih h hI hrest
      refine ⟨h2, ?_, r2, r3, r4, ?_⟩
      · simp only [List.foldlM, hstep]; exact r1
      · intro hf2
        rw [r4 hf] at hf2
        exact absurd hf2 hf
    · have hf0 : h.found = 0 := by
        by_contra hne; exact hf hne
      by_cases hw : h.white ((adj v).getD i (0, 0)).1
      · have hyU : ((adj v).getD i (0, 0)).1 ∈ U := hU v hv _ he
        have hc1 : whiteCount U { h with state := h.state.set ((adj v).getD i (0, 0)).1 Visited }
            < whiteCount U h := by
          unfold whiteCount
          apply filter_length_lt U _ _ _ _ hyU
          · simpa using hw
          · simp [Graph.white, vec_get_set]
          · intro x hx
            simp only [decide_eq_true_eq] at hx ⊢
            exact (white_mark h _ x hx).1
        have hc2 : whiteCount U h ≤ whiteCount U { g with state := g.state.set v Visited } := by
          unfold whiteCount
          apply filter_length_le
          intro x hx
          simp only [decide_eq_true_eq] at hx ⊢
          obtain ⟨a, b⟩ := hI.white_sub x hx
          have hxv : x ≠ v := fun heq => b (Or.inl heq)
          unfold Graph.white at a ⊢
          simp only [vec_get_set, if_neg hxv]
          exact a
        obtain ⟨h1, s1, s2⟩ := IH h ((adj v).getD i (0, 0)).1 v hadjh hf0 hyU (by omega)
        obtain ⟨d1, d2, d3⟩ := hI.descend _ hf0 he hw s2
        have hstep : dfsEntry (DepthFirstSearch fuel) v E h i = some h1 := by
          unfold dfsEntry
          rw [if_neg hf]
          simp only [hadjh]
          have hw2 := hw
          unfold Graph.white at hw2
          rw [if_pos hw2]
          exact s1
        obtain ⟨h2, r1, r2, r3, _, r5⟩ := ih h1 d1 hrest
        refine ⟨h2, ?_, r2, fun x hx => d2 x (r3 x hx), fun hne => absurd hf0 hne, ?_⟩
        · simp only [List.foldlM, hstep]; exact r1
        · intro hf2 j hj
          rcases List.mem_cons.1 hj with h3 | h3
          · rw [h3]; exact fun hx => d3 (r3 _ hx)
          · exact r5 hf2 j h3
      · have hstep : dfsEntry (DepthFirstSearch fuel) v E h i = some h := by
          unfold dfsEntry
          rw [if_neg hf]
          simp only [hadjh]
          have hw2 := hw
          unfold Graph.white at hw2
          rw [if_neg hw2]
        obtain ⟨h2, r1, r2, r3, r4, r5⟩ := ih h hI hrest
        refine ⟨h2, ?_, r2, r3, r4, ?_⟩
        · simp only [List.foldlM, hstep]; exact r1
        · intro hf2 j hj
          rcases List.mem_cons.1 hj with h3 | h3
          · rw [h3]; exact fun hx => hw (r3 _ hx)
          · exact r5 hf2 j h3

end Main

namespace Main

open NodeState

/-- Right after `v` is marked only `v` is entered. -/
theorem entered_mark (g g1 : Graph) (v x : Int)
    (hst : ∀ y, g1.state.get y = if y = v then Visited else g.state.get y)
    (h : g.EnteredFrom g1 v x) : x = v := by
  rcases h with h | ⟨h1, h2⟩
  · exact h
  · by_contra hne
    rw [hst, if_neg hne] at h2
    exact white_not_visited g x h1 h2

theorem dfsInv_mark (adj : Adj) (E v p : Int) (g g1 : Graph) (hvE : v ≠ E)
    (hf : g.found = 0) (hfound : g1.found = g.found)
    (hadj : g1.adj_weighted = g.adj_weighted) (hdist : g1.distance = g.distance)
    (hst : ∀ y, g1.state.get y = if y = v then Visited else g.state.get y)
    (hpar : ∀ y, g1.parent.get y = if y = v then p else g.parent.get y) :
    DfsInv adj E v p g g1 := by
  have hN := entered_mark g g1 v
  refine ⟨hadj, hdist, ?_, ?_, ?_, ?_, ?_, ?_, ?_⟩
  · intro x hx
    rw [hN x hst hx, hst, if_pos rfl]
  · intro x hx
    have hxv : x ≠ v := fun h => hx (Or.inl h)
    rw [hst, if_neg hxv]
  · intro x hx
    have hxv : x ≠ v := fun h => hx (Or.inl h)
    rw [hpar, if_neg hxv]
  · rw [hpar, if_pos rfl]
  · intro x hx
    rw [hN x hst hx]
    exact ⟨[], trivial, rfl, trivial, by simp [walkNodes], fun y hy => absurd hy (by simp)⟩
  · right
    refine ⟨by rw [hfound, hf], ?_⟩
    intro hx
    exact hvE (hN E hst hx).symm
  · intro _ x hx hxv
    exact absurd (hN x hst hx) hxv

/-- With fuel above the number of nodes still to enter, the call of `DepthFirstSearch` on
`v` returns, and `DfsPost` holds of the graph it leaves. -/
theorem dfs_call (adj : Adj) (U : List Int) (hU : ClosedUnder adj U) (E : Int) (fuel : Nat) :
    ∀ (g : Graph) (v p : Int), (∀ x, g.adj_weighted.get x = adj x) → g.found = 0 → v ∈ U →
      whiteCount U { g with state := g.state.set v Visited } < fuel →
      ∃ g2, DepthFirstSearch fuel g v E p = some g2 ∧ DfsPost adj E v p g g2 := by
  induction fuel with
  | zero => intro g v p _ _ _ h; omega
  | succ fuel ih =>
    intro g v p hadj hf hv hcount
    unfold DepthFirstSearch
    simp only
    by_cases hvE : v = E
    · rw [if_pos hvE]
      refine ⟨_, rfl, ?_⟩
      have hst : ∀ y, (g.state.set v Visited).get y = if y = v then Visited else g.state.get y :=
        fun y => rfl
      have hN := fun x => entered_mark g { g with state := g.state.set v Visited, parent := g.parent.set v p, found := 1 } v x hst
      refine ⟨⟨rfl, rfl, ?_, ?_, ?_, ?_, ?_, ?_, ?_⟩, ?_⟩
      · intro x hx
        show (g.state.set v Visited).get x = Visited
        rw [hN x hx, hst, if_pos rfl]
      · intro x hx
        have hxv : x ≠ v := fun h => hx (Or.inl h)
        show (g.state.set v Visited).get x = _
        rw [hst, if_neg hxv]
      · intro x hx
        have hxv : x ≠ v := fun h => hx (Or.inl h)
        show (g.parent.set v p).get x = _
        rw [vec_get_set, if_neg hxv]
      · show (g.parent.set v p).get v = p
        rw [vec_get_set, if_pos rfl]
      · intro x hx
        rw [hN x hx]
        exact ⟨[], trivial, rfl, trivial, by simp [walkNodes], fun y hy => absurd hy (by simp)⟩
      · exact Or.inl ⟨rfl, Or.inl hvE.symm⟩
      · intro h0
        exact absurd h0 (show (1 : Int) ≠ 0 by decide)
      · intro h0
        exact absurd h0 (show (1 : Int) ≠ 0 by decide)
    · rw [if_neg hvE]
      have hI : DfsInv adj E v p g { g with state := g.state.set v Visited, parent := g.parent.set v p } :=
        dfsInv_mark adj E v p g _ hvE hf rfl rfl rfl (fun y => rfl) (fun y => rfl)
      have hlen : (g.adj_weighted.get v).length = (adj v).length := by rw [hadj]
      obtain ⟨h2, r1, r2, _, _, r5⟩ := dfs_loop adj U hU E fuel ih g v p hadj hv hcount
        (List.range (adj v).length) _ hI (fun i hi => List.mem_range.1 hi)
      refine ⟨h2, ?_, r2, ?_⟩
      · show (List.range (g.adj_weighted.get v).length).foldlM _ _ = some h2
        rw [hlen]
        exact r1
      · intro h0 e he
        obtain ⟨i, hi, hget⟩ := List.getElem_of_mem he
        have := r5 h0 i (List.mem_range.2 hi)
        rw [List.getD_eq_getElem?_getD, List.getElem?_eq_getElem hi] at this
        simp only [Option.getD_some] at this
        rw [hget] at this
        exact this

end Main

namespace Main

open NodeState

/-- From a valid graph with `found = 0` the search returns, given fuel above the number of
nodes. -/
theorem dfs_run (g : Graph) (Source EndNode : Int) (hv : g.Valid) (hs : g.IsNode Source)
    (hf : g.found = 0) :
    ∃ fuel g2, DepthFirstSearch fuel g Source EndNode (-1) = some g2
      ∧ DfsPost g.wadj EndNode Source (-1) g g2 := by
  obtain ⟨g2, h1, h2⟩ := dfs_call g.wadj (intRange g.adj_weighted.size) hv.closed EndNode
    (whiteCount (intRange g.adj_weighted.size) { g with state := g.state.set Source Visited } + 1)
    g Source (-1) (fun _ => rfl) hf hs.mem (Nat.lt_succ_self _)
  exact ⟨_, g2, h1, h2⟩

/-- While `found` is 0 after the call, every walk from an entered node over nodes that
were enterable at the call stays among the entered nodes. -/
theorem DfsPost.covers {adj : Adj} {E v p : Int} {g g2 : Graph} (hP : DfsPost adj E v p g g2)
    (h0 : g2.found = 0) :
    ∀ (steps : List (Int × Int)) (x : Int), g.EnteredFrom g2 v x → IsWalk adj x steps →
      (∀ y ∈ steps.map Prod.fst, y = v ∨ g.white y) → g.EnteredFrom g2 v (walkEnd x steps) := by
  intro steps
  induction steps with
  | nil => intro x hx _ _; exact hx
  | cons e rest ih =>
    intro x hx hw hok
    apply ih e.1 ?_ hw.2 (fun y hy => hok y (by simp at hy ⊢; exact Or.inr hy))
    rcases hok e.1 (by simp) with h | h
    · exact Or.inl h
    · by_contra hne
      have hst := hP.inv.state_old e.1 hne
      have hwhite : g2.white e.1 := by
        unfold Graph.white
        rw [hst]
        exact h
      by_cases hxv : x = v
      · exact hP.closed_v h0 e (hxv ▸ hw.1) hwhite
      · exact hP.inv.closed h0 x hx hxv e hw.1 hwhite

/-- With no trace and the source the only `Start` node, the nodes other than the source
that are not `Obstacle` are the enterable ones. -/
theorem white_of_passable (g : Graph) (s : Int) (ht : g.NoTrace) (hst : g.OnlyStart s) (x : Int)
    (hx : g.state.get x ≠ Obstacle) : x = s ∨ g.white x := by
  by_cases hxs : x = s
  · exact Or.inl hxs
  · right
    have h1 := (ht x).1
    have h2 := (ht x).2
    have h3 := hst x hxs
    unfold Graph.white
    cases hc : g.state.get x <;> simp_all

theorem white_not_obstacle (g : Graph) (x : Int) (h : g.white x) : g.state.get x ≠ Obstacle := by
  unfold Graph.white at h
  rcases h with h | h | h <;> rw [h] <;> decide

/-- The search leaves `found` 0 or 1. -/
theorem DfsInv.found_cases {adj : Adj} {E v p : Int} {g g2 : Graph}
    (hI : DfsInv adj E v p g g2) : g2.found = 1 ∨ g2.found = 0 :=
  hI.found.imp (fun h => h.1) (fun h => h.1)

/-- After the search `found` is 1 exactly when the end node is entered, and when the start
is not an obstacle that is when a path of nodes that are not `Obstacle` leads to it. -/
theorem DfsPost.found_iff_reach {E s p : Int} {g g2 : Graph} (hP : DfsPost g.wadj E s p g g2)
    (ht : g.NoTrace) (hss : g.state.get s ≠ Obstacle) (hst : g.OnlyStart s) :
    g2.found = 1 ↔ Reach g.wadj (fun x => g.state.get x ≠ Obstacle) s E := by
  constructor
  · intro h1
    rcases hP.inv.found with ⟨_, hE⟩ | ⟨h0, _⟩
    · obtain ⟨steps, hw, he, _, _, hall⟩ := hP.inv.chain E hE
      refine ⟨steps, hw, he, ?_⟩
      intro x hx
      rcases List.mem_cons.1 hx with h | h
      · rw [h]; exact hss
      · exact white_not_obstacle g x (hall x h).1
    · rw [h0] at h1
      exact absurd h1 (by decide)
  · rintro ⟨steps, hw, he, hok⟩
    rcases hP.inv.found with ⟨h1, _⟩ | ⟨h0, hE⟩
    · exact h1
    · exfalso
      apply hE
      rw [← he]
      apply hP.covers h0 steps s (Or.inl rfl) hw
      intro y hy
      exact white_of_passable g s ht hst y (hok y (List.mem_cons_of_mem _ hy))

/-- With no trace in the graph at the call, the nodes `Visited` afterwards are the entered
ones. -/
theorem DfsInv.entered_of_visited {adj : Adj} {E v p : Int} {g g2 : Graph}
    (hI : DfsInv adj E v p g g2) (ht : g.NoTrace) (x : Int) (hx : g2.state.get x = Visited) :
    g.EnteredFrom g2 v x := by
  by_contra hne
  rw [hI.state_old x hne] at hx
  exact (ht x).1 hx

end Main

namespace Main

open NodeState

/-- C12, as amended: for every graph in which no node is in state Visited or Path, found
is initially 0, Source is the only node marked Start and EndNode is marked End,
DepthFirstSearch(graph, Source, EndNode) returns, and it ends with found = 1 if and only if
there is a path from Source to EndNode all of whose nodes are not Obstacle; when there is
no such path found stays 0. -/
theorem dfs_found_iff_reach (g : Graph) (Source EndNode : Int) (hv : g.Valid)
    (hs : g.IsNode Source) (ht : g.NoTrace) (hf : g.found = 0)
    (hss : g.state.get Source = Start) (hst : g.OnlyStart Source)
    (_hE : g.state.get EndNode = End) :
    ∃ fuel g2, DepthFirstSearch fuel g Source EndNode (-1) = some g2 ∧
      (g2.found = 1 ↔ Reach g.wadj (fun x => g.state.get x ≠ Obstacle) Source EndNode) ∧
      (¬ Reach g.wadj (fun x => g.state.get x ≠ Obstacle) Source EndNode → g2.found = 0) := by
  obtain ⟨fuel, g2, hrun, hP⟩ := dfs_run g Source EndNode hv hs hf
  have hiff := hP.found_iff_reach ht (by rw [hss]; decide) hst
  refine ⟨fuel, g2, hrun, hiff, fun hno => ?_⟩
  rcases hP.inv.found_cases with h | h
  · exact absurd (hiff.1 h) hno
  · exact h

/-- C12 on four nodes in two components, 0 - 1 and 2 - 3, from node 0 to node 3: the
hypotheses hold and the theorem applies; the search ends with found = 0. On three nodes in
a row from node 0 to node 2 it ends with found = 1. -/
theorem dfs_found_iff_reach_witness :
    (∃ g2, DepthFirstSearch 4 (marked 4 [(0, 1, 1), (2, 3, 1)] 0 3) 0 3 (-1) = some g2
        ∧ g2.found = 0) ∧
      (∃ g2, DepthFirstSearch 4 (marked 3 [(0, 1, 1), (1, 2, 1)] 0 2) 0 2 (-1) = some g2
        ∧ g2.found = 1) ∧
      ∃ fuel g2, DepthFirstSearch fuel (marked 4 [(0, 1, 1), (2, 3, 1)] 0 3) 0 3 (-1)
          = some g2 ∧
        (g2.found = 1 ↔ Reach (marked 4 [(0, 1, 1), (2, 3, 1)] 0 3).wadj
          (fun x => (marked 4 [(0, 1, 1), (2, 3, 1)] 0 3).state.get x ≠ Obstacle) 0 3) ∧
        (¬ Reach (marked 4 [(0, 1, 1), (2, 3, 1)] 0 3).wadj
          (fun x => (marked 4 [(0, 1, 1), (2, 3, 1)] 0 3).state.get x ≠ Obstacle) 0 3
          → g2.found = 0) :=
  ⟨⟨_, rfl, by decide⟩, ⟨_, rfl, by decide⟩,
    dfs_found_iff_reach (marked 4 [(0, 1, 1), (2, 3, 1)] 0 3) 0 3 (by decide) (by decide)
      (marked_fresh 4 _ 0 3 (by decide)).1 (marked_fresh 4 _ 0 3 (by decide)).2.2.1
      (marked_fresh 4 _ 0 3 (by decide)).2.2.2.1 (marked_fresh 4 _ 0 3 (by decide)).2.2.2.2.1
      (marked_fresh 4 _ 0 3 (by decide)).2.2.2.2.2⟩

/-- C12 as stated fails on a graph whose found flag is already 1: on two nodes without an
edge, node 0 marked Start and node 1 marked End (no node Visited or Path),
DepthFirstSearch(graph, 0, 1) ends with found = 1 although no path leads from node 0 to
node 1. -/
theorem dfs_found_iff_reach_counterexample :
    staleFound.NoTrace ∧ staleFound.state.get 0 = Start ∧ staleFound.OnlyStart 0
      ∧ staleFound.state.get 1 = End
      ∧ (∃ g2, DepthFirstSearch 4 staleFound 0 1 (-1) = some g2 ∧ g2.found = 1)
      ∧ ¬ Reach staleFound.wadj (fun x => staleFound.state.get x ≠ Obstacle) 0 1 := by
  refine ⟨?_, by decide, ?_, by decide, ⟨_, rfl, by decide⟩, staleFound_no_reach⟩
  · intro v; rw [staleFound_state]; split_ifs <;> exact ⟨by decide, by decide⟩
  · intro v hv; rw [staleFound_state]; split_ifs <;> decide

end Main

namespace Main

open NodeState

/-- Once `found` is set the loop of `DepthFirstSearch` leaves the graph as it is. -/
theorem dfs_fold_found (recurse : Graph → Int → Int → Int → Option Graph) (v E : Int) :
    ∀ (is : List Nat) (h : Graph), h.found ≠ 0 → is.foldlM (dfsEntry recurse v E) h = some h := by
  intro is
  induction is with
  | nil => intro h _; rfl
  | cons i rest ih =>
    intro h hf
    rw [List.foldlM_cons]
    have : dfsEntry recurse v E h i = some h := by
      unfold dfsEntry
      rw [if_pos hf]
    rw [this]
    exact ih h hf

/-- With `found` already set the search marks its start node and returns. -/
theorem dfs_stale (g : Graph) (v E p : Int) (hf : g.found ≠ 0) (fuel : Nat) :
    ∃ g2, DepthFirstSearch (fuel + 1) g v E p = some g2 ∧ g2.distance = g.distance
      ∧ g2.adj_weighted = g.adj_weighted
      ∧ (∀ x, g2.state.get x = if x = v then Visited else g.state.get x)
      ∧ (∀ x, g2.parent.get x = if x = v then p else g.parent.get x) ∧ g2.found ≠ 0 := by
  unfold DepthFirstSearch
  simp only
  by_cases hvE : v = E
  · rw [if_pos hvE]
    exact ⟨_, rfl, rfl, rfl, fun x => rfl, fun x => rfl, show (1 : Int) ≠ 0 by decide⟩
  · rw [if_neg hvE]
    exact ⟨_, dfs_fold_found _ v E _ _ hf, rfl, rfl, fun x => rfl, fun x => rfl, hf⟩

/-- For every graph satisfying the traversal preconditions (every distance entry
0x7FFFFFFF, no node Visited or Path), `DepthFirstSearch` returns and leaves every distance
entry as it was; what it records is parent: Source gets parent -1 and every visited node
is the end of a path from Source over edges of the graph along which each node has its
predecessor as parent. -/
theorem dfs_keeps_distance (g : Graph) (Source EndNode : Int) (hv : g.Valid)
    (hs : g.IsNode Source) (ht : g.NoTrace) (hd : g.FreshDistance) :
    ∃ fuel g2, DepthFirstSearch fuel g Source EndNode (-1) = some g2 ∧
      g2.distance = g.distance ∧ g2.parent.get Source = -1 ∧
      ∀ v, g2.state.get v = Visited →
        g2.distance.get v = INF ∧
        ∃ steps, IsWalk g.wadj Source steps ∧ walkEnd Source steps = v
          ∧ ParOK (fun y => g2.parent.get y) Source steps := by
  by_cases hf : g.found = 0
  · obtain ⟨fuel, g2, hrun, hP⟩ := dfs_run g Source EndNode hv hs hf
    refine ⟨fuel, g2, hrun, hP.inv.dist_eq, hP.inv.par_v, fun v hvis => ⟨?_, ?_⟩⟩
    · rw [hP.inv.dist_eq]; exact hd v
    · obtain ⟨steps, h1, h2, h3, _⟩ := hP.inv.chain v (hP.inv.entered_of_visited ht v hvis)
      exact ⟨steps, h1, h2, h3⟩
  · obtain ⟨g2, hrun, h1, _, h3, h4, _⟩ := dfs_stale g Source EndNode (-1) hf 0
    refine ⟨1, g2, hrun, h1, ?_, fun v hvis => ⟨?_, ?_⟩⟩
    · rw [h4, if_pos rfl]
    · rw [h1]; exact hd v
    · have hvs : v = Source := by
        by_contra hne
        rw [h3, if_neg hne] at hvis
        exact (ht v).1 hvis
      exact ⟨[], trivial, hvs.symm, trivial⟩

/-- C15 evaluated on three nodes in a row with weights 1, node 0 marked Start and node 2
marked End, fresh distance entries and found = 0: DepthFirstSearch(graph, 0, 2) visits the
three nodes with parents -1, 0, 1 and ends with found = 1, and every distance entry is
still 0x7FFFFFFF, so distance[1] is not the weight 1 of its parent chain; on the same
graph BreadthFirstSearch(graph, 0, 2) and DijkstraQ(graph, 0, 2) leave the distances
0, 1, 2. -/
theorem dfs_leaves_no_distance :
    (marked 3 [(0, 1, 1), (1, 2, 1)] 0 2).NoTrace
      ∧ (marked 3 [(0, 1, 1), (1, 2, 1)] 0 2).FreshDistance
      ∧ (marked 3 [(0, 1, 1), (1, 2, 1)] 0 2).found = 0
      ∧ (marked 3 [(0, 1, 1), (1, 2, 1)] 0 2).state.get 0 = Start
      ∧ (marked 3 [(0, 1, 1), (1, 2, 1)] 0 2).OnlyStart 0
      ∧ (marked 3 [(0, 1, 1), (1, 2, 1)] 0 2).state.get 2 = End
      ∧ (∃ g2, DepthFirstSearch 4 (marked 3 [(0, 1, 1), (1, 2, 1)] 0 2) 0 2 (-1) = some g2
        ∧ g2.found = 1
        ∧ (intRange 3).map g2.state.get = [Visited, Visited, Visited]
        ∧ (intRange 3).map g2.parent.get = [-1, 0, 1]
        ∧ (1, 1) ∈ g2.adj_weighted.get 0
        ∧ (intRange 3).map g2.distance.get = [2147483647, 2147483647, 2147483647]
        ∧ g2.distance.get 1 ≠ 1)
      ∧ (∃ g2, BreadthFirstSearch 4 (marked 3 [(0, 1, 1), (1, 2, 1)] 0 2) 0 2 (-1) = some g2
        ∧ (intRange 3).map g2.distance.get = [0, 1, 2])
      ∧ (∃ g2, DijkstraQ 4 (marked 3 [(0, 1, 1), (1, 2, 1)] 0 2) 0 2 (-1) = some g2
        ∧ (intRange 3).map g2.distance.get = [0, 1, 2]) := by
  obtain ⟨h1, h2, h3, h4, h5, h6⟩ := marked_fresh 3 [(0, 1, 1), (1, 2, 1)] 0 2 (by decide)
  exact ⟨h1, h2, h3, h4, h5, h6,
    ⟨_, rfl, by decide, by decide, by decide, by decide, by decide, by decide⟩,
    ⟨_, rfl, by decide⟩, ⟨_, rfl, by decide⟩⟩

end Main

namespace Main

open NodeState

theorem StepsBack.steps_unique (g : Graph) (v s : Int) (n k : Nat) (h1 : g.StepsBack v s n)
    (h2 : g.StepsBack v s k) : n = k := by
  rcases Nat.lt_trichotomy n k with h | h | h
  · exact absurd h1.1 (h2.2 n h)
  · exact h
  · exact absurd h2.1 (h1.2 k h)

/-- When the loop of `GetPath` returns it has collected the parent chain up to the first
occurrence of `s`. -/
theorem getPathLoop_sound (s : Int) (fuel : Nat) :
    ∀ (g : Graph) (v : Int) (path : List Int) (r : List Int × Graph),
      GetPathLoop fuel g v s path = some r →
      ∃ n, g.StepsBack v s n ∧ r.1 = path ++ g.chainBack n v := by
  induction fuel with
  | zero => intro g v path r h; simp [GetPathLoop] at h
  | succ fuel ih =>
    intro g v path r h
    rw [GetPathLoop] at h
    by_cases hv : v = s
    · simp only [hv, ne_eq, not_true_eq_false, if_false, Option.some.injEq] at h
      refine ⟨0, ⟨hv, fun m hm => absurd hm (by omega)⟩, ?_⟩
      rw [← h]; simp [Graph.chainBack]
    · simp only [hv, ne_eq, not_false_eq_true, if_true] at h
      obtain ⟨n, hn, hr⟩ := ih _ _ _ _ h
      have hc := ancestor_congr g { g with state := g.state.set (g.parent.get v) Path } rfl
      have hcb := chainBack_congr g { g with state := g.state.set (g.parent.get v) Path } rfl
      refine ⟨n + 1, ⟨?_, ?_⟩, ?_⟩
      · show g.ancestor n (g.parent.get v) = s
        rw [← hc n]; exact hn.1
      · intro m hm
        cases m with
        | zero => exact hv
        | succ j =>
          show g.ancestor j (g.parent.get v) ≠ s
          rw [← hc j]; exact hn.2 j (by omega)
      · rw [hr, hcb]
        simp [Graph.chainBack]

/-- Every node of a sequence `GetPath` returns lies on the parent chain before `s`. -/
theorem getPath_sound (g : Graph) (E s : Int) (fuel : Nat) (path : List Int) (g3 : Graph)
    (h : GetPath fuel g E s = some (path, g3)) :
    ∃ n, g.StepsBack E s n ∧ ∀ o ∈ path, ∃ m, m < n ∧ g.ancestor m E = o := by
  unfold GetPath at h
  cases hl : GetPathLoop fuel g E s [] with
  | none => rw [hl] at h; simp at h
  | some r =>
    rw [hl] at h
    simp only [Option.map_some', Option.some.injEq, Prod.mk.injEq] at h
    obtain ⟨n, hn, hr⟩ := getPathLoop_sound s fuel g E [] r hl
    refine ⟨n, hn, fun o ho => ?_⟩
    rw [← h.1, List.mem_reverse, hr, List.nil_append, mem_chainBack] at ho
    exact ho

theorem pathGiven_of_stepsBack (g : Graph) (E s : Int) (n : Nat) (h : g.StepsBack E s n) :
    g.PathGiven s E := by
  obtain ⟨g3, h1, _⟩ := getPathLoop_exact s n g E [] h
  have hget : GetPath (n + 1) g E s
      = some ((g.chainBack n E).reverse, { g3 with state := (g3.state.set s Start).set E End }) := by
    unfold GetPath
    rw [h1]
    rfl
  exact ⟨n + 1, _, _, hget⟩

theorem pathClear_of_chain (g0 g : Graph) (E s : Int) (n : Nat) (h : g.StepsBack E s n)
    (hno : ∀ m, m < n → ¬ g0.IsObstacle (g.ancestor m E)) : g0.PathClear g s E := by
  intro fuel path g3 hget o ho
  obtain ⟨k, hk, hall⟩ := getPath_sound g E s fuel path g3 hget
  obtain ⟨m, hm, rfl⟩ := hall o ho
  have := StepsBack.steps_unique g E s k n hk h
  exact hno m (by omega)

/-- Following `parent` back from the end of a tree path gives its nodes in reverse. -/
theorem chainBack_of_chain (g : Graph) (s : Int) (steps : List (Int × Int)) :
    ParOK (fun v => g.parent.get v) s steps →
      g.chainBack steps.length (walkEnd s steps) = (steps.map Prod.fst).reverse := by
  induction steps using List.reverseRecOn with
  | nil => intro _; rfl
  | append_singleton l e ih =>
    intro hp
    rw [parOK_snoc] at hp
    have hend : walkEnd s (l ++ [e]) = e.1 := by simp [walkEnd_append, walkEnd]
    have hpe : g.parent.get e.1 = walkEnd s l := hp.2
    rw [hend, List.length_append, List.length_singleton]
    show e.1 :: g.chainBack l.length (g.parent.get e.1) = _
    rw [hpe, ih hp.1]
    simp

/-- A trail keeps when the entries of its nodes keep. -/
theorem Trail.keep (g0 g g2 : Graph) (s x : Int) (h : g0.Trail g s x)
    (hsame : ∀ y, g.state.get y = Visited →
      g2.parent.get y = g.parent.get y ∧ g2.state.get y = g.state.get y) :
    g0.Trail g2 s x := by
  obtain ⟨n, hn, hall⟩ := h
  have hanc : ∀ m, m ≤ n → g2.ancestor m x = g.ancestor m x := by
    intro m
    induction m with
    | zero => intro _; rfl
    | succ m ih =>
      intro hm
      rw [ancestor_succ, ancestor_succ, ih (by omega)]
      exact (hsame _ (hall m (by omega)).1).1
  refine ⟨n, ⟨?_, ?_⟩, ?_⟩
  · rw [hanc n le_rfl]; exact hn.1
  · intro m hm
    rw [hanc m (by omega)]; exact hn.2 m hm
  · intro m hm
    rw [hanc m (by omega)]
    refine ⟨?_, (hall m hm).2⟩
    rw [(hsame _ (hall m hm).1).2]
    exact (hall m hm).1

/-- A node just discovered from `u` has the trail of `u` extended by itself. -/
theorem Trail.extend (g0 g2 : Graph) (s u x : Int) (h : g0.Trail g2 s u)
    (hpar : g2.parent.get x = u) (hst : g2.state.get x = Visited) (hxs : x ≠ s)
    (hno : ¬ g0.IsObstacle x) : g0.Trail g2 s x := by
  obtain ⟨n, hn, hall⟩ := h
  have hanc : ∀ m, g2.ancestor (m + 1) x = g2.ancestor m u := by
    intro m
    show g2.ancestor m (g2.parent.get x) = _
    rw [hpar]
  refine ⟨n + 1, ⟨?_, ?_⟩, ?_⟩
  · rw [hanc]; exact hn.1
  · intro m hm
    cases m with
    | zero => exact hxs
    | succ j => rw [hanc]; exact hn.2 j (by omega)
  · intro m hm
    cases m with
    | zero => exact ⟨hst, hno⟩
    | succ j => rw [hanc]; exact hall j (by omega)

theorem Trail.clear (g0 g : Graph) (s E : Int) (h : g0.Trail g s E) :
    g0.PathClear g s E ∧ g.PathGiven s E := by
  obtain ⟨n, hn, hall⟩ := h
  exact ⟨pathClear_of_chain g0 g E s n hn (fun m hm => (hall m hm).2),
    pathGiven_of_stepsBack g E s n hn⟩

end Main

namespace Main

open NodeState

theorem Trail.not_obstacle (g0 g : Graph) (s u : Int) (h : g0.Trail g s u)
    (hsrc : g.state.get s = Start) (hk : g0.ObstaclesKept g) : ¬ g0.IsObstacle u := by
  obtain ⟨n, hn, hall⟩ := h
  cases n with
  | zero =>
    have hu : u = s := hn.1
    intro ho
    have := (hk.1 u ho).1
    rw [hu, hsrc] at this
    exact absurd this (by decide)
  | succ n => exact (hall 0 (by omega)).2

/-- One round of the `for` loop of `BreadthFirstSearch`, whatever the states are. -/
theorem visitNeighbor_gen (g0 : Graph) (U : List Int) (hU : ClosedUnder g0.wadj U) (s u : Int)
    (g : Graph) (q : List Int) (e : Int × Int) (hI : BfsGen g0 U s g q)
    (hu : g0.Trail g s u) (huU : u ∈ U) (he : e ∈ g0.wadj u) :
    BfsGen g0 U s (visitNeighbor u (g, q) e).1 (visitNeighbor u (g, q) e).2
      ∧ g0.Trail (visitNeighbor u (g, q) e).1 s u
      ∧ (visitNeighbor u (g, q) e).2.length + unseenCount U (visitNeighbor u (g, q) e).1
          ≤ q.length + unseenCount U g := by
  unfold visitNeighbor
  simp only
  split_ifs with hc
  · obtain ⟨c1, c2, c3⟩ := hc
    have heU : e.1 ∈ U := hU u huU e he
    have hes : e.1 ≠ s := by
      intro h; rw [h] at c3; exact c3 hI.src
    have hsame : ∀ y, g.state.get y = Visited →
        (g.parent.set e.1 u).get y = g.parent.get y
          ∧ (g.state.set e.1 Visited).get y = g.state.get y := by
      intro y hy
      have hne : y ≠ e.1 := by
        intro h; rw [h] at hy; exact c2 hy
      simp only [vec_get_set, if_neg hne, and_self]
    have hno : ¬ g0.IsObstacle e.1 := by
      intro ho
      exact c1 (hI.kept.1 e.1 ho).1
    have hnu : ¬ g0.IsObstacle u := Trail.not_obstacle g0 g s u hu hI.src hI.kept
    have htu : g0.Trail { g with state := g.state.set e.1 Visited, distance := g.distance.set e.1 (wrapInt (g.distance.get u + e.2)), parent := g.parent.set e.1 u } s u :=
      Trail.keep g0 g _ s u hu hsame
    refine ⟨⟨hI.adj_eq, ?_, hI.found, ⟨?_, ?_⟩, ?_, ?_⟩, htu, ?_⟩
    · show (g.state.set e.1 Visited).get s = Start
      rw [vec_get_set, if_neg (fun h => hes h.symm)]
      exact hI.src
    · intro o ho
      have hoe : o ≠ e.1 := by
        intro h; rw [h] at ho; exact hno ho
      show (g.state.set e.1 Visited).get o = Obstacle ∧ (g.distance.set e.1 _).get o = INF
      simp only [vec_get_set, if_neg hoe]
      exact hI.kept.1 o ho
    · intro x
      show (g.parent.set e.1 u).get x = _ ∨ ¬ g0.IsObstacle ((g.parent.set e.1 u).get x)
      rw [vec_get_set]
      by_cases hx : x = e.1
      · rw [if_pos hx]; exact Or.inr hnu
      · rw [if_neg hx]; exact hI.kept.2 x
    · intro x hx
      rcases List.mem_append.1 hx with h | h
      · exact Trail.keep g0 g _ s x (hI.trail x h) hsame
      · have hxe : x = e.1 := by simpa using h
        rw [hxe]
        refine Trail.extend g0 _ s u e.1 htu ?_ ?_ hes hno
        · show (g.parent.set e.1 u).get e.1 = u
          rw [vec_get_set, if_pos rfl]
        · show (g.state.set e.1 Visited).get e.1 = Visited
          rw [vec_get_set, if_pos rfl]
    · intro x hx
      rcases List.mem_append.1 hx with h | h
      · exact hI.inU x h
      · have hxe : x = e.1 := by simpa using h
        rw [hxe]; exact heU
    · have hlt : unseenCount U { g with state := g.state.set e.1 Visited, distance := g.distance.set e.1 (wrapInt (g.distance.get u + e.2)), parent := g.parent.set e.1 u }
          < unseenCount U g := by
        unfold unseenCount
        apply filter_length_lt U _ _ _ _ heU
        · simp only [decide_eq_true_eq]
          exact ⟨c1, c2, c3⟩
        · simp [Graph.unseen, vec_get_set]
        · intro x hx
          simp only [decide_eq_true_eq] at hx ⊢
          unfold Graph.unseen at hx ⊢
          simp only [vec_get_set] at hx
          by_cases hxe : x = e.1
          · rw [hxe]; exact ⟨c1, c2, c3⟩
          · simpa [hxe] using hx
      dsimp only
      rw [List.length_append, List.length_singleton]
      omega
  · exact ⟨hI, hu, le_rfl⟩

theorem visit_fold_gen (g0 : Graph) (U : List Int) (hU : ClosedUnder g0.wadj U) (s u : Int)
    (huU : u ∈ U) (l : List (Int × Int)) :
    ∀ (g : Graph) (q : List Int), BfsGen g0 U s g q → g0.Trail g s u →
      (∀ e ∈ l, e ∈ g0.wadj u) →
      BfsGen g0 U s (l.foldl (visitNeighbor u) (g, q)).1 (l.foldl (visitNeighbor u) (g, q)).2
        ∧ (l.foldl (visitNeighbor u) (g, q)).2.length
            + unseenCount U (l.foldl (visitNeighbor u) (g, q)).1
          ≤ q.length + unseenCount U g := by
  induction l with
  | nil => intro g q hI _ _; exact ⟨hI, le_rfl⟩
  | cons e rest ih =>
    intro g q hI hu hmem
    simp only [List.foldl]
    obtain ⟨h1, h2, h3⟩ := visitNeighbor_gen g0 U hU s u g q e hI hu huU (hmem e (by simp))
    have hrw : visitNeighbor u (g, q) e
        = ((visitNeighbor u (g, q) e).1, (visitNeighbor u (g, q) e).2) := rfl
    rw [hrw]
    obtain ⟨r1, r2⟩ := ih _ _ h1 h2 (fun e2 he2 => hmem e2 (by simp [he2]))
    exact ⟨r1, by omega⟩

/-- The loop of `BreadthFirstSearch` returns, given fuel above the length of the queue plus
the number of nodes it may still discover; obstacles are left alone, and when `found` is
set the end node has a trail. -/
theorem bfs_loop_gen (g0 : Graph) (U : List Int) (hU : ClosedUnder g0.wadj U) (s E : Int)
    (fuel : Nat) :
    ∀ (g : Graph) (q : List Int), BfsGen g0 U s g q → q.length + unseenCount U g < fuel →
      ∃ g2, BreadthFirstLoop fuel g q E = some g2 ∧ g0.ObstaclesKept g2
        ∧ (g2.found = 1 → g0.Trail g2 s E) := by
  induction fuel with
  | zero => intro g q _ h; omega
  | succ fuel ih =>
    intro g q hI hlt
    cases q with
    | nil =>
      refine ⟨g, rfl, hI.kept, fun h => ?_⟩
      rw [hI.found] at h
      exact absurd h (by decide)
    | cons u rest =>
      by_cases huE : u = E
      · refine ⟨{ g with found := 1 }, by simp [BreadthFirstLoop, huE], hI.kept, fun _ => ?_⟩
        rw [← huE]
        exact Trail.keep g0 g _ s u (hI.trail u (by simp)) (fun y _ => ⟨rfl, rfl⟩)
      · have hI2 : BfsGen g0 U s g rest :=
          ⟨hI.adj_eq, hI.src, hI.found, hI.kept, fun x hx => hI.trail x (by simp [hx]),
            fun x hx => hI.inU x (by simp [hx])⟩
        have hmem : ∀ e ∈ g.adj_weighted.get u, e ∈ g0.wadj u := by
          intro e he
          rw [hI.adj_eq] at he
          exact he
        obtain ⟨r1, r2⟩ := visit_fold_gen g0 U hU s u (hI.inU u (by simp))
          (g.adj_weighted.get u) g rest hI2 (hI.trail u (by simp)) hmem
        have hlen : (u :: rest).length = rest.length + 1 := rfl
        obtain ⟨g2, h1, h2⟩ := ih _ _ r1 (by omega)
        refine ⟨g2, ?_, h2⟩
        rw [BreadthFirstLoop, if_neg huE]
        exact h1

/-- The search `BreadthFirstSearch` from a node marked `Start` with `found` 0 returns,
leaves the obstacles alone, and when it sets `found` the end node has a trail. -/
theorem bfs_gen (g : Graph) (s E : Int) (hv : g.Valid) (hs : g.IsNode s) (hd : g.FreshDistance)
    (hf : g.found = 0) (hss : g.state.get s = Start) :
    ∃ fuel g2, BreadthFirstSearch fuel g s E (-1) = some g2 ∧ g.ObstaclesKept g2
      ∧ (g2.found = 1 → g.Trail g2 s E) := by
  have hso : ¬ g.IsObstacle s := by
    intro h; have := h.2; rw [hss] at this; exact absurd this (by decide)
  have hI : BfsGen g (intRange g.adj_weighted.size) s
      { g with distance := g.distance.set s 0, parent := g.parent.set s (-1) } [s] := by
    refine ⟨rfl, hss, hf, ⟨?_, ?_⟩, ?_, ?_⟩
    · intro o ho
      have hos : o ≠ s := by
        intro h; rw [h] at ho; exact hso ho
      show g.state.get o = Obstacle ∧ (g.distance.set s 0).get o = INF
      rw [vec_get_set, if_neg hos]
      exact ⟨ho.2, hd o⟩
    · intro x
      show (g.parent.set s (-1)).get x = _ ∨ ¬ g.IsObstacle ((g.parent.set s (-1)).get x)
      rw [vec_get_set]
      by_cases hx : x = s
      · rw [if_pos hx]
        right
        intro h
        have := h.1.1
        omega
      · rw [if_neg hx]; exact Or.inl rfl
    · intro x hx
      have hxs : x = s := by simpa using hx
      rw [hxs]
      exact ⟨0, ⟨rfl, fun m hm => absurd hm (by omega)⟩, fun m hm => absurd hm (by omega)⟩
    · intro x hx
      have hxs : x = s := by simpa using hx
      rw [hxs]; exact hs.mem
  obtain ⟨g2, h1, h2, h3⟩ := bfs_loop_gen g (intRange g.adj_weighted.size) hv.closed s E
    (([s] : List Int).length + unseenCount (intRange g.adj_weighted.size) { g with distance := g.distance.set s 0, parent := g.parent.set s (-1) } + 1)
    _ _ hI (Nat.lt_succ_self _)
  have hrun : BreadthFirstSearch (([s] : List Int).length + unseenCount (intRange g.adj_weighted.size) { g with distance := g.distance.set s 0, parent := g.parent.set s (-1) } + 1) g s E (-1) = some g2 := by
    unfold BreadthFirstSearch
    simp only [hss, ne_eq, not_true_eq_false, if_false]
    exact h1
  exact ⟨_, g2, hrun, h2, h3⟩

end Main

namespace Main

open NodeState

/-- Along a tree path the parent of the end node is a node of the path. -/
theorem parent_end_mem (par : Int → Int) (s : Int) (steps : List (Int × Int))
    (hp : ParOK par s steps) (hne : steps ≠ []) :
    par (walkEnd s steps) ∈ walkNodes s steps := by
  rcases List.eq_nil_or_concat steps with h | ⟨l, e, h⟩
  · exact absurd h hne
  · rw [List.concat_eq_append] at h
    subst h
    rw [parOK_snoc] at hp
    have hend : walkEnd s (l ++ [e]) = e.1 := by simp [walkEnd_append, walkEnd]
    rw [hend, hp.2, walkNodes_snoc]
    exact List.mem_append_left _ (walkEnd_mem s l)

/-- The search `DepthFirstSearch` from a node marked `Start` with `found` 0 returns, leaves
the obstacles alone, and when it sets `found` the call of `GetPath` returns a sequence
without obstacles. -/
theorem dfs_gen (g : Graph) (s E : Int) (hv : g.Valid) (hs : g.IsNode s) (hd : g.FreshDistance)
    (hf : g.found = 0) (hss : g.state.get s = Start) :
    ∃ fuel g2, DepthFirstSearch fuel g s E (-1) = some g2 ∧ g.ObstaclesKept g2
      ∧ (g2.found = 1 → g.PathClear g2 s E ∧ g2.PathGiven s E) := by
  obtain ⟨fuel, g2, hrun, hP⟩ := dfs_run g s E hv hs hf
  have hso : ¬ g.IsObstacle s := by
    intro h; have := h.2; rw [hss] at this; exact absurd this (by decide)
  have hwo : ∀ x, g.white x → ¬ g.IsObstacle x :=
    fun x hx ho => white_not_obstacle g x hx ho.2
  have hent : ∀ x, g.EnteredFrom g2 s x → ¬ g.IsObstacle x := by
    rintro x (h | h)
    · rw [h]; exact hso
    · exact hwo x h.1
  have hminus : ¬ g.IsObstacle (-1) := by
    intro h
    have := h.1.1
    omega
  refine ⟨fuel, g2, hrun, ⟨?_, ?_⟩, ?_⟩
  · intro o ho
    have hne : ¬ g.EnteredFrom g2 s o := fun h => hent o h ho
    rw [hP.inv.state_old o hne, hP.inv.dist_eq]
    exact ⟨ho.2, hd o⟩
  · intro x
    by_cases hx : g.EnteredFrom g2 s x
    · right
      by_cases hxs : x = s
      · rw [hxs, hP.inv.par_v]; exact hminus
      · obtain ⟨steps, _, hend, hpar, _, hall⟩ := hP.inv.chain x hx
        have hne : steps ≠ [] := by
          intro h
          rw [h] at hend
          exact hxs hend.symm
        have := parent_end_mem (fun y => g2.parent.get y) s steps hpar hne
        rw [hend] at this
        rcases List.mem_cons.1 this with h | h
        · show ¬ g.IsObstacle (g2.parent.get x)
          have h2 : g2.parent.get x = s := h
          rw [h2]; exact hso
        · exact hwo _ (hall _ h).1
    · exact Or.inl (hP.inv.par_old x hx)
  · intro h1
    rcases hP.inv.found with ⟨_, hE⟩ | ⟨h0, _⟩
    · obtain ⟨steps, _, hend, hpar, hnd, hall⟩ := hP.inv.chain E hE
      have hsb := stepsBack_of_chain g2 s steps hpar hnd
      have hcb := chainBack_of_chain g2 s steps hpar
      rw [hend] at hsb hcb
      refine ⟨pathClear_of_chain g g2 E s steps.length hsb ?_,
        pathGiven_of_stepsBack g2 E s steps.length hsb⟩
      intro m hm
      have hmem : g2.ancestor m E ∈ g2.chainBack steps.length E :=
        (mem_chainBack g2 steps.length E _).2 ⟨m, hm, rfl⟩
      rw [hcb, List.mem_reverse] at hmem
      exact hwo _ (hall _ hmem).1
    · rw [h0] at h1
      exact absurd h1 (by decide)

end Main

theorem sum_map_le (U : List Int) (f f2 : Int → Int) (h : ∀ x, f2 x ≤ f x) :
    (U.map f2).sum ≤ (U.map f).sum := by
  induction U with
  | nil => simp
  | cons a rest ih =>
    simp only [List.map_cons, List.sum_cons]
    have := h a
    omega

theorem sum_map_lt (U : List Int) (f f2 : Int → Int) (h : ∀ x, f2 x ≤ f x) (k : Int)
    (hk : k ∈ U) (hlt : f2 k < f k) : (U.map f2).sum < (U.map f).sum := by
  induction U with
  | nil => simp at hk
  | cons a rest ih =>
    simp only [List.map_cons, List.sum_cons]
    rcases List.mem_cons.1 hk with h1 | h1
    · have := sum_map_le rest f f2 h
      rw [← h1]
      omega
    · have := ih h1
      have := h a
      omega

theorem sum_map_nonneg (U : List Int) (f : Int → Int) (h : ∀ x, 0 ≤ f x) : 0 ≤ (U.map f).sum := by
  induction U with
  | nil => simp
  | cons a rest ih =>
    simp only [List.map_cons, List.sum_cons]
    have := h a
    omega

theorem wrapInt_range (x : Int) : -2147483648 ≤ wrapInt x ∧ wrapInt x ≤ 2147483647 := by
  unfold wrapInt
  omega

namespace Main

open NodeState

/-- One round of the `for` loop of `DijkstraQ`, whatever the weights are. -/
theorem relaxEdge_gen (g0 : Graph) (U : List Int) (hU : ClosedUnder g0.wadj U) (s u : Int)
    (g : Graph) (q : List (Int × Int)) (e : Int × Int) (hI : DqGen g0 U s g q)
    (hu : g.distance.get u < INF) (huU : u ∈ U) (he : e ∈ g0.wadj u) :
    DqGen g0 U s (relaxEdge u (g, q) e).1 (relaxEdge u (g, q) e).2
      ∧ (relaxEdge u (g, q) e).1.distance.get u < INF
      ∧ ((relaxEdge u (g, q) e).2.length : Int) + distSum U (relaxEdge u (g, q) e).1
          ≤ (q.length : Int) + distSum U g := by
  unfold relaxEdge
  simp only
  split_ifs with hc hrel
  · obtain ⟨c1, c2⟩ := hc
    simp only [] at hrel
    have heU : e.1 ∈ U := hU u huU e he
    have hes : e.1 ≠ s := by
      intro h; rw [h] at c2; exact c2 hI.src
    have hno : ¬ g0.IsObstacle e.1 := fun ho => c1 (hI.kept.1 e.1 ho).1
    have hnu : ¬ g0.IsObstacle u := by
      intro ho
      have := (hI.kept.1 u ho).2
      rw [this] at hu
      exact absurd hu (lt_irrefl _)
    have hw := wrapInt_range (g.distance.get u + e.2)
    have hre := hI.range e.1
    have hnew : wrapInt (g.distance.get u + e.2) < INF := lt_of_lt_of_le hrel hre.2
    have hle : ∀ x, (g.distance.set e.1 (wrapInt (g.distance.get u + e.2))).get x
        ≤ g.distance.get x := by
      intro x
      rw [vec_get_set]
      split_ifs with hx
      · rw [hx]; exact le_of_lt hrel
      · exact le_rfl
    refine ⟨⟨hI.adj_eq, ?_, hI.found, ⟨?_, ?_⟩, ?_, ?_, ?_, ?_⟩, ?_, ?_⟩
    · show (g.state.set e.1 Visited).get s = Start
      rw [vec_get_set, if_neg (fun h => hes h.symm)]
      exact hI.src
    · intro o ho
      have hoe : o ≠ e.1 := by
        intro h; rw [h] at ho; exact hno ho
      show (g.state.set e.1 Visited).get o = Obstacle ∧ (g.distance.set e.1 _).get o = INF
      simp only [vec_get_set, if_neg hoe]
      exact hI.kept.1 o ho
    · intro x
      show (g.parent.set e.1 u).get x = _ ∨ ¬ g0.IsObstacle ((g.parent.set e.1 u).get x)
      rw [vec_get_set]
      by_cases hx : x = e.1
      · rw [if_pos hx]; exact Or.inr hnu
      · rw [if_neg hx]; exact hI.kept.2 x
    · intro x
      show _ ≤ (g.distance.set e.1 _).get x ∧ (g.distance.set e.1 _).get x ≤ INF
      rw [vec_get_set]
      split_ifs with hx
      · exact ⟨hw.1, le_of_lt hnew⟩
      · exact hI.range x
    · intro x hx
      have hfin : ∀ y, g.distance.get y < INF →
          (g.distance.set e.1 (wrapInt (g.distance.get u + e.2))).get y < INF :=
        fun y hy => lt_of_le_of_lt (hle y) hy
      show x = s ∨ (g.distance.set e.1 _).get ((g.parent.set e.1 u).get x) < INF
      have hx2 : (g.distance.set e.1 (wrapInt (g.distance.get u + e.2))).get x < INF := hx
      by_cases hxe : x = e.1
      · right
        rw [vec_get_set (g.parent), if_pos hxe]
        exact hfin u hu
      · rw [vec_get_set (g.parent), if_neg hxe]
        rw [vec_get_set, if_neg hxe] at hx2
        rcases hI.fin x hx2 with h | h
        · exact Or.inl h
        · exact Or.inr (hfin _ h)
    · intro p hp
      show (g.distance.set e.1 _).get p.2 < INF
      rcases (mem_heapPush _ p q).1 hp with h | h
      · rw [h, vec_get_set, if_pos rfl]; exact hnew
      · exact lt_of_le_of_lt (hle p.2) (hI.que_fin p h)
    · intro p hp
      rcases (mem_heapPush _ p q).1 hp with h | h
      · rw [h]; exact heU
      · exact hI.inU p h
    · exact lt_of_le_of_lt (hle u) hu
    · have hsum : distSum U { g with state := g.state.set e.1 Visited, distance := g.distance.set e.1 (wrapInt (g.distance.get u + e.2)), parent := g.parent.set e.1 u }
          < distSum U g := by
        unfold distSum
        apply sum_map_lt U _ _ _ e.1 heU
        · show (g.distance.set e.1 _).get e.1 + 2147483648 < g.distance.get e.1 + 2147483648
          rw [vec_get_set, if_pos rfl]
          omega
        · intro x
          have := hle x
          show (g.distance.set e.1 _).get x + 2147483648 ≤ g.distance.get x + 2147483648
          omega
      dsimp only
      rw [length_heapPush]
      push_cast
      omega
  · obtain ⟨c1, c2⟩ := hc
    have hes : e.1 ≠ s := by
      intro h; rw [h] at c2; exact c2 hI.src
    have hno : ¬ g0.IsObstacle e.1 := fun ho => c1 (hI.kept.1 e.1 ho).1
    refine ⟨⟨hI.adj_eq, ?_, hI.found, ⟨?_, hI.kept.2⟩, hI.range, hI.fin, hI.que_fin, hI.inU⟩,
      hu, le_rfl⟩
    · show (g.state.set e.1 Visited).get s = Start
      rw [vec_get_set, if_neg (fun h => hes h.symm)]
      exact hI.src
    · intro o ho
      have hoe : o ≠ e.1 := by
        intro h; rw [h] at ho; exact hno ho
      show (g.state.set e.1 Visited).get o = Obstacle ∧ g.distance.get o = INF
      rw [vec_get_set, if_neg hoe]
      exact hI.kept.1 o ho
  · exact ⟨hI, hu, le_rfl⟩

theorem relax_fold_gen (g0 : Graph) (U : List Int) (hU : ClosedUnder g0.wadj U) (s u : Int)
    (huU : u ∈ U) (l : List (Int × Int)) :
    ∀ (g : Graph) (q : List (Int × Int)), DqGen g0 U s g q → g.distance.get u < INF →
      (∀ e ∈ l, e ∈ g0.wadj u) →
      DqGen g0 U s (l.foldl (relaxEdge u) (g, q)).1 (l.foldl (relaxEdge u) (g, q)).2
        ∧ ((l.foldl (relaxEdge u) (g, q)).2.length : Int)
            + distSum U (l.foldl (relaxEdge u) (g, q)).1
          ≤ (q.length : Int) + distSum U g := by
  induction l with
  | nil => intro g q hI _ _; exact ⟨hI, le_rfl⟩
  | cons e rest ih =>
    intro g q hI hu hmem
    simp only [List.foldl]
    obtain ⟨h1, h2, h3⟩ := relaxEdge_gen g0 U hU s u g q e hI hu huU (hmem e (by simp))
    have hrw : relaxEdge u (g, q) e
        = ((relaxEdge u (g, q) e).1, (relaxEdge u (g, q) e).2) := rfl
    rw [hrw]
    obtain ⟨r1, r2⟩ := ih _ _ h1 h2 (fun e2 he2 => hmem e2 (by simp [he2]))
    exact ⟨r1, by omega⟩

theorem distSum_nonneg (U : List Int) (g : Graph)
    (h : ∀ x, -2147483648 ≤ g.distance.get x ∧ g.distance.get x ≤ INF) : 0 ≤ distSum U g := by
  unfold distSum
  apply sum_map_nonneg
  intro x
  have := (h x).1
  omega

/-- The loop of `DijkstraQ` returns, given fuel above the length of the queue plus the sum
of the distance entries; obstacles are left alone, and every node with a distance below
`0x7FFFFFFF` other than `s` has a parent with such a distance. -/
theorem dq_loop_gen (g0 : Graph) (U : List Int) (hU : ClosedUnder g0.wadj U) (s E : Int)
    (fuel : Nat) :
    ∀ (g : Graph) (q : List (Int × Int)), DqGen g0 U s g q →
      (q.length : Int) + distSum U g < fuel →
      ∃ g2, DijkstraQLoop fuel g q E = some g2 ∧ g0.ObstaclesKept g2
        ∧ (∀ x, g2.distance.get x < INF → x = s ∨ g2.distance.get (g2.parent.get x) < INF)
        ∧ (g2.found = 1 → g2.distance.get E < INF) := by
  induction fuel with
  | zero =>
    intro g q hI h
    have := distSum_nonneg U g hI.range
    have : (0 : Int) ≤ q.length := Int.natCast_nonneg _
    simp only [Nat.cast_zero] at h
    omega
  | succ fuel ih =>
    intro g q hI hlt
    cases q with
    | nil =>
      refine ⟨g, rfl, hI.kept, hI.fin, fun h => ?_⟩
      rw [hI.found] at h
      exact absurd h (by decide)
    | cons top rest =>
      by_cases huE : top.2 = E
      · refine ⟨{ g with found := 1 }, by simp [DijkstraQLoop, huE], hI.kept, hI.fin, fun _ => ?_⟩
        rw [← huE]
        exact hI.que_fin top (by simp)
      · have hI2 : DqGen g0 U s g rest :=
          ⟨hI.adj_eq, hI.src, hI.found, hI.kept, hI.range, hI.fin,
            fun x hx => hI.que_fin x (by simp [hx]), fun x hx => hI.inU x (by simp [hx])⟩
        have hmem : ∀ e ∈ g.adj_weighted.get top.2, e ∈ g0.wadj top.2 := by
          intro e he
          rw [hI.adj_eq] at he
          exact he
        obtain ⟨r1, r2⟩ := relax_fold_gen g0 U hU s top.2 (hI.inU top (by simp))
          (g.adj_weighted.get top.2) g rest hI2 (hI.que_fin top (by simp)) hmem
        have hlen : (((top :: rest).length : Nat) : Int) = (rest.length : Int) + 1 := by
          simp
        obtain ⟨g2, h1, h2⟩ := ih _ _ r1 (by push_cast at hlt ⊢; omega)
        refine ⟨g2, ?_, h2⟩
        rw [DijkstraQLoop]
        simp only [huE, if_false]
        exact h1

end Main

namespace Main

open NodeState

/-- More fuel does not change what the loop of `DijkstraQ` returns. -/
theorem dqLoop_mono (E : Int) (fuel : Nat) :
    ∀ (g : Graph) (q : List (Int × Int)) (r : Graph) (k : Nat),
      DijkstraQLoop fuel g q E = some r → DijkstraQLoop (fuel + k) g q E = some r := by
  induction fuel with
  | zero => intro g q r k h; simp [DijkstraQLoop] at h
  | succ fuel ih =>
    intro g q r k h
    rw [Nat.succ_add]
    cases q with
    | nil => simpa [DijkstraQLoop] using h
    | cons top rest =>
      rw [DijkstraQLoop] at h ⊢
      by_cases huE : top.2 = E
      · simpa [huE] using h
      · simp only [huE, if_false] at h ⊢
        exact ih _ _ r k h

theorem dijkstraQ_det (g : Graph) (s E root : Int) (a b : Nat) (r1 r2 : Graph)
    (h1 : DijkstraQ a g s E root = some r1) (h2 : DijkstraQ b g s E root = some r2) :
    r1 = r2 := by
  unfold DijkstraQ at h1 h2
  have e1 := dqLoop_mono E a _ _ r1 b h1
  have e2 := dqLoop_mono E b _ _ r2 a h2
  rw [Nat.add_comm] at e2
  rw [e1] at e2
  exact Option.some.inj e2

/-- The search `DijkstraQ` from a node marked `Start` on fresh distance entries with
`found` 0 returns whatever the weights are, leaves the obstacles alone, and when it sets
`found` no sequence `GetPath` returns holds an obstacle. -/
theorem dq_gen (g : Graph) (s E : Int) (hv : g.Valid) (hs : g.IsNode s) (hd : g.FreshDistance)
    (hf : g.found = 0) (hss : g.state.get s = Start) :
    ∃ fuel g2, DijkstraQ fuel g s E (-1) = some g2 ∧ g.ObstaclesKept g2
      ∧ (g2.found = 1 → g.PathClear g2 s E) := by
  have hso : ¬ g.IsObstacle s := by
    intro h; have := h.2; rw [hss] at this; exact absurd this (by decide)
  have hI : DqGen g (intRange g.adj_weighted.size) s
      { g with distance := g.distance.set s 0, parent := g.parent.set s (-1) }
      (heapPush (0, s) []) := by
    refine ⟨rfl, hss, hf, ⟨?_, ?_⟩, ?_, ?_, ?_, ?_⟩
    · intro o ho
      have hos : o ≠ s := by
        intro h; rw [h] at ho; exact hso ho
      show g.state.get o = Obstacle ∧ (g.distance.set s 0).get o = INF
      rw [vec_get_set, if_neg hos]
      exact ⟨ho.2, hd o⟩
    · intro x
      show (g.parent.set s (-1)).get x = _ ∨ ¬ g.IsObstacle ((g.parent.set s (-1)).get x)
      rw [vec_get_set]
      by_cases hx : x = s
      · rw [if_pos hx]
        right
        intro h
        have := h.1.1
        omega
      · rw [if_neg hx]; exact Or.inl rfl
    · intro x
      show _ ≤ (g.distance.set s 0).get x ∧ (g.distance.set s 0).get x ≤ INF
      rw [vec_get_set]
      split_ifs
      · unfold INF; omega
      · rw [hd x]; unfold INF; omega
    · intro x hx
      have hx2 : (g.distance.set s 0).get x < INF := hx
      by_contra hne
      push_neg at hne
      rw [vec_get_set, if_neg hne.1, hd x] at hx2
      exact absurd hx2 (lt_irrefl _)
    · intro p hp
      have hps : p = (0, s) := by simpa [heapPush] using hp
      show (g.distance.set s 0).get p.2 < INF
      rw [hps, vec_get_set, if_pos rfl]
      unfold INF; omega
    · intro p hp
      have hps : p = (0, s) := by simpa [heapPush] using hp
      rw [hps]; exact hs.mem
  have hnn := distSum_nonneg (intRange g.adj_weighted.size) _ hI.range
  obtain ⟨g2, h1, h2, h3, h4⟩ := dq_loop_gen g (intRange g.adj_weighted.size) hv.closed s E
    ((((heapPush (0, s) []).length : Int) + distSum (intRange g.adj_weighted.size) { g with distance := g.distance.set s 0, parent := g.parent.set s (-1) }).toNat + 1)
    _ _ hI (by push_cast; omega)
  have hrun : DijkstraQ ((((heapPush (0, s) []).length : Int) + distSum (intRange g.adj_weighted.size) { g with distance := g.distance.set s 0, parent := g.parent.set s (-1) }).toNat + 1) g s E (-1) = some g2 := h1
  refine ⟨_, g2, hrun, h2, ?_⟩
  intro hfound fuel path g3 hget o ho
  obtain ⟨n, hn, hall⟩ := getPath_sound g2 E s fuel path g3 hget
  obtain ⟨m, hm, rfl⟩ := hall o ho
  have hfin : ∀ j, j < n → g2.distance.get (g2.ancestor j E) < INF := by
    intro j
    induction j with
    | zero => intro _; exact h4 hfound
    | succ j ih =>
      intro hj
      rw [ancestor_succ]
      rcases h3 _ (ih (by omega)) with h | h
      · exact absurd h (hn.2 j (by omega))
      · exact h
  intro hobs
  have := (h2.1 _ hobs).2
  have hlt := hfin m hm
  rw [this] at hlt
  exact absurd hlt (lt_irrefl _)

/-- With non-negative weights and path sums below `0x7FFFFFFF`, also when continued by one
more edge, after `DijkstraQ` has set `found` the call of `GetPath` returns. -/
theorem dq_path_given (g g2 : Graph) (s E : Int) (fuel : Nat) (hv : g.Valid) (hs : g.IsNode s)
    (hd : g.FreshDistance) (hf : g.found = 0) (hss : g.state.get s = Start)
    (hrun : DijkstraQ fuel g s E (-1) = some g2) (hfound : g2.found = 1)
    (hw : NonNegWeights g.wadj) (hb : PathPlusEdgeBelow g.wadj (fun _ => True) s)
    (hst : g.OnlyStart s) : g2.PathGiven s E := by
  by_cases hne : E = s
  · exact pathGiven_of_stepsBack g2 E s 0 ⟨hne, fun m hm => absurd hm (by omega)⟩
  · obtain ⟨fuel2, g4, st2, hrun2, hI, hdist, hpar, hfs, hfE, hexit, _⟩ :=
      dijkstraQ_correct g s E (-1) hv hs hw hb hd hss hst hne hf
    have hsame : g2 = g4 := dijkstraQ_det g s E (-1) fuel fuel2 g2 g4 hrun hrun2
    subst hsame
    obtain ⟨hdE, hmin⟩ := hexit hfound
    obtain ⟨⟨c, hc⟩, _⟩ := hI.dist_exit_optimal hw hfs E hfE hdE hmin
    have hp : ParOK (fun v => g2.parent.get v) s c := by
      have : (fun v => g2.parent.get v) = st2.par := funext hpar
      rw [this]; exact hc.parent
    have hsb := stepsBack_of_chain g2 s c hp hc.nodup
    rw [hc.last] at hsb
    exact pathGiven_of_stepsBack g2 E s c.length hsb

end Main

namespace Main

open NodeState

/-- C16, as amended: for each of BreadthFirstSearch, DepthFirstSearch and DijkstraQ, on
every graph with fresh distance entries (0x7FFFFFFF) whose Source is marked Start and whose
found is initially 0, the traversal returns, every node that is in state Obstacle before
the traversal is still in state Obstacle afterwards and still has distance 0x7FFFFFFF,
every parent entry is either as it was or names a node that is no obstacle, and when the
traversal ends with found = 1 no obstacle occurs in a sequence returned by
GetPath(graph, EndNode, Source); that call returns after BreadthFirstSearch and
DepthFirstSearch, and after DijkstraQ when the weights are non-negative, every path sum
from Source, also when continued by one more edge, is below 0x7FFFFFFF and Source is the
only node marked Start. -/
theorem obstacle_exclusion (g : Graph) (Source EndNode : Int) (hv : g.Valid)
    (hs : g.IsNode Source) (hd : g.FreshDistance) (hf : g.found = 0)
    (hss : g.state.get Source = Start) :
    (∃ fuel g2, BreadthFirstSearch fuel g Source EndNode (-1) = some g2 ∧ g.ObstaclesKept g2
        ∧ (g2.found = 1 → g.PathClear g2 Source EndNode ∧ g2.PathGiven Source EndNode)) ∧
      (∃ fuel g2, DepthFirstSearch fuel g Source EndNode (-1) = some g2 ∧ g.ObstaclesKept g2
        ∧ (g2.found = 1 → g.PathClear g2 Source EndNode ∧ g2.PathGiven Source EndNode)) ∧
      (∃ fuel g2, DijkstraQ fuel g Source EndNode (-1) = some g2 ∧ g.ObstaclesKept g2
        ∧ (g2.found = 1 → g.PathClear g2 Source EndNode ∧
            (NonNegWeights g.wadj → PathPlusEdgeBelow g.wadj (fun _ => True) Source →
              g.OnlyStart Source → g2.PathGiven Source EndNode))) := by
  refine ⟨?_, dfs_gen g Source EndNode hv hs hd hf hss, ?_⟩
  · obtain ⟨fuel, g2, h1, h2, h3⟩ := bfs_gen g Source EndNode hv hs hd hf hss
    exact ⟨fuel, g2, h1, h2, fun h => Trail.clear g g2 Source EndNode (h3 h)⟩
  · obtain ⟨fuel, g2, h1, h2, h3⟩ := dq_gen g Source EndNode hv hs hd hf hss
    refine ⟨fuel, g2, h1, h2, fun h => ⟨h3 h, fun hw hb hst => ?_⟩⟩
    exact dq_path_given g g2 Source EndNode fuel hv hs hd hf hss h1 h hw hb hst

theorem walled_fresh : walled.FreshDistance :=
  (marked_fresh 4 [(0, 1, 1), (1, 3, 1), (0, 2, 1), (2, 3, 1)] 0 3 (by decide)).2.1

/-- C16 on four nodes in a square, 0 - 1 - 3 and 0 - 2 - 3, node 1 an obstacle, from node 0
to node 3: the hypotheses hold and the theorem applies; each of the three traversals ends
with found = 1, node 1 still Obstacle with distance 2147483647, and GetPath returns
[2, 3]. -/
theorem obstacle_exclusion_witness :
    walled.IsObstacle 1 ∧
      (∃ g2 r, BreadthFirstSearch 5 walled 0 3 (-1) = some g2 ∧ g2.found = 1
        ∧ g2.state.get 1 = Obstacle ∧ g2.distance.get 1 = 2147483647
        ∧ GetPath 5 g2 3 0 = some r ∧ r.1 = [2, 3]) ∧
      (∃ g2 r, DepthFirstSearch 5 walled 0 3 (-1) = some g2 ∧ g2.found = 1
        ∧ g2.state.get 1 = Obstacle ∧ g2.distance.get 1 = 2147483647
        ∧ GetPath 5 g2 3 0 = some r ∧ r.1 = [2, 3]) ∧
      (∃ g2 r, DijkstraQ 5 walled 0 3 (-1) = some g2 ∧ g2.found = 1
        ∧ g2.state.get 1 = Obstacle ∧ g2.distance.get 1 = 2147483647
        ∧ GetPath 5 g2 3 0 = some r ∧ r.1 = [2, 3]) ∧
      ((∃ fuel g2, BreadthFirstSearch fuel walled 0 3 (-1) = some g2 ∧ walled.ObstaclesKept g2
          ∧ (g2.found = 1 → walled.PathClear g2 0 3 ∧ g2.PathGiven 0 3)) ∧
        (∃ fuel g2, DepthFirstSearch fuel walled 0 3 (-1) = some g2 ∧ walled.ObstaclesKept g2
          ∧ (g2.found = 1 → walled.PathClear g2 0 3 ∧ g2.PathGiven 0 3)) ∧
        (∃ fuel g2, DijkstraQ fuel walled 0 3 (-1) = some g2 ∧ walled.ObstaclesKept g2
          ∧ (g2.found = 1 → walled.PathClear g2 0 3 ∧
              (NonNegWeights walled.wadj → PathPlusEdgeBelow walled.wadj (fun _ => True) 0 →
                walled.OnlyStart 0 → g2.PathGiven 0 3)))) :=
  ⟨by decide, ⟨_, _, rfl, by decide, by decide, by decide, rfl, by decide⟩,
    ⟨_, _, rfl, by decide, by decide, by decide, rfl, by decide⟩,
    ⟨_, _, rfl, by decide, by decide, by decide, rfl, by decide⟩,
    obstacle_exclusion walled 0 3 (by decide) (by decide) walled_fresh (by decide) (by decide)⟩

theorem staleTrail_fresh : staleTrail.FreshDistance :=
  (emptyGraph_fresh 3 [(0, 1, 1), (1, 2, 1)]).1

/-- C16 as stated fails on a graph that still carries found = 1 and the parent entries of
an earlier search: on three nodes in a row with fresh distance entries, node 0 marked
Start, node 1 an obstacle, parent[2] = 1 and parent[1] = 0, each of the three traversals
from node 0 ends with found = 1 and GetPath(graph, 2, 0) then returns [1, 2], which holds
the obstacle. -/
theorem obstacle_exclusion_counterexample :
    staleTrail.FreshDistance ∧ staleTrail.state.get 0 = Start ∧ staleTrail.IsObstacle 1 ∧
      (∃ g2 r, BreadthFirstSearch 5 staleTrail 0 2 (-1) = some g2 ∧ g2.found = 1
        ∧ GetPath 5 g2 2 0 = some r ∧ r.1 = [1, 2] ∧ 1 ∈ r.1) ∧
      (∃ g2 r, DepthFirstSearch 5 staleTrail 0 2 (-1) = some g2 ∧ g2.found = 1
        ∧ GetPath 5 g2 2 0 = some r ∧ r.1 = [1, 2] ∧ 1 ∈ r.1) ∧
      (∃ g2 r, DijkstraQ 5 staleTrail 0 2 (-1) = some g2 ∧ g2.found = 1
        ∧ GetPath 5 g2 2 0 = some r ∧ r.1 = [1, 2] ∧ 1 ∈ r.1) :=
  ⟨staleTrail_fresh, by decide, by decide,
    ⟨_, _, rfl, by decide, rfl, by decide, by decide⟩,
    ⟨_, _, rfl, by decide, rfl, by decide, by decide⟩,
    ⟨_, _, rfl, by decide, rfl, by decide, by decide⟩⟩

end Main

namespace Main

open NodeState

theorem MarksKept.same (g g2 : Graph) (h : g2.state = g.state) : g.MarksKept g2 := by
  intro v
  rw [h]
  exact ⟨id, id⟩

theorem MarksKept.chain (g g2 g3 : Graph) (h1 : g.MarksKept g2) (h2 : g2.MarksKept g3) :
    g.MarksKept g3 :=
  fun v => ⟨fun h => (h1 v).1 ((h2 v).1 h), fun h => (h1 v).2 ((h2 v).2 h)⟩

/-- Writing a state other than `Start` and `End` keeps the markers. -/
theorem MarksKept.write (g g2 : Graph) (i : Int) (st : NodeState)
    (h : g2.state = g.state.set i st) (h1 : st ≠ Start) (h2 : st ≠ End) : g.MarksKept g2 := by
  intro v
  rw [h, vec_get_set]
  split_ifs with hv
  · exact ⟨fun e => absurd e h1, fun e => absurd e h2⟩
  · exact ⟨id, id⟩

/-- The routine `update_node_weight` leaves the states as they are. -/
theorem update_keeps_state (fuel : Nat) :
    ∀ (g : Graph) (n wt src : Int) (g2 : Graph),
      Graph.update_node_weight fuel g n wt src = some g2 → g2.state = g.state := by
  induction fuel with
  | zero => intro g n wt src g2 h; simp [Graph.update_node_weight] at h
  | succ fuel ih =>
    intro g n wt src g2 h
    rw [Graph.update_node_weight] at h
    have hfold : ∀ (is : List Nat) (a b : Graph),
        is.foldlM (updateEntry (Graph.update_node_weight fuel) n wt src) a = some b →
        b.state = a.state := by
      intro is
      induction is with
      | nil =>
        intro a b hab
        simp only [List.foldlM_nil] at hab
        have : a = b := Option.some.inj hab
        rw [this]
      | cons i rest ihl =>
        intro a b hab
        rw [List.foldlM_cons] at hab
        cases hstep : updateEntry (Graph.update_node_weight fuel) n wt src a i with
        | none => rw [hstep] at hab; simp at hab
        | some c =>
          rw [hstep] at hab
          have hc : c.state = a.state := by
            unfold updateEntry at hstep
            simp only at hstep
            split_ifs at hstep with h1 h2
            · have : a = c := Option.some.inj hstep
              rw [this]
            · cases hcall : Graph.update_node_weight fuel { a with adj_weighted := a.adj_weighted.set n ((a.adj_weighted.get n).set i (((a.adj_weighted.get n).getD i (0, 0)).1, wt)) } ((a.adj_weighted.get n).getD i (0, 0)).1 wt n with
              | none => rw [hcall] at hstep; simp at hstep
              | some d =>
                rw [hcall] at hstep
                have hd : d.state = a.state := ih { a with adj_weighted := a.adj_weighted.set n ((a.adj_weighted.get n).set i (((a.adj_weighted.get n).getD i (0, 0)).1, wt)) } _ _ _ d hcall
                simp only [Option.some_bind] at hstep
                split_ifs at hstep
                · have : _ = c := Option.some.inj hstep
                  rw [← this]; exact hd
                · have : d = c := Option.some.inj hstep
                  rw [← this]; exact hd
            · simp only [Option.some_bind] at hstep
              split_ifs at hstep
              · have : _ = c := Option.some.inj hstep
                rw [← this]
              · have : a = c := Option.some.inj hstep
                rw [this]
          exact (ihl c b hab).trans hc
    exact hfold _ g g2 h

theorem visitNeighbor_marks (u : Int) (g : Graph) (q : List Int) (e : Int × Int) :
    g.MarksKept (visitNeighbor u (g, q) e).1 := by
  unfold visitNeighbor
  simp only
  split_ifs
  · exact MarksKept.write g _ e.1 Visited rfl (by decide) (by decide)
  · exact MarksKept.same g g rfl

theorem visit_fold_marks (u : Int) (l : List (Int × Int)) :
    ∀ (g : Graph) (q : List Int), g.MarksKept (l.foldl (visitNeighbor u) (g, q)).1 := by
  induction l with
  | nil => intro g q; exact MarksKept.same g g rfl
  | cons e rest ih =>
    intro g q
    simp only [List.foldl]
    have hrw : visitNeighbor u (g, q) e
        = ((visitNeighbor u (g, q) e).1, (visitNeighbor u (g, q) e).2) := rfl
    rw [hrw]
    exact MarksKept.chain _ _ _ (visitNeighbor_marks u g q e) (ih _ _)

theorem bfs_loop_marks (E : Int) (fuel : Nat) :
    ∀ (g : Graph) (q : List Int) (g2 : Graph), BreadthFirstLoop fuel g q E = some g2 →
      g.MarksKept g2 := by
  induction fuel with
  | zero => intro g q g2 h; simp [BreadthFirstLoop] at h
  | succ fuel ih =>
    intro g q g2 h
    cases q with
    | nil =>
      have : g = g2 := by simpa [BreadthFirstLoop] using h
      rw [this]; exact MarksKept.same g2 g2 rfl
    | cons u rest =>
      rw [BreadthFirstLoop] at h
      split_ifs at h with huE
      · have : _ = g2 := Option.some.inj h
        rw [← this]; exact MarksKept.same g _ rfl
      · exact MarksKept.chain _ _ _ (visit_fold_marks u _ g rest) (ih _ _ g2 h)

/-- The search `BreadthFirstSearch` makes no node `Start` or `End`. -/
theorem bfs_marks (fuel : Nat) (g : Graph) (s E root : Int) (g2 : Graph)
    (h : BreadthFirstSearch fuel g s E root = some g2) : g.MarksKept g2 := by
  unfold BreadthFirstSearch at h
  simp only at h
  refine MarksKept.chain _ _ _ ?_ (bfs_loop_marks E fuel _ _ g2 h)
  split_ifs
  · exact MarksKept.write g _ s Visited rfl (by decide) (by decide)
  · exact MarksKept.same g _ rfl

theorem relaxEdge_marks (u : Int) (g : Graph) (q : List (Int × Int)) (e : Int × Int) :
    g.MarksKept (relaxEdge u (g, q) e).1 := by
  unfold relaxEdge
  simp only
  split_ifs
  · exact MarksKept.write g _ e.1 Visited rfl (by decide) (by decide)
  · exact MarksKept.write g _ e.1 Visited rfl (by decide) (by decide)
  · exact MarksKept.same g g rfl

theorem relax_fold_marks (u : Int) (l : List (Int × Int)) :
    ∀ (g : Graph) (q : List (Int × Int)), g.MarksKept (l.foldl (relaxEdge u) (g, q)).1 := by
  induction l with
  | nil => intro g q; exact MarksKept.same g g rfl
  | cons e rest ih =>
    intro g q
    simp only [List.foldl]
    have hrw : relaxEdge u (g, q) e
        = ((relaxEdge u (g, q) e).1, (relaxEdge u (g, q) e).2) := rfl
    rw [hrw]
    exact MarksKept.chain _ _ _ (relaxEdge_marks u g q e) (ih _ _)

theorem dq_loop_marks (E : Int) (fuel : Nat) :
    ∀ (g : Graph) (q : List (Int × Int)) (g2 : Graph), DijkstraQLoop fuel g q E = some g2 →
      g.MarksKept g2 := by
  induction fuel with
  | zero => intro g q g2 h; simp [DijkstraQLoop] at h
  | succ fuel ih =>
    intro g q g2 h
    cases q with
    | nil =>
      have : g = g2 := by simpa [DijkstraQLoop] using h
      rw [this]; exact MarksKept.same g2 g2 rfl
    | cons top rest =>
      rw [DijkstraQLoop] at h
      simp only at h
      split_ifs at h with huE
      · have : _ = g2 := Option.some.inj h
        rw [← this]; exact MarksKept.same g _ rfl
      · exact MarksKept.chain _ _ _ (relax_fold_marks top.2 _ g rest) (ih _ _ g2 h)

/-- The search `DijkstraQ` makes no node `Start` or `End`. -/
theorem dq_marks (fuel : Nat) (g : Graph) (s E root : Int) (g2 : Graph)
    (h : DijkstraQ fuel g s E root = some g2) : g.MarksKept g2 := by
  unfold DijkstraQ at h
  simp only at h
  exact MarksKept.chain g { g with distance := g.distance.set s 0, parent := g.parent.set s root } g2
    (MarksKept.same g _ rfl) (dq_loop_marks E fuel _ _ g2 h)

/-- The search `DepthFirstSearch` makes no node `Start` or `End`. -/
theorem dfs_marks (fuel : Nat) :
    ∀ (g : Graph) (v E p : Int) (g2 : Graph), DepthFirstSearch fuel g v E p = some g2 →
      g.MarksKept g2 := by
  induction fuel with
  | zero => intro g v E p g2 h; simp [DepthFirstSearch] at h
  | succ fuel ih =>
    intro g v E p g2 h
    rw [DepthFirstSearch] at h
    simp only at h
    have hmark : g.MarksKept { g with state := g.state.set v Visited, parent := g.parent.set v p } :=
      MarksKept.write g _ v Visited rfl (by decide) (by decide)
    split_ifs at h with hvE
    · have : _ = g2 := Option.some.inj h
      rw [← this]
      exact MarksKept.write g _ v Visited rfl (by decide) (by decide)
    · have hfold : ∀ (is : List Nat) (a b : Graph),
          is.foldlM (dfsEntry (DepthFirstSearch fuel) v E) a = some b → a.MarksKept b := by
        intro is
        induction is with
        | nil =>
          intro a b hab
          simp only [List.foldlM_nil] at hab
          have : a = b := Option.some.inj hab
          rw [this]; exact MarksKept.same b b rfl
        | cons i rest ihl =>
          intro a b hab
          rw [List.foldlM_cons] at hab
          cases hstep : dfsEntry (DepthFirstSearch fuel) v E a i with
          | none => rw [hstep] at hab; simp at hab
          | some c =>
            rw [hstep] at hab
            have hc : a.MarksKept c := by
              unfold dfsEntry at hstep
              simp only at hstep
              split_ifs at hstep
              · have : a = c := Option.some.inj hstep
                rw [this]; exact MarksKept.same c c rfl
              · exact ih _ _ _ _ c hstep
              · have : a = c := Option.some.inj hstep
                rw [this]; exact MarksKept.same c c rfl
            exact MarksKept.chain _ _ _ hc (ihl c b hab)
      exact MarksKept.chain _ _ _ hmark (hfold _ _ g2 h)

theorem getPathLoop_marks (s : Int) (fuel : Nat) :
    ∀ (g : Graph) (v : Int) (path : List Int) (r : List Int × Graph),
      GetPathLoop fuel g v s path = some r → g.MarksKept r.2 := by
  induction fuel with
  | zero => intro g v path r h; simp [GetPathLoop] at h
  | succ fuel ih =>
    intro g v path r h
    rw [GetPathLoop] at h
    split_ifs at h with hv
    · exact MarksKept.chain _ _ _
        (MarksKept.write g _ (g.parent.get v) NodeState.Path rfl (by decide) (by decide))
        (ih _ _ _ r h)
    · have : (path, g) = r := Option.some.inj h
      rw [← this]; exact MarksKept.same g g rfl

/-- After `GetPath` the destination is `End`, the source is `Start` unless it is the
destination, and no other node is `Start` or `End` unless it was. -/
theorem getPath_marks (fuel : Nat) (g : Graph) (d s : Int) (r : List Int × Graph)
    (h : GetPath fuel g d s = some r) :
    ∀ v, (r.2.state.get v = Start → v = s ∨ g.state.get v = Start)
      ∧ (r.2.state.get v = End → v = d ∨ g.state.get v = End) := by
  unfold GetPath at h
  cases hl : GetPathLoop fuel g d s [] with
  | none => rw [hl] at h; simp at h
  | some r1 =>
    rw [hl] at h
    simp only [Option.map_some', Option.some.injEq] at h
    have hk := getPathLoop_marks s fuel g d [] r1 hl
    intro v
    rw [← h]
    show (((r1.2.state.set s Start).set d End).get v = Start → _)
      ∧ (((r1.2.state.set s Start).set d End).get v = End → _)
    simp only [vec_get_set]
    by_cases hvd : v = d
    · simp only [hvd, if_true]
      exact ⟨fun e => absurd e (by decide), fun _ => Or.inl trivial⟩
    · by_cases hvs : v = s
      · subst hvs
        simp only [if_neg hvd, if_true]
        exact ⟨fun _ => Or.inl trivial, fun e => absurd e (by decide)⟩
      · simp only [if_neg hvd, if_neg hvs]
        exact ⟨fun e => Or.inr ((hk v).1 e), fun e => Or.inr ((hk v).2 e)⟩

end Main

namespace Main

open NodeState

theorem addCell_state (W H : Int) (g : Graph) (c y x : Int) :
    (addCell W H g c y x).state = g.state := by
  unfold addCell
  simp only
  split_ifs <;> rfl

theorem buildLattice_state (W H : Int) :
    (buildLattice W H).state = Vec.filled (wrapInt (H * W)) NodeState.Empty := by
  unfold buildLattice
  simp only
  have inner : ∀ (y : Int) (l : List Int) (st : Graph × Int),
      (l.foldl (fun st x => (addCell W H st.1 st.2 y x, wrapInt (st.2 + 1))) st).1.state = st.1.state := by
    intro y l
    induction l with
    | nil => intro st; rfl
    | cons x rest ih =>
      intro st
      simp only [List.foldl]
      rw [ih]
      exact addCell_state W H _ _ _ _
  have outer : ∀ (l : List Int) (st : Graph × Int),
      (l.foldl (fun st y => (intRange W).foldl
        (fun st x => (addCell W H st.1 st.2 y x, wrapInt (st.2 + 1))) st) st).1.state = st.1.state := by
    intro l
    induction l with
    | nil => intro st; rfl
    | cons y rest ih =>
      intro st
      simp only [List.foldl]
      rw [ih]
      exact inner y _ st
  rw [outer]

/-- In a freshly built `World` no cell is `Start` or `End`. -/
theorem fresh_markers (W H : Int) : (World.fresh W H).MarkersOK := by
  have hst : ∀ v, (World.fresh W H).graph.state.get v = NodeState.Empty := by
    intro v
    show (buildLattice W H).state.get v = _
    rw [buildLattice_state]
    rfl
  refine ⟨Or.inl rfl, Or.inl rfl, ?_, ?_⟩
  · intro v h; rw [hst] at h; exact absurd h (by decide)
  · intro v h; rw [hst] at h; exact absurd h (by decide)

theorem MarkersOK.transfer (w w2 : World) (h : w.MarkersOK) (h1 : w2.startIndex = w.startIndex)
    (h2 : w2.endIndex = w.endIndex) (h3 : w.graph.MarksKept w2.graph) : w2.MarkersOK := by
  refine ⟨by rw [h1]; exact h.start_range, by rw [h2]; exact h.end_range, ?_, ?_⟩
  · intro v hv; rw [h1]; exact h.start_at v ((h3 v).1 hv)
  · intro v hv; rw [h2]; exact h.end_at v ((h3 v).2 hv)

theorem resetWeight_markers (fuel : Nat) (w w2 : World) (i : Int) (h : w.MarkersOK)
    (hr : w.resetWeight fuel i = some w2) : w2.MarkersOK := by
  unfold World.resetWeight at hr
  split_ifs at hr
  · cases hu : Graph.update_node_weight fuel w.graph i 1 (-1) with
    | none => rw [hu] at hr; simp at hr
    | some g2 =>
      rw [hu] at hr
      simp only [Option.map_some', Option.some.injEq] at hr
      rw [← hr]
      exact MarkersOK.transfer w _ h rfl rfl
        (MarksKept.same _ _ (update_keeps_state fuel _ _ _ _ g2 hu))
  · have : w = w2 := Option.some.inj hr
    rw [← this]; exact h

/-- Dropping the marker of cell `i` and writing a state other than `Start` and `End` to
it. -/
theorem dropMarker_markers (w : World) (i : Int) (st : NodeState) (h : w.MarkersOK)
    (h1 : st ≠ Start) (h2 : st ≠ End) : ((w.dropMarker i).setState i st).MarkersOK := by
  have hget : ∀ (w2 : World) (v : Int), (w2.setState i st).graph.state.get v
      = if v = i then st else w2.graph.state.get v := fun w2 v => rfl
  unfold World.dropMarker
  split_ifs with hs he
  · refine ⟨Or.inl rfl, h.end_range, ?_, ?_⟩
    · intro v hv
      rw [hget] at hv
      split_ifs at hv with hvi
      · exact absurd hv h1
      · have e1 := (h.start_at v hv).1
        have e2 := (h.start_at i hs).1
        exact absurd (e1.trans e2.symm) hvi
    · intro v hv
      rw [hget] at hv
      split_ifs at hv with hvi
      · exact absurd hv h2
      · exact h.end_at v hv
  · refine ⟨h.start_range, Or.inl rfl, ?_, ?_⟩
    · intro v hv
      rw [hget] at hv
      split_ifs at hv with hvi
      · exact absurd hv h1
      · exact h.start_at v hv
    · intro v hv
      rw [hget] at hv
      split_ifs at hv with hvi
      · exact absurd hv h2
      · have e1 := (h.end_at v hv).1
        have e2 := (h.end_at i he).1
        exact absurd (e1.trans e2.symm) hvi
  · refine ⟨h.start_range, h.end_range, ?_, ?_⟩
    · intro v hv
      rw [hget] at hv
      split_ifs at hv with hvi
      · exact absurd hv h1
      · exact h.start_at v hv
    · intro v hv
      rw [hget] at hv
      split_ifs at hv with hvi
      · exact absurd hv h2
      · exact h.end_at v hv

theorem rightBlock_markers (fuel : Nat) (w w2 : World) (i : Int) (h : w.MarkersOK)
    (hr : w.rightBlock fuel i = some w2) : w2.MarkersOK := by
  unfold World.rightBlock at hr
  cases hu : Graph.update_node_weight fuel w.graph i 2 (-1) with
  | none => rw [hu] at hr; simp at hr
  | some g2 =>
    rw [hu] at hr
    simp only [Option.map_some', Option.some.injEq] at hr
    rw [← hr]
    apply dropMarker_markers _ i Junction _ (by decide) (by decide)
    exact MarkersOK.transfer w _ h rfl rfl
      (MarksKept.same _ _ (update_keeps_state fuel _ _ _ _ g2 hu))

theorem leftBlock_markers (fuel : Nat) (w w2 : World) (i : Int) (h : w.MarkersOK)
    (hr : w.leftBlock fuel i = some w2) : w2.MarkersOK := by
  unfold World.leftBlock at hr
  cases hu : w.resetWeight fuel i with
  | none => rw [hu] at hr; simp at hr
  | some w1 =>
    rw [hu] at hr
    simp only [Option.map_some', Option.some.injEq] at hr
    rw [← hr]
    exact dropMarker_markers w1 i Obstacle (resetWeight_markers fuel w w1 i h hu)
      (by decide) (by decide)

theorem shiftBlock_markers (fuel : Nat) (w w2 : World) (i : Int) (h : w.MarkersOK)
    (hr : w.shiftBlock fuel i = some w2) : w2.MarkersOK := by
  unfold World.shiftBlock at hr
  cases hu : w.resetWeight fuel i with
  | none => rw [hu] at hr; simp at hr
  | some w1 =>
    rw [hu] at hr
    simp only [Option.map_some', Option.some.injEq] at hr
    rw [← hr]
    exact dropMarker_markers w1 i NodeState.Empty (resetWeight_markers fuel w w1 i h hu)
      (by decide) (by decide)

theorem get_set_of_ne (st : Vec NodeState) (b v : Int) (y z : NodeState)
    (h : (st.set b y).get v = z) (hy : y ≠ z) : st.get v = z ∧ v ≠ b := by
  rw [vec_get_set] at h
  split_ifs at h with hv
  · exact absurd h hy
  · exact ⟨h, hv⟩

/-- After the old marker is cleared and cell `i` gets the marker `mk`, a cell in state `mk`
is `i`, and a cell in another state `z` was in that state and is not `i`. -/
theorem swap_marker (st : Vec NodeState) (old i v : Int) (clear : Prop) [Decidable clear]
    (mk z : NodeState) (hz : z ≠ NodeState.Empty)
    (h : ((if clear then st.set old NodeState.Empty else st).set i mk).get v = z) :
    (v = i ∧ z = mk) ∨ (v ≠ i ∧ st.get v = z ∧ (clear → v ≠ old)) := by
  rw [vec_get_set] at h
  split_ifs at h with hvi hc
  · exact Or.inl ⟨hvi, h.symm⟩
  · obtain ⟨h1, h2⟩ := get_set_of_ne st old v NodeState.Empty z h (fun e => hz e.symm)
    exact Or.inr ⟨hvi, h1, fun _ => h2⟩
  · exact Or.inr ⟨hvi, h, fun c => absurd c hc⟩

theorem keySBlock_markers (fuel : Nat) (w w2 : World) (i : Int) (hi : 0 ≤ i) (h : w.MarkersOK)
    (hr : w.keySBlock fuel i = some w2) : w2.MarkersOK := by
  unfold World.keySBlock at hr
  cases hu : w.resetWeight fuel i with
  | none => rw [hu] at hr; simp at hr
  | some w1 =>
    rw [hu] at hr
    simp only [Option.map_some', Option.some.injEq] at hr
    have h1 := resetWeight_markers fuel w w1 i h hu
    have hstate : w2.graph.state = (if w1.startIndex ≥ 0
        then w1.graph.state.set w1.startIndex NodeState.Empty else w1.graph.state).set i Start := by
      rw [← hr]
      split_ifs <;> rfl
    have hsi : w2.startIndex = i := by rw [← hr]
    have hei : w2.endIndex = w1.endIndex := by
      rw [← hr]
      split_ifs <;> rfl
    refine ⟨by rw [hsi]; exact Or.inr hi, by rw [hei]; exact h1.end_range, ?_, ?_⟩
    · intro v hv
      rw [hstate] at hv
      rw [hsi]
      rcases swap_marker _ _ _ _ _ Start Start (by decide) hv with ⟨a, _⟩ | ⟨_, b, c⟩
      · exact ⟨a, a ▸ hi⟩
      · exfalso
        have := h1.start_at v b
        exact c (by rw [← this.1]; exact this.2) this.1
    · intro v hv
      rw [hstate] at hv
      rw [hei]
      rcases swap_marker _ _ _ _ _ Start End (by decide) hv with ⟨_, a⟩ | ⟨_, b, _⟩
      · exact absurd a (by decide)
      · exact h1.end_at v b

theorem keyEBlock_markers (fuel : Nat) (w w2 : World) (i : Int) (hi : 0 ≤ i) (h : w.MarkersOK)
    (hr : w.keyEBlock fuel i = some w2) : w2.MarkersOK := by
  unfold World.keyEBlock at hr
  cases hu : w.resetWeight fuel i with
  | none => rw [hu] at hr; simp at hr
  | some w1 =>
    rw [hu] at hr
    simp only [Option.map_some', Option.some.injEq] at hr
    have h1 := resetWeight_markers fuel w w1 i h hu
    have hstate : w2.graph.state = (if w1.endIndex ≥ 0
        then w1.graph.state.set w1.endIndex NodeState.Empty else w1.graph.state).set i End := by
      rw [← hr]
      split_ifs <;> rfl
    have hei : w2.endIndex = i := by rw [← hr]
    have hsi : w2.startIndex = w1.startIndex := by
      rw [← hr]
      split_ifs <;> rfl
    refine ⟨by rw [hsi]; exact h1.start_range, by rw [hei]; exact Or.inr hi, ?_, ?_⟩
    · intro v hv
      rw [hstate] at hv
      rw [hsi]
      rcases swap_marker _ _ _ _ _ End Start (by decide) hv with ⟨_, a⟩ | ⟨_, b, _⟩
      · exact absurd a (by decide)
      · exact h1.start_at v b
    · intro v hv
      rw [hstate] at hv
      rw [hei]
      rcases swap_marker _ _ _ _ _ End End (by decide) hv with ⟨a, _⟩ | ⟨_, b, c⟩
      · exact ⟨a, a ▸ hi⟩
      · exfalso
        have := h1.end_at v b
        exact c (by rw [← this.1]; exact this.2) this.1

end Main

namespace Main

open NodeState

theorem keyBlocks_markers (fuel : Nat) (w w2 : World) (i : Int) (ev : Event) (hi : 0 ≤ i)
    (h : w.MarkersOK) (hr : w.keyBlocks fuel i ev = some w2) : w2.MarkersOK := by
  unfold World.keyBlocks at hr
  split at hr
  · exact keySBlock_markers fuel w w2 i hi h hr
  · exact keyEBlock_markers fuel w w2 i hi h hr
  · have : w = w2 := Option.some.inj hr
    rw [← this]; exact h

/-- The routine `updateNodes` with the mouse on a cell keeps the markers where the indices
say. -/
theorem updateNodes_markers (fuel : Nat) (w w2 : World) (inp : Input)
    (hi : inp.inside = true → 0 ≤ inp.i) (h : w.MarkersOK)
    (hr : w.updateNodes fuel inp = some w2) : w2.MarkersOK := by
  unfold World.updateNodes at hr
  by_cases hin : inp.inside = true
  · rw [if_pos hin] at hr
    have hi0 := hi hin
    cases h1 : (if inp.right = true then w.rightBlock fuel inp.i else some w) with
    | none => rw [h1] at hr; simp at hr
    | some w1 =>
      rw [h1] at hr
      simp only [Option.some_bind] at hr
      have hw1 : w1.MarkersOK := by
        split_ifs at h1
        · exact rightBlock_markers fuel w w1 inp.i h h1
        · have : w = w1 := Option.some.inj h1
          rw [← this]; exact h
      cases h2 : (if inp.left = true then w1.leftBlock fuel inp.i else some w1) with
      | none => rw [h2] at hr; simp at hr
      | some w3 =>
        rw [h2] at hr
        simp only [Option.some_bind] at hr
        have hw3 : w3.MarkersOK := by
          split_ifs at h2
          · exact leftBlock_markers fuel w1 w3 inp.i hw1 h2
          · have : w1 = w3 := Option.some.inj h2
            rw [← this]; exact hw1
        cases h3 : w3.keyBlocks fuel inp.i inp.event with
        | none => rw [h3] at hr; simp at hr
        | some w4 =>
          rw [h3] at hr
          simp only [Option.some_bind] at hr
          have hw4 := keyBlocks_markers fuel w3 w4 inp.i inp.event hi0 hw3 h3
          split_ifs at hr
          · exact shiftBlock_markers fuel w4 w2 inp.i hw4 hr
          · have : w4 = w2 := Option.some.inj hr
            rw [← this]; exact hw4
  · rw [if_neg hin] at hr
    have : w = w2 := Option.some.inj hr
    rw [← this]; exact h

theorem switchMode_markers (w : World) (ev : Event) (h : w.MarkersOK) :
    (w.switchMode ev).MarkersOK := by
  unfold World.switchMode
  split
  · exact ⟨h.start_range, h.end_range, h.start_at, h.end_at⟩
  · exact ⟨h.start_range, h.end_range, h.start_at, h.end_at⟩
  · exact h

theorem runSearch_marks (fuel : Nat) (w : World) (g2 : Graph) (h : w.runSearch fuel = some g2) :
    w.graph.MarksKept g2 := by
  unfold World.runSearch at h
  split_ifs at h
  · exact bfs_marks fuel _ _ _ _ g2 h
  · exact dq_marks fuel _ _ _ _ g2 h
  · exact dfs_marks fuel _ _ _ _ g2 h
  · have : w.graph = g2 := Option.some.inj h
    rw [← this]; exact MarksKept.same _ _ rfl

/-- The run on a released Enter keeps the markers where the indices say. -/
theorem enterBlock_markers (fuel : Nat) (w w2 : World) (h : w.MarkersOK)
    (hr : w.enterBlock fuel = some w2) : w2.MarkersOK := by
  unfold World.enterBlock at hr
  split_ifs at hr with hidx honce
  · cases hrun : w.runSearch fuel with
    | none => rw [hrun] at hr; simp at hr
    | some g1 =>
      rw [hrun] at hr
      simp only [Option.some_bind] at hr
      have hk := runSearch_marks fuel w g1 hrun
      have hs0 : 0 ≤ w.startIndex := h.start_range.resolve_left hidx.1
      have he0 : 0 ≤ w.endIndex := h.end_range.resolve_left hidx.2
      -- the graph with the two markers written back
      have hmid : ∀ v,
          (((g1.state.set w.startIndex Start).set w.endIndex End).get v = Start
            → v = w.startIndex)
          ∧ (((g1.state.set w.startIndex Start).set w.endIndex End).get v = End
            → v = w.endIndex) := by
        intro v
        simp only [vec_get_set]
        by_cases hve : v = w.endIndex
        · simp only [if_pos hve]
          exact ⟨fun e => absurd e (by decide), fun _ => hve⟩
        · by_cases hvs : v = w.startIndex
          · simp only [if_neg hve, if_pos hvs]
            exact ⟨fun _ => hvs, fun e => absurd e (by decide)⟩
          · simp only [if_neg hve, if_neg hvs]
            exact ⟨fun e => (h.start_at v ((hk v).1 e)).1, fun e => (h.end_at v ((hk v).2 e)).1⟩
      split_ifs at hr with hfound
      · cases hget : GetPath fuel { g1 with state := (g1.state.set w.startIndex Start).set w.endIndex End } w.endIndex w.startIndex with
        | none => rw [hget] at hr; simp at hr
        | some r =>
          rw [hget] at hr
          simp only [Option.map_some', Option.some.injEq] at hr
          have hp := getPath_marks fuel _ _ _ r hget
          rw [← hr]
          refine ⟨h.start_range, h.end_range, ?_, ?_⟩
          · intro v hv
            have : v = w.startIndex := by
              rcases (hp v).1 hv with e | e
              · exact e
              · exact (hmid v).1 e
            exact ⟨this, this ▸ hs0⟩
          · intro v hv
            have : v = w.endIndex := by
              rcases (hp v).2 hv with e | e
              · exact e
              · exact (hmid v).2 e
            exact ⟨this, this ▸ he0⟩
      · simp only [Option.map_some', Option.some.injEq] at hr
        rw [← hr]
        refine ⟨h.start_range, h.end_range, ?_, ?_⟩
        · intro v hv
          have := (hmid v).1 hv
          exact ⟨this, this ▸ hs0⟩
        · intro v hv
          have := (hmid v).2 hv
          exact ⟨this, this ▸ he0⟩
  · have : _ = w2 := Option.some.inj hr
    rw [← this]
    exact ⟨h.start_range, h.end_range, h.start_at, h.end_at⟩
  · have : w = w2 := Option.some.inj hr
    rw [← this]; exact h

theorem update_markers (fuel : Nat) (w w2 : World) (inp : Input)
    (hi : inp.inside = true → 0 ≤ inp.i) (h : w.MarkersOK)
    (hr : w.update fuel inp = some w2) : w2.MarkersOK := by
  unfold World.update at hr
  cases h1 : w.updateNodes fuel inp with
  | none => rw [h1] at hr; simp at hr
  | some w1 =>
    rw [h1] at hr
    simp only [Option.some_bind] at hr
    have hw1 := switchMode_markers w1 inp.event (updateNodes_markers fuel w w1 inp hi h h1)
    split at hr
    · exact enterBlock_markers fuel _ w2 hw1 hr
    · have : _ = w2 := Option.some.inj hr
      rw [← this]; exact hw1

theorem mainStep_markers (fuel : Nat) (w w2 : World) (inp : Input)
    (hi : inp.inside = true → 0 ≤ inp.i) (h : w.MarkersOK)
    (hr : mainStep fuel w inp = some w2) : w2.MarkersOK := by
  unfold mainStep at hr
  simp only at hr
  split at hr
  · exact update_markers fuel _ w2 inp hi (fresh_markers _ _) hr
  · exact update_markers fuel w w2 inp hi h hr

/-- In every reachable state of the `World` the markers are where the indices say. -/
theorem reachable_markers (w : World) (h : Reachable w) : w.MarkersOK := by
  induction h with
  | fresh W H => exact fresh_markers W H
  | step w w2 fuel inp _ hc hstep ih =>
    exact mainStep_markers fuel w w2 inp (fun hin => (hc hin).1) ih hstep

end Main

namespace Main

open NodeState

/-- C20: in every state of the World reachable from a freshly built World by any sequence
of events with the mouse on a cell or outside the window (right button, left button, S, E,
Shift, Alt, Enter for the run, R for a restart), at most one cell has state Start and at
most one cell has state End. -/
theorem unique_markers (w : World) (h : Reachable w) :
    (∀ u v, w.graph.state.get u = Start → w.graph.state.get v = Start → u = v) ∧
      (∀ u v, w.graph.state.get u = End → w.graph.state.get v = End → u = v) := by
  have hM := reachable_markers w h
  exact ⟨fun u v hu hv => (hM.start_at u hu).1.trans (hM.start_at v hv).1.symm,
    fun u v hu hv => (hM.end_at u hu).1.trans (hM.end_at v hv).1.symm⟩

/-- C20 on a World of three cells in a row: S on cell 0, S on cell 1, E on cell 2 and Enter
lead to a reachable state with the cells Visited, Start, End, found = 1, and the theorem
applies to it. -/
theorem unique_markers_witness :
    ∃ w1 w2 w3 w4, mainStep 9 (World.fresh 3 1) (onCell 0 (Event.KeyReleased Key.S)) = some w1
      ∧ mainStep 9 w1 (onCell 1 (Event.KeyReleased Key.S)) = some w2
      ∧ mainStep 9 w2 (onCell 2 (Event.KeyReleased Key.E)) = some w3
      ∧ mainStep 9 w3 (onCell 2 (Event.KeyReleased Key.Enter)) = some w4
      ∧ (intRange 3).map w4.graph.state.get = [Visited, Start, End]
      ∧ w4.graph.found = 1
      ∧ (∀ u v, w4.graph.state.get u = Start → w4.graph.state.get v = Start → u = v)
      ∧ (∀ u v, w4.graph.state.get u = End → w4.graph.state.get v = End → u = v) :=
  ⟨_, _, _, _, rfl, rfl, rfl, rfl, by decide, by decide,
    unique_markers _
      (Reachable.step _ _ 9 (onCell 2 (Event.KeyReleased Key.Enter))
        (Reachable.step _ _ 9 (onCell 2 (Event.KeyReleased Key.E))
          (Reachable.step _ _ 9 (onCell 1 (Event.KeyReleased Key.S))
            (Reachable.step _ _ 9 (onCell 0 (Event.KeyReleased Key.S))
              (Reachable.fresh 3 1) (by decide) rfl)
            (by decide) rfl)
          (by decide) rfl)
        (by decide) rfl)⟩

end Main

namespace MyImpl

/-- C21, the second program of `Main.cpp` evaluated: in a freshly built World of two cells,
S on cell 0 and then S on cell 1 leaves isStartNode set on both cells, because the old
holder is cleared only `if (startIndex > 0)` and cell 0 has index 0; E on cell 0 and then E
on cell 1 leaves isEndNode set on both. From cell 1 to cell 0 the old holder is cleared. -/
theorem two_start_nodes :
    (((World.fresh 2 1).updateNodes (Main.onCell 0 (Main.Event.KeyReleased Main.Key.S))).updateNodes
        (Main.onCell 1 (Main.Event.KeyReleased Main.Key.S))).startCells = [0, 1]
      ∧ (((World.fresh 2 1).updateNodes (Main.onCell 0 (Main.Event.KeyReleased Main.Key.E))).updateNodes
        (Main.onCell 1 (Main.Event.KeyReleased Main.Key.E))).endCells = [0, 1]
      ∧ (((World.fresh 2 1).updateNodes (Main.onCell 1 (Main.Event.KeyReleased Main.Key.S))).updateNodes
        (Main.onCell 0 (Main.Event.KeyReleased Main.Key.S))).startCells = [0]
      ∧ (World.fresh 2 1).startCells = [] ∧ (World.fresh 2 1).endCells = [] := by
  decide

end MyImpl

namespace Main

open NodeState

/-- C22, the World evaluated: in a freshly built World of two cells, S on cell 0 and then E
on cell 0 leave startIndex = 0 although cell 0 is in state End, and endIndex = 0 as well;
Enter then launches the traversal with source and destination both cell 0. In the other
order, E then S on cell 0, endIndex = 0 although cell 0 is in state Start. -/
theorem stale_start_index :
    (∃ w, runInputs 3 (World.fresh 2 1)
          [onCell 0 (Event.KeyReleased Key.S), onCell 0 (Event.KeyReleased Key.E)] = some w
        ∧ w.startIndex = 0 ∧ w.endIndex = 0 ∧ w.graph.state.get 0 = End
        ∧ w.cellsIn Start = [] ∧ w.once = true
        ∧ ∃ g2, w.runSearch 3 = some g2 ∧ g2.found = 1 ∧ g2.state.get 0 = Visited) ∧
      (∃ w, runInputs 3 (World.fresh 2 1)
          [onCell 0 (Event.KeyReleased Key.E), onCell 0 (Event.KeyReleased Key.S)] = some w
        ∧ w.startIndex = 0 ∧ w.endIndex = 0 ∧ w.graph.state.get 0 = Start
        ∧ w.cellsIn End = []) :=
  ⟨⟨_, rfl, by decide, by decide, by decide, by decide, by decide, _, rfl, by decide,
      by decide⟩,
    ⟨_, rfl, by decide, by decide, by decide, by decide⟩⟩

/-- C29, the World evaluated: in a freshly built World of three cells in a row, right
button on cell 0, right button on cell 1 and Shift on cell 0 leave cell 1 in state Junction
with the entry for cell 0 at weight 1. And S on cell 0, E on cell 0, right button on cell 0
and S on cell 1 leave no Junction while the entries between cells 0 and 1 have
weight 2. -/
theorem junction_weight_lost :
    (∃ w, runInputs 4 (World.fresh 3 1) [rightClick 0, rightClick 1, shiftOn 0] = some w
        ∧ (intRange 3).map w.graph.state.get = [NodeState.Empty, Junction, NodeState.Empty]
        ∧ w.graph.adj_weighted.get 1 = [(0, 1), (2, 2)]
        ∧ w.graph.adj_weighted.get 0 = [(1, 1)]) ∧
      (∃ w, runInputs 4 (World.fresh 3 1)
          [onCell 0 (Event.KeyReleased Key.S), onCell 0 (Event.KeyReleased Key.E),
            rightClick 0, onCell 1 (Event.KeyReleased Key.S)] = some w
        ∧ (intRange 3).map w.graph.state.get = [NodeState.Empty, Start, NodeState.Empty]
        ∧ w.graph.adj_weighted.get 0 = [(1, 2)]
        ∧ w.graph.adj_weighted.get 1 = [(0, 2), (2, 1)]) :=
  ⟨⟨_, rfl, by decide, by decide, by decide⟩, ⟨_, rfl, by decide, by decide, by decide⟩⟩

/-- C30: on the graph with the edges (1,3,3), (1,2,1), (2,3,1), node 1 marked Start and
node 3 marked End, which satisfies the traversal preconditions, BreadthFirstSearch from 1
to 3 ends with found = 1 and distance[3] = 3, while DijkstraQ ends with found = 1 and
distance[3] = 2. -/
theorem bfs_not_min_cost :
    detour.NoTrace ∧ detour.FreshDistance ∧ detour.found = 0 ∧ detour.state.get 1 = Start
      ∧ detour.OnlyStart 1 ∧ detour.state.get 3 = End
      ∧ ∃ g2 g3, BreadthFirstSearch 4 detour 1 3 (-1) = some g2
        ∧ DijkstraQ 4 detour 1 3 (-1) = some g3
        ∧ g2.found = 1 ∧ g3.found = 1
        ∧ g2.distance.get 3 = 3 ∧ g3.distance.get 3 = 2
        ∧ g3.distance.get 3 < g2.distance.get 3 := by
  obtain ⟨h1, h2, h3, h4, h5, h6⟩ := marked_fresh 4 [(1, 3, 3), (1, 2, 1), (2, 3, 1)] 1 3 (by decide)
  exact ⟨h1, h2, h3, h4, h5, h6, _, _, rfl, rfl, by decide, by decide, by decide, by decide,
    by decide⟩

end Main

namespace Eap

/-- The guard of `BreadthFirstSearch`: on a used graph the routine exits at once. -/
theorem bfs_guard (fuel : Nat) (g : Graph) (s p : Int) (h : g.used ≠ 0) :
    BreadthFirstSearch fuel g s p = some (Except.error "The Graph has already been used") := by
  unfold BreadthFirstSearch
  rw [if_pos h]

/-- The guard of `DepthFirstSearch`: on a used graph the routine exits at once. -/
theorem dfs_guard (fuel : Nat) (g : Graph) (s p : Int) (h : g.used ≠ 0) :
    DepthFirstSearch (fuel + 1) g s p
      = some (Except.error "The Graph has already been used") := by
  rw [DepthFirstSearch, if_pos h]

/-- C24, the routines evaluated. On the graph of `main`, Dijkstra(g, 1) completes and leaves
used = 0 and distance[3] = 2, parent[3] = 2; after it BreadthFirstSearch(g, 3) executes
(distance[3] becomes 0, parent[3] becomes -1), DepthFirstSearch(g, 3) executes (parent[3]
becomes -1) and Dijkstra(g, 3) executes (distance[3] becomes 0). And after
BreadthFirstSearch(g, 5) on the second graph of `main` has set used = 1 and
distance[2] = 3, Dijkstra(g, 2) executes and sets distance[2] = 0, while
BreadthFirstSearch and DepthFirstSearch exit. -/
theorem dijkstra_ignores_used :
    (∃ g1, Dijkstra 4 (buildWeighted [(1, 3, 3), (1, 2, 1), (2, 3, 1)]) 1 (-1) = some g1
        ∧ g1.used = 0 ∧ g1.distance.lookup 3 = 2 ∧ g1.parent.lookup 3 = 2
        ∧ (∃ g2, BreadthFirstSearch 4 g1 3 (-1) = some (Except.ok g2)
            ∧ g2.distance.lookup 3 = 0 ∧ g2.parent.lookup 3 = -1)
        ∧ (∃ g2, DepthFirstSearch 4 g1 3 (-1) = some (Except.ok g2)
            ∧ g2.parent.lookup 3 = -1)
        ∧ ∃ g2, Dijkstra 4 g1 3 (-1) = some g2 ∧ g2.distance.lookup 3 = 0
            ∧ g2.parent.lookup 3 = -1) ∧
      (∃ g1, BreadthFirstSearch 6 (buildUnweighted [(1, 2), (1, 3), (3, 4), (3, 5)]) 5 (-1)
          = some (Except.ok g1)
        ∧ g1.used = 1 ∧ g1.distance.lookup 2 = 3 ∧ g1.parent.lookup 2 = 1
        ∧ (∃ g2, Dijkstra 4 g1 2 (-1) = some g2 ∧ g2.distance.lookup 2 = 0
            ∧ g2.parent.lookup 2 = -1)
        ∧ BreadthFirstSearch 6 g1 2 (-1)
            = some (Except.error "The Graph has already been used")
        ∧ DepthFirstSearch 6 g1 2 (-1)
            = some (Except.error "The Graph has already been used")) :=
  ⟨⟨_, rfl, by decide, by decide, by decide, ⟨_, rfl, by decide, by decide⟩,
      ⟨_, rfl, by decide⟩, _, rfl, by decide, by decide⟩,
    ⟨_, rfl, by decide, by decide, by decide, ⟨_, rfl, by decide, by decide⟩, rfl, rfl⟩⟩

/-- C25, the routine evaluated. On the second graph of `main` (edges (1,2), (1,3), (3,4),
(3,5), used = 0), DepthFirstSearch(g, 1) takes the exit 'The Graph has already been used':
the call on node 2 sets used = 1 when it returns, and the next call, on node 3, finds the
graph used. The same on the path 1 - 2 - 3 started in the middle. Started at an end of
the path, where no call follows a returned one, the search completes. -/
theorem dfs_exits_after_first_branch :
    (buildUnweighted [(1, 2), (1, 3), (3, 4), (3, 5)]).used = 0
      ∧ DepthFirstSearch 4 (buildUnweighted [(1, 2), (1, 3), (3, 4), (3, 5)]) 1 (-1)
          = some (Except.error "The Graph has already been used")
      ∧ DepthFirstSearch 4 (buildUnweighted [(2, 1), (2, 3)]) 2 (-1)
          = some (Except.error "The Graph has already been used")
      ∧ ∃ g2, DepthFirstSearch 4 (buildUnweighted [(1, 2), (2, 3)]) 1 (-1)
          = some (Except.ok g2)
        ∧ [1, 2, 3].map g2.visited.lookup = [1, 1, 1]
        ∧ [1, 2, 3].map g2.parent.lookup = [-1, 1, 2] ∧ g2.used = 1 :=
  ⟨rfl, rfl, rfl, _, rfl, by decide, by decide, by decide⟩

/-- The routine `clear` leaves `adj_weighted` as it is and empties the other maps. -/
theorem clear_fields (g : Graph) :
    g.clear.adj_weighted = g.adj_weighted ∧ g.clear.adj = Graph.fresh.adj
      ∧ g.clear.parent = Graph.fresh.parent ∧ g.clear.visited = Graph.fresh.visited
      ∧ g.clear.distance = Graph.fresh.distance ∧ g.clear.used = Graph.fresh.used :=
  ⟨rfl, rfl, rfl, rfl, rfl, rfl⟩

/-- C26, the routine evaluated: after add_edge(1, 3, 3) and clear() the map adj_weighted
still holds the lists of the nodes 1 and 3, while a default-constructed Graph has none; the
other fields are empty and used = 0. -/
theorem clear_keeps_weighted :
    (buildWeighted [(1, 3, 3)]).clear.adj_weighted 1 = some [(3, 3)]
      ∧ (buildWeighted [(1, 3, 3)]).clear.adj_weighted 3 = some [(1, 3)]
      ∧ Graph.fresh.adj_weighted 1 = none
      ∧ (buildWeighted [(1, 3, 3)]).clear.adj_weighted.count 1 = 1
      ∧ Graph.fresh.adj_weighted.count 1 = 0
      ∧ (buildWeighted [(1, 3, 3)]).clear.adj = Graph.fresh.adj
      ∧ (buildWeighted [(1, 3, 3)]).clear.parent = Graph.fresh.parent
      ∧ (buildWeighted [(1, 3, 3)]).clear.visited = Graph.fresh.visited
      ∧ (buildWeighted [(1, 3, 3)]).clear.distance = Graph.fresh.distance
      ∧ (buildWeighted [(1, 3, 3)]).clear.used = 0 :=
  ⟨rfl, rfl, rfl, rfl, rfl, rfl, rfl, rfl, rfl, rfl⟩

end Eap

namespace Main

open NodeState

theorem dropMarker_once (w : World) (i : Int) : (w.dropMarker i).once = w.once := by
  unfold World.dropMarker
  split_ifs <;> rfl

theorem resetWeight_once (fuel : Nat) (w w2 : World) (i : Int)
    (h : w.resetWeight fuel i = some w2) : w2.once = w.once := by
  unfold World.resetWeight at h
  split_ifs at h
  · cases hu : Graph.update_node_weight fuel w.graph i 1 (-1) with
    | none => rw [hu] at h; simp at h
    | some g2 =>
      rw [hu] at h
      simp only [Option.map_some', Option.some.injEq] at h
      rw [← h]
  · have : w = w2 := Option.some.inj h
    rw [this]

theorem rightBlock_once (fuel : Nat) (w w2 : World) (i : Int)
    (h : w.rightBlock fuel i = some w2) : w2.once = w.once := by
  unfold World.rightBlock at h
  cases hu : Graph.update_node_weight fuel w.graph i 2 (-1) with
  | none => rw [hu] at h; simp at h
  | some g2 =>
    rw [hu] at h
    simp only [Option.map_some', Option.some.injEq] at h
    rw [← h]
    exact dropMarker_once _ i

theorem leftBlock_once (fuel : Nat) (w w2 : World) (i : Int)
    (h : w.leftBlock fuel i = some w2) : w2.once = w.once := by
  unfold World.leftBlock at h
  cases hu : w.resetWeight fuel i with
  | none => rw [hu] at h; simp at h
  | some w1 =>
    rw [hu] at h
    simp only [Option.map_some', Option.some.injEq] at h
    rw [← h]
    exact (dropMarker_once w1 i).trans (resetWeight_once fuel w w1 i hu)

theorem shiftBlock_once (fuel : Nat) (w w2 : World) (i : Int)
    (h : w.shiftBlock fuel i = some w2) : w2.once = w.once := by
  unfold World.shiftBlock at h
  cases hu : w.resetWeight fuel i with
  | none => rw [hu] at h; simp at h
  | some w1 =>
    rw [hu] at h
    simp only [Option.map_some', Option.some.injEq] at h
    rw [← h]
    exact (dropMarker_once w1 i).trans (resetWeight_once fuel w w1 i hu)

theorem keySBlock_once (fuel : Nat) (w w2 : World) (i : Int)
    (h : w.keySBlock fuel i = some w2) : w2.once = w.once := by
  unfold World.keySBlock at h
  cases hu : w.resetWeight fuel i with
  | none => rw [hu] at h; simp at h
  | some w1 =>
    rw [hu] at h
    simp only [Option.map_some', Option.some.injEq] at h
    rw [← h, ← resetWeight_once fuel w w1 i hu]
    split_ifs <;> rfl

theorem keyEBlock_once (fuel : Nat) (w w2 : World) (i : Int)
    (h : w.keyEBlock fuel i = some w2) : w2.once = w.once := by
  unfold World.keyEBlock at h
  cases hu : w.resetWeight fuel i with
  | none => rw [hu] at h; simp at h
  | some w1 =>
    rw [hu] at h
    simp only [Option.map_some', Option.some.injEq] at h
    rw [← h, ← resetWeight_once fuel w w1 i hu]
    split_ifs <;> rfl

theorem keyBlocks_once (fuel : Nat) (w w2 : World) (i : Int) (ev : Event)
    (h : w.keyBlocks fuel i ev = some w2) : w2.once = w.once := by
  unfold World.keyBlocks at h
  split at h
  · exact keySBlock_once fuel w w2 i h
  · exact keyEBlock_once fuel w w2 i h
  · have : w = w2 := Option.some.inj h
    rw [this]

/-- The routine `updateNodes` does not touch the flag `once`. -/
theorem updateNodes_once (fuel : Nat) (w w2 : World) (inp : Input)
    (h : w.updateNodes fuel inp = some w2) : w2.once = w.once := by
  unfold World.updateNodes at h
  by_cases hin : inp.inside = true
  · rw [if_pos hin] at h
    cases h1 : (if inp.right = true then w.rightBlock fuel inp.i else some w) with
    | none => rw [h1] at h; simp at h
    | some w1 =>
      rw [h1] at h
      simp only [Option.some_bind] at h
      have e1 : w1.once = w.once := by
        split_ifs at h1
        · exact rightBlock_once fuel w w1 inp.i h1
        · have : w = w1 := Option.some.inj h1
          rw [this]
      cases h2 : (if inp.left = true then w1.leftBlock fuel inp.i else some w1) with
      | none => rw [h2] at h; simp at h
      | some w3 =>
        rw [h2] at h
        simp only [Option.some_bind] at h
        have e2 : w3.once = w1.once := by
          split_ifs at h2
          · exact leftBlock_once fuel w1 w3 inp.i h2
          · have : w1 = w3 := Option.some.inj h2
            rw [this]
        cases h3 : w3.keyBlocks fuel inp.i inp.event with
        | none => rw [h3] at h; simp at h
        | some w4 =>
          rw [h3] at h
          simp only [Option.some_bind] at h
          have e3 := keyBlocks_once fuel w3 w4 inp.i inp.event h3
          have e4 : w2.once = w4.once := by
            split_ifs at h
            · exact shiftBlock_once fuel w4 w2 inp.i h
            · have : w4 = w2 := Option.some.inj h
              rw [this]
          rw [e4, e3, e2, e1]
  · rw [if_neg hin] at h
    have : w = w2 := Option.some.inj h
    rw [this]

theorem switchMode_once (w : World) (ev : Event) : (w.switchMode ev).once = w.once := by
  unfold World.switchMode
  split <;> rfl

/-- With an endpoint unset the run step returns the World as it is. -/
theorem enterBlock_unset (fuel : Nat) (w : World) (h : w.startIndex = -1 ∨ w.endIndex = -1) :
    w.enterBlock fuel = some w := by
  unfold World.enterBlock
  rw [if_neg]
  intro hc
  rcases h with h | h
  · exact hc.1 h
  · exact hc.2 h

/-- With `once` false the run step leaves everything but `once` as it is. -/
theorem enterBlock_spent (fuel : Nat) (w : World) (h : w.once = false) :
    w.enterBlock fuel = some w ∨ w.enterBlock fuel = some { w with once := false } := by
  unfold World.enterBlock
  split_ifs with h1 h2
  · rw [h] at h2; exact absurd h2 (by decide)
  · exact Or.inr rfl
  · exact Or.inl rfl

/-- After the run step with both endpoints set `once` is false. -/
theorem enterBlock_sets_once (fuel : Nat) (w w2 : World) (h : w.enterBlock fuel = some w2)
    (hs : w.startIndex ≠ -1) (he : w.endIndex ≠ -1) : w2.once = false := by
  unfold World.enterBlock at h
  rw [if_pos ⟨hs, he⟩] at h
  split_ifs at h with h2
  · cases hrun : w.runSearch fuel with
    | none => rw [hrun] at h; simp at h
    | some g1 =>
      rw [hrun] at h
      simp only [Option.some_bind] at h
      split_ifs at h
      · cases hget : GetPath fuel { g1 with state := (g1.state.set w.startIndex Start).set w.endIndex End } w.endIndex w.startIndex with
        | none => rw [hget] at h; simp at h
        | some r =>
          rw [hget] at h
          simp only [Option.map_some', Option.some.injEq] at h
          rw [← h]
      · simp only [Option.map_some', Option.some.injEq] at h
        rw [← h]
  · have : _ = w2 := Option.some.inj h
    rw [← this]

/-- The run step never sets `once`. -/
theorem enterBlock_once_false (fuel : Nat) (w w2 : World) (h : w.enterBlock fuel = some w2)
    (ho : w.once = false) : w2.once = false := by
  rcases enterBlock_spent fuel w ho with e | e
  · rw [e] at h
    have : w = w2 := Option.some.inj h
    rw [← this]; exact ho
  · rw [e] at h
    have : _ = w2 := Option.some.inj h
    rw [← this]

/-- Once `once` is false every `update` keeps it false. -/
theorem update_once_false (fuel : Nat) (w w2 : World) (inp : Input)
    (h : w.update fuel inp = some w2) (ho : w.once = false) : w2.once = false := by
  unfold World.update at h
  cases h1 : w.updateNodes fuel inp with
  | none => rw [h1] at h; simp at h
  | some w1 =>
    rw [h1] at h
    simp only [Option.some_bind] at h
    have e1 : (w1.switchMode inp.event).once = false := by
      rw [switchMode_once, updateNodes_once fuel w w1 inp h1]; exact ho
    split at h
    · exact enterBlock_once_false fuel _ w2 h e1
    · have : _ = w2 := Option.some.inj h
      rw [← this]; exact e1

end Main

namespace Main

open NodeState

/-- C23: the run step of `update` (Enter released) returns the World unchanged, graph and
`once` included, when startIndex or endIndex is -1; when `once` is false it leaves the
graph, the indices and the mode unchanged; so it changes the graph only if both indices are
set and `once` is still true. `once` is true in a freshly built World, no edit command or
mode switch changes it, a run step with both endpoints set leaves it false, and once false
it stays false through every later `update`. -/
theorem run_rejected (fuel : Nat) (w : World) :
    ((w.startIndex = -1 ∨ w.endIndex = -1) → w.enterBlock fuel = some w) ∧
      (w.once = false → ∃ w2, w.enterBlock fuel = some w2 ∧ w2.graph = w.graph
        ∧ w2.once = false ∧ w2.startIndex = w.startIndex ∧ w2.endIndex = w.endIndex
        ∧ w2.mode = w.mode) ∧
      (∀ w2, w.enterBlock fuel = some w2 → w2.graph ≠ w.graph →
        w.startIndex ≠ -1 ∧ w.endIndex ≠ -1 ∧ w.once = true) ∧
      (∀ w2, w.enterBlock fuel = some w2 → w.startIndex ≠ -1 → w.endIndex ≠ -1 →
        w2.once = false) ∧
      (∀ inp w2, w.update fuel inp = some w2 → w.once = false → w2.once = false) ∧
      (∀ inp w2, w.updateNodes fuel inp = some w2 → w2.once = w.once) ∧
      (∀ ev, (w.switchMode ev).once = w.once) ∧
      ∀ W H, (World.fresh W H).once = true := by
  have spent : w.once = false → ∃ w2, w.enterBlock fuel = some w2 ∧ w2.graph = w.graph
      ∧ w2.once = false ∧ w2.startIndex = w.startIndex ∧ w2.endIndex = w.endIndex
      ∧ w2.mode = w.mode := by
    intro ho
    rcases enterBlock_spent fuel w ho with e | e
    · exact ⟨w, e, rfl, ho, rfl, rfl, rfl⟩
    · exact ⟨_, e, rfl, rfl, rfl, rfl, rfl⟩
  refine ⟨enterBlock_unset fuel w, spent, ?_, ?_, ?_, ?_, ?_, fun _ _ => rfl⟩
  · intro w2 h hne
    by_cases hs : w.startIndex = -1
    · rw [enterBlock_unset fuel w (Or.inl hs)] at h
      have : w = w2 := Option.some.inj h
      exact absurd (by rw [this]) hne
    · by_cases he : w.endIndex = -1
      · rw [enterBlock_unset fuel w (Or.inr he)] at h
        have : w = w2 := Option.some.inj h
        exact absurd (by rw [this]) hne
      · refine ⟨hs, he, ?_⟩
        cases ho : w.once with
        | true => rfl
        | false =>
          obtain ⟨w3, e3, hg, _⟩ := spent ho
          rw [e3] at h
          have : w3 = w2 := Option.some.inj h
          rw [this] at hg
          exact absurd hg hne
  · intro w2 h hs he
    exact enterBlock_sets_once fuel w w2 h hs he
  · intro inp w2 h ho
    exact update_once_false fuel w w2 inp h ho
  · intro inp w2 h
    exact updateNodes_once fuel w w2 inp h
  · exact switchMode_once w

/-- C23 on a World of three cells in a row: Enter in the fresh World (no endpoint set)
returns it unchanged; after S on cell 0, E on cell 2 and Enter the search has run (found
= 1, `once` false), and the theorem applies to that state: a further Enter leaves its
graph unchanged. -/
theorem run_rejected_witness :
    (World.fresh 3 1).enterBlock 9 = some (World.fresh 3 1) ∧
      ∃ w, runInputs 9 (World.fresh 3 1)
          [onCell 0 (Event.KeyReleased Key.S), onCell 2 (Event.KeyReleased Key.E),
            onCell 2 (Event.KeyReleased Key.Enter)] = some w
        ∧ w.graph.found = 1 ∧ w.once = false
        ∧ ∃ w2, w.enterBlock 9 = some w2 ∧ w2.graph = w.graph ∧ w2.once = false
          ∧ w2.startIndex = w.startIndex ∧ w2.endIndex = w.endIndex ∧ w2.mode = w.mode :=
  ⟨(run_rejected 9 (World.fresh 3 1)).1 (Or.inl rfl),
    _, rfl, by decide, by decide, (run_rejected 9 _).2.1 (by decide)⟩

end Main

theorem flatMap_none {α β : Type} (l : List α) (F : α → List β) (h : ∀ b ∈ l, F b = []) :
    l.flatMap F = [] := by
  induction l with
  | nil => rfl
  | cons b rest ih =>
    rw [List.flatMap_cons, h b (List.mem_cons_self _ _),
      ih (fun c hc => h c (List.mem_cons_of_mem _ hc))]
    rfl

theorem flatMap_single {α β : Type} (l : List α) (F : α → List β) (a : α) (hn : l.Nodup)
    (ha : a ∈ l) (h : ∀ b ∈ l, b ≠ a → F b = []) : l.flatMap F = F a := by
  induction l with
  | nil => simp at ha
  | cons b rest ih =>
    rw [List.flatMap_cons]
    have hn2 := List.nodup_cons.1 hn
    rcases List.mem_cons.1 ha with hab | hab
    · subst hab
      rw [flatMap_none rest F, List.append_nil]
      intro c hc
      exact h c (List.mem_cons_of_mem _ hc) (fun e => hn2.1 (e ▸ hc))
    · have hba : b ≠ a := fun e => hn2.1 (e ▸ hab)
      rw [h b (List.mem_cons_self _ _) hba, List.nil_append]
      exact ih hn2.2 hab (fun c hc => h c (List.mem_cons_of_mem _ hc))

theorem nodup_intRange (n : Int) : (intRange n).Nodup := by
  unfold intRange
  exact List.Nodup.map (fun a b h => Int.ofNat.inj h) (List.nodup_range _)

namespace Main

open NodeState

theorem row_list (W H y : Int) (xs : List Int) (g : Graph) (u : Int) :
    (xs.foldl (fun g x => addCellOf W H g y x) g).adj_weighted.get u
      = g.adj_weighted.get u
        ++ xs.flatMap (fun x => if u = y * W + x then cellEntries W H y x else []) := by
  induction xs generalizing g with
  | nil => simp
  | cons x xs ih =>
    simp only [List.foldl, List.flatMap_cons]
    rw [ih, addCell_adj]
    split_ifs <;> simp

theorem rows_list (W H : Int) (ys xs : List Int) (g : Graph) (u : Int) :
    (ys.foldl (fun g y => xs.foldl (fun g x => addCellOf W H g y x) g) g).adj_weighted.get u
      = g.adj_weighted.get u
        ++ ys.flatMap (fun y =>
            xs.flatMap (fun x => if u = y * W + x then cellEntries W H y x else [])) := by
  induction ys generalizing g with
  | nil => simp
  | cons y ys ih =>
    simp only [List.foldl, List.flatMap_cons]
    rw [ih, row_list]
    simp

theorem cell_unique (W y x y2 x2 : Int) (hx : 0 ≤ x ∧ x < W) (hx2 : 0 ≤ x2 ∧ x2 < W)
    (h : y * W + x = y2 * W + x2) : y = y2 ∧ x = x2 := by
  have h1 := cell_div W y x hx.1 hx.2
  have h2 := cell_div W y2 x2 hx2.1 hx2.2
  have h3 := cell_mod W y x hx.1 hx.2
  have h4 := cell_mod W y2 x2 hx2.1 hx2.2
  rw [h] at h1 h3
  exact ⟨h1.symm.trans h2, h3.symm.trans h4⟩

/-- The list of the cell `(x, y)` of the lattice holds the entries pushed for that cell, in
push order, and nothing else. -/
theorem lattice_list (W H y x : Int) (hy : 0 ≤ y ∧ y < H) (hx : 0 ≤ x ∧ x < W)
    (hfit : H * W + W ≤ INF) :
    (buildLattice W H).adj_weighted.get (y * W + x) = cellEntries W H y x := by
  have hW : 0 ≤ W := by omega
  rw [lattice_loops W H hW (by omega) hfit, rows_list]
  have h0 : (Vec.filled (H * W) ([] : List (Int × Int))).get (y * W + x) = [] := rfl
  show (Vec.filled (H * W) ([] : List (Int × Int))).get (y * W + x) ++ _ = _
  rw [h0, List.nil_append]
  rw [flatMap_single (intRange H) _ y (nodup_intRange H) ((mem_intRange H y).2 hy)]
  · rw [flatMap_single (intRange W) _ x (nodup_intRange W) ((mem_intRange W x).2 hx)]
    · rw [if_pos rfl]
    · intro x2 hx2 hne
      rw [if_neg]
      intro e
      exact hne (cell_unique W y x y x2 hx ((mem_intRange W x2).1 hx2) e).2.symm
  · intro y2 _ hne
    apply flatMap_none
    intro x2 hx2
    rw [if_neg]
    intro e
    exact hne (cell_unique W y x y2 x2 hx ((mem_intRange W x2).1 hx2) e).1.symm

/-- Every entry of the lattice has its mirror entry. -/
theorem lattice_mirrored (W H : Int) (hW : 0 ≤ W) (hH : 0 ≤ H) (hfit : H * W + W ≤ INF) :
    (buildLattice W H).Mirrored := by
  intro u v w h
  obtain ⟨y, x, hy, hx, hu, he⟩ := (lattice_adj W H u hW hH hfit (v, w)).1 h
  rw [mem_cellEntries] at he
  rw [lattice_adj W H v hW hH hfit]
  subst hu
  rcases he with ⟨h1, h2⟩ | ⟨h1, h2⟩ | ⟨h1, h2⟩ | ⟨h1, h2⟩
  · have hv : v = (y - 1) * W + x := congrArg Prod.fst h2
    have hw : w = 1 := congrArg Prod.snd h2
    refine ⟨y - 1, x, by omega, hx, hv.symm, ?_⟩
    rw [mem_cellEntries]
    right; left
    refine ⟨by omega, ?_⟩
    rw [hw]
    congr 1
    ring
  · have hv : v = (y + 1) * W + x := congrArg Prod.fst h2
    have hw : w = 1 := congrArg Prod.snd h2
    refine ⟨y + 1, x, by omega, hx, hv.symm, ?_⟩
    rw [mem_cellEntries]
    left
    refine ⟨by omega, ?_⟩
    rw [hw]
    congr 1
    ring
  · have hv : v = y * W + (x - 1) := congrArg Prod.fst h2
    have hw : w = 1 := congrArg Prod.snd h2
    refine ⟨y, x - 1, hy, by omega, hv.symm, ?_⟩
    rw [mem_cellEntries]
    right; right; right
    refine ⟨by omega, ?_⟩
    rw [hw]
    congr 1
    ring
  · have hv : v = y * W + (x + 1) := congrArg Prod.fst h2
    have hw : w = 1 := congrArg Prod.snd h2
    refine ⟨y, x + 1, hy, by omega, hv.symm, ?_⟩
    rw [mem_cellEntries]
    right; right; left
    refine ⟨by omega, ?_⟩
    rw [hw]
    congr 1
    ring

end Main

namespace Main

open NodeState

/-- C27: for every width W >= 1 and height H >= 1 whose cell indices fit the int of the
constructor's arithmetic (H * W + W <= 0x7FFFFFFF) the graph the World constructor builds
has W * H nodes (the four vectors have that size); for each cell i = y * W + x the list
adj_weighted[i] is exactly the in-bounds cells among up (i - W), down (i + W), left (i - 1)
and right (i + 1), in that order, each once, each a valid index and each with weight 1;
every entry has its mirror entry; every state is Empty and every distance is
0x7FFFFFFF. -/
theorem lattice_construction (W H : Int) (hW : 1 ≤ W) (hH : 1 ≤ H)
    (hsize : H * W + W ≤ INF) :
    ((buildLattice W H).adj_weighted.size : Int) = W * H
      ∧ ((buildLattice W H).state.size : Int) = W * H
      ∧ ((buildLattice W H).parent.size : Int) = W * H
      ∧ ((buildLattice W H).distance.size : Int) = W * H
      ∧ (∀ y x, 0 ≤ y → y < H → 0 ≤ x → x < W →
          (buildLattice W H).adj_weighted.get (y * W + x)
              = (if 0 < y then [(y * W + x - W, 1)] else [])
                ++ (if y < H - 1 then [(y * W + x + W, 1)] else [])
                ++ (if 0 < x then [(y * W + x - 1, 1)] else [])
                ++ (if x < W - 1 then [(y * W + x + 1, 1)] else [])
            ∧ (((buildLattice W H).adj_weighted.get (y * W + x)).map Prod.fst).Nodup
            ∧ ∀ e ∈ (buildLattice W H).adj_weighted.get (y * W + x),
                (buildLattice W H).IsNode e.1 ∧ e.2 = 1)
      ∧ (buildLattice W H).Mirrored
      ∧ (∀ v, (buildLattice W H).state.get v = NodeState.Empty)
      ∧ (∀ v, (buildLattice W H).distance.get v = INF) := by
  have hW0 : 0 ≤ W := by omega
  have hH0 : 0 ≤ H := by omega
  obtain ⟨f1, f2, f3, _, f5⟩ := lattice_fields W H hW0 hH0 hsize
  have hcast : (((H * W).toNat : Nat) : Int) = W * H := by
    rw [Int.toNat_of_nonneg (Int.mul_nonneg (by omega) hW0)]
    ring
  refine ⟨?_, ?_, ?_, ?_, ?_, lattice_mirrored W H hW0 hH0 hsize, ?_, ?_⟩
  · rw [f5]; exact hcast
  · rw [f1]; exact hcast
  · rw [f2]; exact hcast
  · rw [f3]; exact hcast
  · intro y x hy0 hy1 hx0 hx1
    have hlist := lattice_list W H y x ⟨hy0, hy1⟩ ⟨hx0, hx1⟩ hsize
    have e1 : (y - 1) * W + x = y * W + x - W := by ring
    have e2 : (y + 1) * W + x = y * W + x + W := by ring
    have e3 : y * W + (x - 1) = y * W + x - 1 := by ring
    have e4 : y * W + (x + 1) = y * W + x + 1 := by ring
    have hform : cellEntries W H y x
        = (if 0 < y then [(y * W + x - W, 1)] else [])
          ++ (if y < H - 1 then [(y * W + x + W, 1)] else [])
          ++ (if 0 < x then [(y * W + x - 1, 1)] else [])
          ++ (if x < W - 1 then [(y * W + x + 1, 1)] else []) := by
      unfold cellEntries
      rw [e1, e2, e3, e4]
    refine ⟨hlist.trans hform, ?_, ?_⟩
    · rw [hlist, hform]
      generalize y * W + x = i
      split_ifs <;> simp <;> omega
    · intro e he
      obtain ⟨y1, x1, y2, x2, _, _, hy2, hx2, _, hee, _⟩ :=
        lattice_entry W H (y * W + x) hW0 hH0 hsize e he
      rw [hee]
      refine ⟨?_, rfl⟩
      have := cell_range W H y2 x2 hy2 hx2
      show 0 ≤ y2 * W + x2 ∧ y2 * W + x2 < ((buildLattice W H).adj_weighted.size : Int)
      rw [f5, hcast]
      constructor
      · exact this.1
      · have h2 : H * W = W * H := by ring
        omega
  · intro v
    rw [f1]; rfl
  · intro v
    rw [f3]; rfl

/-- C27 for the lattice of width 3 and height 2: the hypotheses hold and the theorem
applies; the lists of the cells 0 to 5 are as evaluated. -/
theorem lattice_construction_witness :
    (2 : Int) * 3 + 3 ≤ INF
      ∧ (intRange 6).map (buildLattice 3 2).adj_weighted.get
        = [[(3, 1), (1, 1)], [(4, 1), (0, 1), (2, 1)], [(5, 1), (1, 1)],
            [(0, 1), (4, 1)], [(1, 1), (3, 1), (5, 1)], [(2, 1), (4, 1)]]
      ∧ ((buildLattice 3 2).adj_weighted.size : Int) = 3 * 2
      ∧ ((buildLattice 3 2).state.size : Int) = 3 * 2
      ∧ ((buildLattice 3 2).parent.size : Int) = 3 * 2
      ∧ ((buildLattice 3 2).distance.size : Int) = 3 * 2
      ∧ (∀ y x, 0 ≤ y → y < 2 → 0 ≤ x → x < 3 →
          (buildLattice 3 2).adj_weighted.get (y * 3 + x)
              = (if 0 < y then [(y * 3 + x - 3, 1)] else [])
                ++ (if y < 2 - 1 then [(y * 3 + x + 3, 1)] else [])
                ++ (if 0 < x then [(y * 3 + x - 1, 1)] else [])
                ++ (if x < 3 - 1 then [(y * 3 + x + 1, 1)] else [])
            ∧ (((buildLattice 3 2).adj_weighted.get (y * 3 + x)).map Prod.fst).Nodup
            ∧ ∀ e ∈ (buildLattice 3 2).adj_weighted.get (y * 3 + x),
                (buildLattice 3 2).IsNode e.1 ∧ e.2 = 1)
      ∧ (buildLattice 3 2).Mirrored
      ∧ (∀ v, (buildLattice 3 2).state.get v = NodeState.Empty)
      ∧ (∀ v, (buildLattice 3 2).distance.get v = INF) :=
  ⟨by decide, by decide, lattice_construction 3 2 (by decide) (by decide) (by decide)⟩

end Main

namespace Main

open NodeState

/-- C28 evaluated on a `World` of three cells in a row. The constructor leaves every parent
entry of the freshly built graph at 0, the value of `resize` without a fill value, while it
fills every distance entry with 0x7FFFFFFF. With `S` on cell 0, an obstacle on cell 1 and
`E` on cell 2, the traversal of each of the three modes (`BreadthFirstSearch`, `DijkstraQ`,
`DepthFirstSearch`) launched from `startIndex` returns with `parent[0] = -1` and leaves
cell 2, which it never reaches, with the parent 0, not -1. -/
theorem parent_sentinel_missing :
    (intRange 3).map (World.fresh 3 1).graph.parent.get = [0, 0, 0]
      ∧ (intRange 3).map (World.fresh 3 1).graph.distance.get
          = [2147483647, 2147483647, 2147483647]
      ∧ (∃ w g2, runInputs 9 (World.fresh 3 1)
            [onCell 0 (Event.KeyReleased Key.S), leftClick 1,
              onCell 2 (Event.KeyReleased Key.E)] = some w
          ∧ w.once = true ∧ w.mode = 0 ∧ w.startIndex = 0 ∧ w.endIndex = 2
          ∧ w.runSearch 9 = some g2
          ∧ (intRange 3).map g2.state.get = [Start, Obstacle, End]
          ∧ (intRange 3).map g2.parent.get = [-1, 0, 0]
          ∧ g2.parent.get 2 ≠ -1)
      ∧ (∃ w g2, runInputs 9 (World.fresh 3 1)
            [onCell 0 (Event.KeyReleased Key.S), leftClick 1,
              onCell 2 (Event.KeyReleased Key.E), onCell 0 (Event.KeyPressed Key.LAlt)] = some w
          ∧ w.once = true ∧ w.mode = 1 ∧ w.startIndex = 0 ∧ w.endIndex = 2
          ∧ w.runSearch 9 = some g2
          ∧ (intRange 3).map g2.state.get = [Start, Obstacle, End]
          ∧ (intRange 3).map g2.parent.get = [-1, 0, 0]
          ∧ g2.parent.get 2 ≠ -1)
      ∧ (∃ w g2, runInputs 9 (World.fresh 3 1)
            [onCell 0 (Event.KeyReleased Key.S), leftClick 1,
              onCell 2 (Event.KeyReleased Key.E), onCell 0 (Event.KeyPressed Key.LAlt),
              onCell 0 (Event.KeyPressed Key.LAlt)] = some w
          ∧ w.once = true ∧ w.mode = 2 ∧ w.startIndex = 0 ∧ w.endIndex = 2
          ∧ w.runSearch 9 = some g2
          ∧ (intRange 3).map g2.state.get = [Visited, Obstacle, End]
          ∧ (intRange 3).map g2.parent.get = [-1, 0, 0]
          ∧ g2.parent.get 2 ≠ -1) :=
  ⟨by decide, by decide,
    ⟨_, _, rfl, by decide, by decide, by decide, by decide, rfl, by decide, by decide, by decide⟩,
    ⟨_, _, rfl, by decide, by decide, by decide, by decide, rfl, by decide, by decide, by decide⟩,
    ⟨_, _, rfl, by decide, by decide, by decide, by decide, rfl, by decide, by decide, by decide⟩⟩

end Main

namespace Eap

/-- Once the loop of `GetPath` stands on node 0 with `parent[0] = 0` it stays there: no
amount of fuel lets it return. -/
theorem getPathLoop_stuck (fuel : Nat) :
    ∀ (g : Graph) (path : List Int), g.parent.lookup 0 = 0 →
      GetPathLoop fuel g 0 (-1) path = none := by
  induction fuel with
  | zero => intro g path _; rfl
  | succ n ih =>
    intro g path h0
    unfold GetPathLoop
    rw [if_pos (show (0 : Int) ≠ -1 by decide)]
    simp only
    have h1 : (g.parent.touch 0).lookup 0 = 0 := by rw [lookup_touch]; exact h0
    rw [h1]
    exact ih _ _ h1

/-- From a destination `d` without a parent entry `GetPath` steps to node 0, the value
`operator[]` inserts, and with `parent[0] = 0` it never returns. -/
theorem getPath_stuck (g : Graph) (d : Int) (hd : d ≠ -1) (h1 : g.parent.lookup d = 0)
    (h0 : g.parent.lookup 0 = 0) : ∀ fuel, GetPath fuel g d (-1) = none := by
  intro fuel
  unfold GetPath
  cases fuel with
  | zero => rfl
  | succ n =>
    unfold GetPathLoop
    rw [if_pos hd]
    simp only
    have h2 : (g.parent.touch d).lookup d = 0 := by rw [lookup_touch]; exact h1
    have h3 : (g.parent.touch d).lookup 0 = 0 := by rw [lookup_touch]; exact h0
    rw [h2, getPathLoop_stuck n _ _ h3]
    rfl

/-- C33, the routine evaluated. On the second graph of `main` (edges (1,2), (1,3), (3,4),
(3,5)) after BreadthFirstSearch(g, 5), node 7 was never reached and has no parent entry;
GetPath(g, 7) steps from 7 to node 0 and stays there, so it returns for no amount of fuel.
The same holds on the first graph of `main` after Dijkstra(g, 1) for GetPath(g, 4). For a
reached destination the routine returns: GetPath(g, 2) = [5, 3, 1, 2]. -/
theorem getPath_never_returns :
    (∃ g1, BreadthFirstSearch 6 (buildUnweighted [(1, 2), (1, 3), (3, 4), (3, 5)]) 5 (-1)
          = some (Except.ok g1)
        ∧ g1.visited.lookup 7 = 0 ∧ g1.parent 7 = none
        ∧ (∀ fuel, GetPath fuel g1 7 (-1) = none)
        ∧ ∃ g2, GetPath 5 g1 2 (-1) = some ([5, 3, 1, 2], g2)) ∧
      (∃ g1, Dijkstra 4 (buildWeighted [(1, 3, 3), (1, 2, 1), (2, 3, 1)]) 1 (-1) = some g1
        ∧ g1.parent 4 = none
        ∧ ∀ fuel, GetPath fuel g1 4 (-1) = none) :=
  ⟨⟨_, rfl, by decide, by decide,
      getPath_stuck _ 7 (by decide) (by decide) (by decide), ⟨_, rfl⟩⟩,
    ⟨_, rfl, by decide, getPath_stuck _ 4 (by decide) (by decide) (by decide)⟩⟩

end Eap

namespace Main

/-- C34: for every graph, every node index `n` (any `n` other than -1, the value that
`SourceNode` reserves for the top-level call) and every weight `w`, the call
`update_node_weight(n, w)` returns and leaves `parent`, `state`, `distance`, `found` and
the number of lists unchanged; every list keeps its length and the neighbour index at
every position; an entry that changed has only its weight changed, to `w`, and is an entry
of `adj_weighted[n]` or an entry for `n` in the list of a neighbour of `n`; so the weight
of every entry between two nodes other than `n` is unchanged. -/
theorem update_node_weight_frame (g : Graph) (n w : Int) (k : Nat) (hn : n ≠ -1) :
    ∃ g2, g.update_node_weight (k + 2) n w (-1) = some g2
      ∧ g2.parent = g.parent ∧ g2.state = g.state ∧ g2.distance = g.distance
      ∧ g2.found = g.found ∧ g2.adj_weighted.size = g.adj_weighted.size
      ∧ (∀ v, (g2.adj_weighted.get v).length = (g.adj_weighted.get v).length)
      ∧ (∀ v, (g2.adj_weighted.get v).map Prod.fst = (g.adj_weighted.get v).map Prod.fst)
      ∧ (∀ (v : Int) (j : Nat) (q q0 : Int × Int), (g2.adj_weighted.get v)[j]? = some q →
          (g.adj_weighted.get v)[j]? = some q0 → q ≠ q0 →
            q = (q0.1, w) ∧ (v = n ∨ (q0.1 = n ∧ ∃ p ∈ g.adj_weighted.get n, p.1 = v)))
      ∧ (∀ (v : Int) (j : Nat) (q q0 : Int × Int), (g2.adj_weighted.get v)[j]? = some q →
          (g.adj_weighted.get v)[j]? = some q0 → v ≠ n → q0.1 ≠ n → q = q0) := by
  refine ⟨_, update_top k g n w hn, rfl, rfl, rfl, rfl, rfl, ?_, ?_, ?_, ?_⟩
  · intro v
    show (updatedAdj g.adj_weighted.get n w v).length = _
    unfold updatedAdj
    split_ifs with h1 h2
    · rw [h1, List.length_map]
    · rw [List.length_map]
    · rfl
  · intro v
    show (updatedAdj g.adj_weighted.get n w v).map Prod.fst = _
    unfold updatedAdj
    split_ifs with h1 h2
    · rw [h1, List.map_map]; rfl
    · rw [List.map_map]
      apply List.map_congr_left
      intro a _
      exact mirrorFix_fst n w a
    · rfl
  · intro v j q q0 hq hq0 hne
    change (updatedAdj g.adj_weighted.get n w v)[j]? = some q at hq
    unfold updatedAdj at hq
    split_ifs at hq with h1 h2
    · rw [h1] at hq0
      rw [List.getElem?_map, hq0] at hq
      simp only [Option.map_some', Option.some.injEq] at hq
      exact ⟨hq.symm, Or.inl h1⟩
    · rw [List.getElem?_map, hq0] at hq
      simp only [Option.map_some', Option.some.injEq] at hq
      unfold mirrorFix at hq
      by_cases hqn : q0.1 = n
      · rw [if_pos hqn] at hq
        obtain ⟨p, hp, hpv, _⟩ := h2
        exact ⟨hq.symm, Or.inr ⟨hqn, p, hp, hpv⟩⟩
      · rw [if_neg hqn] at hq
        exact absurd hq.symm hne
    · rw [hq0] at hq
      exact absurd (Option.some.inj hq).symm hne
  · intro v j q q0 hq hq0 hvn hqn
    change (updatedAdj g.adj_weighted.get n w v)[j]? = some q at hq
    unfold updatedAdj at hq
    rw [if_neg hvn] at hq
    split_ifs at hq with h2
    · rw [List.getElem?_map, hq0] at hq
      simp only [Option.map_some', Option.some.injEq] at hq
      unfold mirrorFix at hq
      rw [if_neg hqn] at hq
      exact hq.symm
    · rw [hq0] at hq
      exact (Option.some.inj hq).symm

/-- C34 on three nodes with the edges (0,1,1), (1,2,1) and a second edge (0,1,5): the call
update_node_weight(0, 7) changes the two entries of node 0 and the two entries for node 0
in the list of node 1, and nothing else. -/
theorem update_node_weight_frame_witness :
    (0 : Int) ≠ -1 ∧
      (∃ g2, doubled.update_node_weight 2 0 7 (-1) = some g2
        ∧ (intRange 3).map doubled.adj_weighted.get
            = [[(1, 1), (1, 5)], [(0, 1), (2, 1), (0, 5)], [(1, 1)]]
        ∧ (intRange 3).map g2.adj_weighted.get
            = [[(1, 7), (1, 7)], [(0, 7), (2, 1), (0, 7)], [(1, 1)]]) ∧
      ∃ g2, doubled.update_node_weight (0 + 2) 0 7 (-1) = some g2
        ∧ g2.parent = doubled.parent ∧ g2.state = doubled.state
        ∧ g2.distance = doubled.distance
        ∧ g2.found = doubled.found ∧ g2.adj_weighted.size = doubled.adj_weighted.size
        ∧ (∀ v, (g2.adj_weighted.get v).length = (doubled.adj_weighted.get v).length)
        ∧ (∀ v, (g2.adj_weighted.get v).map Prod.fst
            = (doubled.adj_weighted.get v).map Prod.fst)
        ∧ (∀ (v : Int) (j : Nat) (q q0 : Int × Int), (g2.adj_weighted.get v)[j]? = some q →
            (doubled.adj_weighted.get v)[j]? = some q0 → q ≠ q0 →
              q = (q0.1, 7)
                ∧ (v = 0 ∨ (q0.1 = 0 ∧ ∃ p ∈ doubled.adj_weighted.get 0, p.1 = v)))
        ∧ (∀ (v : Int) (j : Nat) (q q0 : Int × Int), (g2.adj_weighted.get v)[j]? = some q →
            (doubled.adj_weighted.get v)[j]? = some q0 → v ≠ 0 → q0.1 ≠ 0 → q = q0) :=
  ⟨by decide, ⟨_, rfl, by decide, by decide⟩,
    update_node_weight_frame doubled 0 7 0 (by decide)⟩

end Main

namespace Eaf

open NodeState Main

/-- The right-button block of `eaf.cpp` never resets an index: when its marker test runs,
the cell is `Water` already. -/
theorem rightBlock_indices (fuel : Nat) (w w2 : Main.World) (i : Int)
    (h : rightBlock fuel w i = some w2) :
    w2.startIndex = w.startIndex ∧ w2.endIndex = w.endIndex ∧ w2.graph.state.get i = Water := by
  unfold rightBlock at h
  simp only at h
  cases hu : (w.setState i Water).graph.update_node_weight fuel i 2 (-1) with
  | none => rw [hu] at h; simp at h
  | some g2 =>
    rw [hu] at h
    simp only [Option.map_some', Option.some.injEq] at h
    have hst := update_keeps_state fuel _ i 2 (-1) g2 hu
    have hw : g2.state.get i = Water := by
      rw [hst]
      show (w.graph.state.set i Water).get i = Water
      rw [vec_get_set, if_pos rfl]
    unfold World.dropMarker at h
    simp only at h
    rw [hw] at h
    rw [if_neg (show Water ≠ Start by decide), if_neg (show Water ≠ End by decide)] at h
    rw [← h]
    exact ⟨rfl, rfl, hw⟩

/-- C35, the `World` of `eaf.cpp` evaluated: in a freshly built World of two cells, after
S on cell 0 a right click on cell 0 leaves startIndex = 0 although the cell is now Water,
while a left click on cell 0 leaves startIndex = -1; after E on cell 1 a right click on
cell 1 leaves endIndex = 1, a left click leaves endIndex = -1. -/
theorem right_click_keeps_index :
    (∃ w1 w2 w3, updateNodes 3 (World.fresh 2 1) (onCell 0 (Event.KeyReleased Key.S)) = some w1
        ∧ w1.startIndex = 0 ∧ w1.graph.state.get 0 = Start
        ∧ updateNodes 3 w1 (rightClick 0) = some w2
        ∧ w2.startIndex = 0 ∧ w2.graph.state.get 0 = Water
        ∧ updateNodes 3 w1 (leftClick 0) = some w3
        ∧ w3.startIndex = -1 ∧ w3.graph.state.get 0 = Obstacle) ∧
      (∃ w1 w2 w3, updateNodes 3 (World.fresh 2 1) (onCell 1 (Event.KeyReleased Key.E)) = some w1
        ∧ w1.endIndex = 1 ∧ w1.graph.state.get 1 = End
        ∧ updateNodes 3 w1 (rightClick 1) = some w2
        ∧ w2.endIndex = 1 ∧ w2.graph.state.get 1 = Water
        ∧ updateNodes 3 w1 (leftClick 1) = some w3
        ∧ w3.endIndex = -1 ∧ w3.graph.state.get 1 = Obstacle) :=
  ⟨⟨_, _, _, rfl, by decide, by decide, rfl, by decide, by decide, rfl, by decide, by decide⟩,
    ⟨_, _, _, rfl, by decide, by decide, rfl, by decide, by decide, rfl, by decide, by decide⟩⟩

end Eaf

namespace Main

open NodeState

/-- The first `n + 1` nodes of a parent chain are the first `n` followed by the node
reached after `n` steps. -/
theorem chainBack_snoc (g : Graph) (n : Nat) (v : Int) :
    g.chainBack (n + 1) v = g.chainBack n v ++ [g.ancestor n v] := by
  induction n generalizing v with
  | zero => rfl
  | succ n ih =>
    show v :: g.chainBack (n + 1) (g.parent.get v) = _
    rw [ih (g.parent.get v)]
    rfl

/-- Along a tree path every step is an entry of the parent of the node it leads to. -/
theorem walk_parent_entry (adj : Adj) (par : Int → Int) (steps : List (Int × Int)) :
    ∀ u, IsWalk adj u steps → ParOK par u steps → ∀ e ∈ steps, e ∈ adj (par e.1) := by
  induction steps with
  | nil => intro u _ _ e he; exact absurd he (List.not_mem_nil _)
  | cons a rest ih =>
    intro u hw hp e he
    rcases List.mem_cons.1 he with h | h
    · rw [h, hp.1]; exact hw.1
    · exact ih a.1 hw.2 hp.2 e h

/-- C32: for every well-formed graph whose `found` is 0 and whose Source is a node marked
`Start` (the traversal preconditions that matter here), DepthFirstSearch(graph, Source,
EndNode) returns, and if it ends with found = 1 then parent[Source] = -1, following parent
from EndNode reaches Source after some number `n` of steps and not before, the `n + 1`
nodes of that chain are pairwise distinct, each of them other than Source is an entry of
`adj_weighted` of its parent, and none of them was in state `Obstacle` before the
search. -/
theorem dfs_valid_path (g : Graph) (Source EndNode : Int) (hv : g.Valid)
    (hs : g.IsNode Source) (hf : g.found = 0) (hss : g.state.get Source = Start) :
    ∃ fuel g2, DepthFirstSearch fuel g Source EndNode (-1) = some g2 ∧
      (g2.found = 1 →
        g2.parent.get Source = -1 ∧
        ∃ n, g2.StepsBack EndNode Source n
          ∧ (g2.chainBack (n + 1) EndNode).Nodup
          ∧ (∀ m, m < n → ∃ wt, (g2.ancestor m EndNode, wt)
              ∈ g.adj_weighted.get (g2.ancestor (m + 1) EndNode))
          ∧ ∀ m, m ≤ n → g.state.get (g2.ancestor m EndNode) ≠ Obstacle) := by
  obtain ⟨fuel, g2, hrun, hP⟩ := dfs_run g Source EndNode hv hs hf
  refine ⟨fuel, g2, hrun, fun h1 => ⟨hP.inv.par_v, ?_⟩⟩
  have hE : g.EnteredFrom g2 Source EndNode := by
    rcases hP.inv.found with ⟨_, hE⟩ | ⟨h0, _⟩
    · exact hE
    · rw [h0] at h1; exact absurd h1 (by decide)
  obtain ⟨steps, hw, hend, hpar, hnd, hall⟩ := hP.inv.chain EndNode hE
  have hsb := stepsBack_of_chain g2 Source steps hpar hnd
  rw [hend] at hsb
  have hcb := chainBack_of_chain g2 Source steps hpar
  rw [hend] at hcb
  have hmem : ∀ m, m < steps.length → ∃ e ∈ steps, e.1 = g2.ancestor m EndNode := by
    intro m hm
    have h2 : g2.ancestor m EndNode ∈ g2.chainBack steps.length EndNode :=
      (mem_chainBack g2 _ _ _).2 ⟨m, hm, rfl⟩
    rw [hcb, List.mem_reverse, List.mem_map] at h2
    exact h2
  refine ⟨steps.length, hsb, ?_, ?_, ?_⟩
  · rw [chainBack_snoc, hcb, hsb.1]
    have h3 : (steps.map Prod.fst).reverse ++ [Source] = (walkNodes Source steps).reverse := by
      simp [walkNodes]
    rw [h3]
    exact List.nodup_reverse.2 hnd
  · intro m hm
    obtain ⟨e, he, hee⟩ := hmem m hm
    have h4 := walk_parent_entry g.wadj (fun y => g2.parent.get y) steps Source hw hpar e he
    refine ⟨e.2, ?_⟩
    rw [ancestor_succ, ← hee]
    exact h4
  · intro m hm
    rcases Nat.lt_or_ge m steps.length with h | h
    · obtain ⟨e, he, hee⟩ := hmem m h
      rw [← hee]
      exact white_not_obstacle g e.1 (hall e.1 (List.mem_map.2 ⟨e, he, rfl⟩)).1
    · have : m = steps.length := by omega
      rw [this, hsb.1, hss]
      decide

/-- C32 on the graph with the edges (0,1,1), (0,2,1), (2,3,1), node 0 marked `Start` and
node 3 marked `End`: the search enters node 1 first, then nodes 2 and 3, and the chain
from node 3 is 3, 2, 0. -/
theorem dfs_valid_path_witness :
    (marked 4 [(0, 1, 1), (0, 2, 1), (2, 3, 1)] 0 3).Valid
      ∧ (marked 4 [(0, 1, 1), (0, 2, 1), (2, 3, 1)] 0 3).found = 0
      ∧ (marked 4 [(0, 1, 1), (0, 2, 1), (2, 3, 1)] 0 3).state.get 0 = Start
      ∧ (∃ g2, DepthFirstSearch 4 (marked 4 [(0, 1, 1), (0, 2, 1), (2, 3, 1)] 0 3) 0 3 (-1)
            = some g2 ∧ g2.found = 1 ∧ g2.chainBack 3 3 = [3, 2, 0]
          ∧ (intRange 4).map g2.parent.get = [-1, 0, 0, 2])
      ∧ ∃ fuel g2, DepthFirstSearch fuel (marked 4 [(0, 1, 1), (0, 2, 1), (2, 3, 1)] 0 3)
            0 3 (-1) = some g2 ∧
          (g2.found = 1 →
            g2.parent.get 0 = -1 ∧
            ∃ n, g2.StepsBack 3 0 n
              ∧ (g2.chainBack (n + 1) 3).Nodup
              ∧ (∀ m, m < n → ∃ wt, (g2.ancestor m 3, wt)
                  ∈ (marked 4 [(0, 1, 1), (0, 2, 1), (2, 3, 1)] 0 3).adj_weighted.get
                      (g2.ancestor (m + 1) 3))
              ∧ ∀ m, m ≤ n → (marked 4 [(0, 1, 1), (0, 2, 1), (2, 3, 1)] 0 3).state.get
                  (g2.ancestor m 3) ≠ Obstacle) :=
  ⟨by decide, by decide, by decide, ⟨_, rfl, by decide, by decide, by decide⟩,
    dfs_valid_path _ 0 3 (by decide) (by decide) (by decide) (by decide)⟩

end Main

/-- The function `wrapInt` is the identity on the values of an `int`. -/
theorem wrapInt_int (x : Int) (h0 : -2147483648 ≤ x) (h1 : x < INF) : wrapInt x = x := by
  unfold wrapInt
  unfold INF at h1
  omega

namespace Eaf

open NodeState

/-- While the loop of a round runs, the source's path is the empty walk and any other
current node has the path of the invariant. -/
theorem RInv.path_u {g0 : Main.Graph} {U : List Int} {s u : Int} {g : Main.Graph}
    {ntp : List Int} (h : RInv g0 U s u g ntp) :
    ∃ steps, IsWalk g0.wadj s steps ∧ walkEnd s steps = u ∧ (walkNodes s steps).Nodup
      ∧ g.distance.get u ≤ walkWeight steps
      ∧ ∀ y ∈ walkNodes s steps, y = s ∨ g.state.get y = Visited := by
  by_cases hus : u = s
  · refine ⟨[], trivial, hus.symm, by simp [walkNodes], ?_, ?_⟩
    · rw [hus, walkWeight_nil]; exact h.inv.dist_s
    · intro y hy
      simp only [walkNodes, List.map_nil, List.mem_singleton] at hy
      exact Or.inl hy
  · obtain ⟨steps, h1, h2, h3, h4, h5⟩ := h.inv.path u hus h.u_lt
    refine ⟨steps, h1, h2, h3, h4, ?_⟩
    intro y hy
    rcases h5 y hy with e | e | e
    · rcases h.u_done with d | d
      · exact absurd d hus
      · right; rw [e]; exact d
    · exact Or.inl e
    · exact Or.inr e

/-- One entry of the current node `u`: `relaxEdge` keeps the round invariant. -/
theorem relaxEdge_round (g0 : Main.Graph) (U : List Int) (s u : Int)
    (hU : ClosedUnder g0.wadj U) (hw : NonNegWeights g0.wadj)
    (hb : PathSumsBelow g0.wadj (fun _ => True) s) (hu : u ∈ U)
    (g : Main.Graph) (ntp : List Int) (e : Int × Int) (he : e ∈ g0.wadj u)
    (h : RInv g0 U s u g ntp) :
    RInv g0 U s u (relaxEdge u (g, ntp) e).1 (relaxEdge u (g, ntp) e).2
      ∧ (relaxEdge u (g, ntp) e).1.state = g.state := by
  have hINF : INF = 2147483647 := rfl
  by_cases hskip : g.state.get e.1 = Visited ∨ g.state.get e.1 = Obstacle
  · rw [eaf_relaxEdge_skip u g ntp e hskip]
    exact ⟨h, rfl⟩
  · rw [eaf_relaxEdge_go u g ntp e hskip]
    have hnv : g.state.get e.1 ≠ Visited := fun c => hskip (Or.inl c)
    have hxU : e.1 ∈ U := hU u hu e he
    have hw0 : 0 ≤ e.2 := hw u e he
    have hru := h.inv.range u
    have hrx := h.inv.range e.1
    have hnw := wrapInt_range (g.distance.get u + e.2)
    -- the bound on the new distance of a node other than the source
    have hA : e.1 ≠ s → wrapInt (g.distance.get u + e.2) < INF ∧
        ∃ steps, IsWalk g0.wadj s steps ∧ walkEnd s steps = e.1 ∧ (walkNodes s steps).Nodup
          ∧ wrapInt (g.distance.get u + e.2) ≤ walkWeight steps
          ∧ ∀ y ∈ walkNodes s steps, y = e.1 ∨ y = s ∨ g.state.get y = Visited := by
      intro hxs
      obtain ⟨pu, p1, p2, p3, p4, p5⟩ := h.path_u
      have hnot : e.1 ∉ walkNodes s pu := by
        intro hin
        rcases p5 e.1 hin with c | c
        · exact hxs c
        · exact hnv c
      have hwalk : IsWalk g0.wadj s (pu ++ [e]) := by
        rw [isWalk_append, p2]
        exact ⟨p1, he, trivial⟩
      have hnd : (walkNodes s (pu ++ [e])).Nodup := by
        rw [walkNodes_snoc]
        apply List.nodup_append.2
        refine ⟨p3, List.nodup_singleton _, ?_⟩
        intro a ha hb2
        rw [List.mem_singleton] at hb2
        rw [hb2] at ha
        exact hnot ha
      have hlt := hb (pu ++ [e]) ⟨hwalk, hnd, fun _ _ => trivial⟩
      rw [walkWeight_append] at hlt
      have hone : walkWeight [e] = e.2 := by simp [walkWeight]
      rw [hone] at hlt
      have hid : wrapInt (g.distance.get u + e.2) = g.distance.get u + e.2 :=
        wrapInt_int _ (by omega) (by omega)
      refine ⟨by rw [hid]; omega, pu ++ [e], hwalk, ?_, hnd, ?_, ?_⟩
      · rw [walkEnd_append]; rfl
      · rw [hid, walkWeight_append, hone]; omega
      · intro y hy
        rw [walkNodes_snoc, List.mem_append, List.mem_singleton] at hy
        rcases hy with c | c
        · exact Or.inr (p5 y c)
        · exact Or.inl c
    have hmem : ∀ y, y ∈ setErase u (setInsert e.1 ntp) →
        y = e.1 ∨ y ∈ setErase u ntp := by
      intro y hy
      rw [mem_setErase, mem_setInsert] at hy
      rcases hy.1 with c | c
      · exact Or.inl c
      · exact Or.inr ((mem_setErase _ _ _).2 ⟨c, hy.2⟩)
    by_cases hc : wrapInt (g.distance.get u + e.2) < g.distance.get e.1
    · rw [if_pos hc]
      refine ⟨⟨⟨h.inv.adj_eq, h.inv.start_s, h.inv.only, ?_, ?_, ?_, ?_⟩, ?_, h.u_done⟩, rfl⟩
      · intro v
        show -2147483648 ≤ (g.distance.set e.1 _).get v ∧ (g.distance.set e.1 _).get v ≤ INF
        rw [vec_get_set]
        split_ifs
        · rw [hINF]; exact hnw
        · exact h.inv.range v
      · show (g.distance.set e.1 _).get s ≤ 0
        rw [vec_get_set]
        split_ifs with hse
        · have := h.inv.dist_s
          rw [hse] at this
          omega
        · exact h.inv.dist_s
      · intro v hvs hlt
        change (g.distance.set e.1 _).get v < INF at hlt
        show ∃ steps, IsWalk g0.wadj s steps ∧ walkEnd s steps = v ∧ (walkNodes s steps).Nodup
          ∧ (g.distance.set e.1 _).get v ≤ walkWeight steps
          ∧ ∀ y ∈ walkNodes s steps, y = v ∨ y = s ∨ g.state.get y = Visited
        rw [vec_get_set] at hlt ⊢
        by_cases hve : v = e.1
        · rw [if_pos hve]
          rw [hve]
          exact (hA (by rw [← hve]; exact hvs)).2
        · rw [if_neg hve] at hlt ⊢
          exact h.inv.path v hvs hlt
      · intro y hy
        show y ∈ U ∧ (g.distance.set e.1 _).get y < INF ∧ g.state.get y ≠ Visited
        rw [vec_get_set]
        rcases hmem y hy with c | c
        · rw [if_pos c, c]
          exact ⟨hxU, by omega, hnv⟩
        · obtain ⟨a1, a2, a3⟩ := h.inv.ntp_in y c
          refine ⟨a1, ?_, a3⟩
          split_ifs
          · omega
          · exact a2
      · show (g.distance.set e.1 _).get u < INF
        rw [vec_get_set]
        have := h.u_lt
        split_ifs
        · omega
        · exact this
    · rw [if_neg hc]
      have hdx : g.distance.get e.1 < INF := by
        by_cases hxs : e.1 = s
        · have := h.inv.dist_s
          rw [hxs, hINF]
          omega
        · have := (hA hxs).1
          omega
      refine ⟨⟨⟨h.inv.adj_eq, h.inv.start_s, h.inv.only, h.inv.range, h.inv.dist_s,
        h.inv.path, ?_⟩, h.u_lt, h.u_done⟩, rfl⟩
      intro y hy
      rcases hmem y hy with c | c
      · rw [c]
        exact ⟨hxU, hdx, hnv⟩
      · exact h.inv.ntp_in y c

/-- The `for` loop of a round keeps the round invariant and the states. -/
theorem relax_fold_round (g0 : Main.Graph) (U : List Int) (s u : Int)
    (hU : ClosedUnder g0.wadj U) (hw : NonNegWeights g0.wadj)
    (hb : PathSumsBelow g0.wadj (fun _ => True) s) (hu : u ∈ U) (l : List (Int × Int)) :
    ∀ (g : Main.Graph) (ntp : List Int), (∀ e ∈ l, e ∈ g0.wadj u) → RInv g0 U s u g ntp →
      RInv g0 U s u (l.foldl (relaxEdge u) (g, ntp)).1 (l.foldl (relaxEdge u) (g, ntp)).2
        ∧ (l.foldl (relaxEdge u) (g, ntp)).1.state = g.state := by
  induction l with
  | nil => intro g ntp _ h; exact ⟨h, rfl⟩
  | cons e rest ih =>
    intro g ntp hmem h
    obtain ⟨h1, h2⟩ := relaxEdge_round g0 U s u hU hw hb hu g ntp e (hmem e (by simp)) h
    simp only [List.foldl_cons]
    obtain ⟨h3, h4⟩ := ih (relaxEdge u (g, ntp) e).1 (relaxEdge u (g, ntp) e).2
      (fun a ha => hmem a (by simp only [List.mem_cons]; exact Or.inr ha)) h1
    exact ⟨h3, by rw [h4, h2]⟩

/-- The count of nodes still to mark depends on the states only. -/
theorem openCount_congr (U : List Int) (g g2 : Main.Graph) (h : g2.state = g.state) :
    openCount U g2 = openCount U g := by
  unfold openCount
  rw [h]

/-- Marking a node that was neither `Visited` nor `Start` lowers the count. -/
theorem openCount_mark (U : List Int) (g : Main.Graph) (u : Int) (hu : u ∈ U)
    (h1 : g.state.get u ≠ Visited) (h2 : g.state.get u ≠ Start) :
    openCount U { g with state := g.state.set u Visited } < openCount U g := by
  unfold openCount
  apply filter_length_lt U _ _ _ u hu
  · simp [h1, h2]
  · simp [vec_get_set]
  · intro v hv
    simp only [vec_get_set, decide_eq_true_eq] at hv ⊢
    by_cases hvu : v = u
    · rw [if_pos hvu] at hv
      exact absurd rfl hv.1
    · rw [if_neg hvu] at hv
      exact hv

/-- The `while (true)` loop of `Dijkstra` returns when the fuel exceeds the measure
`roundsLeft`. -/
theorem loop_returns (g0 : Main.Graph) (U : List Int) (s E : Int)
    (hU : ClosedUnder g0.wadj U) (hw : NonNegWeights g0.wadj)
    (hb : PathSumsBelow g0.wadj (fun _ => True) s) :
    ∀ (fuel : Nat) (g : Main.Graph) (ntp : List Int) (u : Int),
      TInv g0 U s g ntp → u ∈ U → (u = s ∨ u ∈ ntp) → roundsLeft U s g ntp u < fuel →
      ∃ g2, DijkstraLoop fuel g ntp u E = some g2 ∧ g2.state.get s = Start := by
  intro fuel
  induction fuel with
  | zero => intro g ntp u _ _ _ hm; omega
  | succ k ih =>
    intro g ntp u hT hu hcur hm
    have hunf : DijkstraLoop (k + 1) g ntp u E =
        (let g1 : Main.Graph :=
          if g.state.get u ≠ Start then { g with state := g.state.set u Visited } else g
         let st1 := (g1.adj_weighted.get u).foldl (relaxEdge u) (g1, ntp)
         let g2 : Main.Graph :=
          if st1.1.found = 0 ∧ E ∈ st1.2 then { st1.1 with found := 1 } else st1.1
         if setErase u st1.2 = [] then some g2
         else DijkstraLoop k g2 (setErase u st1.2)
           ((setErase u st1.2).foldl (pickStep g2) (INF, u)).2 E) := by
      rw [DijkstraLoop]
    rw [hunf]
    simp only
    have hdu : g.distance.get u < INF := by
      rcases hcur with c | c
      · have := hT.dist_s
        rw [c]
        show g.distance.get s < 2147483647
        omega
      · exact (hT.ntp_in u c).2.1
    -- the graph after the current node is marked
    have hmark : ∃ g1 : Main.Graph,
        (if g.state.get u ≠ Start then
          ({ g with state := g.state.set u Visited } : Main.Graph) else g) = g1
        ∧ RInv g0 U s u g1 ntp
        ∧ (u = s → openCount U g1 = openCount U g)
        ∧ (u ≠ s → openCount U g1 < openCount U g) := by
      by_cases hus : u = s
      · refine ⟨g, ?_, ?_, fun _ => rfl, fun c => absurd hus c⟩
        · rw [if_neg]
          rw [hus, hT.start_s]
          exact fun c => c rfl
        · refine ⟨⟨hT.adj_eq, hT.start_s, hT.only, hT.range, hT.dist_s, hT.path, ?_⟩, hdu,
            Or.inl hus⟩
          intro y hy
          exact hT.ntp_in y ((mem_setErase _ _ _).1 hy).1
      · have hnS : g.state.get u ≠ Start := hT.only u hus
        have hin : u ∈ ntp := by
          rcases hcur with c | c
          · exact absurd c hus
          · exact c
        refine ⟨{ g with state := g.state.set u Visited }, by rw [if_pos hnS], ?_,
          fun c => absurd c hus,
          fun _ => openCount_mark U g u hu (hT.ntp_in u hin).2.2 hnS⟩
        refine ⟨⟨hT.adj_eq, ?_, ?_, hT.range, hT.dist_s, ?_, ?_⟩, hdu, Or.inr ?_⟩
        · show (g.state.set u Visited).get s = Start
          rw [vec_get_set, if_neg (fun c => hus c.symm)]
          exact hT.start_s
        · intro v hv
          show (g.state.set u Visited).get v ≠ Start
          rw [vec_get_set]
          split_ifs
          · decide
          · exact hT.only v hv
        · intro v hv hlt
          obtain ⟨steps, p1, p2, p3, p4, p5⟩ := hT.path v hv hlt
          refine ⟨steps, p1, p2, p3, p4, ?_⟩
          intro y hy
          show y = v ∨ y = s ∨ (g.state.set u Visited).get y = Visited
          rw [vec_get_set]
          rcases p5 y hy with c | c | c
          · exact Or.inl c
          · exact Or.inr (Or.inl c)
          · right; right
            split_ifs
            · rfl
            · exact c
        · intro y hy
          rw [mem_setErase] at hy
          obtain ⟨a1, a2, a3⟩ := hT.ntp_in y hy.1
          refine ⟨a1, a2, ?_⟩
          show (g.state.set u Visited).get y ≠ Visited
          rw [vec_get_set, if_neg hy.2]
          exact a3
        · show (g.state.set u Visited).get u = Visited
          rw [vec_get_set, if_pos rfl]
    obtain ⟨g1, hg1, hR1, hcs, hcn⟩ := hmark
    rw [hg1]
    have hadj1 : g1.adj_weighted.get u = g0.wadj u := by
      rw [hR1.inv.adj_eq]; rfl
    obtain ⟨hR2, hst2⟩ := relax_fold_round g0 U s u hU hw hb hu (g1.adj_weighted.get u) g1 ntp
      (fun e he => by rw [← hadj1]; exact he) hR1
    generalize (g1.adj_weighted.get u).foldl (relaxEdge u) (g1, ntp) = st1 at hR2 hst2
    obtain ⟨f1, f2, f3, f4⟩ := found_upd st1.1 (st1.1.found = 0 ∧ E ∈ st1.2)
    generalize (if st1.1.found = 0 ∧ E ∈ st1.2 then
      ({ st1.1 with found := 1 } : Main.Graph) else st1.1) = g2 at f1 f2 f3 f4
    have hT2 : TInv g0 U s g2 (setErase u st1.2) := by
      refine ⟨by rw [f1]; exact hR2.inv.adj_eq, by rw [f4]; exact hR2.inv.start_s,
        fun v hv => by rw [f4]; exact hR2.inv.only v hv,
        fun v => by rw [f2]; exact hR2.inv.range v,
        by rw [f2]; exact hR2.inv.dist_s, ?_, ?_⟩
      · intro v hv hlt
        rw [f2] at hlt
        obtain ⟨steps, p1, p2, p3, p4, p5⟩ := hR2.inv.path v hv hlt
        refine ⟨steps, p1, p2, p3, by rw [f2]; exact p4, ?_⟩
        intro y hy
        rw [f4]
        exact p5 y hy
      · intro y hy
        rw [f2, f4]
        exact hR2.inv.ntp_in y hy
    by_cases hemp : setErase u st1.2 = []
    · rw [if_pos hemp]
      exact ⟨g2, rfl, hT2.start_s⟩
    · rw [if_neg hemp]
      obtain ⟨_, h3, h4⟩ := eaf_pick_fold g2 (setErase u st1.2) INF u
      generalize (setErase u st1.2).foldl (pickStep g2) (INF, u) = sel at h3 h4
      have hsel : sel.2 ∈ setErase u st1.2 := by
        rcases h4 with h5 | h5
        · exfalso
          obtain ⟨a, ha⟩ := List.exists_mem_of_ne_nil _ hemp
          have h6 := h3 a ha
          have h7 := (hT2.ntp_in a ha).2.1
          rw [h5] at h6
          simp only at h6
          omega
        · exact h5.1
      have hselU := (hT2.ntp_in sel.2 hsel).1
      apply ih g2 (setErase u st1.2) sel.2 hT2 hselU (Or.inr hsel)
      have hc2 : openCount U g2 = openCount U g1 :=
        openCount_congr U g1 g2 (by rw [f4, hst2])
      unfold roundsLeft at hm ⊢
      rw [hc2]
      by_cases hus : u = s
      · have hns : s ∉ setErase u st1.2 := by
          intro c
          exact ((mem_setErase _ _ _).1 c).2 hus.symm
        have hne : sel.2 ≠ s := by
          intro c
          rw [c] at hsel
          exact hns hsel
        rw [if_neg (by rintro (c | c); exact hne c; exact hns c)]
        rw [if_pos (Or.inl hus)] at hm
        rw [hcs hus]
        omega
      · have := hcn hus
        split_ifs at hm ⊢ <;> omega

end Eaf

namespace Eaf

open NodeState

/-- C31 (amended): for every well-formed graph of `n` nodes with non-negative edge weights,
every simple path sum from Source below `0x7FFFFFFF`, fresh distance entries and no node
other than Source in state `Start`, whatever EndNode is, the `Dijkstra` of `eaf.cpp`
returns within `2 * n + 2` rounds of its loop, and Source, never marked `Visited`, is still
`Start` afterwards. -/
theorem dijkstra_terminates (g : Main.Graph) (Source EndNode : Int) (hv : g.Valid)
    (hs : g.IsNode Source) (hw : NonNegWeights g.wadj)
    (hb : PathSumsBelow g.wadj (fun _ => True) Source)
    (hd : g.FreshDistance) (hst : g.OnlyStart Source) :
    ∃ g2, Dijkstra (2 * g.adj_weighted.size + 2) g Source EndNode (-1) = some g2
      ∧ g2.state.get Source = Start := by
  unfold Dijkstra
  simp only
  apply loop_returns g (intRange g.adj_weighted.size) Source EndNode hv.closed hw hb
  · refine ⟨rfl, ?_, ?_, ?_, ?_, ?_, ?_⟩
    · show (g.state.set Source Start).get Source = Start
      rw [vec_get_set, if_pos rfl]
    · intro v hvs
      show (g.state.set Source Start).get v ≠ Start
      rw [vec_get_set, if_neg hvs]
      exact hst v hvs
    · intro v
      show -2147483648 ≤ (g.distance.set Source 0).get v ∧ (g.distance.set Source 0).get v ≤ INF
      rw [vec_get_set]
      split_ifs
      · exact ⟨by decide, by decide⟩
      · rw [hd v]; exact ⟨by decide, le_refl _⟩
    · show (g.distance.set Source 0).get Source ≤ 0
      rw [vec_get_set, if_pos rfl]
    · intro v hvs hlt
      change (g.distance.set Source 0).get v < INF at hlt
      rw [vec_get_set, if_neg hvs, hd v] at hlt
      exact absurd hlt (lt_irrefl _)
    · intro x hx
      exact absurd hx (List.not_mem_nil _)
  · exact hs.mem
  · exact Or.inl rfl
  · unfold roundsLeft
    rw [if_pos (Or.inl rfl)]
    have h1 : openCount (intRange g.adj_weighted.size)
        { g with state := g.state.set Source Start, distance := g.distance.set Source 0, parent := g.parent.set Source (-1) }
        ≤ (intRange g.adj_weighted.size).length := by
      unfold openCount
      exact List.length_filter_le _ _
    rw [length_intRange, Int.toNat_ofNat] at h1
    omega

/-- The amended C31 on three nodes in a row, where node 0 is put back into the frontier when
node 1 is expanded: the hypotheses hold and `Dijkstra(graph, 0, 2)` returns. -/
theorem dijkstra_terminates_witness :
    Main.row3.Valid ∧ Main.row3.IsNode 0 ∧ Main.row3.FreshDistance ∧ Main.row3.OnlyStart 0
      ∧ ∃ g2, Dijkstra (2 * Main.row3.adj_weighted.size + 2) Main.row3 0 2 (-1) = some g2
        ∧ g2.state.get 0 = Start :=
  ⟨by decide, by decide, (Main.emptyGraph_fresh 3 _).1, (Main.emptyGraph_fresh 3 _).2.2 0,
    dijkstra_terminates Main.row3 0 2 (by decide) (by decide)
      (Main.nonNeg_addEdges 3 _ (by decide))
      (pathSumsBelow_of_bound _ [0, 1, 2] 1 0 (by unfold ClosedUnder; decide) (by decide)
        (by decide) (by decide) (by decide))
      (Main.emptyGraph_fresh 3 _).1 ((Main.emptyGraph_fresh 3 _).2.2 0)⟩

/-- C31 as stated fails: on two nodes joined by an edge of weight 1 (non-negative weights,
path sums below `0x7FFFFFFF`, fresh distances) with node 1 in state `Start`,
`Dijkstra(graph, 0, 1)` never returns, whatever the fuel: neither node is ever marked
`Visited` and each puts the other back into the frontier. -/
theorem dijkstra_terminates_counterexample :
    twoStarts.Valid ∧ twoStarts.IsNode 0 ∧ twoStarts.IsNode 1
      ∧ NonNegWeights twoStarts.wadj
      ∧ PathSumsBelow twoStarts.wadj (fun _ => True) 0
      ∧ twoStarts.FreshDistance
      ∧ twoStarts.state.get 1 = Start
      ∧ ∀ fuel, Dijkstra fuel twoStarts 0 1 (-1) = none :=
  ⟨by decide, by decide, by decide, Main.nonNeg_addEdges 2 _ (by decide), twoStarts_sums,
    (Main.emptyGraph_fresh 2 _).1, by decide, twoStarts_diverges⟩

end Eaf

/-! ## Runs that always settle the next node by distance and index -/

theorem IsNext.unique {st : DState} {u v : Int} (hu : IsNext st u) (hv : IsNext st v) :
    u = v := by
  have h1 := hu.2.2 v hv.1
  have h2 := hv.2.2 u hu.1
  omega

theorem IsNext.least {st : DState} {u : Int} (h : IsNext st u) :
    ∀ v, st.fin v = false → st.dist u ≤ st.dist v := by
  intro v hv
  rcases h.2.2 v hv with c | c <;> omega

/-- Two runs from one state: one of them continues the other. -/
theorem LeastRun.compare {adj : Adj} {ok : Int → Bool} {a b c : DState}
    (h1 : LeastRun adj ok a b) (h2 : LeastRun adj ok a c) :
    LeastRun adj ok b c ∨ LeastRun adj ok c b := by
  induction h1 generalizing c with
  | done st => exact Or.inl h2
  | step st st2 u hu hrun ih =>
    cases h2 with
    | done => exact Or.inr (LeastRun.step _ _ u hu hrun)
    | step _ _ v hv hrun2 =>
      have huv := hu.unique hv
      subst huv
      exact ih hrun2

/-- A run from a state with nothing left to settle stays there. -/
theorem LeastRun.stay {adj : Adj} {ok : Int → Bool} {a b : DState}
    (hcl : DClosed a) (h : LeastRun adj ok a b) : b = a := by
  cases h with
  | done => rfl
  | step _ _ u hu _ =>
    exfalso
    have := hcl u hu.2.1
    rw [hu.1] at this
    exact absurd this (by decide)

/-- While a node is settled, the loop over its entries leaves the settled nodes alone. -/
theorem settle_fold_keeps {adj : Adj} {ok : Int → Bool} {s root u : Int}
    (hw : NonNegWeights adj) (l2 : List (Int × Int)) :
    ∀ (l1 : List (Int × Int)) (st : DState), (∀ e ∈ l2, e ∈ adj u) →
      SInv adj ok s root u l1 st →
      ∀ v, st.fin v = true →
        (l2.foldl (aRelax ok u) st).dist v = st.dist v
          ∧ (l2.foldl (aRelax ok u) st).par v = st.par v := by
  induction l2 with
  | nil => intro l1 st _ _ v _; exact ⟨rfl, rfl⟩
  | cons e rest ih =>
    intro l1 st hmem h v hv
    have he := hmem e (by simp)
    have h1 := h.settle_step hw e he
    have hfin : (aRelax ok u st e).fin v = true := by rw [aRelax_fin]; exact hv
    obtain ⟨k1, k2⟩ := ih (l1 ++ [e]) (aRelax ok u st e)
      (fun a ha => hmem a (by simp only [List.mem_cons]; exact Or.inr ha)) h1 v hfin
    simp only [List.foldl_cons]
    rw [k1, k2]
    by_cases hc : ok e.1 = true ∧ st.dist u + e.2 < st.dist e.1
    · have hne : v ≠ e.1 := by
        intro hve
        rw [hve] at hv
        exact h.no_gain hw e he hv hc
      unfold aRelax
      rw [if_pos hc]
      simp only [upd, if_neg hne]
      exact ⟨trivial, trivial⟩
    · rw [aRelax_skip ok u st e hc]
      exact ⟨rfl, rfl⟩

/-- Settling the next node leaves the distance and the parent of every settled node, and
of the node itself, as they are. -/
theorem aSettle_keeps {adj : Adj} {ok : Int → Bool} {s root u : Int} {st : DState}
    (hI : DInv adj ok s root st) (hw : NonNegWeights adj) (hu : IsNext st u) :
    ∀ v, (st.fin v = true ∨ v = u) →
      (aSettle adj ok u st).dist v = st.dist v ∧ (aSettle adj ok u st).par v = st.par v := by
  intro v hv
  have h0 := SInv.settle_start hI hu.1 hu.2.1 hu.least
  have hfin : (aMark u st).fin v = true := by
    rw [aMark_fin]
    rcases hv with c | c
    · exact Or.inr c
    · exact Or.inl c
  exact settle_fold_keeps hw (adj u) [] (aMark u st) (fun e he => he) h0 v hfin

/-- A run keeps the invariant and leaves every settled node as it is. -/
theorem LeastRun.keeps {adj : Adj} {ok : Int → Bool} {s root : Int} {st st2 : DState}
    (hw : NonNegWeights adj) (h : LeastRun adj ok st st2) :
    DInv adj ok s root st → DInv adj ok s root st2 ∧
      ∀ v, st.fin v = true →
        st2.fin v = true ∧ st2.dist v = st.dist v ∧ st2.par v = st.par v := by
  induction h with
  | done st => intro hI; exact ⟨hI, fun v hv => ⟨hv, rfl, rfl⟩⟩
  | step st st2 u hu _ ih =>
    intro hI
    have hI2 := hI.settle hw hu.1 hu.2.1 hu.least
    obtain ⟨k1, k2⟩ := ih hI2
    refine ⟨k1, ?_⟩
    intro v hv
    have hf : (aSettle adj ok u st).fin v = true := by
      rw [aSettle_fin]
      by_cases hvu : v = u
      · simp [upd, hvu]
      · simp [upd, hvu, hv]
    obtain ⟨a1, a2, a3⟩ := k2 v hf
    obtain ⟨b1, b2⟩ := aSettle_keeps hI hw hu v (Or.inl hv)
    exact ⟨a1, by rw [a2, b1], by rw [a3, b2]⟩

/-- A run to a state with nothing left to settle leaves the node that was next as it
is. -/
theorem LeastRun.next_kept {adj : Adj} {ok : Int → Bool} {s root u : Int} {st st2 : DState}
    (hw : NonNegWeights adj) (hI : DInv adj ok s root st) (h : LeastRun adj ok st st2)
    (hu : IsNext st u) (hcl : DClosed st2) :
    st2.dist u = st.dist u ∧ st2.par u = st.par u := by
  cases h with
  | done =>
    exfalso
    have := hcl u hu.2.1
    rw [hu.1] at this
    exact absurd this (by decide)
  | step _ _ v hv hrun =>
    have huv := hu.unique hv
    subst huv
    have hI2 := hI.settle hw hu.1 hu.2.1 hu.least
    have hf : (aSettle adj ok u st).fin u = true := by
      rw [aSettle_fin]
      simp [upd]
    obtain ⟨_, a2, a3⟩ := (hrun.keeps hw hI2).2 u hf
    obtain ⟨b1, b2⟩ := aSettle_keeps hI hw hu u (Or.inr rfl)
    exact ⟨by rw [a2, b1], by rw [a3, b2]⟩

namespace Main

open NodeState

theorem row3Mid_state (v : Int) :
    row3Mid.state.get v = if v = 1 then End else if v = 0 then Start else NodeState.Empty := by
  unfold row3Mid
  rw [mark_state, mark_state]
  have h4 : ∀ (l : List (Int × Int × Int)) (g : Graph), (g.addEdges l).state = g.state := by
    intro l
    induction l with
    | nil => intro g; rfl
    | cons x rest ih => intro g; exact ih (g.add_edge x.1 x.2.1 x.2.2)
  unfold row3
  rw [h4]
  rfl

/-- C4, as amended: for every graph, source and destination satisfying the traversal
preconditions (fresh distances, found = 0, no node Visited or Path, source the only node
marked Start, destination marked End) with non-negative weights whose path sums from the
source, also when continued by one more edge, are below 0x7FFFFFFF, eaf.cpp's Dijkstra and
Main.cpp's DijkstraQ both return. When DijkstraQ ends with found = 1 they leave the same
distance and the same parent at EndNode, at every node of the parent chain from EndNode
back to Source (the chain is the same in both results) and at every node whose distance is
below distance[EndNode]; when it does not, they leave the same distance and the same
parent at every node. -/
theorem dijkstra_variants_agree (g : Graph) (Source EndNode : Int) (hv : g.Valid)
    (hs : g.IsNode Source) (hw : NonNegWeights g.wadj)
    (hb : PathPlusEdgeBelow g.wadj (fun _ => True) Source)
    (hd : g.FreshDistance) (hf : g.found = 0) (ht : g.NoTrace)
    (hss : g.state.get Source = Start) (hst : g.OnlyStart Source)
    (hE : g.state.get EndNode = End) :
    ∃ fuel1 fuel2 g1 g2, Eaf.Dijkstra fuel1 g Source EndNode (-1) = some g1 ∧
      DijkstraQ fuel2 g Source EndNode (-1) = some g2 ∧
      (g2.found = 1 →
        g1.distance.get EndNode = g2.distance.get EndNode
        ∧ g1.parent.get EndNode = g2.parent.get EndNode
        ∧ (∃ n, g2.StepsBack EndNode Source n ∧ ∀ m, m ≤ n →
            g1.ancestor m EndNode = g2.ancestor m EndNode
            ∧ g1.distance.get (g2.ancestor m EndNode) = g2.distance.get (g2.ancestor m EndNode)
            ∧ g1.parent.get (g2.ancestor m EndNode) = g2.parent.get (g2.ancestor m EndNode))
        ∧ ∀ v, g2.distance.get v < g2.distance.get EndNode →
            g1.distance.get v = g2.distance.get v ∧ g1.parent.get v = g2.parent.get v) ∧
      (g2.found ≠ 1 →
        ∀ v, g1.distance.get v = g2.distance.get v ∧ g1.parent.get v = g2.parent.get v) := by
  have hne : EndNode ≠ Source := by
    intro h; rw [h, hss] at hE; exact absurd hE (by decide)
  obtain ⟨g1, st1, hrun1, hI1, hcl1, hdist1, hpar1, hrunA⟩ :=
    Eaf.eaf_dijkstra_correct g Source EndNode (-1) hv hs hw hb hd ht hst
  obtain ⟨fuel2, g2, st2, hrun2, hI2, hdist2, hpar2, hfs, _, _, hclosed, hrunB, hnextE⟩ :=
    dijkstraQ_correct g Source EndNode (-1) hv hs hw hb hd hss hst hne hf
  -- the run of `Dijkstra` continues that of `DijkstraQ`
  have h21 : LeastRun g.wadj (g.passable Source) st2 st1 := by
    rcases hrunB.compare hrunA with c | c
    · exact c
    · rw [LeastRun.stay hcl1 c]
      exact LeastRun.done st1
  have hkeep := (h21.keeps hw hI2).2
  have hfinEq : ∀ v, st2.fin v = true →
      g1.distance.get v = g2.distance.get v ∧ g1.parent.get v = g2.parent.get v := by
    intro v hfv
    obtain ⟨_, k2, k3⟩ := hkeep v hfv
    exact ⟨by rw [hdist1, hdist2, k2], by rw [hpar1, hpar2, k3]⟩
  refine ⟨_, fuel2, g1, g2, hrun1, hrun2, ?_, ?_⟩
  · intro hfound
    have hnE := hnextE hfound
    obtain ⟨e1, e2⟩ := LeastRun.next_kept hw hI2 h21 hnE hcl1
    have hEq : g1.distance.get EndNode = g2.distance.get EndNode
        ∧ g1.parent.get EndNode = g2.parent.get EndNode :=
      ⟨by rw [hdist1, hdist2, e1], by rw [hpar1, hpar2, e2]⟩
    obtain ⟨steps, hc⟩ := hI2.core.chain EndNode hnE.2.1
    have hpar : ParOK (fun v => g2.parent.get v) Source steps :=
      parOK_congr st2.par (fun v => g2.parent.get v) steps Source (fun x _ => hpar2 x) hc.parent
    have hsb := stepsBack_of_chain g2 Source steps hpar hc.nodup
    rw [hc.last] at hsb
    have hcb := chainBack_of_chain g2 Source steps hpar
    rw [hc.last] at hcb
    have hnode : ∀ m, m ≤ steps.length →
        g2.ancestor m EndNode = EndNode ∨ st2.fin (g2.ancestor m EndNode) = true := by
      intro m hm
      have hin : g2.ancestor m EndNode ∈ walkNodes Source steps := by
        rcases Nat.lt_or_ge m steps.length with h | h
        · have h2 : g2.ancestor m EndNode ∈ g2.chainBack steps.length EndNode :=
            (mem_chainBack g2 _ _ _).2 ⟨m, h, rfl⟩
          rw [hcb, List.mem_reverse] at h2
          simp only [walkNodes, List.mem_cons]
          exact Or.inr h2
        · have : m = steps.length := by omega
          rw [this, hsb.1]
          simp [walkNodes]
      rcases mem_walkNodes_cases Source steps _ hin with c | c
      · exact Or.inr (hc.inner _ c)
      · left; rw [c, hc.last]
    have hagree : ∀ m, m ≤ steps.length →
        g1.distance.get (g2.ancestor m EndNode) = g2.distance.get (g2.ancestor m EndNode)
        ∧ g1.parent.get (g2.ancestor m EndNode) = g2.parent.get (g2.ancestor m EndNode) := by
      intro m hm
      rcases hnode m hm with c | c
      · rw [c]; exact hEq
      · exact hfinEq _ c
    have hanc : ∀ m, m ≤ steps.length → g1.ancestor m EndNode = g2.ancestor m EndNode := by
      intro m
      induction m with
      | zero => intro _; rfl
      | succ k ih =>
        intro hk
        rw [ancestor_succ, ancestor_succ, ih (by omega)]
        exact (hagree k (by omega)).2
    refine ⟨hEq.1, hEq.2, ⟨steps.length, hsb, fun m hm => ⟨hanc m hm, hagree m hm⟩⟩, ?_⟩
    intro v hlt
    apply hfinEq
    cases hfv : st2.fin v with
    | true => rfl
    | false =>
      have := hnE.least v hfv
      rw [hdist2, hdist2] at hlt
      omega
  · intro hfound v
    have hcl2 := hclosed hfound
    have heq : st1 = st2 := LeastRun.stay hcl2 h21
    rw [hdist1, hdist2, hpar1, hpar2, heq]
    exact ⟨rfl, rfl⟩

/-- C4 on three nodes in a row from node 0 to node 2: the hypotheses hold and the theorem
applies. -/
theorem dijkstra_variants_agree_witness :
    row3Marked.state.get 0 = Start ∧ row3Marked.state.get 2 = End ∧
      ∃ fuel1 fuel2 g1 g2, Eaf.Dijkstra fuel1 row3Marked 0 2 (-1) = some g1 ∧
        DijkstraQ fuel2 row3Marked 0 2 (-1) = some g2 ∧
        (g2.found = 1 →
          g1.distance.get 2 = g2.distance.get 2
          ∧ g1.parent.get 2 = g2.parent.get 2
          ∧ (∃ n, g2.StepsBack 2 0 n ∧ ∀ m, m ≤ n →
              g1.ancestor m 2 = g2.ancestor m 2
              ∧ g1.distance.get (g2.ancestor m 2) = g2.distance.get (g2.ancestor m 2)
              ∧ g1.parent.get (g2.ancestor m 2) = g2.parent.get (g2.ancestor m 2))
          ∧ ∀ v, g2.distance.get v < g2.distance.get 2 →
              g1.distance.get v = g2.distance.get v ∧ g1.parent.get v = g2.parent.get v) ∧
        (g2.found ≠ 1 →
          ∀ v, g1.distance.get v = g2.distance.get v ∧ g1.parent.get v = g2.parent.get v) :=
  ⟨by decide, by decide,
    dijkstra_variants_agree row3Marked 0 2 (by decide) (by decide)
      (nonNeg_addEdges 3 [(0, 1, 1), (1, 2, 1)] (by decide))
      (pathPlusEdgeBelow_of_bound _ [0, 1, 2] 1 0 (by unfold ClosedUnder; decide) (by decide)
        (by decide) (by decide) (by decide))
      (emptyGraph_fresh 3 [(0, 1, 1), (1, 2, 1)]).1 rfl
      (fun v => by rw [row3Marked_state]; split_ifs <;> exact ⟨by decide, by decide⟩)
      (by decide)
      (fun v hv => by rw [row3Marked_state]; split_ifs <;> decide)
      (by decide)⟩

/-- C4 as stated fails: on three nodes in a row with unit weights, node 0 marked Start and
the middle node marked End (fresh distances, found = 0), the linear-scan Dijkstra goes on
past the destination and leaves distance[2] = 2, while DijkstraQ stops when the destination
is on top of the queue and leaves distance[2] = 0x7FFFFFFF. -/
theorem dijkstra_variants_counterexample :
    row3Mid.FreshDistance ∧ row3Mid.state.get 0 = Start ∧ row3Mid.state.get 1 = End ∧
      ∃ g1 g2, Eaf.Dijkstra 5 row3Mid 0 1 (-1) = some g1 ∧
        DijkstraQ 5 row3Mid 0 1 (-1) = some g2 ∧
        g1.distance.get 2 = 2 ∧ g2.distance.get 2 = 2147483647 ∧
        g1.distance.get 2 ≠ g2.distance.get 2 :=
  ⟨(emptyGraph_fresh 3 [(0, 1, 1), (1, 2, 1)]).1, by decide, by decide,
    _, _, rfl, rfl, by decide, by decide, by decide⟩

end Main
